import Mathlib

/-!
# LockFreeSkipList: a shallow embedding of `lockfree_skiplist.go`

The Go program is a skip list whose forward pointers carry a deletion mark in
bit 0 of the pointer word.  This development embeds the sequential
(single-goroutine) semantics of the program:

* memory is a list of `node`s; the node stored at list index `i` lives at the
  pointer word `2 * (i + 1)`, the word `0` is `nil`, and an odd word is a marked
  pointer; pointer words are naturals, the address space is not bounded;
* every atomic primitive (`loadNext`, `storeNext`, `casNext`) is a function on
  that memory which reports a `Fault` where the Go runtime would panic;
* every loop without a syntactic bound takes a budget of iterations (`fuel`)
  and reports `Fault.outOfFuel` when the budget is exhausted; the theorems show
  that a budget of one iteration per allocated node suffices;
* `rand.Int()` is a stream `rand : Nat → Nat`, the list records how many draws
  were made so far;
* the `size` field is an `int32`, updated with two's complement wrap-around.

The file has two parts.  The first holds the definitions: the embedding of the
source, then the predicates used to state and prove its properties (the
structural invariant `InvC`, the reference set `refRun`, the observation
`levelChain`).  The second holds the lemmas (the loop invariants of `find`,
`Add` and `Remove`, the simulation of the reference set) and, at the end, the
properties of the specification.
-/

namespace Skiplist

/-- The constant `maxLevel` of the source. -/
def maxLevel : Nat := 20

/-- The Go `node` struct: `level`, the slice `nexts` of pointer words and the
`value` (`none` is the `nil` interface value held by the two sentinels). -/
structure node (α : Type) where
  level : Nat
  nexts : List Nat
  value : Option α
  deriving DecidableEq, Repr

/-- Ways in which a run of the Go code can fail to produce a result. -/
inductive Fault where
  | nilDereference
  | invalidPointer
  | indexOutOfRange
  | nilValue
  | outOfFuel
  deriving DecidableEq, Repr

/-- The Go `LockFreeSkipList` struct together with the memory its nodes live in
and the number of `rand.Int()` calls made so far.  The immutable `comp` field is
passed to the operations as a parameter. -/
structure LockFreeSkipList (α : Type) where
  mem : List (node α)
  head : Nat
  tail : Nat
  size : Int
  draws : Nat
  deriving DecidableEq, Repr

/-! ## Tagged pointer words -/

/-- Go `isMarked`: `uintptr(ptr) & 0x1 == 1`. -/
def isMarked (next : Nat) : Bool := next &&& 1 == 1

/-- Go `getMarked`: `uintptr(ptr) | 0x1`. -/
def getMarked (next : Nat) : Nat := next ||| 1

/-- Go `getUnmarked`: `uintptr(ptr) & ^uintptr(0x1)`.  The mask has every bit set
except bit 0, so the result is the word with bit 0 cleared; pointer words are
naturals of unbounded width here, where that is `next - (next &&& 1)`. -/
def getUnmarked (next : Nat) : Nat := next - (next &&& 1)

/-- Two's complement wrap-around of an `int32` value. -/
def wrapInt32 (x : Int) : Int := (x + 2 ^ 31) % 2 ^ 32 - 2 ^ 31

/-! ## Memory and the atomic primitives -/

/-- Pointer word of the node stored at memory index `i`. -/
def addrOf (i : Nat) : Nat := 2 * (i + 1)

/-- Dereference of a `*node`: `nil` and words that are not the address of an
allocated node fault. -/
def deref {α : Type} (h : List (node α)) (p : Nat) : Except Fault (node α) :=
  if p = 0 then .error .nilDereference
  else if p % 2 = 1 then .error .invalidPointer
  else match h[p / 2 - 1]? with
    | some nd => .ok nd
    | none => .error .invalidPointer

/-- Indexing of a Go array or slice of pointer words. -/
def index (xs : List Nat) (i : Nat) : Except Fault Nat :=
  match xs[i]? with
  | some p => .ok p
  | none => .error .indexOutOfRange

/-- Go `loadNext`: `atomic.LoadPointer(&nd.nexts[level])`. -/
def loadNext {α : Type} (h : List (node α)) (nd : Nat) (level : Nat) : Except Fault Nat := do
  let n ← deref h nd
  index n.nexts level

/-- Go `storeNext`: `atomic.StorePointer(&nd.nexts[level], next)`. -/
def storeNext {α : Type} (h : List (node α)) (nd : Nat) (level : Nat) (next : Nat) :
    Except Fault (List (node α)) := do
  let n ← deref h nd
  let _ ← index n.nexts level
  return h.set (nd / 2 - 1) { n with nexts := n.nexts.set level next }

/-- Go `casNext`: `atomic.CompareAndSwapPointer(&nd.nexts[level], expected, desire)`;
returns whether the swap happened and the memory afterwards. -/
def casNext {α : Type} (h : List (node α)) (nd : Nat) (level : Nat) (expected desire : Nat) :
    Except Fault (Bool × List (node α)) := do
  let n ← deref h nd
  let old ← index n.nexts level
  if old = expected then
    return (true, h.set (nd / 2 - 1) { n with nexts := n.nexts.set level desire })
  else
    return (false, h)

/-- The loop `for level := 0; level < nd.level; level++ { nd.storeNext(level, nil) }`
of `newNode`; the first argument is the number of iterations left. -/
def clearNexts {α : Type} (nd : Nat) : Nat → Nat → List (node α) → Except Fault (List (node α))
  | 0, _, h => .ok h
  | n + 1, level, h => do
    let h' ← storeNext h nd level 0
    clearNexts nd n (level + 1) h'

/-- Go `newNode`: allocates a node with `level` zeroed slots at the next free
address and stores `nil` into each slot. -/
def newNode {α : Type} (h : List (node α)) (level : Nat) (value : Option α) :
    Except Fault (Nat × List (node α)) := do
  let nd := addrOf h.length
  let h1 := h ++ [{ level := level, nexts := List.replicate level 0, value := value }]
  let n ← deref h1 nd
  let h2 ← clearNexts nd (n.level - 0) 0 h1
  return (nd, h2)

/-! ## Construction -/

/-- The loop `for level := 0; level < maxLevel; level++ { sl.head.storeNext(level, sl.tail) }`. -/
def linkHead {α : Type} (hd tl : Nat) : Nat → Nat → List (node α) → Except Fault (List (node α))
  | 0, _, h => .ok h
  | n + 1, level, h => do
    let h' ← storeNext h hd level tl
    linkHead hd tl n (level + 1) h'

/-- Go `NewLockFreeSkipList`: two sentinels of `maxLevel` slots, every head slot
pointing at the tail. -/
def NewLockFreeSkipList (α : Type) : Except Fault (LockFreeSkipList α) := do
  let (hd, h1) ← newNode ([] : List (node α)) maxLevel none
  let (tl, h2) ← newNode h1 maxLevel none
  let h3 ← linkHead hd tl (maxLevel - 0) 0 h2
  return { mem := h3, head := hd, tail := tl, size := 0, draws := 0 }

/-! ## `randomLevel`, `less`, `equals` -/

/-- The loop of `randomLevel`; the first argument is `maxLevel - level`, so
that `level < maxLevel` is the test `n ≠ 0`, and a draw is made only then. -/
def randomLevelLoop (rand : Nat → Nat) : Nat → Nat → Nat → Nat × Nat
  | 0, level, draws => (level, draws)
  | n + 1, level, draws =>
    if rand draws &&& 1 == 0 then randomLevelLoop rand n (level + 1) (draws + 1)
    else (level, draws + 1)

/-- Go `randomLevel`: returns the level and the number of draws made so far. -/
def randomLevel (rand : Nat → Nat) (draws : Nat) : Nat × Nat :=
  randomLevelLoop rand (maxLevel - 1) 1 draws

/-- Go `less`: the head is below every value, the tail above every value. -/
def less {α : Type} (comp : α → α → Bool) (h : List (node α)) (hd tl : Nat) (nd : Nat)
    (value : α) : Except Fault Bool :=
  if hd = nd then .ok true
  else if tl = nd then .ok false
  else do
    let n ← deref h nd
    match n.value with
    | some x => .ok (comp x value)
    | none => .error .nilValue

/-- Go `equals`: false on both sentinels. -/
def equals {α : Type} (comp : α → α → Bool) (h : List (node α)) (hd tl : Nat) (nd : Nat)
    (value : α) : Except Fault Bool :=
  if hd = nd ∨ tl = nd then .ok false
  else do
    let n ← deref h nd
    match n.value with
    | some x => .ok (!comp x value && !comp value x)
    | none => .error .nilValue

/-! ## `find` -/

/-- Outcome of the walk of `find` at one level: the unlink CAS failed
(`goto retry`), or the walk stopped at `prev`, `cur`. -/
inductive WalkResult (α : Type) where
  | retry (h : List (node α))
  | stop (h : List (node α)) (prev cur : Nat)

/-- The loop `for true { ... }` of `find` at one level, entered with `prev` and
`cur`.  One unit of fuel is one evaluation of `next = cur.loadNext(level)`:
if `next` is marked the unlink CAS runs and `cur` is reloaded from `prev`,
otherwise `cur` is compared with `value` and the walk stops or advances. -/
def findWalk {α : Type} (comp : α → α → Bool) (hd tl : Nat) (value : α) (level : Nat) :
    Nat → List (node α) → Nat → Nat → Except Fault (WalkResult α)
  | 0, _, _, _ => .error .outOfFuel
  | fuel + 1, h, prev, cur => do
    let next ← loadNext h cur level
    if isMarked next then
      let (swapped, h') ← casNext h prev level cur (getUnmarked next)
      if !swapped then
        return .retry h'
      else
        let c ← loadNext h' prev level
        findWalk comp hd tl value level fuel h' prev (getUnmarked c)
    else
      let lt ← less comp h hd tl cur value
      if !lt then
        return .stop h prev cur
      else
        findWalk comp hd tl value level fuel h cur next

/-- Outcome of one pass of `find` over the levels. -/
inductive PassResult (α : Type) where
  | retry (h : List (node α)) (prevs nexts : List Nat)
  | done (h : List (node α)) (cur : Nat) (prevs nexts : List Nat)

/-- The loop `for level := maxLevel - 1; level >= 0; level--` of `find`; the
first numeric argument is `level + 1`.  The stores `prevs[level] = prev` and
`nexts[level] = cur` go to the caller's arrays of `maxLevel` entries, with
`level < maxLevel`. -/
def findLevels {α : Type} (comp : α → α → Bool) (hd tl : Nat) (value : α) (fuel : Nat) :
    Nat → List (node α) → Nat → Nat → List Nat → List Nat → Except Fault (PassResult α)
  | 0, h, _, cur, prevs, nexts => .ok (.done h cur prevs nexts)
  | level + 1, h, prev, _, prevs, nexts => do
    let c ← loadNext h prev level
    match ← findWalk comp hd tl value level fuel h prev (getUnmarked c) with
    | .retry h' => return .retry h' prevs nexts
    | .stop h' prev' cur' =>
      findLevels comp hd tl value fuel level h' prev' cur' (prevs.set level prev')
        (nexts.set level cur')

/-- The label `retry:` of `find`: each unit of the first argument is one pass
from the head. -/
def findRetry {α : Type} (comp : α → α → Bool) (hd tl : Nat) (value : α) (fuel : Nat) :
    Nat → List (node α) → List Nat → List Nat →
    Except Fault (Bool × List (node α) × List Nat × List Nat)
  | 0, _, _, _ => .error .outOfFuel
  | n + 1, h, prevs, nexts => do
    match ← findLevels comp hd tl value fuel maxLevel h hd 0 prevs nexts with
    | .retry h' prevs' nexts' => findRetry comp hd tl value fuel n h' prevs' nexts'
    | .done h' cur prevs' nexts' =>
      let found ← equals comp h' hd tl cur value
      return (found, h', prevs', nexts')

/-- Go `find`: returns the flag, the memory after the unlinks, and the arrays
`prevs` and `nexts`. -/
def find {α : Type} (comp : α → α → Bool) (fuel : Nat) (h : List (node α)) (hd tl : Nat)
    (value : α) (prevs nexts : List Nat) :
    Except Fault (Bool × List (node α) × List Nat × List Nat) :=
  findRetry comp hd tl value fuel fuel h prevs nexts

/-! ## `Add` -/

/-- The loop `for level := 0; level < topLevel; level++ { newNode.storeNext(level, nexts[level]) }`. -/
def copyNexts {α : Type} (nd : Nat) (nexts : List Nat) :
    Nat → Nat → List (node α) → Except Fault (List (node α))
  | 0, _, h => .ok h
  | n + 1, level, h => do
    let next ← index nexts level
    let h' ← storeNext h nd level next
    copyNexts nd nexts n (level + 1) h'

/-- The inner loop `for true { ... }` of `Add` at one upper level. -/
def linkLevel {α : Type} (comp : α → α → Bool) (fuel : Nat) (hd tl : Nat) (value : α)
    (nd : Nat) (level : Nat) :
    Nat → List (node α) → List Nat → List Nat →
    Except Fault (List (node α) × List Nat × List Nat)
  | 0, _, _, _ => .error .outOfFuel
  | n + 1, h, prevs, nexts => do
    let prev ← index prevs level
    let next ← index nexts level
    let (swapped, h') ← casNext h prev level next nd
    if swapped then
      return (h', prevs, nexts)
    else
      let (_, h'', prevs', nexts') ← find comp fuel h' hd tl value prevs nexts
      linkLevel comp fuel hd tl value nd level n h'' prevs' nexts'

/-- The loop `for level := 1; level < topLevel; level++` of `Add`; the first
numeric argument is the number of iterations left. -/
def linkUpper {α : Type} (comp : α → α → Bool) (fuel : Nat) (hd tl : Nat) (value : α)
    (nd : Nat) :
    Nat → Nat → List (node α) → List Nat → List Nat →
    Except Fault (List (node α) × List Nat × List Nat)
  | 0, _, h, prevs, nexts => .ok (h, prevs, nexts)
  | n + 1, level, h, prevs, nexts => do
    let (h', prevs', nexts') ← linkLevel comp fuel hd tl value nd level fuel h prevs nexts
    linkUpper comp fuel hd tl value nd n (level + 1) h' prevs' nexts'

/-- The outer loop `for true { ... }` of `Add` followed by the increment of
`size`. -/
def addLoop {α : Type} (comp : α → α → Bool) (rand : Nat → Nat) (fuel : Nat) (value : α) :
    Nat → LockFreeSkipList α → List Nat → List Nat → Except Fault (Bool × LockFreeSkipList α)
  | 0, _, _, _ => .error .outOfFuel
  | n + 1, sl, prevs, nexts => do
    let (found, h1, prevs, nexts) ← find comp fuel sl.mem sl.head sl.tail value prevs nexts
    if found then
      return (false, { sl with mem := h1 })
    else
      let (topLevel, draws) := randomLevel rand sl.draws
      let (nd, h2) ← newNode h1 topLevel (some value)
      let h3 ← copyNexts nd nexts (topLevel - 0) 0 h2
      let prev ← index prevs 0
      let next ← index nexts 0
      let (swapped, h4) ← casNext h3 prev 0 next nd
      if !swapped then
        addLoop comp rand fuel value n { sl with mem := h4, draws := draws } prevs nexts
      else
        let (h5, _, _) ←
          linkUpper comp fuel sl.head sl.tail value nd (topLevel - 1) 1 h4 prevs nexts
        return (true, { sl with mem := h5, draws := draws, size := wrapInt32 (sl.size + 1) })

/-- Go `Add`: the arrays `prevs` and `nexts` start zeroed. -/
def Add {α : Type} (comp : α → α → Bool) (rand : Nat → Nat) (fuel : Nat)
    (sl : LockFreeSkipList α) (value : α) : Except Fault (Bool × LockFreeSkipList α) :=
  addLoop comp rand fuel value fuel sl (List.replicate maxLevel 0) (List.replicate maxLevel 0)

/-! ## `Remove`, `Contains`, `GetSize` -/

/-- The loop `for !isMarked(next) { ... }` of `Remove` at one upper level. -/
def markLevel {α : Type} (nd : Nat) (level : Nat) :
    Nat → List (node α) → Nat → Except Fault (List (node α))
  | 0, _, _ => .error .outOfFuel
  | n + 1, h, next =>
    if !isMarked next then do
      let (_, h') ← casNext h nd level next (getMarked next)
      let next' ← loadNext h' nd level
      markLevel nd level n h' next'
    else .ok h

/-- The loop `for level := removeNode.level - 1; level > 0; level--`. -/
def markUpper {α : Type} (fuel : Nat) (nd : Nat) :
    Nat → List (node α) → Except Fault (List (node α))
  | 0, h => .ok h
  | level + 1, h => do
    let next ← loadNext h nd (level + 1)
    let h' ← markLevel nd (level + 1) fuel h next
    markUpper fuel nd level h'

/-- The final loop `for true { ... }` of `Remove` on the bottom slot; the flag
is false when the slot was found marked. -/
def markBottom {α : Type} (nd : Nat) :
    Nat → List (node α) → Nat → Except Fault (Bool × List (node α))
  | 0, _, _ => .error .outOfFuel
  | n + 1, h, next =>
    if isMarked next then .ok (false, h)
    else do
      let (swapped, h') ← casNext h nd 0 next (getMarked next)
      if swapped then
        return (true, h')
      else
        let next' ← loadNext h' nd 0
        markBottom nd n h' next'

/-- Go `Remove`. -/
def Remove {α : Type} (comp : α → α → Bool) (fuel : Nat) (sl : LockFreeSkipList α)
    (value : α) : Except Fault (Bool × LockFreeSkipList α) := do
  let (found, h1, _, nexts) ← find comp fuel sl.mem sl.head sl.tail value
    (List.replicate maxLevel 0) (List.replicate maxLevel 0)
  if !found then
    return (false, { sl with mem := h1 })
  else
    let removeNode ← index nexts 0
    let n ← deref h1 removeNode
    let h2 ← markUpper fuel removeNode (n.level - 1) h1
    let next ← loadNext h2 removeNode 0
    let (marked, h3) ← markBottom removeNode fuel h2 next
    if !marked then
      return (false, { sl with mem := h3 })
    else
      return (true, { sl with mem := h3, size := wrapInt32 (sl.size + -1) })

/-- Go `Contains`. -/
def Contains {α : Type} (comp : α → α → Bool) (fuel : Nat) (sl : LockFreeSkipList α)
    (value : α) : Except Fault (Bool × LockFreeSkipList α) := do
  let (found, h1, _, _) ← find comp fuel sl.mem sl.head sl.tail value
    (List.replicate maxLevel 0) (List.replicate maxLevel 0)
  return (found, { sl with mem := h1 })

/-- Go `GetSize`. -/
def GetSize {α : Type} (sl : LockFreeSkipList α) : Int := sl.size

/-! ## Sequences of calls -/

/-- One call of the public interface. -/
inductive Op (α : Type) where
  | add (value : α)
  | remove (value : α)
  | contains (value : α)
  deriving DecidableEq, Repr

/-- Runs one call. -/
def runOp {α : Type} (comp : α → α → Bool) (rand : Nat → Nat) (fuel : Nat)
    (sl : LockFreeSkipList α) : Op α → Except Fault (Bool × LockFreeSkipList α)
  | .add v => Add comp rand fuel sl v
  | .remove v => Remove comp fuel sl v
  | .contains v => Contains comp fuel sl v

/-- Runs a sequence of calls one after the other and collects the returned
values. -/
def runOps {α : Type} (comp : α → α → Bool) (rand : Nat → Nat) (fuel : Nat) :
    List (Op α) → LockFreeSkipList α → Except Fault (List Bool × LockFreeSkipList α)
  | [], sl => .ok ([], sl)
  | op :: ops, sl => do
    let (b, sl1) ← runOp comp rand fuel sl op
    let (bs, sl2) ← runOps comp rand fuel ops sl1
    return (b :: bs, sl2)

/-! ## Reading the memory of a list -/

/-- Last element of `xs`, or `a` when `xs` is empty. -/
def lastD : List Nat → Nat → Nat
  | [], a => a
  | x :: xs, _ => lastD xs x

/-- The memory after the word `d` is written into slot `level` of the node at
`p` (the effect of `storeNext` and of a successful `casNext`). -/
def write {α : Type} (h : List (node α)) (p level d : Nat) : List (node α) :=
  match h[p / 2 - 1]? with
  | some n => h.set (p / 2 - 1) { n with nexts := n.nexts.set level d }
  | none => h

/-- The value held by the node at `x`, if any. -/
def valOf {α : Type} (h : List (node α)) (x : Nat) : Option α :=
  match deref h x with
  | .ok nd => nd.value
  | .error _ => none

/-- The level-0 slot of the node at `x` is readable and unmarked. -/
def live {α : Type} (h : List (node α)) (x : Nat) : Bool :=
  match loadNext h x 0 with
  | .ok p => !isMarked p
  | .error _ => false

/-- The level-`L` slot of `x`, mark bit stripped, points to `y`. -/
def Link {α : Type} (h : List (node α)) (L : Nat) (x y : Nat) : Prop :=
  ∃ p, loadNext h x L = .ok p ∧ getUnmarked p = y

/-- Following level-`L` forward pointers (mark bit stripped) from `a` visits
exactly the nodes `xs` and then reaches `b`. -/
def Path {α : Type} (h : List (node α)) (L : Nat) : Nat → List Nat → Nat → Prop
  | a, [], b => Link h L a b
  | a, x :: xs, b => Link h L a x ∧ Path h L x xs b

/-- The node at `x` is an element node: not a sentinel, holding a value, with
between 1 and `maxLevel` slots that are all marked or all unmarked. -/
def GoodNode {α : Type} (h : List (node α)) (hd tl x : Nat) : Prop :=
  x ≠ hd ∧ x ≠ tl ∧ ∃ nd v, deref h x = .ok nd ∧ nd.value = some v ∧
    nd.nexts.length = nd.level ∧ 1 ≤ nd.level ∧ nd.level ≤ maxLevel ∧
    ∀ (L p q : Nat), nd.nexts[L]? = some p → nd.nexts[0]? = some q →
      isMarked p = isMarked q

/-- The structural invariant of a list at rest; `ch L` is the sequence of
element nodes on the level-`L` chain between head and tail. -/
structure InvC {α : Type} (sl : LockFreeSkipList α) (ch : Nat → List Nat) : Prop where
  head_ne_tail : sl.head ≠ sl.tail
  head_slots : ∀ L, L < maxLevel → ∃ p, loadNext sl.mem sl.head L = .ok p ∧ isMarked p = false
  tail_slots : ∀ L, L < maxLevel → loadNext sl.mem sl.tail L = .ok 0
  path : ∀ L, L < maxLevel → Path sl.mem L sl.head (ch L) sl.tail
  sub : ∀ L, (ch (L + 1)).Sublist (ch L)
  above : ∀ L, maxLevel ≤ L → ch L = []
  nodup : (ch 0).Nodup
  good : ∀ x, x ∈ ch 0 → GoodNode sl.mem sl.head sl.tail x
  size_eq : sl.size = wrapInt32 (((ch 0).countP (live sl.mem) : Nat) : Int)
  room : (ch 0).length + 2 ≤ sl.mem.length

/-- The structural invariant, for some assignment of chains. -/
def Inv {α : Type} (sl : LockFreeSkipList α) : Prop := ∃ ch, InvC sl ch

/-- The comparator is a strict weak ordering: irreflexive, transitive, with
transitive incomparability. -/
structure StrictWeak {α : Type} (comp : α → α → Bool) : Prop where
  irrefl : ∀ a, comp a a = false
  trans : ∀ a b c, comp a b = true → comp b c = true → comp a c = true
  incomp_trans : ∀ a b c, comp a b = false → comp b a = false → comp b c = false →
    comp c b = false → comp a c = false ∧ comp c a = false

/-- The nodes `xs` hold values in strictly increasing order under `comp`. -/
def SortedBy {α : Type} (comp : α → α → Bool) (h : List (node α)) (xs : List Nat) : Prop :=
  xs.Pairwise (fun x y => ∃ a b, valOf h x = some a ∧ valOf h y = some b ∧ comp a b = true)

/-- Two memories hold the same nodes up to the targets of their pointers:
levels, values, slot counts and mark bits agree. -/
def SameShape {α : Type} (h h' : List (node α)) : Prop :=
  h'.length = h.length ∧
  ∀ x nd, deref h x = .ok nd → ∃ nd', deref h' x = .ok nd' ∧ nd'.level = nd.level ∧
    nd'.value = nd.value ∧ nd'.nexts.length = nd.nexts.length ∧
    ∀ (L p : Nat), nd.nexts[L]? = some p →
      ∃ p', nd'.nexts[L]? = some p' ∧ isMarked p' = isMarked p

/-- What the walk of `find` at level `L` establishes when it stops: the new
memory `h'` with chains `ch'`, the level-`L` chain split as `A' ++ cs'` around
the stopping point, relative to the split `P ++ Q` of the level above. -/
structure WalkPost {α : Type} (comp : α → α → Bool) (v : α) (L : Nat)
    (sl : LockFreeSkipList α) (ch : Nat → List Nat) (P Q : List Nat) (h' : List (node α))
    (ch' : Nat → List Nat) (A' cs' : List Nat) : Prop where
  inv : InvC { sl with mem := h' } ch'
  split : ch' L = A' ++ cs'
  other : ∀ L', L' ≠ L → ch' L' = ch L'
  subP : P.Sublist A'
  subQ : Q.Sublist cs'
  prev_live : live h' (lastD A' sl.head) = true
  prev_less : less comp h' sl.head sl.tail (lastD A' sl.head) v = .ok true
  cur_live : live h' (cs'.headD sl.tail) = true
  cur_less : less comp h' sl.head sl.tail (cs'.headD sl.tail) v = .ok false
  slot : loadNext h' (lastD A' sl.head) L = .ok (cs'.headD sl.tail)
  shape : SameShape sl.mem h'
  frame : ∀ x L', L' ≠ L → loadNext h' x L' = loadNext sl.mem x L'
  sub0 : (ch' 0).Sublist (ch 0)
  members : (ch' 0).filter (live h') = (ch 0).filter (live sl.mem)

/-- State of one pass of `find` over the list `sl0` with chains `ch0` once the
levels `k, k + 1, ...` have been walked: the memory is `h` with chains `ch`, and
at each walked level `L` the chain is split as `A L ++ cs L` with `prevs[L]` the
last node of `A L` (or the head) and `nexts[L]` the first node of `cs L` (or the
tail). -/
structure LevelsDone {α : Type} (comp : α → α → Bool) (v : α) (k : Nat)
    (sl0 : LockFreeSkipList α) (ch0 : Nat → List Nat) (h : List (node α))
    (ch A cs : Nat → List Nat) (prevs nexts : List Nat) : Prop where
  inv : InvC { sl0 with mem := h } ch
  shape : SameShape sl0.mem h
  sub0 : (ch 0).Sublist (ch0 0)
  members : (ch 0).filter (live h) = (ch0 0).filter (live sl0.mem)
  plen : prevs.length = maxLevel
  nlen : nexts.length = maxLevel
  top : ∀ L, maxLevel ≤ L → A L = [] ∧ cs L = []
  split : ∀ L, k ≤ L → ch L = A L ++ cs L
  subA : ∀ L, k ≤ L → (A (L + 1)).Sublist (A L)
  subC : ∀ L, k ≤ L → (cs (L + 1)).Sublist (cs L)
  prev_live : ∀ L, k ≤ L → live h (lastD (A L) sl0.head) = true
  prev_less : ∀ L, k ≤ L → less comp h sl0.head sl0.tail (lastD (A L) sl0.head) v = .ok true
  cur_live : ∀ L, k ≤ L → L < maxLevel → live h ((cs L).headD sl0.tail) = true
  cur_less : ∀ L, k ≤ L → L < maxLevel →
    less comp h sl0.head sl0.tail ((cs L).headD sl0.tail) v = .ok false
  slot : ∀ L, k ≤ L → L < maxLevel →
    loadNext h (lastD (A L) sl0.head) L = .ok ((cs L).headD sl0.tail)
  prevs_eq : ∀ L, k ≤ L → L < maxLevel → prevs[L]? = some (lastD (A L) sl0.head)
  nexts_eq : ∀ L, k ≤ L → L < maxLevel → nexts[L]? = some ((cs L).headD sl0.tail)

/-- What a call of `find` on the list `sl` with chains `ch` guarantees to its
callers at the bottom level: the memory is `h1` with chains `ch1`, the bottom
chain is `A ++ C`, `prevs[0]` is the last node of `A` (or the head) and
`nexts[0]` the first node of `C` (or the tail). -/
structure FindPost {α : Type} (comp : α → α → Bool) (v : α) (sl : LockFreeSkipList α)
    (ch : Nat → List Nat) (found : Bool) (h1 : List (node α)) (ch1 : Nat → List Nat)
    (A C : List Nat) : Prop where
  inv : InvC { sl with mem := h1 } ch1
  shape : SameShape sl.mem h1
  split : ch1 0 = A ++ C
  sub0 : (ch1 0).Sublist (ch 0)
  members : (ch1 0).filter (live h1) = (ch 0).filter (live sl.mem)
  prev_less : less comp h1 sl.head sl.tail (lastD A sl.head) v = .ok true
  cur_live : live h1 (C.headD sl.tail) = true
  cur_less : less comp h1 sl.head sl.tail (C.headD sl.tail) v = .ok false
  found_eq : equals comp h1 sl.head sl.tail (C.headD sl.tail) v = .ok found

/-- Two memories hold the same nodes up to the words in their slots: levels,
values and slot counts agree. -/
def SameNodes {α : Type} (h h' : List (node α)) : Prop :=
  h'.length = h.length ∧
  ∀ x nd, deref h x = .ok nd → ∃ nd', deref h' x = .ok nd' ∧ nd'.level = nd.level ∧
    nd'.value = nd.value ∧ nd'.nexts.length = nd.nexts.length

/-! ## The reference set -/

/-- Equivalence under the comparator: neither value is less than the other. -/
def equivalent {α : Type} (comp : α → α → Bool) (a b : α) : Bool := !comp a b && !comp b a

/-- Membership in the reference set `S`, a list of values: some element is
equivalent to `v`. -/
def refContains {α : Type} (comp : α → α → Bool) (S : List α) (v : α) : Bool :=
  S.any (fun x => equivalent comp x v)

/-- One call on the reference set: `add` inserts the value unless an
equivalent one is present, `remove` deletes the equivalent values if one is
present, `contains` tests membership. -/
def refStep {α : Type} (comp : α → α → Bool) (S : List α) : Op α → Bool × List α
  | .add v => if refContains comp S v then (false, S) else (true, v :: S)
  | .remove v =>
    if refContains comp S v then (true, S.filter (fun x => !equivalent comp x v))
    else (false, S)
  | .contains v => (refContains comp S v, S)

/-- A sequence of calls on the reference set: the returned values and the
final set. -/
def refRun {α : Type} (comp : α → α → Bool) : List (Op α) → List α → List Bool × List α
  | [], S => ([], S)
  | op :: ops, S =>
    ((refStep comp S op).1 :: (refRun comp ops (refStep comp S op).2).1,
      (refRun comp ops (refStep comp S op).2).2)

/-- The values held by the live nodes among `xs`, in chain order. -/
def absList {α : Type} (h : List (node α)) (xs : List Nat) : List α :=
  (xs.filter (live h)).filterMap (valOf h)

/-- The list `sl` represents the reference set `S`: it satisfies the
structural invariant, its bottom chain is sorted, and the values of its live
nodes are the elements of `S`. -/
def Sim {α : Type} (comp : α → α → Bool) (sl : LockFreeSkipList α) (S : List α) : Prop :=
  ∃ ch, InvC sl ch ∧ SortedBy comp sl.mem (ch 0) ∧ S.Perm (absList sl.mem (ch 0))

/-- Effect of a call on the number of elements: `+1` for an `Add` that
returned true, `-1` for a `Remove` that returned true, `0` otherwise. -/
def opDelta {α : Type} : Op α → Bool → Int
  | .add _, true => 1
  | .remove _, true => -1
  | _, _ => 0

/-- Number of nodes a call allocates: one for an `Add` that returned true. -/
def opAlloc {α : Type} : Op α → Bool → Nat
  | .add _, true => 1
  | _, _ => 0

/-- Number of `Add` calls that returned true minus the number of `Remove`
calls that returned true. -/
def netCount {α : Type} : List (Op α) → List Bool → Int
  | op :: ops, b :: bs => opDelta op b + netCount ops bs
  | _, _ => 0

/-! ## Observations used to state the properties -/

/-- The nodes visited when following level-`L` forward pointers, mark bit
stripped, from the node at `x` until the tail `tl` is reached; `none` when the
tail is not reached within `fuel` steps or when a load faults. -/
def chainFrom {α : Type} (h : List (node α)) (tl L : Nat) : Nat → Nat → Option (List Nat)
  | 0, _ => none
  | fuel + 1, x =>
    match loadNext h x L with
    | .ok p =>
      if getUnmarked p = tl then some []
      else (chainFrom h tl L fuel (getUnmarked p)).map (fun xs => getUnmarked p :: xs)
    | .error _ => none

/-- The element nodes on the level-`L` chain of a list, walking from its head. -/
def levelChain {α : Type} (sl : LockFreeSkipList α) (L fuel : Nat) : Option (List Nat) :=
  chainFrom sl.mem sl.tail L fuel sl.head

/-- The state `sl` is reached from a fresh list by a finite sequence of calls,
each given a budget that suffices for it to return. -/
def Reachable {α : Type} (comp : α → α → Bool) (rand : Nat → Nat) (sl : LockFreeSkipList α) :
    Prop :=
  ∃ (ops : List (Op α)) (fuel : Nat) (sl0 : LockFreeSkipList α) (bs : List Bool),
    ops.length + 2 ≤ fuel ∧ NewLockFreeSkipList α = .ok sl0 ∧
    runOps comp rand fuel ops sl0 = .ok (bs, sl)

/-- The usual order of the naturals as a comparator. -/
def natLt (a b : Nat) : Bool := decide (a < b)

/-- The calls `Add(k)`, `Add(k + 1)`, ..., `Add(k + n - 1)` on naturals. -/
def manyAdds (k n : Nat) : List (Op Nat) := (List.range' k n).map Op.add

/-! ## Concrete runs on naturals -/

/-- Equality of results is decidable. -/
instance decEqExcept {ε β : Type} [DecidableEq ε] [DecidableEq β] : DecidableEq (Except ε β)
  | .ok a, .ok b =>
    if h : a = b then isTrue (by rw [h]) else isFalse (fun e => h (Except.ok.inj e))
  | .error a, .error b =>
    if h : a = b then isTrue (by rw [h]) else isFalse (fun e => h (Except.error.inj e))
  | .ok _, .error _ => isFalse (fun e => Except.noConfusion e)
  | .error _, .ok _ => isFalse (fun e => Except.noConfusion e)

/-- The list left by a call (the empty memory when the call faults). -/
def after {β : Type} (r : Except Fault (β × LockFreeSkipList Nat)) : LockFreeSkipList Nat :=
  match r with
  | .ok (_, sl) => sl
  | .error _ => { mem := [], head := 0, tail := 0, size := 0, draws := 0 }

/-- The list obtained from a fresh list by the calls `ops`, each with budget
`fuel`, all random draws being 1. -/
def listAfter (fuel : Nat) (ops : List (Op Nat)) : LockFreeSkipList Nat :=
  match NewLockFreeSkipList Nat with
  | .ok sl0 => after (runOps natLt (fun _ => 1) fuel ops sl0)
  | .error _ => { mem := [], head := 0, tail := 0, size := 0, draws := 0 }

/-! ## The operations with a log of their atomic writes

The functions of this section are the operations of the source once more, with
two additions that leave the computation unchanged: every `storeNext` and
`casNext` appends an `Event` to a log, and every loop without a syntactic bound
has a budget of its own (`Budget`) instead of the common `fuel`.  With the same
budget for every loop they return what the functions above return
(`AddLog_erase`, `RemoveLog_erase`, `ContainsLog_erase`). -/

/-- The place of a `casNext` in the source: the unlink CAS of `find`, the two
linking CASes of `Add`, the two marking CASes of `Remove`. -/
inductive Site where
  | unlink
  | link
  | mark
  deriving DecidableEq, Repr

/-- One atomic write: `store nd level old next` is `nd.storeNext(level, next)`
on a slot that held `old`; `cas site nd level expected desire old` is
`nd.casNext(level, expected, desire)` on a slot that held `old`. -/
inductive Event where
  | store (nd level old next : Nat)
  | cas (site : Site) (nd level expected desire old : Nat)
  deriving DecidableEq, Repr

/-- The CAS swapped (a store always writes). -/
def Event.swapped : Event → Bool
  | .store _ _ _ _ => true
  | .cas _ _ _ expected _ old => decide (old = expected)

/-- The word in the slot before the write. -/
def Event.before : Event → Nat
  | .store _ _ old _ => old
  | .cas _ _ _ _ _ old => old

/-- The word in the slot after the write. -/
def Event.afterward : Event → Nat
  | .store _ _ _ next => next
  | .cas _ _ _ expected desire old => if old = expected then desire else old

/-- The node written to. -/
def Event.target : Event → Nat
  | .store nd _ _ _ => nd
  | .cas _ nd _ _ _ _ => nd

/-- The level of the slot written to. -/
def Event.slot : Event → Nat
  | .store _ level _ _ => level
  | .cas _ _ level _ _ _ => level

/-- The memory after the write. -/
def Event.apply {α : Type} (h : List (node α)) (e : Event) : List (node α) :=
  write h e.target e.slot e.afterward

/-- One budget of iterations per loop of the source that has no syntactic
bound: the walk of `find` at each level, the passes of `find` from the label
`retry`, the outer loop of `Add`, the inner loop of `Add` at each upper level,
the loop of `Remove` at each upper level (in tests of its condition), the final
loop of `Remove`. -/
structure Budget where
  walk : Nat → Nat
  pass : Nat
  outer : Nat
  link : Nat
  mark : Nat
  bottom : Nat

/-- The same budget `fuel` for every loop. -/
def Budget.uniform (fuel : Nat) : Budget := Budget.mk (fun _ => fuel) fuel fuel fuel fuel fuel

/-- Go `storeNext`, with its event. -/
def storeNextLog {α : Type} (h : List (node α)) (nd : Nat) (level : Nat) (next : Nat) :
    Except Fault (List (node α) × List Event) := do
  let old ← loadNext h nd level
  let h' ← storeNext h nd level next
  return (h', [Event.store nd level old next])

/-- Go `casNext`, with its event. -/
def casNextLog {α : Type} (site : Site) (h : List (node α)) (nd : Nat) (level : Nat)
    (expected desire : Nat) : Except Fault (Bool × List (node α) × List Event) := do
  let old ← loadNext h nd level
  let (swapped, h') ← casNext h nd level expected desire
  return (swapped, h', [Event.cas site nd level expected desire old])

/-- The walk of `find` at one level (`findWalk`), with its events. -/
def findWalkLog {α : Type} (comp : α → α → Bool) (hd tl : Nat) (value : α) (level : Nat) :
    Nat → List (node α) → Nat → Nat → Except Fault (WalkResult α × List Event)
  | 0, _, _, _ => .error .outOfFuel
  | fuel + 1, h, prev, cur => do
    let next ← loadNext h cur level
    if isMarked next then
      let (swapped, h', es) ← casNextLog .unlink h prev level cur (getUnmarked next)
      if !swapped then
        return (.retry h', es)
      else
        let c ← loadNext h' prev level
        let (r, es') ← findWalkLog comp hd tl value level fuel h' prev (getUnmarked c)
        return (r, es ++ es')
    else
      let lt ← less comp h hd tl cur value
      if !lt then
        return (.stop h prev cur, [])
      else
        findWalkLog comp hd tl value level fuel h cur next

/-- The loop of `find` over the levels (`findLevels`), with its events; the
walk at level `level` has the budget `walk level`. -/
def findLevelsLog {α : Type} (comp : α → α → Bool) (hd tl : Nat) (value : α)
    (walk : Nat → Nat) :
    Nat → List (node α) → Nat → Nat → List Nat → List Nat →
    Except Fault (PassResult α × List Event)
  | 0, h, _, cur, prevs, nexts => .ok (.done h cur prevs nexts, [])
  | level + 1, h, prev, _, prevs, nexts => do
    let c ← loadNext h prev level
    match ← findWalkLog comp hd tl value level (walk level) h prev (getUnmarked c) with
    | (.retry h', es) => return (.retry h' prevs nexts, es)
    | (.stop h' prev' cur', es) =>
      let (r, es') ← findLevelsLog comp hd tl value walk level h' prev' cur'
        (prevs.set level prev') (nexts.set level cur')
      return (r, es ++ es')

/-- The label `retry:` of `find` (`findRetry`), with its events. -/
def findRetryLog {α : Type} (comp : α → α → Bool) (hd tl : Nat) (value : α)
    (walk : Nat → Nat) :
    Nat → List (node α) → List Nat → List Nat →
    Except Fault ((Bool × List (node α) × List Nat × List Nat) × List Event)
  | 0, _, _, _ => .error .outOfFuel
  | n + 1, h, prevs, nexts => do
    match ← findLevelsLog comp hd tl value walk maxLevel h hd 0 prevs nexts with
    | (.retry h' prevs' nexts', es) =>
      let (r, es') ← findRetryLog comp hd tl value walk n h' prevs' nexts'
      return (r, es ++ es')
    | (.done h' cur prevs' nexts', es) =>
      let found ← equals comp h' hd tl cur value
      return ((found, h', prevs', nexts'), es)

/-- Go `find`, with its events. -/
def findLog {α : Type} (comp : α → α → Bool) (b : Budget) (h : List (node α)) (hd tl : Nat)
    (value : α) (prevs nexts : List Nat) :
    Except Fault ((Bool × List (node α) × List Nat × List Nat) × List Event) :=
  findRetryLog comp hd tl value b.walk b.pass h prevs nexts

/-- The zeroing loop of `newNode` (`clearNexts`), with its events. -/
def clearNextsLog {α : Type} (nd : Nat) :
    Nat → Nat → List (node α) → Except Fault (List (node α) × List Event)
  | 0, _, h => .ok (h, [])
  | n + 1, level, h => do
    let (h', es) ← storeNextLog h nd level 0
    let (h'', es') ← clearNextsLog nd n (level + 1) h'
    return (h'', es ++ es')

/-- Go `newNode`, with its events. -/
def newNodeLog {α : Type} (h : List (node α)) (level : Nat) (value : Option α) :
    Except Fault ((Nat × List (node α)) × List Event) := do
  let nd := addrOf h.length
  let h1 := h ++ [{ level := level, nexts := List.replicate level 0, value := value }]
  let n ← deref h1 nd
  let (h2, es) ← clearNextsLog nd (n.level - 0) 0 h1
  return ((nd, h2), es)

/-- The loop of `Add` that fills the new node (`copyNexts`), with its events. -/
def copyNextsLog {α : Type} (nd : Nat) (nexts : List Nat) :
    Nat → Nat → List (node α) → Except Fault (List (node α) × List Event)
  | 0, _, h => .ok (h, [])
  | n + 1, level, h => do
    let next ← index nexts level
    let (h', es) ← storeNextLog h nd level next
    let (h'', es') ← copyNextsLog nd nexts n (level + 1) h'
    return (h'', es ++ es')

/-- The inner loop of `Add` at one upper level (`linkLevel`), with its events. -/
def linkLevelLog {α : Type} (comp : α → α → Bool) (b : Budget) (hd tl : Nat) (value : α)
    (nd : Nat) (level : Nat) :
    Nat → List (node α) → List Nat → List Nat →
    Except Fault ((List (node α) × List Nat × List Nat) × List Event)
  | 0, _, _, _ => .error .outOfFuel
  | n + 1, h, prevs, nexts => do
    let prev ← index prevs level
    let next ← index nexts level
    let (swapped, h', es) ← casNextLog .link h prev level next nd
    if swapped then
      return ((h', prevs, nexts), es)
    else
      let ((_, h'', prevs', nexts'), es') ← findLog comp b h' hd tl value prevs nexts
      let (r, es'') ← linkLevelLog comp b hd tl value nd level n h'' prevs' nexts'
      return (r, es ++ es' ++ es'')

/-- The loop of `Add` over the upper levels (`linkUpper`), with its events. -/
def linkUpperLog {α : Type} (comp : α → α → Bool) (b : Budget) (hd tl : Nat) (value : α)
    (nd : Nat) :
    Nat → Nat → List (node α) → List Nat → List Nat →
    Except Fault ((List (node α) × List Nat × List Nat) × List Event)
  | 0, _, h, prevs, nexts => .ok ((h, prevs, nexts), [])
  | n + 1, level, h, prevs, nexts => do
    let ((h', prevs', nexts'), es) ←
      linkLevelLog comp b hd tl value nd level b.link h prevs nexts
    let (r, es') ← linkUpperLog comp b hd tl value nd n (level + 1) h' prevs' nexts'
    return (r, es ++ es')

/-- The outer loop of `Add` (`addLoop`), with its events. -/
def addLoopLog {α : Type} (comp : α → α → Bool) (rand : Nat → Nat) (b : Budget) (value : α) :
    Nat → LockFreeSkipList α → List Nat → List Nat →
    Except Fault ((Bool × LockFreeSkipList α) × List Event)
  | 0, _, _, _ => .error .outOfFuel
  | n + 1, sl, prevs, nexts => do
    let ((found, h1, prevs, nexts), es1) ←
      findLog comp b sl.mem sl.head sl.tail value prevs nexts
    if found then
      return ((false, { sl with mem := h1 }), es1)
    else
      let (topLevel, draws) := randomLevel rand sl.draws
      let ((nd, h2), es2) ← newNodeLog h1 topLevel (some value)
      let (h3, es3) ← copyNextsLog nd nexts (topLevel - 0) 0 h2
      let prev ← index prevs 0
      let next ← index nexts 0
      let (swapped, h4, es4) ← casNextLog .link h3 prev 0 next nd
      if !swapped then
        let (r, es5) ←
          addLoopLog comp rand b value n { sl with mem := h4, draws := draws } prevs nexts
        return (r, es1 ++ es2 ++ es3 ++ es4 ++ es5)
      else
        let ((h5, _, _), es5) ←
          linkUpperLog comp b sl.head sl.tail value nd (topLevel - 1) 1 h4 prevs nexts
        return ((true, { sl with mem := h5, draws := draws, size := wrapInt32 (sl.size + 1) }),
          es1 ++ es2 ++ es3 ++ es4 ++ es5)

/-- Go `Add`, with its events. -/
def AddLog {α : Type} (comp : α → α → Bool) (rand : Nat → Nat) (b : Budget)
    (sl : LockFreeSkipList α) (value : α) :
    Except Fault ((Bool × LockFreeSkipList α) × List Event) :=
  addLoopLog comp rand b value b.outer sl (List.replicate maxLevel 0)
    (List.replicate maxLevel 0)

/-- The loop of `Remove` at one upper level (`markLevel`), with its events. -/
def markLevelLog {α : Type} (nd : Nat) (level : Nat) :
    Nat → List (node α) → Nat → Except Fault (List (node α) × List Event)
  | 0, _, _ => .error .outOfFuel
  | n + 1, h, next =>
    if !isMarked next then do
      let (_, h', es) ← casNextLog .mark h nd level next (getMarked next)
      let next' ← loadNext h' nd level
      let (h'', es') ← markLevelLog nd level n h' next'
      return (h'', es ++ es')
    else .ok (h, [])

/-- The loop of `Remove` over the upper levels (`markUpper`), with its events. -/
def markUpperLog {α : Type} (mark : Nat) (nd : Nat) :
    Nat → List (node α) → Except Fault (List (node α) × List Event)
  | 0, h => .ok (h, [])
  | level + 1, h => do
    let next ← loadNext h nd (level + 1)
    let (h', es) ← markLevelLog nd (level + 1) mark h next
    let (h'', es') ← markUpperLog mark nd level h'
    return (h'', es ++ es')

/-- The final loop of `Remove` (`markBottom`), with its events. -/
def markBottomLog {α : Type} (nd : Nat) :
    Nat → List (node α) → Nat → Except Fault ((Bool × List (node α)) × List Event)
  | 0, _, _ => .error .outOfFuel
  | n + 1, h, next =>
    if isMarked next then .ok ((false, h), [])
    else do
      let (swapped, h', es) ← casNextLog .mark h nd 0 next (getMarked next)
      if swapped then
        return ((true, h'), es)
      else
        let next' ← loadNext h' nd 0
        let (r, es') ← markBottomLog nd n h' next'
        return (r, es ++ es')

/-- Go `Remove`, with its events. -/
def RemoveLog {α : Type} (comp : α → α → Bool) (b : Budget) (sl : LockFreeSkipList α)
    (value : α) : Except Fault ((Bool × LockFreeSkipList α) × List Event) := do
  let ((found, h1, _, nexts), es1) ← findLog comp b sl.mem sl.head sl.tail value
    (List.replicate maxLevel 0) (List.replicate maxLevel 0)
  if !found then
    return ((false, { sl with mem := h1 }), es1)
  else
    let removeNode ← index nexts 0
    let n ← deref h1 removeNode
    let (h2, es2) ← markUpperLog b.mark removeNode (n.level - 1) h1
    let next ← loadNext h2 removeNode 0
    let ((marked, h3), es3) ← markBottomLog removeNode b.bottom h2 next
    if !marked then
      return ((false, { sl with mem := h3 }), es1 ++ es2 ++ es3)
    else
      return ((true, { sl with mem := h3, size := wrapInt32 (sl.size + -1) }),
        es1 ++ es2 ++ es3)

/-- Go `Contains`, with its events. -/
def ContainsLog {α : Type} (comp : α → α → Bool) (b : Budget) (sl : LockFreeSkipList α)
    (value : α) : Except Fault ((Bool × LockFreeSkipList α) × List Event) := do
  let ((found, h1, _, _), es) ← findLog comp b sl.mem sl.head sl.tail value
    (List.replicate maxLevel 0) (List.replicate maxLevel 0)
  return ((found, { sl with mem := h1 }), es)

/-- Runs one call, with its events. -/
def runOpLog {α : Type} (comp : α → α → Bool) (rand : Nat → Nat) (b : Budget)
    (sl : LockFreeSkipList α) : Op α → Except Fault ((Bool × LockFreeSkipList α) × List Event)
  | .add v => AddLog comp rand b sl v
  | .remove v => RemoveLog comp b sl v
  | .contains v => ContainsLog comp b sl v

/-- The event `e` is an unlink CAS of `find` that swapped, on the list `sl`
whose bottom chain is `xs`: `prev.casNext(level, cur, d)` where the slot held
`cur`, `cur` is an element node of the chain whose bottom slot is marked, `prev`
is the head or an element node whose bottom slot is unmarked, and both `cur`
and `d` are unmarked words. -/
def UnlinkEvent {α : Type} (sl : LockFreeSkipList α) (xs : List Nat) (e : Event) : Prop :=
  ∃ prev level cur d, e = Event.cas Site.unlink prev level cur d cur ∧ level < maxLevel ∧
    prev ≠ cur ∧ cur ≠ sl.head ∧ cur ≠ sl.tail ∧ cur ∈ xs ∧ (prev = sl.head ∨ prev ∈ xs) ∧
    live sl.mem prev = true ∧ live sl.mem cur = false ∧ isMarked cur = false ∧
    isMarked d = false

/-- The atomic writes of an `Add` that links the new node `nd` of `top` slots
between `prevs` and `nexts`, in the order of the source: the zeroing stores of
`newNode`, the stores of `nexts[level]` into the new node, then one linking CAS
per level from level 0 upwards, each on a slot that held `nexts[level]`. -/
def addEvents (nd top : Nat) (prevs nexts : List Nat) : List Event :=
  (List.range' 0 top).map (fun L => Event.store nd L 0 0) ++
  ((List.range' 0 top).map (fun L => Event.store nd L 0 (nexts.getD L 0)) ++
  (List.range' 0 top).map
    (fun L => Event.cas Site.link (prevs.getD L 0) L (nexts.getD L 0) nd (nexts.getD L 0)))

/-- The marking CASes of `Remove` on the upper slots `level, level - 1, ..., 1`
of the node `nd`, in the order of the source, where `w L` is the word held by
slot `L`: each is `nd.casNext(L, w L, getMarked (w L))` on a slot that held
`w L`. -/
def markEvents (nd : Nat) (w : Nat → Nat) : Nat → List Event
  | 0 => []
  | level + 1 =>
    Event.cas Site.mark nd (level + 1) (w (level + 1)) (getMarked (w (level + 1)))
      (w (level + 1)) :: markEvents nd w level

/-- The atomic writes of a `Remove` that marks the node `nd` of `top` slots: the
upper slots from `top - 1` down to 1, then the bottom slot. -/
def removeEvents (nd top : Nat) (w : Nat → Nat) : List Event :=
  markEvents nd w (top - 1) ++ [Event.cas Site.mark nd 0 (w 0) (getMarked (w 0)) (w 0)]

/-- Every loop has at least as many iterations in `b'` as in `b`. -/
def Budget.le (b b' : Budget) : Prop :=
  (∀ L, b.walk L ≤ b'.walk L) ∧ b.pass ≤ b'.pass ∧ b.outer ≤ b'.outer ∧ b.link ≤ b'.link ∧
    b.mark ≤ b'.mark ∧ b.bottom ≤ b'.bottom

/-- The number of element nodes on the level-`L` chain of a list (0 when the
walk from the head does not reach the tail). -/
def chainLen {α : Type} (sl : LockFreeSkipList α) (L : Nat) : Nat :=
  ((levelChain sl L sl.mem.length).getD []).length

/-- The budget that allows, in a call on the list `sl`: at each level one step
of the walk of `find` per node of that level's chain and one for the node the
walk stops at, a single pass of `find`, a single iteration of the outer loop of
`Add` and of its inner loop at each level, two tests of the condition of the
marking loop of `Remove` at each upper level (one run of its body), and a
single iteration of its final loop. -/
def tightBudget {α : Type} (sl : LockFreeSkipList α) : Budget :=
  Budget.mk (fun L => chainLen sl L + 1) 1 1 1 2 1

/-- The event `e` is a store of `Add` into the node it has just allocated on the
list `sl` (the node at the first free address), on a slot that held nil, of an
unmarked word. -/
def FreshStore {α : Type} (sl : LockFreeSkipList α) (e : Event) : Prop :=
  ∃ level next, e = Event.store (addrOf sl.mem.length) level 0 next ∧ isMarked next = false

/-- The event `e` is a linking CAS of `Add` that swapped, on the list `sl` whose
bottom chain is `xs`: `prev.casNext(level, next, nd)` where the slot held the
unmarked word `next`, `prev` is the head or an element node and `nd` is the node
just allocated. -/
def LinkEvent {α : Type} (sl : LockFreeSkipList α) (xs : List Nat) (e : Event) : Prop :=
  ∃ prev level next, e = Event.cas Site.link prev level next (addrOf sl.mem.length) next ∧
    level < maxLevel ∧ (prev = sl.head ∨ prev ∈ xs) ∧ isMarked next = false

/-- The event `e` is a marking CAS of `Remove` that swapped, on the list whose
bottom chain is `xs`: `nd.casNext(level, w, getMarked(w))` where the slot held
the unmarked word `w` and `nd` is an element node. -/
def MarkEvent (xs : List Nat) (e : Event) : Prop :=
  ∃ nd level w, e = Event.cas Site.mark nd level w (getMarked w) w ∧ level < maxLevel ∧
    nd ∈ xs ∧ isMarked w = false

/-- The event `e` is one of the atomic writes a call makes on the list `sl`
whose bottom chain is `xs`. -/
def OpEvent {α : Type} (sl : LockFreeSkipList α) (xs : List Nat) (e : Event) : Prop :=
  UnlinkEvent sl xs e ∨ FreshStore sl e ∨ LinkEvent sl xs e ∨ MarkEvent xs e

/-- Every slot that holds a marked word in the memory `h` holds a marked word
in the memory `h'`. -/
def MarksKept {α : Type} (h h' : List (node α)) : Prop :=
  ∀ x L p, loadNext h x L = .ok p → isMarked p = true →
    ∃ p', loadNext h' x L = .ok p' ∧ isMarked p' = true

/-- The list obtained from a fresh list by the calls `ops`, each with budget
`fuel`, the random draws being those of `rand`. -/
def listAfterWith (rand : Nat → Nat) (fuel : Nat) (ops : List (Op Nat)) :
    LockFreeSkipList Nat :=
  match NewLockFreeSkipList Nat with
  | .ok sl0 => after (runOps natLt rand fuel ops sl0)
  | .error _ => { mem := [], head := 0, tail := 0, size := 0, draws := 0 }

/-- A random stream under which every node is three slots high: the first 1 bit
of every group of three draws is the third. -/
def randThree (n : Nat) : Nat := if n % 3 = 2 then 1 else 0

/-- The calls `Remove(k)`, `Remove(k + 1)`, ..., `Remove(k + n - 1)` on naturals. -/
def manyRemoves (k n : Nat) : List (Op Nat) := (List.range' k n).map Op.remove

/-- Some slot of the node at `x` holds a marked word. -/
def hasMarkedSlot {α : Type} (h : List (node α)) (x : Nat) : Bool :=
  match deref h x with
  | .ok nd => nd.nexts.any isMarked
  | .error _ => false

/-- The nodes on the level-`L` chain of a list that have a slot holding a
marked word. -/
def markedOnChain {α : Type} (sl : LockFreeSkipList α) (L fuel : Nat) : List Nat :=
  ((levelChain sl L fuel).getD []).filter (hasMarkedSlot sl.mem)

/-- State of a list of naturals with chains `ch` after `Add(0), ..., Add(k - 1)`
followed by `Remove(0), ..., Remove(i - 1)`: the bottom chain is sorted, holds
one node for each value from `i - 1` to `k - 1`, and a node is live exactly when
its value is at least `i`. -/
def Churn (sl : LockFreeSkipList Nat) (ch : Nat → List Nat) (i k : Nat) : Prop :=
  InvC sl ch ∧ SortedBy natLt sl.mem (ch 0) ∧
  (∀ x, x ∈ ch 0 → ∃ a, valOf sl.mem x = some a ∧ a < k ∧ i ≤ a + 1 ∧
    (live sl.mem x = true ↔ i ≤ a)) ∧
  (∀ a, i ≤ a + 1 → a < k → ∃ x, x ∈ ch 0 ∧ valOf sl.mem x = some a)

/-- The word in the written slot after the write `e`, had the slot held the word
`w` just before it: `storeNext` writes its word whatever the slot held;
`casNext` writes `desire` when `w` is the expected word and leaves `w` in the
slot otherwise.  `e.afterward` is `e.outcome e.before`. -/
def Event.outcome : Event → Nat → Nat
  | .store _ _ _ next, _ => next
  | .cas _ _ _ expected desire _, w => if w = expected then desire else w

/-- The write `e` clears no mark of the first `n0` nodes of the memory, whatever
word its slot holds: a `casNext` expects an unmarked word, so that it fails on a
marked slot, or it writes the expected word with the mark bit set; a `storeNext`
is on a node allocated after the first `n0`. -/
def SafeWrite (n0 : Nat) : Event → Prop
  | .store nd _ _ _ => ∃ m, n0 ≤ m ∧ nd = addrOf m
  | .cas _ _ _ expected desire _ => isMarked expected = false ∨ desire = getMarked expected

/-- An unlink CAS of `find` that expects an unmarked word. -/
def UnlinkCas (e : Event) : Prop :=
  ∃ prev level cur d old, e = Event.cas Site.unlink prev level cur d old ∧ isMarked cur = false

/-- If the write `c` is a store, then the write `a` is not a linking CAS of
`Add` that writes the address of the stored node into a slot. -/
def StoreUnlinked (a c : Event) : Prop :=
  ∀ nd level old next, c = Event.store nd level old next →
    ∀ prev L expected seen, a ≠ Event.cas Site.link prev L expected nd seen

/-- The list left by `Add(3)`, `Add(7)` with nodes three slots high, in the
state between the first and the second marking CAS of a `Remove(3)`: slot 2 of
the node of 3 (at address 6) holds the marked word 9, its slots 1 and 0 still
hold the unmarked word 8.  Another call meets this state when it runs between
the two CASes. -/
def midRemove : LockFreeSkipList Nat :=
  { listAfterWith randThree 4 [.add 3, .add 7] with
    mem := write (listAfterWith randThree 4 [.add 3, .add 7]).mem 6 2 9 }

/-! # Lemmas and theorems -/

/-! ## Pointer words -/

theorem isMarked_eq (p : Nat) : isMarked p = decide (p % 2 = 1) := by
  simp only [isMarked, Nat.and_one_is_mod]
  by_cases h : p % 2 = 1 <;> simp [h]

theorem getUnmarked_eq (p : Nat) : getUnmarked p = 2 * (p / 2) := by
  simp only [getUnmarked, Nat.and_one_is_mod]; omega

theorem getMarked_eq (p : Nat) : getMarked p = 2 * (p / 2) + 1 := by
  have h1 : (p ||| 1) % 2 = 1 := by simp
  have h2 : (p ||| 1) / 2 = p / 2 := by simp [Nat.or_div_two]
  simp only [getMarked]; omega

theorem isMarked_getUnmarked (p : Nat) : isMarked (getUnmarked p) = false := by
  simp [isMarked_eq, getUnmarked_eq]

theorem isMarked_getMarked (p : Nat) : isMarked (getMarked p) = true := by
  simp [isMarked_eq, getMarked_eq]; omega

theorem getUnmarked_getMarked (p : Nat) : getUnmarked (getMarked p) = getUnmarked p := by
  simp only [getUnmarked_eq, getMarked_eq]; omega

theorem getUnmarked_of_not_marked {p : Nat} (h : isMarked p = false) : getUnmarked p = p := by
  simp [isMarked_eq] at h; simp only [getUnmarked_eq]; omega

theorem isMarked_zero : isMarked 0 = false := by decide

/-! ## Memory -/

theorem deref_ok_iff {α : Type} {h : List (node α)} {p : Nat} {nd : node α} :
    deref h p = .ok nd ↔ p ≠ 0 ∧ p % 2 = 0 ∧ h[p / 2 - 1]? = some nd := by
  unfold deref
  by_cases h0 : p = 0
  · simp [h0]
  · by_cases h1 : p % 2 = 1
    · simp [h0, h1]
    · have : p % 2 = 0 := by omega
      simp only [h0, h1, if_false, this, ne_eq, not_false_eq_true, true_and]
      cases h[p / 2 - 1]? <;> simp

theorem loadNext_ok_iff {α : Type} {h : List (node α)} {x L p : Nat} :
    loadNext h x L = .ok p ↔ ∃ nd, deref h x = .ok nd ∧ nd.nexts[L]? = some p := by
  unfold loadNext index
  cases hd : deref h x with
  | error e => simp [bind, Except.bind]
  | ok nd =>
    simp only [bind, Except.bind]
    cases hn : nd.nexts[L]? <;> simp [hn]

theorem deref_write {α : Type} {h : List (node α)} {p : Nat} {n : node α} (L d q : Nat)
    (hp : deref h p = .ok n) :
    deref (write h p L d) q =
      if q = p then .ok { n with nexts := n.nexts.set L d } else deref h q := by
  obtain ⟨h0, h1, h2⟩ := deref_ok_iff.1 hp
  have hlt : p / 2 - 1 < h.length := by
    rcases List.getElem?_eq_some_iff.1 h2 with ⟨hl, -⟩; exact hl
  unfold write
  rw [h2]
  by_cases hq : q = p
  · subst hq
    simp only [if_true]
    apply deref_ok_iff.2
    refine ⟨h0, h1, ?_⟩
    simp [List.getElem?_set, hlt]
  · simp only [hq, if_false]
    unfold deref
    by_cases q0 : q = 0
    · simp [q0]
    · by_cases q1 : q % 2 = 1
      · simp [q0, q1]
      · have hne : p / 2 - 1 ≠ q / 2 - 1 := by omega
        simp only [q0, q1, if_false]
        rw [List.getElem?_set_ne hne]

theorem length_write {α : Type} (h : List (node α)) (p L d : Nat) :
    (write h p L d).length = h.length := by
  unfold write
  cases h[p / 2 - 1]? <;> simp

theorem loadNext_write {α : Type} {h : List (node α)} {p L e : Nat} (d q L' : Nat)
    (hp : loadNext h p L = .ok e) :
    loadNext (write h p L d) q L' =
      if q = p ∧ L' = L then .ok d else loadNext h q L' := by
  obtain ⟨n, hn, hs⟩ := loadNext_ok_iff.1 hp
  have hL : L < n.nexts.length := by
    rcases List.getElem?_eq_some_iff.1 hs with ⟨hl, -⟩; exact hl
  unfold loadNext
  rw [deref_write L d q hn]
  by_cases hq : q = p
  · subst hq
    simp only [if_true, true_and, bind, Except.bind, hn]
    unfold index
    by_cases hL' : L' = L
    · subst hL'
      simp [List.getElem?_set, hL]
    · have : L ≠ L' := fun h => hL' h.symm
      simp [hL', List.getElem?_set_ne this]
  · simp [hq]

theorem storeNext_eq {α : Type} {h : List (node α)} {p L e : Nat} (d : Nat)
    (hp : loadNext h p L = .ok e) : storeNext h p L d = .ok (write h p L d) := by
  obtain ⟨n, hn, hs⟩ := loadNext_ok_iff.1 hp
  obtain ⟨-, -, h2⟩ := deref_ok_iff.1 hn
  simp [storeNext, hn, bind, Except.bind, index, hs, write, h2, pure, Except.pure]

theorem casNext_eq {α : Type} {h : List (node α)} {p L e : Nat} (d : Nat)
    (hp : loadNext h p L = .ok e) : casNext h p L e d = .ok (true, write h p L d) := by
  obtain ⟨n, hn, hs⟩ := loadNext_ok_iff.1 hp
  obtain ⟨-, -, h2⟩ := deref_ok_iff.1 hn
  simp [casNext, hn, bind, Except.bind, index, hs, write, h2, pure, Except.pure]

/-! ## Lists -/

theorem lastD_mem (A : List Nat) (a : Nat) : lastD A a ∈ a :: A := by
  induction A generalizing a with
  | nil => simp [lastD]
  | cons x xs ih =>
    have := ih x
    simp only [lastD]
    exact List.mem_cons_of_mem _ this

theorem lastD_append_singleton (A : List Nat) (a c : Nat) : lastD (A ++ [c]) a = c := by
  induction A generalizing a with
  | nil => simp [lastD]
  | cons x xs ih => simpa [lastD] using ih x

theorem lastD_cons (x : Nat) (xs : List Nat) (a : Nat) : lastD (x :: xs) a = lastD xs x := rfl

theorem lastD_nil (a : Nat) : lastD [] a = a := rfl

theorem split_sublist {P Q X : List Nat} (h : (P ++ Q).Sublist X) :
    ∃ A C, X = A ++ C ∧ P.Sublist A ∧ Q.Sublist C ∧ ∀ a, lastD A a = lastD P a := by
  induction X generalizing P with
  | nil =>
    have := List.sublist_nil.1 h
    have hP : P = [] := (List.append_eq_nil.1 this).1
    have hQ : Q = [] := (List.append_eq_nil.1 this).2
    subst hP hQ
    exact ⟨[], [], rfl, List.Sublist.refl _, List.Sublist.refl _, fun _ => rfl⟩
  | cons x X ih =>
    cases P with
    | nil => exact ⟨[], x :: X, rfl, List.Sublist.refl _, by simpa using h, fun _ => rfl⟩
    | cons p P =>
      rw [List.cons_append] at h
      cases h with
      | cons _ h' =>
        obtain ⟨A, C, hX, hA, hC, hl⟩ := ih (P := p :: P) (by simpa using h')
        refine ⟨x :: A, C, by simp [hX], List.Sublist.cons _ hA, hC, fun a => ?_⟩
        simp only [lastD]
        rw [hl x]; rfl
      | cons₂ _ h' =>
        obtain ⟨A, C, hX, hA, hC, hl⟩ := ih h'
        refine ⟨x :: A, C, by simp [hX], List.Sublist.cons₂ _ hA, hC, fun a => ?_⟩
        simp only [lastD]
        exact hl x

/-! ## Paths -/

theorem path_congr {α : Type} {h h' : List (node α)} {L a : Nat} {xs : List Nat} {b : Nat}
    (hc : ∀ x, x ∈ a :: xs → loadNext h' x L = loadNext h x L) (hp : Path h L a xs b) :
    Path h' L a xs b := by
  induction xs generalizing a with
  | nil =>
    obtain ⟨p, hp1, hp2⟩ := hp
    exact ⟨p, by rw [hc a (by simp)]; exact hp1, hp2⟩
  | cons x xs ih =>
    obtain ⟨⟨p, hp1, hp2⟩, hr⟩ := hp
    refine ⟨⟨p, by rw [hc a (by simp)]; exact hp1, hp2⟩, ih (fun y hy => hc y ?_) hr⟩
    exact List.mem_cons_of_mem _ hy

theorem path_link {α : Type} {h : List (node α)} {L a : Nat} {A cs : List Nat} {b : Nat}
    (hp : Path h L a (A ++ cs) b) : Link h L (lastD A a) (cs.headD b) := by
  induction A generalizing a with
  | nil =>
    cases cs with
    | nil => exact hp
    | cons c cs => exact hp.1
  | cons x xs ih => exact ih hp.2

theorem path_source {α : Type} {h : List (node α)} {L a : Nat} {xs : List Nat} {b : Nat}
    (hp : Path h L a xs b) : ∀ x, x ∈ a :: xs → ∃ p, loadNext h x L = .ok p := by
  induction xs generalizing a with
  | nil =>
    intro x hx
    obtain ⟨p, hp1, -⟩ := hp
    simp at hx; subst hx; exact ⟨p, hp1⟩
  | cons y ys ih =>
    intro x hx
    rcases List.mem_cons.1 hx with rfl | hx
    · obtain ⟨⟨p, hp1, -⟩, -⟩ := hp
      exact ⟨p, hp1⟩
    · exact ih hp.2 x hx

theorem path_unlink {α : Type} {h h' : List (node α)} {L a : Nat} {A : List Nat} {c : Nat}
    {cs : List Nat} {b d : Nat}
    (hp : Path h L a (A ++ c :: cs) b) (hn : (a :: (A ++ c :: cs)).Nodup)
    (hw : loadNext h' (lastD A a) L = .ok d) (hd : getUnmarked d = cs.headD b)
    (hf : ∀ x, x ≠ lastD A a → loadNext h' x L = loadNext h x L) :
    Path h' L a (A ++ cs) b := by
  induction A generalizing a with
  | nil =>
    simp only [List.nil_append, lastD] at *
    have hn' := List.nodup_cons.1 hn
    cases cs with
    | nil => exact ⟨d, hw, hd⟩
    | cons e es =>
      refine ⟨⟨d, hw, hd⟩, path_congr (fun y hy => hf y ?_) hp.2.2⟩
      intro hya
      subst hya
      exact hn'.1 (List.mem_cons_of_mem _ hy)
  | cons x xs ih =>
    simp only [List.cons_append, lastD] at *
    have hn' := List.nodup_cons.1 hn
    obtain ⟨⟨p, hp1, hp2⟩, hr⟩ := hp
    have hne : a ≠ lastD xs x := by
      intro hax
      have hm := lastD_mem xs x
      rw [← hax] at hm
      apply hn'.1
      rcases List.mem_cons.1 hm with rfl | hm
      · simp
      · exact List.mem_cons_of_mem _ (List.mem_append_left _ hm)
    exact ⟨⟨p, by rw [hf a hne]; exact hp1, hp2⟩, ih hr hn'.2 hw hf⟩

theorem path_insert {α : Type} {h h' : List (node α)} {L a : Nat} {A cs : List Nat}
    {b n d e : Nat}
    (hp : Path h L a (A ++ cs) b) (hn : (a :: (A ++ cs)).Nodup) (hfresh : n ∉ a :: (A ++ cs))
    (hw : loadNext h' (lastD A a) L = .ok d) (hd : getUnmarked d = n)
    (hw' : loadNext h' n L = .ok e) (he : getUnmarked e = cs.headD b)
    (hf : ∀ x, x ≠ lastD A a → x ≠ n → loadNext h' x L = loadNext h x L) :
    Path h' L a (A ++ n :: cs) b := by
  induction A generalizing a with
  | nil =>
    simp only [List.nil_append, lastD] at *
    have hn' := List.nodup_cons.1 hn
    refine ⟨⟨d, hw, hd⟩, ?_⟩
    cases cs with
    | nil => exact ⟨e, hw', he⟩
    | cons c cs =>
      refine ⟨⟨e, hw', he⟩, path_congr (fun y hy => hf y ?_ ?_) hp.2⟩
      · intro hya
        subst hya
        exact hn'.1 hy
      · intro hyn
        subst hyn
        exact hfresh (List.mem_cons_of_mem _ hy)
  | cons x xs ih =>
    simp only [List.cons_append, lastD] at *
    have hn' := List.nodup_cons.1 hn
    obtain ⟨⟨p, hp1, hp2⟩, hr⟩ := hp
    have hne : a ≠ lastD xs x := by
      intro hax
      have hm := lastD_mem xs x
      rw [← hax] at hm
      apply hn'.1
      rcases List.mem_cons.1 hm with rfl | hm
      · simp
      · exact List.mem_cons_of_mem _ (List.mem_append_left _ hm)
    have hne' : a ≠ n := by
      intro han
      exact hfresh (by simp [han])
    refine ⟨⟨p, by rw [hf a hne hne']; exact hp1, hp2⟩, ih hr hn'.2 ?_ hw hf⟩
    intro hmem
    exact hfresh (List.mem_cons_of_mem _ hmem)

/-! ## Shape-preserving changes of the memory -/

theorem deref_bounds {α : Type} {h : List (node α)} {x : Nat} :
    (∃ nd, deref h x = .ok nd) ↔ x ≠ 0 ∧ x % 2 = 0 ∧ x / 2 - 1 < h.length := by
  constructor
  · rintro ⟨nd, hnd⟩
    obtain ⟨h0, h1, h2⟩ := deref_ok_iff.1 hnd
    rcases List.getElem?_eq_some_iff.1 h2 with ⟨hl, -⟩
    exact ⟨h0, h1, hl⟩
  · rintro ⟨h0, h1, hl⟩
    exact ⟨h[x / 2 - 1], deref_ok_iff.2 ⟨h0, h1, List.getElem?_eq_getElem hl⟩⟩

theorem deref_error_of_length {α : Type} {h h' : List (node α)} {x : Nat} {e : Fault}
    (hl : h'.length = h.length) (he : deref h x = .error e) : deref h' x = .error e := by
  unfold deref at he ⊢
  by_cases h0 : x = 0
  · simpa [h0] using he
  · by_cases h1 : x % 2 = 1
    · simpa [h0, h1] using he
    · simp only [h0, h1, if_false] at he ⊢
      cases hx : h[x / 2 - 1]? with
      | some nd => simp [hx] at he
      | none =>
        have : h'[x / 2 - 1]? = none := by
          rw [List.getElem?_eq_none_iff] at hx ⊢
          omega
        simp only [hx] at he
        simp only [this]
        exact he

theorem sameShape_refl {α : Type} (h : List (node α)) : SameShape h h :=
  ⟨rfl, fun _ nd hnd => ⟨nd, hnd, rfl, rfl, rfl, fun _ p hp => ⟨p, hp, rfl⟩⟩⟩

theorem sameShape_trans {α : Type} {h1 h2 h3 : List (node α)} (h12 : SameShape h1 h2)
    (h23 : SameShape h2 h3) : SameShape h1 h3 := by
  refine ⟨h23.1.trans h12.1, fun x nd hnd => ?_⟩
  obtain ⟨nd2, hd2, hl2, hv2, hn2, hm2⟩ := h12.2 x nd hnd
  obtain ⟨nd3, hd3, hl3, hv3, hn3, hm3⟩ := h23.2 x nd2 hd2
  refine ⟨nd3, hd3, hl3.trans hl2, hv3.trans hv2, hn3.trans hn2, fun L p hp => ?_⟩
  obtain ⟨p2, hp2, hq2⟩ := hm2 L p hp
  obtain ⟨p3, hp3, hq3⟩ := hm3 L p2 hp2
  exact ⟨p3, hp3, hq3.trans hq2⟩

theorem sameShape_write {α : Type} {h : List (node α)} {p L e : Nat} (d : Nat)
    (hp : loadNext h p L = .ok e) (hm : isMarked d = isMarked e) :
    SameShape h (write h p L d) := by
  obtain ⟨n, hn, hs⟩ := loadNext_ok_iff.1 hp
  refine ⟨length_write h p L d, fun x nd hnd => ?_⟩
  rw [deref_write L d x hn]
  by_cases hx : x = p
  · subst hx
    have : nd = n := by rw [hn] at hnd; exact (Except.ok.inj hnd).symm
    subst this
    refine ⟨{ nd with nexts := nd.nexts.set L d }, by simp, rfl, rfl, by simp, fun L' q hq => ?_⟩
    by_cases hL : L' = L
    · subst hL
      have hlt : L' < nd.nexts.length := by
        rcases List.getElem?_eq_some_iff.1 hs with ⟨hl, -⟩; exact hl
      refine ⟨d, by simp [List.getElem?_set, hlt], ?_⟩
      rw [hs] at hq
      rw [hm, Option.some.inj hq]
    · have : L ≠ L' := fun h => hL h.symm
      exact ⟨q, by simp [List.getElem?_set_ne this, hq], rfl⟩
  · simp only [hx, if_false]
    exact ⟨nd, hnd, rfl, rfl, rfl, fun _ q hq => ⟨q, hq, rfl⟩⟩

theorem valOf_sameShape {α : Type} {h h' : List (node α)} (hs : SameShape h h') (x : Nat) :
    valOf h' x = valOf h x := by
  unfold valOf
  cases hx : deref h x with
  | ok nd =>
    obtain ⟨nd', hd', -, hv, -, -⟩ := hs.2 x nd hx
    simp [hd', hv]
  | error e => simp [deref_error_of_length hs.1 hx]

theorem live_sameShape {α : Type} {h h' : List (node α)} (hs : SameShape h h') (x : Nat) :
    live h' x = live h x := by
  unfold live loadNext
  cases hx : deref h x with
  | ok nd =>
    obtain ⟨nd', hd', -, -, hlen, hm⟩ := hs.2 x nd hx
    simp only [hd', bind, Except.bind, index]
    cases hq : nd.nexts[0]? with
    | some q =>
      obtain ⟨q', hq', hmq⟩ := hm 0 q hq
      simp [hq', hmq]
    | none =>
      have : nd'.nexts[0]? = none := by
        rw [List.getElem?_eq_none_iff] at hq ⊢
        omega
      simp [this]
  | error e => simp [deref_error_of_length hs.1 hx, bind, Except.bind]

theorem less_sameShape {α : Type} (comp : α → α → Bool) {h h' : List (node α)}
    (hs : SameShape h h') (hd tl x : Nat) (v : α) :
    less comp h' hd tl x v = less comp h hd tl x v := by
  unfold less
  by_cases h1 : hd = x
  · simp [h1]
  · by_cases h2 : tl = x
    · simp [h1, h2]
    · simp only [h1, h2, if_false]
      cases hx : deref h x with
      | ok nd =>
        obtain ⟨nd', hd', -, hv, -, -⟩ := hs.2 x nd hx
        simp [hd', bind, Except.bind, hv]
      | error e => simp [deref_error_of_length hs.1 hx, bind, Except.bind]

theorem equals_sameShape {α : Type} (comp : α → α → Bool) {h h' : List (node α)}
    (hs : SameShape h h') (hd tl x : Nat) (v : α) :
    equals comp h' hd tl x v = equals comp h hd tl x v := by
  unfold equals
  by_cases h1 : hd = x ∨ tl = x
  · simp [h1]
  · simp only [h1, if_false]
    cases hx : deref h x with
    | ok nd =>
      obtain ⟨nd', hd', -, hv, -, -⟩ := hs.2 x nd hx
      simp [hd', bind, Except.bind, hv]
    | error e => simp [deref_error_of_length hs.1 hx, bind, Except.bind]

theorem goodNode_sameShape {α : Type} {h h' : List (node α)} (hs : SameShape h h')
    {hd tl x : Nat} (hg : GoodNode h hd tl x) : GoodNode h' hd tl x := by
  obtain ⟨h1, h2, nd, v, hnd, hv, hlen, hl1, hl2, hm⟩ := hg
  obtain ⟨nd', hd', hlv, hval, hnl, hmk⟩ := hs.2 x nd hnd
  refine ⟨h1, h2, nd', v, hd', by rw [hval, hv], by rw [hnl, hlv, hlen], by rw [hlv]; exact hl1,
    by rw [hlv]; exact hl2, fun L p q hp hq => ?_⟩
  have hLlt : L < nd.nexts.length := by
    rcases List.getElem?_eq_some_iff.1 hp with ⟨hl, -⟩; omega
  have h0lt : 0 < nd.nexts.length := by omega
  obtain ⟨p', hp', hmp⟩ := hmk L _ (List.getElem?_eq_getElem hLlt)
  obtain ⟨q', hq', hmq⟩ := hmk 0 _ (List.getElem?_eq_getElem h0lt)
  rw [hp] at hp'
  rw [hq] at hq'
  cases hp'; cases hq'
  rw [hmp, hmq]
  exact hm L _ _ (List.getElem?_eq_getElem hLlt) (List.getElem?_eq_getElem h0lt)

theorem less_head {α : Type} (comp : α → α → Bool) (h : List (node α)) (hd tl : Nat) (v : α) :
    less comp h hd tl hd v = .ok true := by
  simp [less]

theorem less_tail {α : Type} (comp : α → α → Bool) (h : List (node α)) {hd tl : Nat}
    (hne : hd ≠ tl) (v : α) : less comp h hd tl tl v = .ok false := by
  simp [less, hne]

theorem less_good {α : Type} (comp : α → α → Bool) {h : List (node α)} {hd tl x : Nat}
    (hg : GoodNode h hd tl x) (v : α) :
    ∃ a, valOf h x = some a ∧ less comp h hd tl x v = .ok (comp a v) := by
  obtain ⟨h1, h2, nd, a, hnd, hv, -⟩ := hg
  refine ⟨a, by simp [valOf, hnd, hv], ?_⟩
  simp [less, Ne.symm h1, Ne.symm h2, hnd, bind, Except.bind, hv]

theorem equals_good {α : Type} (comp : α → α → Bool) {h : List (node α)} {hd tl x : Nat}
    (hg : GoodNode h hd tl x) (v : α) :
    ∃ a, valOf h x = some a ∧ equals comp h hd tl x v = .ok (!comp a v && !comp v a) := by
  obtain ⟨h1, h2, nd, a, hnd, hv, -⟩ := hg
  refine ⟨a, by simp [valOf, hnd, hv], ?_⟩
  simp [equals, Ne.symm h1, Ne.symm h2, hnd, bind, Except.bind, hv]

theorem equals_tail {α : Type} (comp : α → α → Bool) (h : List (node α)) (hd tl : Nat) (v : α) :
    equals comp h hd tl tl v = .ok false := by
  simp [equals]

/-! ## Consequences of the invariant -/

theorem InvC.sub0 {α : Type} {sl : LockFreeSkipList α} {ch : Nat → List Nat} (hinv : InvC sl ch)
    (L : Nat) : (ch L).Sublist (ch 0) := by
  induction L with
  | zero => exact List.Sublist.refl _
  | succ n ih => exact (hinv.sub n).trans ih

theorem InvC.mem0 {α : Type} {sl : LockFreeSkipList α} {ch : Nat → List Nat} (hinv : InvC sl ch)
    {L x : Nat} (hx : x ∈ ch L) : x ∈ ch 0 :=
  (hinv.sub0 L).subset hx

theorem InvC.head_not_mem {α : Type} {sl : LockFreeSkipList α} {ch : Nat → List Nat}
    (hinv : InvC sl ch) (L : Nat) : sl.head ∉ ch L := fun hx =>
  (hinv.good _ (hinv.mem0 hx)).1 rfl

theorem InvC.tail_not_mem {α : Type} {sl : LockFreeSkipList α} {ch : Nat → List Nat}
    (hinv : InvC sl ch) (L : Nat) : sl.tail ∉ ch L := fun hx =>
  (hinv.good _ (hinv.mem0 hx)).2.1 rfl

theorem InvC.nodup_level {α : Type} {sl : LockFreeSkipList α} {ch : Nat → List Nat}
    (hinv : InvC sl ch) (L : Nat) : (sl.head :: ch L).Nodup :=
  List.nodup_cons.2 ⟨hinv.head_not_mem L, hinv.nodup.sublist (hinv.sub0 L)⟩

theorem maxLevel_pos : 0 < maxLevel := by decide

theorem InvC.live_head {α : Type} {sl : LockFreeSkipList α} {ch : Nat → List Nat}
    (hinv : InvC sl ch) : live sl.mem sl.head = true := by
  obtain ⟨p, hp, hm⟩ := hinv.head_slots 0 maxLevel_pos
  simp [live, hp, hm]

theorem InvC.live_tail {α : Type} {sl : LockFreeSkipList α} {ch : Nat → List Nat}
    (hinv : InvC sl ch) : live sl.mem sl.tail = true := by
  have hp := hinv.tail_slots 0 maxLevel_pos
  simp [live, hp, isMarked_zero]

theorem InvC.prev_mem {α : Type} {sl : LockFreeSkipList α} {ch : Nat → List Nat}
    (hinv : InvC sl ch) {L : Nat} {A cs : List Nat} (hs : ch L = A ++ cs) :
    lastD A sl.head = sl.head ∨ lastD A sl.head ∈ ch 0 := by
  rcases List.mem_cons.1 (lastD_mem A sl.head) with h | h
  · exact Or.inl h
  · exact Or.inr (hinv.mem0 (L := L) (by rw [hs]; exact List.mem_append_left _ h))

theorem InvC.headD_mem {α : Type} {sl : LockFreeSkipList α} {ch : Nat → List Nat}
    (hinv : InvC sl ch) {L : Nat} {A cs : List Nat} (hs : ch L = A ++ cs) :
    cs.headD sl.tail = sl.tail ∨ cs.headD sl.tail ∈ ch 0 := by
  cases cs with
  | nil => exact Or.inl rfl
  | cons c cs => exact Or.inr (hinv.mem0 (L := L) (by rw [hs]; simp))

theorem InvC.marks_agree {α : Type} {sl : LockFreeSkipList α} {ch : Nat → List Nat}
    (hinv : InvC sl ch) {x L p : Nat} (hx : x ∈ ch 0) (hp : loadNext sl.mem x L = .ok p) :
    live sl.mem x = !isMarked p := by
  obtain ⟨-, -, nd, v, hnd, -, hlen, hl1, -, hm⟩ := hinv.good x hx
  obtain ⟨nd', hnd', hp'⟩ := loadNext_ok_iff.1 hp
  rw [hnd] at hnd'
  cases hnd'
  have h0 : 0 < nd.nexts.length := by omega
  have hq := List.getElem?_eq_getElem h0
  have hl0 : loadNext sl.mem x 0 = .ok nd.nexts[0] := loadNext_ok_iff.2 ⟨nd, hnd, hq⟩
  simp only [live, hl0]
  rw [hm L p _ hp' hq]

theorem InvC.slot_unmarked {α : Type} {sl : LockFreeSkipList α} {ch : Nat → List Nat}
    (hinv : InvC sl ch) {x L p : Nat} (hL : L < maxLevel) (hx : x = sl.head ∨ x ∈ ch 0)
    (hlive : live sl.mem x = true) (hp : loadNext sl.mem x L = .ok p) : isMarked p = false := by
  rcases hx with rfl | hx
  · obtain ⟨q, hq, hm⟩ := hinv.head_slots L hL
    rw [hp] at hq
    cases hq
    exact hm
  · have := hinv.marks_agree hx hp
    rw [hlive] at this
    simpa using this.symm

theorem InvC.addr_unmarked {α : Type} {sl : LockFreeSkipList α} {ch : Nat → List Nat}
    (hinv : InvC sl ch) {x : Nat} (hx : x = sl.head ∨ x = sl.tail ∨ x ∈ ch 0) :
    isMarked x = false := by
  have : ∃ nd, deref sl.mem x = .ok nd := by
    rcases hx with rfl | rfl | hx
    · obtain ⟨p, hp, -⟩ := hinv.head_slots 0 maxLevel_pos
      obtain ⟨nd, hnd, -⟩ := loadNext_ok_iff.1 hp
      exact ⟨nd, hnd⟩
    · obtain ⟨nd, hnd, -⟩ := loadNext_ok_iff.1 (hinv.tail_slots 0 maxLevel_pos)
      exact ⟨nd, hnd⟩
    · obtain ⟨-, -, nd, v, hnd, -⟩ := hinv.good x hx
      exact ⟨nd, hnd⟩
  obtain ⟨-, h1, -⟩ := deref_bounds.1 this
  simp [isMarked_eq, h1]

/-- The exact word held by the slot of a live predecessor. -/
theorem InvC.slot_exact {α : Type} {sl : LockFreeSkipList α} {ch : Nat → List Nat}
    (hinv : InvC sl ch) {L : Nat} (hL : L < maxLevel) {A cs : List Nat} (hs : ch L = A ++ cs)
    (hlive : live sl.mem (lastD A sl.head) = true) :
    loadNext sl.mem (lastD A sl.head) L = .ok (cs.headD sl.tail) := by
  have hp := hinv.path L hL
  rw [hs] at hp
  obtain ⟨p, hp1, hp2⟩ := path_link hp
  have := hinv.slot_unmarked hL (hinv.prev_mem hs) hlive hp1
  rw [getUnmarked_of_not_marked this] at hp2
  rw [hp1, hp2]

/-- The successor of a node on a chain. -/
theorem InvC.succ_link {α : Type} {sl : LockFreeSkipList α} {ch : Nat → List Nat}
    (hinv : InvC sl ch) {L : Nat} (hL : L < maxLevel) {A : List Nat} {c : Nat} {cs : List Nat}
    (hs : ch L = A ++ c :: cs) :
    ∃ p, loadNext sl.mem c L = .ok p ∧ getUnmarked p = cs.headD sl.tail := by
  have hp := hinv.path L hL
  rw [hs] at hp
  have : A ++ c :: cs = (A ++ [c]) ++ cs := by simp
  rw [this] at hp
  have := path_link hp
  rw [lastD_append_singleton] at this
  exact this

theorem countP_filter_eq_of_sublist_drop {xs : List Nat} (f : Nat → Bool) (A : List Nat) (c : Nat)
    (cs : List Nat) (hx : xs = A ++ c :: cs) (hc : f c = false) :
    (A ++ cs).filter f = xs.filter f := by
  subst hx
  simp [List.filter_append, List.filter_cons, hc]

/-- Unlinking a dead node at one level keeps the invariant. -/
theorem inv_unlink {α : Type} {sl : LockFreeSkipList α} {ch : Nat → List Nat}
    (hinv : InvC sl ch) {L : Nat} (hL : L < maxLevel) {A : List Nat} {c : Nat} {cs : List Nat}
    (hs : ch L = A ++ c :: cs) (hlive : live sl.mem (lastD A sl.head) = true)
    {nx : Nat} (hnx : loadNext sl.mem c L = .ok nx) (hmk : isMarked nx = true)
    (hup : (ch (L + 1)).Sublist (A ++ cs)) :
    casNext sl.mem (lastD A sl.head) L c (getUnmarked nx) =
        .ok (true, write sl.mem (lastD A sl.head) L (getUnmarked nx)) ∧
      getUnmarked nx = cs.headD sl.tail ∧
      loadNext (write sl.mem (lastD A sl.head) L (getUnmarked nx)) (lastD A sl.head) L =
        .ok (cs.headD sl.tail) ∧
      InvC { sl with mem := write sl.mem (lastD A sl.head) L (getUnmarked nx) }
        (Function.update ch L (A ++ cs)) ∧
      SameShape sl.mem (write sl.mem (lastD A sl.head) L (getUnmarked nx)) ∧
      (∀ x L', L' ≠ L →
        loadNext (write sl.mem (lastD A sl.head) L (getUnmarked nx)) x L' =
          loadNext sl.mem x L') ∧
      (Function.update ch L (A ++ cs) 0).Sublist (ch 0) ∧
      (Function.update ch L (A ++ cs) 0).filter
          (live (write sl.mem (lastD A sl.head) L (getUnmarked nx))) =
        (ch 0).filter (live sl.mem) := by
  have hprev : loadNext sl.mem (lastD A sl.head) L = .ok c := hinv.slot_exact hL hs hlive
  obtain ⟨p, hp1, hp2⟩ := hinv.succ_link hL hs
  rw [hnx] at hp1
  cases hp1
  have hc0 : c ∈ ch 0 := hinv.mem0 (L := L) (by rw [hs]; simp)
  have hcdead : live sl.mem c = false := by
    rw [hinv.marks_agree hc0 hnx, hmk]; rfl
  have hcm : isMarked c = false := hinv.addr_unmarked (Or.inr (Or.inr hc0))
  have hshape : SameShape sl.mem (write sl.mem (lastD A sl.head) L (getUnmarked nx)) :=
    sameShape_write _ hprev (by rw [isMarked_getUnmarked, hcm])
  have hload : ∀ x L', loadNext (write sl.mem (lastD A sl.head) L (getUnmarked nx)) x L' =
      if x = lastD A sl.head ∧ L' = L then .ok (getUnmarked nx) else loadNext sl.mem x L' :=
    fun x L' => loadNext_write _ x L' hprev
  have hframe : ∀ x L', L' ≠ L →
      loadNext (write sl.mem (lastD A sl.head) L (getUnmarked nx)) x L' =
        loadNext sl.mem x L' := by
    intro x L' hne
    rw [hload]
    simp [hne]
  have hsub0 : (Function.update ch L (A ++ cs) 0).Sublist (ch 0) := by
    by_cases h0 : L = 0
    · subst h0
      simp only [Function.update_same]
      rw [hs]
      exact List.Sublist.append_left (List.sublist_cons_self c cs) A
    · rw [Function.update_noteq (Ne.symm h0)]
  have hlive' : ∀ x, live (write sl.mem (lastD A sl.head) L (getUnmarked nx)) x = live sl.mem x :=
    fun x => live_sameShape hshape x
  have hfun : live (write sl.mem (lastD A sl.head) L (getUnmarked nx)) = live sl.mem :=
    funext hlive'
  have hfilter : (Function.update ch L (A ++ cs) 0).filter
      (live (write sl.mem (lastD A sl.head) L (getUnmarked nx))) =
        (ch 0).filter (live sl.mem) := by
    rw [hfun]
    by_cases h0 : L = 0
    · subst h0
      simp only [Function.update_same]
      exact countP_filter_eq_of_sublist_drop _ A c cs hs hcdead
    · rw [Function.update_noteq (Ne.symm h0)]
  have hprevne : lastD A sl.head ≠ sl.tail := by
    rcases hinv.prev_mem (by rw [hs]) with h | h
    · rw [h]; exact hinv.head_ne_tail
    · exact fun e => hinv.tail_not_mem 0 (e ▸ h)
  refine ⟨casNext_eq _ hprev, hp2, ?_, ?_, hshape, hframe, hsub0, hfilter⟩
  · rw [hload, if_pos ⟨rfl, rfl⟩, hp2]
  · constructor
    · exact hinv.head_ne_tail
    · intro L' hL'
      show ∃ p, loadNext (write sl.mem (lastD A sl.head) L (getUnmarked nx)) sl.head L' = _ ∧ _
      rw [hload]
      by_cases hc : sl.head = lastD A sl.head ∧ L' = L
      · exact ⟨getUnmarked nx, by rw [if_pos hc], isMarked_getUnmarked nx⟩
      · simp only [hc, if_false]
        exact hinv.head_slots L' hL'
    · intro L' hL'
      show loadNext (write sl.mem (lastD A sl.head) L (getUnmarked nx)) sl.tail L' = _
      rw [hload]
      have : ¬ (sl.tail = lastD A sl.head ∧ L' = L) := fun h => hprevne h.1.symm
      simp only [this, if_false]
      exact hinv.tail_slots L' hL'
    · intro L' hL'
      show Path (write sl.mem (lastD A sl.head) L (getUnmarked nx)) L' sl.head _ sl.tail
      by_cases hLL : L' = L
      · subst hLL
        simp only [Function.update_same]
        have hp := hinv.path L' hL'
        rw [hs] at hp
        have hn := hinv.nodup_level L'
        rw [hs] at hn
        refine path_unlink hp hn (d := getUnmarked nx) ?_ ?_ ?_
        · rw [hload]; simp
        · rw [getUnmarked_of_not_marked (isMarked_getUnmarked nx)]
          exact hp2
        · intro x hx
          rw [hload]; simp [hx]
      · rw [Function.update_noteq hLL]
        exact path_congr (fun x _ => hframe x L' hLL) (hinv.path L' hL')
    · intro L'
      by_cases h1 : L' = L
      · subst h1
        simp only [Function.update_same]
        rw [Function.update_noteq (by omega)]
        exact hup
      · rw [Function.update_noteq h1]
        by_cases h2 : L' + 1 = L
        · subst h2
          simp only [Function.update_same]
          refine List.Sublist.trans ?_ (hinv.sub L')
          rw [hs]
          exact List.Sublist.append_left (List.sublist_cons_self c cs) A
        · rw [Function.update_noteq h2]
          exact hinv.sub L'
    · intro L' hL'
      rw [Function.update_noteq (by omega)]
      exact hinv.above L' hL'
    · exact hinv.nodup.sublist hsub0
    · intro x hx
      exact goodNode_sameShape hshape (hinv.good x (hsub0.subset hx))
    · show sl.size = _
      rw [List.countP_eq_length_filter, hfilter, hinv.size_eq, List.countP_eq_length_filter]
    · show _ ≤ (write sl.mem (lastD A sl.head) L (getUnmarked nx)).length
      rw [length_write]
      exact le_trans (Nat.add_le_add_right hsub0.length_le 2) hinv.room

theorem sublist_of_cons_of_head_ne {Q : List Nat} {c : Nat} {cs : List Nat}
    (h : Q.Sublist (c :: cs)) (hne : ∀ q, Q.head? = some q → q ≠ c) : Q.Sublist cs := by
  cases h with
  | cons _ h' => exact h'
  | cons₂ _ h' => exact absurd rfl (hne c (by simp))

/-- The walk of `find` at one level stops, within `cs.length + 1` steps, at the
first live node that is not less than `v`, having unlinked the dead nodes it met. -/
theorem findWalk_spec {α : Type} (comp : α → α → Bool) (v : α) (L : Nat) (hL : L < maxLevel) :
    ∀ (n : Nat) (sl : LockFreeSkipList α) (ch : Nat → List Nat) (A cs P Q : List Nat)
      (fuel : Nat), cs.length = n → n < fuel → InvC sl ch → ch L = A ++ cs →
      ch (L + 1) = P ++ Q → P.Sublist A → Q.Sublist cs →
      live sl.mem (lastD A sl.head) = true →
      less comp sl.mem sl.head sl.tail (lastD A sl.head) v = .ok true →
      (∀ q, Q.head? = some q →
        live sl.mem q = true ∧ less comp sl.mem sl.head sl.tail q v = .ok false) →
      ∃ h' ch' A' cs',
        findWalk comp sl.head sl.tail v L fuel sl.mem (lastD A sl.head) (cs.headD sl.tail) =
          .ok (.stop h' (lastD A' sl.head) (cs'.headD sl.tail)) ∧
        WalkPost comp v L sl ch P Q h' ch' A' cs' := by
  intro n
  induction n with
  | zero =>
    intro sl ch A cs P Q fuel hn hfuel hinv hs hup hP hQ hlive hless hstop
    have hcs : cs = [] := List.length_eq_zero.1 hn
    subst hcs
    obtain ⟨k, rfl⟩ : ∃ k, fuel = k + 1 := ⟨fuel - 1, by omega⟩
    refine ⟨sl.mem, ch, A, [], ?_, ?_⟩
    · simp [findWalk, hinv.tail_slots L hL, bind, Except.bind, isMarked_zero,
        less_tail comp sl.mem hinv.head_ne_tail, pure, Except.pure]
    · exact
        { inv := hinv
          split := hs
          other := fun _ _ => rfl
          subP := hP
          subQ := hQ
          prev_live := hlive
          prev_less := hless
          cur_live := hinv.live_tail
          cur_less := less_tail comp sl.mem hinv.head_ne_tail v
          slot := hinv.slot_exact hL hs hlive
          shape := sameShape_refl _
          frame := fun _ _ _ => rfl
          sub0 := List.Sublist.refl _
          members := rfl }
  | succ n ih =>
    intro sl ch A cs P Q fuel hn hfuel hinv hs hup hP hQ hlive hless hstop
    obtain ⟨c, cs', rfl⟩ : ∃ c cs', cs = c :: cs' := by
      cases cs with
      | nil => simp at hn
      | cons c cs' => exact ⟨c, cs', rfl⟩
    have hn' : cs'.length = n := by simpa using hn
    obtain ⟨k, rfl⟩ : ∃ k, fuel = k + 1 := ⟨fuel - 1, by omega⟩
    have hk : n < k := by omega
    obtain ⟨nx, hnx, hnx2⟩ := hinv.succ_link hL hs
    have hc0 : c ∈ ch 0 := hinv.mem0 (L := L) (by rw [hs]; simp)
    have hcl := hinv.marks_agree hc0 hnx
    by_cases hmk : isMarked nx = true
    · -- the node is dead: unlink it
      have hcdead : live sl.mem c = false := by rw [hcl, hmk]; rfl
      have hQ' : Q.Sublist cs' := sublist_of_cons_of_head_ne hQ (fun q hq e => by
        have := (hstop q hq).1
        rw [e, hcdead] at this
        exact Bool.noConfusion this)
      have hup' : (ch (L + 1)).Sublist (A ++ cs') := by
        rw [hup]; exact List.Sublist.append hP hQ'
      obtain ⟨hcas, hnx3, hld, hinv1, hshape, hframe, hsub0, hmem⟩ :=
        inv_unlink hinv hL hs hlive hnx hmk hup'
      have hs1 : Function.update ch L (A ++ cs') L = A ++ cs' := by simp
      have hup1 : Function.update ch L (A ++ cs') (L + 1) = P ++ Q := by
        rw [Function.update_noteq (by omega)]; exact hup
      obtain ⟨h', ch', A', cs'', hrun, hpost⟩ :=
        ih { sl with mem := write sl.mem (lastD A sl.head) L (getUnmarked nx) }
          (Function.update ch L (A ++ cs')) A cs' P Q k hn' hk hinv1 hs1 hup1 hP hQ'
          (by rw [live_sameShape hshape]; exact hlive)
          (by rw [less_sameShape comp hshape]; exact hless)
          (fun q hq => by
            rw [live_sameShape hshape, less_sameShape comp hshape]
            exact hstop q hq)
      refine ⟨h', ch', A', cs'', ?_, ?_⟩
      · rw [← hrun]
        simp only [findWalk, List.headD_cons, hnx, bind, Except.bind, hmk, if_true, hcas,
          Bool.not_true, Bool.false_eq_true, if_false, hld]
        rw [← hnx3, getUnmarked_of_not_marked (isMarked_getUnmarked nx)]
      · exact
          { inv := hpost.inv
            split := hpost.split
            other := fun L' hL' => by
              rw [hpost.other L' hL', Function.update_noteq hL']
            subP := hpost.subP
            subQ := hpost.subQ
            prev_live := hpost.prev_live
            prev_less := hpost.prev_less
            cur_live := hpost.cur_live
            cur_less := hpost.cur_less
            slot := hpost.slot
            shape := sameShape_trans hshape hpost.shape
            frame := fun x L' hL' => by
              rw [hpost.frame x L' hL']; exact hframe x L' hL'
            sub0 := hpost.sub0.trans hsub0
            members := hpost.members.trans hmem }
    · -- the node is live: compare it with the value
      have hmk' : isMarked nx = false := by simpa using hmk
      have hclive : live sl.mem c = true := by rw [hcl, hmk']; rfl
      obtain ⟨a, ha, hlt⟩ := less_good comp (hinv.good c hc0) v
      by_cases hcv : comp a v = true
      · -- advance
        have hs1 : ch L = (A ++ [c]) ++ cs' := by rw [hs]; simp
        have hQ' : Q.Sublist cs' := sublist_of_cons_of_head_ne hQ (fun q hq e => by
          have := (hstop q hq).2
          rw [e, hlt, hcv] at this
          cases this)
        obtain ⟨h', ch', A', cs'', hrun, hpost⟩ :=
          ih sl ch (A ++ [c]) cs' P Q k hn' hk hinv hs1 hup
            (hP.trans (List.sublist_append_left A [c])) hQ'
            (by rw [lastD_append_singleton]; exact hclive)
            (by rw [lastD_append_singleton, hlt, hcv])
            hstop
        refine ⟨h', ch', A', cs'', ?_, hpost⟩
        rw [← hrun, lastD_append_singleton]
        simp only [findWalk, List.headD_cons, hnx, bind, Except.bind, hmk', hlt, hcv,
          Bool.false_eq_true, if_false, Bool.not_true]
        rw [← hnx2, getUnmarked_of_not_marked hmk']
      · -- stop
        have hcv' : comp a v = false := by simpa using hcv
        refine ⟨sl.mem, ch, A, c :: cs', ?_, ?_⟩
        · simp [findWalk, hnx, bind, Except.bind, hmk', hlt, hcv', pure, Except.pure]
        · exact
            { inv := hinv
              split := hs
              other := fun _ _ => rfl
              subP := hP
              subQ := hQ
              prev_live := hlive
              prev_less := hless
              cur_live := hclive
              cur_less := by rw [List.headD_cons, hlt, hcv']
              slot := hinv.slot_exact hL hs hlive
              shape := sameShape_refl _
              frame := fun _ _ _ => rfl
              sub0 := List.Sublist.refl _
              members := rfl }

theorem levelsDone_init {α : Type} (comp : α → α → Bool) (v : α) {sl : LockFreeSkipList α}
    {ch : Nat → List Nat} (hinv : InvC sl ch) {prevs nexts : List Nat}
    (hp : prevs.length = maxLevel) (hn : nexts.length = maxLevel) :
    LevelsDone comp v maxLevel sl ch sl.mem ch (fun _ => []) (fun _ => []) prevs nexts :=
  { inv := hinv
    shape := sameShape_refl _
    sub0 := List.Sublist.refl _
    members := rfl
    plen := hp
    nlen := hn
    top := fun _ _ => ⟨rfl, rfl⟩
    split := fun L hL => by simpa using hinv.above L hL
    subA := fun _ _ => List.Sublist.refl _
    subC := fun _ _ => List.Sublist.refl _
    prev_live := fun _ _ => hinv.live_head
    prev_less := fun _ _ => less_head comp _ _ _ v
    cur_live := fun L h1 h2 => absurd h2 (by omega)
    cur_less := fun L h1 h2 => absurd h2 (by omega)
    slot := fun L h1 h2 => absurd h2 (by omega)
    prevs_eq := fun L h1 h2 => absurd h2 (by omega)
    nexts_eq := fun L h1 h2 => absurd h2 (by omega) }

/-- One pass of `find` over the levels below `k` completes without a retry. -/
theorem findLevels_spec {α : Type} (comp : α → α → Bool) (v : α) (fuel : Nat)
    (sl0 : LockFreeSkipList α) (ch0 : Nat → List Nat) (hfuel : sl0.mem.length ≤ fuel) :
    ∀ (k : Nat) (h : List (node α)) (ch A cs : Nat → List Nat) (prevs nexts : List Nat)
      (cur : Nat), k ≤ maxLevel → LevelsDone comp v k sl0 ch0 h ch A cs prevs nexts →
      (k = 0 → cur = (cs 0).headD sl0.tail) →
      ∃ h' ch' A' cs' prevs' nexts',
        findLevels comp sl0.head sl0.tail v fuel k h (lastD (A k) sl0.head) cur prevs nexts =
          .ok (.done h' ((cs' 0).headD sl0.tail) prevs' nexts') ∧
        LevelsDone comp v 0 sl0 ch0 h' ch' A' cs' prevs' nexts' := by
  intro k
  induction k with
  | zero =>
    intro h ch A cs prevs nexts cur _ hdone hcur
    exact ⟨h, ch, A, cs, prevs, nexts, by simp [findLevels, hcur rfl], hdone⟩
  | succ level ih =>
    intro h ch A cs prevs nexts cur hk hdone _
    have hL : level < maxLevel := by omega
    have hinv := hdone.inv
    have hsub : (A (level + 1) ++ cs (level + 1)).Sublist (ch level) := by
      rw [← hdone.split (level + 1) (le_refl _)]; exact hinv.sub level
    obtain ⟨A0, C0, hs0, hP, hQ, hlast⟩ := split_sublist hsub
    have hlast' : lastD A0 sl0.head = lastD (A (level + 1)) sl0.head := hlast _
    have hlive : live h (lastD A0 sl0.head) = true := by
      rw [hlast']; exact hdone.prev_live (level + 1) (le_refl _)
    have hless : less comp h sl0.head sl0.tail (lastD A0 sl0.head) v = .ok true := by
      rw [hlast']; exact hdone.prev_less (level + 1) (le_refl _)
    have hstop : ∀ q, (cs (level + 1)).head? = some q →
        live h q = true ∧ less comp h sl0.head sl0.tail q v = .ok false := by
      intro q hq
      by_cases hlt : level + 1 < maxLevel
      · have e : (cs (level + 1)).headD sl0.tail = q := by
          cases hc : cs (level + 1) with
          | nil => rw [hc] at hq; cases hq
          | cons c r => rw [hc] at hq; simpa using hq
        rw [← e]
        exact ⟨hdone.cur_live _ (le_refl _) hlt, hdone.cur_less _ (le_refl _) hlt⟩
      · have := (hdone.top (level + 1) (by omega)).2
        rw [this] at hq
        cases hq
    have hlen : C0.length < fuel := by
      have h1 : C0.length ≤ (ch level).length := by rw [hs0]; simp
      have h2 := (hinv.sub0 level).length_le
      have h3 := hinv.room
      have h4 : h.length = sl0.mem.length := hdone.shape.1
      have h3' : (ch 0).length + 2 ≤ h.length := h3
      omega
    obtain ⟨h', ch', A', cs', hrun, hpost⟩ :=
      findWalk_spec comp v level hL C0.length { sl0 with mem := h } ch A0 C0 (A (level + 1))
        (cs (level + 1)) fuel rfl hlen hinv hs0 (hdone.split _ (le_refl _)) hP hQ hlive hless
        hstop
    have hslot0 : loadNext h (lastD A0 sl0.head) level = .ok (C0.headD sl0.tail) :=
      hinv.slot_exact hL hs0 hlive
    have hunm : getUnmarked (C0.headD sl0.tail) = C0.headD sl0.tail := by
      apply getUnmarked_of_not_marked
      apply hinv.addr_unmarked
      rcases hinv.headD_mem hs0 with e | e
      · exact Or.inr (Or.inl e)
      · exact Or.inr (Or.inr e)
    have hshape := hpost.shape
    have hnew : LevelsDone comp v level sl0 ch0 h' ch' (Function.update A level A')
        (Function.update cs level cs') (prevs.set level (lastD A' sl0.head))
        (nexts.set level (cs'.headD sl0.tail)) :=
      { inv := hpost.inv
        shape := sameShape_trans hdone.shape hshape
        sub0 := hpost.sub0.trans hdone.sub0
        members := hpost.members.trans hdone.members
        plen := by rw [List.length_set]; exact hdone.plen
        nlen := by rw [List.length_set]; exact hdone.nlen
        top := fun L hL' => by
          rw [Function.update_noteq (by omega), Function.update_noteq (by omega)]
          exact hdone.top L hL'
        split := fun L hL' => by
          by_cases e : L = level
          · subst e; simpa using hpost.split
          · rw [Function.update_noteq e, Function.update_noteq e, hpost.other L e]
            exact hdone.split L (by omega)
        subA := fun L hL' => by
          by_cases e : L = level
          · subst e
            rw [Function.update_noteq (by omega), Function.update_same]
            exact hpost.subP
          · rw [Function.update_noteq e, Function.update_noteq (by omega)]
            exact hdone.subA L (by omega)
        subC := fun L hL' => by
          by_cases e : L = level
          · subst e
            rw [Function.update_noteq (by omega), Function.update_same]
            exact hpost.subQ
          · rw [Function.update_noteq e, Function.update_noteq (by omega)]
            exact hdone.subC L (by omega)
        prev_live := fun L hL' => by
          by_cases e : L = level
          · subst e; rw [Function.update_same]; exact hpost.prev_live
          · rw [Function.update_noteq e, live_sameShape hshape]
            exact hdone.prev_live L (by omega)
        prev_less := fun L hL' => by
          by_cases e : L = level
          · subst e; rw [Function.update_same]; exact hpost.prev_less
          · rw [Function.update_noteq e, less_sameShape comp hshape]
            exact hdone.prev_less L (by omega)
        cur_live := fun L hL' hlt => by
          by_cases e : L = level
          · subst e; rw [Function.update_same]; exact hpost.cur_live
          · rw [Function.update_noteq e, live_sameShape hshape]
            exact hdone.cur_live L (by omega) hlt
        cur_less := fun L hL' hlt => by
          by_cases e : L = level
          · subst e; rw [Function.update_same]; exact hpost.cur_less
          · rw [Function.update_noteq e, less_sameShape comp hshape]
            exact hdone.cur_less L (by omega) hlt
        slot := fun L hL' hlt => by
          by_cases e : L = level
          · subst e; rw [Function.update_same, Function.update_same]; exact hpost.slot
          · rw [Function.update_noteq e, Function.update_noteq e, hpost.frame _ L e]
            exact hdone.slot L (by omega) hlt
        prevs_eq := fun L hL' hlt => by
          by_cases e : L = level
          · subst e
            rw [Function.update_same]
            simp [List.getElem?_set, hdone.plen, hlt]
          · rw [Function.update_noteq e, List.getElem?_set_ne (Ne.symm e)]
            exact hdone.prevs_eq L (by omega) hlt
        nexts_eq := fun L hL' hlt => by
          by_cases e : L = level
          · subst e
            rw [Function.update_same]
            simp [List.getElem?_set, hdone.nlen, hlt]
          · rw [Function.update_noteq e, List.getElem?_set_ne (Ne.symm e)]
            exact hdone.nexts_eq L (by omega) hlt }
    obtain ⟨h'', ch'', A'', cs'', prevs'', nexts'', hrun2, hdone2⟩ :=
      ih h' ch' (Function.update A level A') (Function.update cs level cs')
        (prevs.set level (lastD A' sl0.head)) (nexts.set level (cs'.headD sl0.tail))
        (cs'.headD sl0.tail) (by omega) hnew (fun e => by subst e; rw [Function.update_same])
    refine ⟨h'', ch'', A'', cs'', prevs'', nexts'', ?_, hdone2⟩
    rw [Function.update_same] at hrun2
    rw [← hrun2, ← hlast']
    simp only [findLevels, hslot0, bind, Except.bind, hunm]
    have hrun' : findWalk comp sl0.head sl0.tail v level fuel h (lastD A0 sl0.head)
        (C0.headD sl0.tail) = .ok (.stop h' (lastD A' sl0.head) (cs'.headD sl0.tail)) := hrun
    rw [hrun']

theorem InvC.mem_length_ge {α : Type} {sl : LockFreeSkipList α} {ch : Nat → List Nat}
    (hinv : InvC sl ch) : 2 ≤ sl.mem.length := by
  have := hinv.room
  omega

/-- The call `find` returns after a single pass, in the state described by `LevelsDone`. -/
theorem find_spec {α : Type} (comp : α → α → Bool) (v : α) {fuel : Nat}
    {sl : LockFreeSkipList α} {ch : Nat → List Nat} (hinv : InvC sl ch)
    (hfuel : sl.mem.length ≤ fuel) (prevs nexts : List Nat) (hp : prevs.length = maxLevel)
    (hn : nexts.length = maxLevel) :
    ∃ found h' ch' A cs prevs' nexts',
      find comp fuel sl.mem sl.head sl.tail v prevs nexts = .ok (found, h', prevs', nexts') ∧
      LevelsDone comp v 0 sl ch h' ch' A cs prevs' nexts' ∧
      equals comp h' sl.head sl.tail ((cs 0).headD sl.tail) v = .ok found := by
  obtain ⟨h', ch', A, cs, prevs', nexts', hrun, hdone⟩ :=
    findLevels_spec comp v fuel sl ch hfuel maxLevel sl.mem ch (fun _ => []) (fun _ => [])
      prevs nexts 0 (le_refl _) (levelsDone_init comp v hinv hp hn)
      (fun e => absurd e (by decide))
  have hinv' := hdone.inv
  have heq : ∃ found, equals comp h' sl.head sl.tail ((cs 0).headD sl.tail) v = .ok found := by
    rcases hinv'.headD_mem (hdone.split 0 (le_refl _)) with e | e
    · exact ⟨false, by rw [show (cs 0).headD sl.tail = sl.tail from e]; exact equals_tail _ _ _ _ _⟩
    · obtain ⟨a, -, ha⟩ := equals_good comp (hinv'.good _ e) v
      exact ⟨_, ha⟩
  obtain ⟨found, hfound⟩ := heq
  obtain ⟨k, hk⟩ : ∃ k, fuel = k + 1 := ⟨fuel - 1, by have := hinv.mem_length_ge; omega⟩
  refine ⟨found, h', ch', A, cs, prevs', nexts', ?_, hdone, hfound⟩
  have hrun' : findLevels comp sl.head sl.tail v fuel maxLevel sl.mem sl.head 0 prevs nexts =
      .ok (.done h' ((cs 0).headD sl.tail) prevs' nexts') := hrun
  unfold find
  conv => lhs; arg 6; rw [hk]
  simp only [findRetry, hrun', bind, Except.bind, hfound, pure, Except.pure]

/-! ## Allocation and the loops of `Add` -/

theorem randomLevelLoop_bounds (rand : Nat → Nat) :
    ∀ (n level draws : Nat), level ≤ (randomLevelLoop rand n level draws).1 ∧
      (randomLevelLoop rand n level draws).1 ≤ level + n := by
  intro n
  induction n with
  | zero => intro level draws; simp [randomLevelLoop]
  | succ n ih =>
    intro level draws
    simp only [randomLevelLoop]
    split
    · have := ih (level + 1) (draws + 1)
      omega
    · simp

theorem randomLevel_bounds (rand : Nat → Nat) (draws : Nat) :
    1 ≤ (randomLevel rand draws).1 ∧ (randomLevel rand draws).1 ≤ maxLevel := by
  have := randomLevelLoop_bounds rand (maxLevel - 1) 1 draws
  unfold randomLevel
  have h20 : maxLevel = 20 := rfl
  omega

theorem addrOf_props (i : Nat) : addrOf i ≠ 0 ∧ addrOf i % 2 = 0 ∧ addrOf i / 2 - 1 = i := by
  unfold addrOf; omega

theorem deref_append {α : Type} (h : List (node α)) (nd : node α) (x : Nat) :
    deref (h ++ [nd]) x = if x = addrOf h.length then .ok nd else deref h x := by
  obtain ⟨a0, a1, a2⟩ := addrOf_props h.length
  by_cases hx : x = addrOf h.length
  · subst hx
    simp only [if_true]
    apply deref_ok_iff.2
    refine ⟨a0, a1, ?_⟩
    rw [a2]
    simp
  · simp only [hx, if_false]
    unfold deref
    by_cases h0 : x = 0
    · simp [h0]
    · by_cases h1 : x % 2 = 1
      · simp [h0, h1]
      · simp only [h0, h1, if_false]
        have hne : x / 2 - 1 ≠ h.length := by
          unfold addrOf at hx; omega
        by_cases hlt : x / 2 - 1 < h.length
        · rw [List.getElem?_append_left hlt]
        · have e1 : (h ++ [nd])[x / 2 - 1]? = none := by
            rw [List.getElem?_eq_none_iff]; simp; omega
          have e2 : h[x / 2 - 1]? = none := by
            rw [List.getElem?_eq_none_iff]; omega
          rw [e1, e2]

theorem deref_fresh {α : Type} (h : List (node α)) : ∀ nd, deref h (addrOf h.length) ≠ .ok nd := by
  intro nd hnd
  have := (deref_bounds.1 ⟨nd, hnd⟩).2.2
  rw [(addrOf_props h.length).2.2] at this
  omega

theorem list_set_self {β : Type} {l : List β} {i : Nat} {a : β} (h : l[i]? = some a) :
    l.set i a = l := by
  apply List.ext_getElem?
  intro j
  by_cases hij : i = j
  · subst hij
    obtain ⟨hlt, -⟩ := List.getElem?_eq_some_iff.1 h
    simp [List.getElem?_set, hlt, h]
  · rw [List.getElem?_set_ne hij]

theorem write_self {α : Type} {h : List (node α)} {p L d : Nat} (hp : loadNext h p L = .ok d) :
    write h p L d = h := by
  obtain ⟨n, hn, hs⟩ := loadNext_ok_iff.1 hp
  obtain ⟨-, -, h2⟩ := deref_ok_iff.1 hn
  unfold write
  rw [h2]
  have e1 : n.nexts.set L d = n.nexts := list_set_self hs
  simp only [e1]
  exact list_set_self h2

theorem clearNexts_eq {α : Type} (nd : Nat) :
    ∀ (k level : Nat) (h : List (node α)),
      (∀ L, level ≤ L → L < level + k → loadNext h nd L = .ok 0) →
      clearNexts nd k level h = .ok h := by
  intro k
  induction k with
  | zero => intro level h _; rfl
  | succ k ih =>
    intro level h hz
    have h0 := hz level (le_refl _) (by omega)
    simp only [clearNexts, storeNext_eq 0 h0, bind, Except.bind, write_self h0]
    exact ih (level + 1) h (fun L h1 h2 => hz L (by omega) (by omega))

theorem newNode_eq {α : Type} (h : List (node α)) (level : Nat) (value : Option α) :
    newNode h level value =
      .ok (addrOf h.length, h ++ [node.mk level (List.replicate level 0) value]) := by
  have hd := deref_append h (node.mk level (List.replicate level 0) value) (addrOf h.length)
  simp only [if_true] at hd
  have hc := clearNexts_eq (addrOf h.length) level 0
    (h ++ [node.mk level (List.replicate level 0) value])
    (fun L _ hL => loadNext_ok_iff.2 ⟨_, hd, by
      simp only [Nat.zero_add] at hL
      simp [List.getElem?_replicate, hL]⟩)
  simp only [newNode, hd, bind, Except.bind, Nat.sub_zero, hc, pure, Except.pure]

theorem copyNexts_spec {α : Type} (nd : Nat) (nexts : List Nat) :
    ∀ (k level : Nat) (h : List (node α)),
      (∀ L, level ≤ L → L < level + k →
        ∃ e, loadNext h nd L = .ok e ∧ isMarked e = false) →
      (∀ L, level ≤ L → L < level + k → ∃ t, nexts[L]? = some t ∧ isMarked t = false) →
      ∃ h', copyNexts nd nexts k level h = .ok h' ∧ SameShape h h' ∧
        ∀ x L, loadNext h' x L =
          if x = nd ∧ level ≤ L ∧ L < level + k then .ok (nexts.getD L 0) else loadNext h x L := by
  intro k
  induction k with
  | zero =>
    intro level h _ _
    refine ⟨h, rfl, sameShape_refl _, fun x L => ?_⟩
    have : ¬ (x = nd ∧ level ≤ L ∧ L < level + 0) := by omega
    simp only [this, if_false]
  | succ k ih =>
    intro level h hs ht
    obtain ⟨e, he, hem⟩ := hs level (le_refl _) (by omega)
    obtain ⟨t, ht0, htm⟩ := ht level (le_refl _) (by omega)
    have hshape := sameShape_write t he (by rw [htm, hem])
    have hload := fun x L => loadNext_write t x L he
    obtain ⟨h', hrun, hsh', hl'⟩ := ih (level + 1) (write h nd level t)
      (fun L h1 h2 => by
        obtain ⟨e', he', hem'⟩ := hs L (by omega) (by omega)
        refine ⟨e', ?_, hem'⟩
        rw [hload, if_neg (by omega)]
        exact he')
      (fun L h1 h2 => ht L (by omega) (by omega))
    refine ⟨h', ?_, sameShape_trans hshape hsh', fun x L => ?_⟩
    · simp only [copyNexts, index, ht0, bind, Except.bind, storeNext_eq t he]
      exact hrun
    · rw [hl', hload]
      by_cases hx : x = nd
      · by_cases hL : L = level
        · subst hx hL
          have : ¬ (x = x ∧ L + 1 ≤ L ∧ L < L + 1 + k) := by omega
          simp only [this, if_false, true_and, le_refl, and_self, if_true]
          have : L < L + (k + 1) := by omega
          simp [this, List.getD, ht0]
        · subst hx
          have h1 : ¬ (x = x ∧ L = level) := by omega
          simp only [h1, if_false]
          by_cases hr : level + 1 ≤ L ∧ L < level + 1 + k
          · have hr' : level ≤ L ∧ L < level + (k + 1) := by omega
            simp [hr, hr']
          · have hr' : ¬ (level ≤ L ∧ L < level + (k + 1)) := by omega
            simp [hr, hr', hL]
      · simp [hx]

theorem linkUpper_spec {α : Type} (comp : α → α → Bool) (fuel : Nat) (hd tl : Nat) (v : α)
    (nd : Nat) (prevs nexts : List Nat) (hfuel : 1 ≤ fuel) (hnd : isMarked nd = false) :
    ∀ (k level : Nat) (h : List (node α)),
      (∀ L, level ≤ L → L < level + k → ∃ p t, prevs[L]? = some p ∧ nexts[L]? = some t ∧
        loadNext h p L = .ok t ∧ isMarked t = false) →
      ∃ h', linkUpper comp fuel hd tl v nd k level h prevs nexts = .ok (h', prevs, nexts) ∧
        SameShape h h' ∧
        ∀ x L, loadNext h' x L =
          if level ≤ L ∧ L < level + k ∧ prevs[L]? = some x then .ok nd else loadNext h x L := by
  intro k
  induction k with
  | zero =>
    intro level h _
    refine ⟨h, rfl, sameShape_refl _, fun x L => ?_⟩
    rw [if_neg (by omega)]
  | succ k ih =>
    intro level h hs
    obtain ⟨p, t, hp, ht, hl, htm⟩ := hs level (le_refl _) (by omega)
    have hshape := sameShape_write nd hl (by rw [hnd, htm])
    have hload := fun x L => loadNext_write nd x L hl
    obtain ⟨h', hrun, hsh', hl'⟩ := ih (level + 1) (write h p level nd)
      (fun L h1 h2 => by
        obtain ⟨p', t', hp', ht', hl2, htm'⟩ := hs L (by omega) (by omega)
        refine ⟨p', t', hp', ht', ?_, htm'⟩
        rw [hload, if_neg (by omega)]
        exact hl2)
    obtain ⟨f, rfl⟩ : ∃ f, fuel = f + 1 := ⟨fuel - 1, by omega⟩
    refine ⟨h', ?_, sameShape_trans hshape hsh', fun x L => ?_⟩
    · simp only [linkUpper, linkLevel, index, hp, ht, bind, Except.bind, casNext_eq nd hl,
        if_true, pure, Except.pure]
      exact hrun
    · rw [hl', hload]
      by_cases hL : L = level
      · subst hL
        have e0 : ¬ (L + 1 ≤ L ∧ L < L + 1 + k ∧ prevs[L]? = some x) := by omega
        rw [if_neg e0]
        by_cases hx : x = p
        · subst hx
          rw [if_pos ⟨rfl, rfl⟩, if_pos ⟨le_refl _, by omega, hp⟩]
        · have e1 : ¬ (x = p ∧ L = L) := fun h => hx h.1
          rw [if_neg e1, if_neg]
          rintro ⟨-, -, h3⟩
          rw [hp] at h3
          exact hx (Option.some.inj h3).symm
      · have e : ¬ (x = p ∧ L = level) := fun h => hL h.2
        rw [if_neg e]
        by_cases hr : level + 1 ≤ L ∧ L < level + 1 + k ∧ prevs[L]? = some x
        · rw [if_pos hr, if_pos ⟨by omega, by omega, hr.2.2⟩]
        · rw [if_neg hr, if_neg]
          rintro ⟨h1, h2, h3⟩
          exact hr ⟨by omega, by omega, h3⟩

theorem wrapInt32_add (x y : Int) : wrapInt32 (wrapInt32 x + y) = wrapInt32 (x + y) := by
  unfold wrapInt32
  omega

theorem wrapInt32_of_small {x : Int} (h1 : -(2 ^ 31) ≤ x) (h2 : x < 2 ^ 31) : wrapInt32 x = x := by
  unfold wrapInt32
  omega

theorem isMarked_addrOf (i : Nat) : isMarked (addrOf i) = false := by
  simp [isMarked_eq, (addrOf_props i).2.1]

theorem loadNext_append {α : Type} (h : List (node α)) (nd : node α) (x L : Nat) :
    loadNext (h ++ [nd]) x L =
      if x = addrOf h.length then index nd.nexts L else loadNext h x L := by
  unfold loadNext
  rw [deref_append]
  by_cases hx : x = addrOf h.length
  · simp [hx, bind, Except.bind]
  · simp [hx]

theorem live_append {α : Type} (h : List (node α)) (nd : node α) {x : Nat}
    (hx : x ≠ addrOf h.length) : live (h ++ [nd]) x = live h x := by
  unfold live
  rw [loadNext_append, if_neg hx]

theorem valOf_append {α : Type} (h : List (node α)) (nd : node α) {x : Nat}
    (hx : x ≠ addrOf h.length) : valOf (h ++ [nd]) x = valOf h x := by
  unfold valOf
  rw [deref_append, if_neg hx]

theorem goodNode_append {α : Type} (h : List (node α)) (nd : node α) {hd tl x : Nat}
    (hg : GoodNode h hd tl x) : GoodNode (h ++ [nd]) hd tl x := by
  obtain ⟨h1, h2, n, v, hn, hrest⟩ := hg
  have hx : x ≠ addrOf h.length := fun e => deref_fresh h n (e ▸ hn)
  exact ⟨h1, h2, n, v, by rw [deref_append, if_neg hx]; exact hn, hrest⟩

theorem InvC.valid {α : Type} {sl : LockFreeSkipList α} {ch : Nat → List Nat}
    (hinv : InvC sl ch) {x : Nat} (hx : x = sl.head ∨ x = sl.tail ∨ x ∈ ch 0) :
    ∃ nd, deref sl.mem x = .ok nd := by
  rcases hx with rfl | rfl | hx
  · obtain ⟨p, hp, -⟩ := hinv.head_slots 0 maxLevel_pos
    obtain ⟨nd, hnd, -⟩ := loadNext_ok_iff.1 hp
    exact ⟨nd, hnd⟩
  · obtain ⟨nd, hnd, -⟩ := loadNext_ok_iff.1 (hinv.tail_slots 0 maxLevel_pos)
    exact ⟨nd, hnd⟩
  · obtain ⟨-, -, nd, v, hnd, -⟩ := hinv.good x hx
    exact ⟨nd, hnd⟩

theorem InvC.ne_fresh {α : Type} {sl : LockFreeSkipList α} {ch : Nat → List Nat}
    (hinv : InvC sl ch) {x : Nat} (hx : x = sl.head ∨ x = sl.tail ∨ x ∈ ch 0) :
    x ≠ addrOf sl.mem.length := by
  obtain ⟨nd, hnd⟩ := hinv.valid hx
  exact fun e => deref_fresh sl.mem nd (e ▸ hnd)

/-- Linking a fresh node of height `top` between `prevs` and `nexts` at the
levels below `top` keeps the invariant. -/
theorem insert_inv {α : Type} {comp : α → α → Bool} {v : α} {sl0 : LockFreeSkipList α}
    {ch0 : Nat → List Nat} {h1 : List (node α)} {ch1 A cs : Nat → List Nat}
    {prevs nexts : List Nat} (hdone : LevelsDone comp v 0 sl0 ch0 h1 ch1 A cs prevs nexts)
    {top : Nat} (h1top : 1 ≤ top) (htop : top ≤ maxLevel) {hF : List (node α)}
    (hshape : SameShape (h1 ++ [node.mk top (List.replicate top 0) (some v)]) hF)
    (hnew : ∀ L, L < top → loadNext hF (addrOf h1.length) L = .ok ((cs L).headD sl0.tail))
    (hprev : ∀ L, L < top → loadNext hF (lastD (A L) sl0.head) L = .ok (addrOf h1.length))
    (hothers : ∀ x L, x ≠ addrOf h1.length → (L < top → x ≠ lastD (A L) sl0.head) →
      loadNext hF x L = loadNext h1 x L)
    (size' : Int) (draws' : Nat) (hsize : size' = wrapInt32 (sl0.size + 1)) :
    InvC { mem := hF, head := sl0.head, tail := sl0.tail, size := size', draws := draws' }
        (fun L => if L < top then A L ++ addrOf h1.length :: cs L else ch1 L) ∧
      live hF (addrOf h1.length) = true ∧ valOf hF (addrOf h1.length) = some v ∧
      ∀ x, x ≠ addrOf h1.length → live hF x = live h1 x ∧ valOf hF x = valOf h1 x := by
  have hinv1 := hdone.inv
  have hfresh : ∀ x, (x = sl0.head ∨ x = sl0.tail ∨ x ∈ ch1 0) → x ≠ addrOf h1.length :=
    fun x hx => hinv1.ne_fresh hx
  have hsplit : ∀ L, ch1 L = A L ++ cs L := fun L => hdone.split L (Nat.zero_le _)
  have hprevmem : ∀ L, lastD (A L) sl0.head = sl0.head ∨ lastD (A L) sl0.head ∈ ch1 0 :=
    fun L => hinv1.prev_mem (hsplit L)
  have hnextmem : ∀ L, (cs L).headD sl0.tail = sl0.tail ∨ (cs L).headD sl0.tail ∈ ch1 0 :=
    fun L => hinv1.headD_mem (hsplit L)
  have hprevne : ∀ L, lastD (A L) sl0.head ≠ sl0.tail := by
    intro L
    rcases hprevmem L with h | h
    · rw [h]; exact hinv1.head_ne_tail
    · exact fun e => hinv1.tail_not_mem 0 (e ▸ h)
  have hold : ∀ x, x ≠ addrOf h1.length → live hF x = live h1 x ∧ valOf hF x = valOf h1 x := by
    intro x hx
    rw [live_sameShape hshape, valOf_sameShape hshape, live_append _ _ hx, valOf_append _ _ hx]
    exact ⟨rfl, rfl⟩
  have hdn : deref (h1 ++ [node.mk top (List.replicate top 0) (some v)]) (addrOf h1.length) =
      .ok (node.mk top (List.replicate top 0) (some v)) := by
    rw [deref_append, if_pos rfl]
  obtain ⟨ndn, hndn, hnl, hnv, hnlen, hnm⟩ := hshape.2 _ _ hdn
  have hnlive : live hF (addrOf h1.length) = true := by
    have h0 := hnew 0 (by omega)
    have hu : isMarked ((cs 0).headD sl0.tail) = false := by
      apply hinv1.addr_unmarked
      rcases hnextmem 0 with e | e
      · exact Or.inr (Or.inl e)
      · exact Or.inr (Or.inr e)
    unfold live
    rw [h0]
    simp only [hu, Bool.not_false]
  have hnval : valOf hF (addrOf h1.length) = some v := by
    simp only [valOf, hndn]
    exact hnv
  refine ⟨?_, hnlive, hnval, hold⟩
  constructor
  · exact hinv1.head_ne_tail
  · intro L hL
    show ∃ p, loadNext hF sl0.head L = .ok p ∧ isMarked p = false
    by_cases hc : L < top ∧ sl0.head = lastD (A L) sl0.head
    · refine ⟨addrOf h1.length, ?_, isMarked_addrOf _⟩
      have := hprev L hc.1
      rw [← hc.2] at this
      exact this
    · rw [hothers sl0.head L (hfresh _ (Or.inl rfl)) (fun h e => hc ⟨h, e⟩)]
      exact hinv1.head_slots L hL
  · intro L hL
    show loadNext hF sl0.tail L = .ok 0
    rw [hothers sl0.tail L (hfresh _ (Or.inr (Or.inl rfl))) (fun _ e => hprevne L e.symm)]
    exact hinv1.tail_slots L hL
  · intro L hL
    show Path hF L sl0.head _ sl0.tail
    have hp := hinv1.path L hL
    have hnd := hinv1.nodup_level L
    by_cases hlt : L < top
    · simp only [hlt, if_true]
      rw [hsplit L] at hp hnd
      have hnotin : addrOf h1.length ∉ sl0.head :: (A L ++ cs L) := by
        intro hm
        rcases List.mem_cons.1 hm with e | e
        · exact hfresh _ (Or.inl rfl) e.symm
        · rw [← hsplit L] at e
          exact hfresh _ (Or.inr (Or.inr (hinv1.mem0 e))) rfl
      refine path_insert hp hnd hnotin (hprev L hlt)
        (getUnmarked_of_not_marked (isMarked_addrOf _)) (hnew L hlt) ?_ ?_
      · apply getUnmarked_of_not_marked
        apply hinv1.addr_unmarked
        rcases hnextmem L with e | e
        · exact Or.inr (Or.inl e)
        · exact Or.inr (Or.inr e)
      · intro x hx1 hx2
        exact hothers x L hx2 (fun _ => hx1)
    · simp only [hlt, if_false]
      refine path_congr (fun x hx => hothers x L ?_ (fun h => absurd h hlt)) hp
      rcases List.mem_cons.1 hx with e | e
      · exact hfresh _ (Or.inl e)
      · exact hfresh _ (Or.inr (Or.inr (hinv1.mem0 e)))
  · intro L
    show (if L + 1 < top then _ else _ : List Nat).Sublist (if L < top then _ else _)
    by_cases h1 : L + 1 < top
    · have h2 : L < top := by omega
      simp only [h1, h2, if_true]
      exact List.Sublist.append (hdone.subA L (Nat.zero_le _))
        (List.Sublist.cons₂ _ (hdone.subC L (Nat.zero_le _)))
    · by_cases h2 : L < top
      · simp only [h1, h2, if_true, if_false]
        rw [hsplit (L + 1)]
        exact List.Sublist.append (hdone.subA L (Nat.zero_le _))
          (List.Sublist.cons _ (hdone.subC L (Nat.zero_le _)))
      · simp only [h1, h2, if_false]
        exact hinv1.sub L
  · intro L hL
    show (if L < top then _ else _ : List Nat) = []
    rw [if_neg (by omega)]
    exact hinv1.above L hL
  · show (if 0 < top then _ else _ : List Nat).Nodup
    rw [if_pos (by omega)]
    apply List.nodup_middle.2
    apply List.nodup_cons.2
    rw [← hsplit 0]
    exact ⟨fun hm => hfresh _ (Or.inr (Or.inr hm)) rfl, hinv1.nodup⟩
  · intro x hx
    show GoodNode hF sl0.head sl0.tail x
    have hx' : x ∈ (if 0 < top then A 0 ++ addrOf h1.length :: cs 0 else ch1 0) := hx
    rw [if_pos (by omega)] at hx'
    by_cases hxn : x = addrOf h1.length
    · subst hxn
      refine ⟨fun e => hfresh _ (Or.inl rfl) e.symm, fun e => hfresh _ (Or.inr (Or.inl rfl)) e.symm,
        ndn, v, hndn, hnv, ?_, ?_, ?_, ?_⟩
      · rw [hnlen, hnl]; simp
      · rw [hnl]; exact h1top
      · rw [hnl]; exact htop
      · intro L p q hp hq
        have hLlt : L < top := by
          rcases List.getElem?_eq_some_iff.1 hp with ⟨hl, -⟩
          rw [hnlen] at hl
          simpa using hl
        obtain ⟨p', hp', hmp⟩ := hnm L 0 (by simp [List.getElem?_replicate, hLlt])
        obtain ⟨q', hq', hmq⟩ := hnm 0 0 (by
          have : 0 < top := by omega
          simp [List.getElem?_replicate, this])
        rw [hp] at hp'
        rw [hq] at hq'
        cases hp'; cases hq'
        rw [hmp, hmq]
    · have hx1 : x ∈ ch1 0 := by
        rw [hsplit 0]
        rcases List.mem_append.1 hx' with e | e
        · exact List.mem_append_left _ e
        · rcases List.mem_cons.1 e with e | e
          · exact absurd e hxn
          · exact List.mem_append_right _ e
      exact goodNode_sameShape hshape (goodNode_append _ _ (hinv1.good x hx1))
  · show size' = wrapInt32 ((List.countP (live hF) (if 0 < top then _ else _) : Nat) : Int)
    rw [if_pos (by omega), hsize, hinv1.size_eq, wrapInt32_add]
    have hc : List.countP (live hF) (A 0 ++ addrOf h1.length :: cs 0) =
        List.countP (live h1) (ch1 0) + 1 := by
      rw [hsplit 0, List.countP_append, List.countP_cons, List.countP_append, hnlive]
      have e1 : List.countP (live hF) (A 0) = List.countP (live h1) (A 0) := by
        apply List.countP_congr
        intro x hx
        have hxn : x ≠ addrOf h1.length := by
          apply hfresh
          right; right
          rw [hsplit 0]
          exact List.mem_append_left _ hx
        rw [(hold x hxn).1]
      have e2 : List.countP (live hF) (cs 0) = List.countP (live h1) (cs 0) := by
        apply List.countP_congr
        intro x hx
        have hxn : x ≠ addrOf h1.length := by
          apply hfresh
          right; right
          rw [hsplit 0]
          exact List.mem_append_right _ hx
        rw [(hold x hxn).1]
      rw [e1, e2]
      simp
      omega
    show wrapInt32 (((List.countP (live h1) (ch1 0) : Nat) : Int) + 1) = _
    rw [hc]
    simp
  · show (if 0 < top then _ else _ : List Nat).length + 2 ≤ hF.length
    rw [if_pos (by omega), hshape.1]
    have := hinv1.room
    have h2 : (ch1 0).length + 2 ≤ h1.length := this
    rw [hsplit 0] at h2
    simp at h2 ⊢
    omega

theorem findPost_of_done {α : Type} {comp : α → α → Bool} {v : α} {sl : LockFreeSkipList α}
    {ch : Nat → List Nat} {h1 : List (node α)} {ch1 A cs : Nat → List Nat}
    {prevs nexts : List Nat} (hdone : LevelsDone comp v 0 sl ch h1 ch1 A cs prevs nexts)
    {found : Bool} (hf : equals comp h1 sl.head sl.tail ((cs 0).headD sl.tail) v = .ok found) :
    FindPost comp v sl ch found h1 ch1 (A 0) (cs 0) :=
  { inv := hdone.inv
    shape := hdone.shape
    split := hdone.split 0 (le_refl _)
    sub0 := hdone.sub0
    members := hdone.members
    prev_less := hdone.prev_less 0 (le_refl _)
    cur_live := hdone.cur_live 0 (le_refl _) maxLevel_pos
    cur_less := hdone.cur_less 0 (le_refl _) maxLevel_pos
    found_eq := hf }

/-- The call `Add` returns: `false` after a `find` that found the value, `true` after
linking a fresh node at every level below its height. -/
theorem add_spec {α : Type} (comp : α → α → Bool) (rand : Nat → Nat) (v : α) {fuel : Nat}
    {sl : LockFreeSkipList α} {ch : Nat → List Nat} (hinv : InvC sl ch)
    (hfuel : sl.mem.length ≤ fuel) :
    ∃ found h1 ch1 A C, FindPost comp v sl ch found h1 ch1 A C ∧
      (found = true → Add comp rand fuel sl v = .ok (false, { sl with mem := h1 })) ∧
      (found = false → ∃ hF ch',
        Add comp rand fuel sl v = .ok (true,
          { sl with mem := hF
                    draws := (randomLevel rand sl.draws).2
                    size := wrapInt32 (sl.size + 1) }) ∧
        InvC
          { sl with mem := hF
                    draws := (randomLevel rand sl.draws).2
                    size := wrapInt32 (sl.size + 1) } ch' ∧
        hF.length = h1.length + 1 ∧ ch' 0 = A ++ addrOf h1.length :: C ∧
        live hF (addrOf h1.length) = true ∧ valOf hF (addrOf h1.length) = some v ∧
        ∀ x, x ≠ addrOf h1.length → live hF x = live h1 x ∧ valOf hF x = valOf h1 x) := by
  obtain ⟨found, h1, ch1, A, cs, prevs, nexts, hrun, hdone, hfound⟩ :=
    find_spec comp v hinv hfuel (List.replicate maxLevel 0) (List.replicate maxLevel 0)
      (by simp) (by simp)
  have hpost := findPost_of_done hdone hfound
  obtain ⟨k, hk⟩ : ∃ k, fuel = k + 1 := ⟨fuel - 1, by have := hinv.mem_length_ge; omega⟩
  refine ⟨found, h1, ch1, A 0, cs 0, hpost, ?_, ?_⟩
  · intro hf
    subst hf
    unfold Add
    conv => lhs; arg 5; rw [hk]
    simp only [addLoop, hrun, bind, Except.bind, if_true, pure, Except.pure]
  · intro hf
    subst hf
    have hinv1 := hdone.inv
    obtain ⟨h1top, htop⟩ := randomLevel_bounds rand sl.draws
    rcases hrl : randomLevel rand sl.draws with ⟨top, d'⟩
    rw [hrl] at h1top htop
    simp only at h1top htop
    have hsplit : ∀ L, ch1 L = A L ++ cs L := fun L => hdone.split L (Nat.zero_le _)
    have hfresh : ∀ x, (x = sl.head ∨ x = sl.tail ∨ x ∈ ch1 0) → x ≠ addrOf h1.length :=
      fun x hx => hinv1.ne_fresh hx
    have hprevmem : ∀ L, lastD (A L) sl.head = sl.head ∨ lastD (A L) sl.head ∈ ch1 0 :=
      fun L => hinv1.prev_mem (hsplit L)
    have hnextmem : ∀ L, (cs L).headD sl.tail = sl.tail ∨ (cs L).headD sl.tail ∈ ch1 0 :=
      fun L => hinv1.headD_mem (hsplit L)
    have hprevfresh : ∀ L, lastD (A L) sl.head ≠ addrOf h1.length := by
      intro L
      rcases hprevmem L with e | e
      · exact hfresh _ (Or.inl e)
      · exact hfresh _ (Or.inr (Or.inr e))
    have hnextunm : ∀ L, isMarked ((cs L).headD sl.tail) = false := by
      intro L
      apply hinv1.addr_unmarked
      rcases hnextmem L with e | e
      · exact Or.inr (Or.inl e)
      · exact Or.inr (Or.inr e)
    -- allocation and the copy of `nexts` into the fresh node
    obtain ⟨h3, hcopy, hsh3, hl3⟩ := copyNexts_spec (addrOf h1.length) nexts top 0
      (h1 ++ [node.mk top (List.replicate top 0) (some v)])
      (fun L _ hL => ⟨0, by
        rw [loadNext_append, if_pos rfl]
        simp only [Nat.zero_add] at hL
        simp [index, List.getElem?_replicate, hL], isMarked_zero⟩)
      (fun L _ hL => ⟨_, hdone.nexts_eq L (Nat.zero_le _) (by omega), hnextunm L⟩)
    have hold3 : ∀ x L, x ≠ addrOf h1.length → loadNext h3 x L = loadNext h1 x L := by
      intro x L hx
      rw [hl3, if_neg (fun h => hx h.1), loadNext_append, if_neg hx]
    -- the bottom link
    have hp0 : loadNext h3 (lastD (A 0) sl.head) 0 = .ok ((cs 0).headD sl.tail) := by
      rw [hold3 _ _ (hprevfresh 0)]
      exact hdone.slot 0 (le_refl _) maxLevel_pos
    have hsh4 := sameShape_write (addrOf h1.length) hp0
      (by rw [isMarked_addrOf, hnextunm 0])
    have hl4 := fun x L => loadNext_write (addrOf h1.length) x L hp0
    -- the upper links
    obtain ⟨h5, hlink, hsh5, hl5⟩ := linkUpper_spec comp fuel sl.head sl.tail v
      (addrOf h1.length) prevs nexts (by omega) (isMarked_addrOf _) (top - 1) 1
      (write h3 (lastD (A 0) sl.head) 0 (addrOf h1.length))
      (fun L hL1 hL2 => ⟨_, _, hdone.prevs_eq L (Nat.zero_le _) (by omega),
        hdone.nexts_eq L (Nat.zero_le _) (by omega), by
          rw [hl4, if_neg (by omega), hold3 _ _ (hprevfresh L)]
          exact hdone.slot L (Nat.zero_le _) (by omega), hnextunm L⟩)
    have hprevs : ∀ L x, L < top → (prevs[L]? = some x ↔ x = lastD (A L) sl.head) := by
      intro L x hL
      rw [hdone.prevs_eq L (Nat.zero_le _) (by omega)]
      constructor
      · intro e; exact (Option.some.inj e).symm
      · intro e; rw [e]
    obtain ⟨hI, hlv, hvl, hold⟩ := insert_inv hdone h1top htop
      (sameShape_trans hsh3 (sameShape_trans hsh4 hsh5))
      (fun L hL => by
        rw [hl5, if_neg, hl4, if_neg, hl3, if_pos ⟨rfl, Nat.zero_le _, by omega⟩]
        · rw [List.getD_eq_getElem?_getD, hdone.nexts_eq L (Nat.zero_le _) (by omega)]
          rfl
        · exact fun h => hprevfresh 0 h.1.symm
        · rintro ⟨h1, h2, h3⟩
          exact hprevfresh L ((hprevs L _ hL).1 h3).symm)
      (fun L hL => by
        rw [hl5]
        by_cases h0 : L = 0
        · subst h0
          rw [if_neg (by omega), hl4, if_pos ⟨rfl, rfl⟩]
        · rw [if_pos ⟨by omega, by omega, (hprevs L _ hL).2 rfl⟩])
      (fun x L hx hnp => by
        rw [hl5, if_neg, hl4, if_neg]
        · exact hold3 x L hx
        · rintro ⟨h1, h2⟩
          subst h2
          exact hnp (by omega) h1
        · rintro ⟨h1, h2, h3⟩
          have hlt : L < top := by omega
          exact hnp hlt ((hprevs L _ hlt).1 h3))
      (wrapInt32 (sl.size + 1)) d' rfl
    refine ⟨h5, _, ?_, hI, ?_, ?_, hlv, hvl, hold⟩
    · unfold Add
      conv => lhs; arg 5; rw [hk]
      simp only [addLoop, hrun, bind, Except.bind, Bool.false_eq_true, if_false, hrl,
        newNode_eq, Nat.sub_zero, hcopy, index, hdone.prevs_eq 0 (le_refl _) maxLevel_pos,
        hdone.nexts_eq 0 (le_refl _) maxLevel_pos, casNext_eq (addrOf h1.length) hp0,
        Bool.not_true, hlink, pure, Except.pure]
    · rw [hsh5.1, hsh4.1, hsh3.1]
      simp
    · show (if 0 < top then _ else _ : List Nat) = _
      rw [if_pos (by omega)]

/-! ## The marking loops of `Remove` -/

theorem sameNodes_refl {α : Type} (h : List (node α)) : SameNodes h h :=
  ⟨rfl, fun _ nd hnd => ⟨nd, hnd, rfl, rfl, rfl⟩⟩

theorem sameNodes_trans {α : Type} {h1 h2 h3 : List (node α)} (h12 : SameNodes h1 h2)
    (h23 : SameNodes h2 h3) : SameNodes h1 h3 := by
  refine ⟨h23.1.trans h12.1, fun x nd hnd => ?_⟩
  obtain ⟨nd2, hd2, hl2, hv2, hn2⟩ := h12.2 x nd hnd
  obtain ⟨nd3, hd3, hl3, hv3, hn3⟩ := h23.2 x nd2 hd2
  exact ⟨nd3, hd3, hl3.trans hl2, hv3.trans hv2, hn3.trans hn2⟩

theorem sameNodes_write {α : Type} {h : List (node α)} {p L e : Nat} (d : Nat)
    (hp : loadNext h p L = .ok e) : SameNodes h (write h p L d) := by
  obtain ⟨n, hn, hs⟩ := loadNext_ok_iff.1 hp
  refine ⟨length_write h p L d, fun x nd hnd => ?_⟩
  rw [deref_write L d x hn]
  by_cases hx : x = p
  · subst hx
    have : nd = n := by rw [hn] at hnd; exact (Except.ok.inj hnd).symm
    subst this
    exact ⟨{ nd with nexts := nd.nexts.set L d }, by simp, rfl, rfl, by simp⟩
  · simp only [hx, if_false]
    exact ⟨nd, hnd, rfl, rfl, rfl⟩

theorem valOf_sameNodes {α : Type} {h h' : List (node α)} (hs : SameNodes h h') (x : Nat) :
    valOf h' x = valOf h x := by
  unfold valOf
  cases hx : deref h x with
  | ok nd =>
    obtain ⟨nd', hd', -, hv, -⟩ := hs.2 x nd hx
    simp [hd', hv]
  | error e => simp [deref_error_of_length hs.1 hx]

theorem markLevel_spec {α : Type} {h : List (node α)} {nd L e : Nat}
    (he : loadNext h nd L = .ok e) (hm : isMarked e = false) {fuel : Nat} (hfuel : 2 ≤ fuel) :
    markLevel nd L fuel h e = .ok (write h nd L (getMarked e)) := by
  obtain ⟨f, rfl⟩ : ∃ f, fuel = f + 2 := ⟨fuel - 2, by omega⟩
  have hl : loadNext (write h nd L (getMarked e)) nd L = .ok (getMarked e) := by
    rw [loadNext_write _ _ _ he, if_pos ⟨rfl, rfl⟩]
  simp only [markLevel, hm, Bool.not_false, if_true, casNext_eq (getMarked e) he, bind,
    Except.bind, hl, isMarked_getMarked, Bool.not_true, Bool.false_eq_true, if_false]

theorem markUpper_spec {α : Type} (nd : Nat) {fuel : Nat} (hfuel : 2 ≤ fuel) :
    ∀ (k : Nat) (h : List (node α)),
      (∀ L, 1 ≤ L → L ≤ k → ∃ e, loadNext h nd L = .ok e ∧ isMarked e = false) →
      ∃ h', markUpper fuel nd k h = .ok h' ∧ SameNodes h h' ∧
        ∀ x L, loadNext h' x L =
          if x = nd ∧ 1 ≤ L ∧ L ≤ k then (loadNext h x L).map getMarked else loadNext h x L := by
  intro k
  induction k with
  | zero =>
    intro h _
    refine ⟨h, rfl, sameNodes_refl _, fun x L => ?_⟩
    rw [if_neg (by omega)]
  | succ k ih =>
    intro h hs
    obtain ⟨e, he, hem⟩ := hs (k + 1) (by omega) (le_refl _)
    have hload := fun x L => loadNext_write (getMarked e) x L he
    obtain ⟨h', hrun, hsn, hl'⟩ := ih (write h nd (k + 1) (getMarked e))
      (fun L h1 h2 => by
        obtain ⟨e', he', hem'⟩ := hs L h1 (by omega)
        refine ⟨e', ?_, hem'⟩
        rw [hload, if_neg (by omega)]
        exact he')
    refine ⟨h', ?_, sameNodes_trans (sameNodes_write _ he) hsn, fun x L => ?_⟩
    · simp only [markUpper, he, bind, Except.bind, markLevel_spec he hem hfuel]
      exact hrun
    · rw [hl']
      by_cases hx : x = nd
      · subst hx
        by_cases hL : L = k + 1
        · subst hL
          have e0 : ¬ (x = x ∧ 1 ≤ k + 1 ∧ k + 1 ≤ k) := by omega
          rw [if_neg e0, hload, if_pos ⟨rfl, rfl⟩, if_pos ⟨rfl, by omega, le_refl _⟩, he]
          rfl
        · have e1 : ¬ (x = x ∧ L = k + 1) := fun h => hL h.2
          rw [hload, if_neg e1]
          by_cases hr : 1 ≤ L ∧ L ≤ k
          · rw [if_pos ⟨rfl, hr⟩, if_pos ⟨rfl, by omega, by omega⟩]
          · rw [if_neg (fun h => hr h.2), if_neg (fun h => hr ⟨h.2.1, by omega⟩)]
      · have e1 : ¬ (x = nd ∧ 1 ≤ L ∧ L ≤ k) := fun h => hx h.1
        have e2 : ¬ (x = nd ∧ 1 ≤ L ∧ L ≤ k + 1) := fun h => hx h.1
        have e3 : ¬ (x = nd ∧ L = k + 1) := fun h => hx h.1
        rw [if_neg e1, if_neg e2, hload, if_neg e3]

theorem markBottom_spec {α : Type} {h : List (node α)} {nd e : Nat}
    (he : loadNext h nd 0 = .ok e) (hm : isMarked e = false) {fuel : Nat} (hfuel : 1 ≤ fuel) :
    markBottom nd fuel h e = .ok (true, write h nd 0 (getMarked e)) := by
  obtain ⟨f, rfl⟩ : ∃ f, fuel = f + 1 := ⟨fuel - 1, by omega⟩
  simp only [markBottom, hm, Bool.false_eq_true, if_false, casNext_eq (getMarked e) he, bind,
    Except.bind, if_true, pure, Except.pure]

theorem path_congr_link {α : Type} {h h' : List (node α)} {L a : Nat} {xs : List Nat} {b : Nat}
    (hc : ∀ x y, x ∈ a :: xs → Link h L x y → Link h' L x y) (hp : Path h L a xs b) :
    Path h' L a xs b := by
  induction xs generalizing a with
  | nil => exact hc a b (by simp) hp
  | cons x xs ih =>
    exact ⟨hc a x (by simp) hp.1, ih (fun y z hy => hc y z (List.mem_cons_of_mem _ hy)) hp.2⟩

theorem loadNext_error_of_ge {α : Type} {h : List (node α)} {x L : Nat} {nd : node α}
    (hx : deref h x = .ok nd) (hL : nd.nexts.length ≤ L) :
    loadNext h x L = .error .indexOutOfRange := by
  have : nd.nexts[L]? = none := List.getElem?_eq_none_iff.2 hL
  simp [loadNext, hx, bind, Except.bind, index, this]

theorem countP_middle_drop (f g : Nat → Bool) (A : List Nat) (c : Nat) (rest : List Nat)
    (hn : (A ++ c :: rest).Nodup) (hf : f c = true) (hg : g c = false)
    (hfg : ∀ x, x ≠ c → g x = f x) :
    List.countP g (A ++ c :: rest) + 1 = List.countP f (A ++ c :: rest) := by
  have hn' := List.nodup_middle.1 hn
  have hcn : c ∉ A ++ rest := (List.nodup_cons.1 hn').1
  have e1 : List.countP g A = List.countP f A :=
    List.countP_congr (fun x hx => by
      rw [hfg x (fun e => hcn (e ▸ List.mem_append_left _ hx))])
  have e2 : List.countP g rest = List.countP f rest :=
    List.countP_congr (fun x hx => by
      rw [hfg x (fun e => hcn (e ▸ List.mem_append_right _ hx))])
  rw [List.countP_append, List.countP_cons, List.countP_append, List.countP_cons, e1, e2, hf, hg]
  simp
  omega

/-- Marking every slot of a live node of the bottom chain keeps the invariant
and decrements the number of live nodes. -/
theorem mark_inv {α : Type} {sl : LockFreeSkipList α} {ch : Nat → List Nat} (hinv : InvC sl ch)
    {c : Nat} (hc : c ∈ ch 0) (hlive : live sl.mem c = true) {hR : List (node α)}
    (hsn : SameNodes sl.mem hR)
    (hl : ∀ x L, loadNext hR x L =
      if x = c then (loadNext sl.mem x L).map getMarked else loadNext sl.mem x L)
    (size' : Int) (hsize : size' = wrapInt32 (sl.size + -1)) :
    InvC { sl with mem := hR, size := size' } ch ∧ live hR c = false ∧
      ∀ x, x ≠ c → live hR x = live sl.mem x := by
  have hgc := hinv.good c hc
  have hlo : ∀ x, x ≠ c → live hR x = live sl.mem x := by
    intro x hx
    unfold live
    rw [hl, if_neg hx]
  have hlc : live hR c = false := by
    obtain ⟨-, -, nd, v, hnd, -, hlen, hl1, -⟩ := hgc
    have h0 : 0 < nd.nexts.length := by omega
    have : loadNext sl.mem c 0 = .ok nd.nexts[0] :=
      loadNext_ok_iff.2 ⟨nd, hnd, List.getElem?_eq_getElem h0⟩
    unfold live
    rw [hl, if_pos rfl, this]
    simp [Except.map, isMarked_getMarked]
  refine ⟨?_, hlc, hlo⟩
  constructor
  · exact hinv.head_ne_tail
  · intro L hL
    show ∃ p, loadNext hR sl.head L = .ok p ∧ isMarked p = false
    rw [hl, if_neg (Ne.symm (hgc.1))]
    exact hinv.head_slots L hL
  · intro L hL
    show loadNext hR sl.tail L = .ok 0
    rw [hl, if_neg (Ne.symm (hgc.2.1))]
    exact hinv.tail_slots L hL
  · intro L hL
    show Path hR L sl.head (ch L) sl.tail
    refine path_congr_link (fun x y _ hxy => ?_) (hinv.path L hL)
    obtain ⟨p, hp1, hp2⟩ := hxy
    by_cases hx : x = c
    · refine ⟨getMarked p, ?_, by rw [getUnmarked_getMarked]; exact hp2⟩
      rw [hl, if_pos hx, hp1]
      rfl
    · exact ⟨p, by rw [hl, if_neg hx]; exact hp1, hp2⟩
  · exact hinv.sub
  · exact hinv.above
  · exact hinv.nodup
  · intro x hx
    show GoodNode hR sl.head sl.tail x
    obtain ⟨h1, h2, nd, v, hnd, hv, hlen, hl1, hl2, hm⟩ := hinv.good x hx
    obtain ⟨nd', hnd', hlv', hv', hlen'⟩ := hsn.2 x nd hnd
    refine ⟨h1, h2, nd', v, hnd', by rw [hv', hv], by rw [hlen', hlv', hlen], by rw [hlv']; exact hl1,
      by rw [hlv']; exact hl2, fun L p q hp hq => ?_⟩
    have hp' : loadNext hR x L = .ok p := loadNext_ok_iff.2 ⟨nd', hnd', hp⟩
    have hq' : loadNext hR x 0 = .ok q := loadNext_ok_iff.2 ⟨nd', hnd', hq⟩
    rw [hl] at hp' hq'
    by_cases hxc : x = c
    · rw [if_pos hxc] at hp' hq'
      cases hp0 : loadNext sl.mem x L with
      | error e => rw [hp0] at hp'; cases hp'
      | ok p0 =>
        cases hq0 : loadNext sl.mem x 0 with
        | error e => rw [hq0] at hq'; cases hq'
        | ok q0 =>
          rw [hp0] at hp'
          rw [hq0] at hq'
          have e1 : getMarked p0 = p := Except.ok.inj hp'
          have e2 : getMarked q0 = q := Except.ok.inj hq'
          rw [← e1, ← e2, isMarked_getMarked, isMarked_getMarked]
    · rw [if_neg hxc] at hp' hq'
      obtain ⟨n1, hn1, hp1⟩ := loadNext_ok_iff.1 hp'
      obtain ⟨n2, hn2, hq1⟩ := loadNext_ok_iff.1 hq'
      rw [hnd] at hn1 hn2
      cases hn1; cases hn2
      exact hm L p q hp1 hq1
  · show size' = wrapInt32 ((List.countP (live hR) (ch 0) : Nat) : Int)
    obtain ⟨A, rest, hsplit⟩ := List.append_of_mem hc
    have hcnt := countP_middle_drop (live sl.mem) (live hR) A c rest (hsplit ▸ hinv.nodup) hlive hlc
      hlo
    rw [← hsplit] at hcnt
    rw [hsize, hinv.size_eq, wrapInt32_add, ← hcnt]
    congr 1
    push_cast
    ring
  · show (ch 0).length + 2 ≤ hR.length
    rw [hsn.1]
    exact hinv.room

/-- The call `Contains` returns the flag of `find`. -/
theorem contains_spec {α : Type} (comp : α → α → Bool) (v : α) {fuel : Nat}
    {sl : LockFreeSkipList α} {ch : Nat → List Nat} (hinv : InvC sl ch)
    (hfuel : sl.mem.length ≤ fuel) :
    ∃ found h1 ch1 A C, FindPost comp v sl ch found h1 ch1 A C ∧
      Contains comp fuel sl v = .ok (found, { sl with mem := h1 }) := by
  obtain ⟨found, h1, ch1, A, cs, prevs, nexts, hrun, hdone, hfound⟩ :=
    find_spec comp v hinv hfuel (List.replicate maxLevel 0) (List.replicate maxLevel 0)
      (by simp) (by simp)
  refine ⟨found, h1, ch1, A 0, cs 0, findPost_of_done hdone hfound, ?_⟩
  simp only [Contains, hrun, bind, Except.bind, pure, Except.pure]

/-- The call `Remove` returns: `false` after a `find` that did not find the value,
`true` after marking every slot of the node found. -/
theorem remove_spec {α : Type} (comp : α → α → Bool) (v : α) {fuel : Nat}
    {sl : LockFreeSkipList α} {ch : Nat → List Nat} (hinv : InvC sl ch)
    (hfuel : sl.mem.length ≤ fuel) :
    ∃ found h1 ch1 A C, FindPost comp v sl ch found h1 ch1 A C ∧
      (found = false → Remove comp fuel sl v = .ok (false, { sl with mem := h1 })) ∧
      (found = true → ∃ c rest hR, C = c :: rest ∧
        Remove comp fuel sl v =
          .ok (true, { sl with mem := hR, size := wrapInt32 (sl.size + -1) }) ∧
        InvC { sl with mem := hR, size := wrapInt32 (sl.size + -1) } ch1 ∧
        hR.length = h1.length ∧ live hR c = false ∧
        (∀ x, x ≠ c → live hR x = live h1 x) ∧ ∀ x, valOf hR x = valOf h1 x) := by
  obtain ⟨found, h1, ch1, A, cs, prevs, nexts, hrun, hdone, hfound⟩ :=
    find_spec comp v hinv hfuel (List.replicate maxLevel 0) (List.replicate maxLevel 0)
      (by simp) (by simp)
  have hpost := findPost_of_done hdone hfound
  refine ⟨found, h1, ch1, A 0, cs 0, hpost, ?_, ?_⟩
  · intro hf
    subst hf
    simp only [Remove, hrun, bind, Except.bind, Bool.not_false, if_true, pure, Except.pure]
  · intro hf
    subst hf
    have hinv1 := hdone.inv
    obtain ⟨c, rest, hC⟩ : ∃ c rest, cs 0 = c :: rest := by
      cases hcs : cs 0 with
      | nil =>
        rw [hcs] at hfound
        simp only [List.headD_nil] at hfound
        rw [equals_tail] at hfound
        cases hfound
      | cons c rest => exact ⟨c, rest, rfl⟩
    have hc0 : c ∈ ch1 0 := by
      rw [hdone.split 0 (le_refl _), hC]; simp
    have hlive : live h1 c = true := by
      have := hdone.cur_live 0 (le_refl _) maxLevel_pos
      rw [hC] at this
      exact this
    have hnx : nexts[0]? = some c := by
      rw [hdone.nexts_eq 0 (le_refl _) maxLevel_pos, hC]; rfl
    obtain ⟨hne1, hne2, nd, a, hnd, hv, hlen, hl1, hl2, hm⟩ := hinv1.good c hc0
    have hslot : ∀ L, L < nd.level → ∃ e, loadNext h1 c L = .ok e ∧ isMarked e = false := by
      intro L hL
      have hlt : L < nd.nexts.length := by omega
      have hld : loadNext h1 c L = .ok nd.nexts[L] :=
        loadNext_ok_iff.2 ⟨nd, hnd, List.getElem?_eq_getElem hlt⟩
      refine ⟨_, hld, ?_⟩
      have := hinv1.marks_agree hc0 hld
      rw [show live h1 c = true from hlive] at this
      simpa using this.symm
    have hfuel2 : 2 ≤ fuel := by
      have := hinv.mem_length_ge
      omega
    obtain ⟨h2, hup, hsn2, hl2'⟩ := markUpper_spec c hfuel2 (nd.level - 1) h1
      (fun L h1' h2' => hslot L (by omega))
    obtain ⟨e0, he0, hem0⟩ := hslot 0 (by omega)
    have he0' : loadNext h2 c 0 = .ok e0 := by
      rw [hl2', if_neg (by omega)]
      exact he0
    have hbot := markBottom_spec he0' hem0 (show 1 ≤ fuel by omega)
    have hl3 := fun x L => loadNext_write (getMarked e0) x L he0'
    have hsn3 : SameNodes h1 (write h2 c 0 (getMarked e0)) :=
      sameNodes_trans hsn2 (sameNodes_write _ he0')
    have hform : ∀ x L, loadNext (write h2 c 0 (getMarked e0)) x L =
        if x = c then (loadNext h1 x L).map getMarked else loadNext h1 x L := by
      intro x L
      rw [hl3]
      by_cases hx : x = c
      · subst hx
        rw [if_pos rfl]
        by_cases h0 : L = 0
        · subst h0
          rw [if_pos ⟨rfl, rfl⟩, he0]
          rfl
        · have e1 : ¬ (x = x ∧ L = 0) := fun h => h0 h.2
          rw [if_neg e1, hl2']
          by_cases hr : L ≤ nd.level - 1
          · rw [if_pos ⟨rfl, by omega, hr⟩]
          · have e2 : ¬ (x = x ∧ 1 ≤ L ∧ L ≤ nd.level - 1) := fun h => hr h.2.2
            rw [if_neg e2, loadNext_error_of_ge hnd (by omega)]
            rfl
      · have e1 : ¬ (x = c ∧ L = 0) := fun h => hx h.1
        have e2 : ¬ (x = c ∧ 1 ≤ L ∧ L ≤ nd.level - 1) := fun h => hx h.1
        rw [if_neg e1, if_neg hx, hl2', if_neg e2]
    obtain ⟨hI, hdead, hothers⟩ := mark_inv hinv1 hc0 hlive hsn3 hform
      (wrapInt32 (sl.size + -1)) rfl
    refine ⟨c, rest, write h2 c 0 (getMarked e0), hC, ?_, hI, hsn3.1, hdead, hothers,
      fun x => valOf_sameNodes hsn3 x⟩
    simp only [Remove, hrun, bind, Except.bind, Bool.not_true, Bool.false_eq_true, if_false,
      index, hnx, hnd, hup, he0', hbot, pure, Except.pure]

/-! ## The fresh list -/

theorem linkHead_spec {α : Type} (hd tl : Nat) (htl : isMarked tl = false) :
    ∀ (k level : Nat) (h : List (node α)),
      (∀ L, level ≤ L → L < level + k →
        ∃ e, loadNext h hd L = .ok e ∧ isMarked e = false) →
      ∃ h', linkHead hd tl k level h = .ok h' ∧ SameShape h h' ∧
        ∀ x L, loadNext h' x L =
          if x = hd ∧ level ≤ L ∧ L < level + k then .ok tl else loadNext h x L := by
  intro k
  induction k with
  | zero =>
    intro level h _
    refine ⟨h, rfl, sameShape_refl _, fun x L => ?_⟩
    rw [if_neg (by omega)]
  | succ k ih =>
    intro level h hs
    obtain ⟨e, he, hem⟩ := hs level (le_refl _) (by omega)
    have hshape := sameShape_write tl he (by rw [htl, hem])
    have hload := fun x L => loadNext_write tl x L he
    obtain ⟨h', hrun, hsh', hl'⟩ := ih (level + 1) (write h hd level tl)
      (fun L h1 h2 => by
        obtain ⟨e', he', hem'⟩ := hs L (by omega) (by omega)
        refine ⟨e', ?_, hem'⟩
        rw [hload, if_neg (by omega)]
        exact he')
    refine ⟨h', ?_, sameShape_trans hshape hsh', fun x L => ?_⟩
    · simp only [linkHead, bind, Except.bind, storeNext_eq tl he]
      exact hrun
    · rw [hl', hload]
      by_cases hx : x = hd
      · subst hx
        by_cases hL : L = level
        · subst hL
          have e0 : ¬ (x = x ∧ L + 1 ≤ L ∧ L < L + 1 + k) := by omega
          rw [if_neg e0, if_pos ⟨rfl, rfl⟩, if_pos ⟨rfl, le_refl _, by omega⟩]
        · have e1 : ¬ (x = x ∧ L = level) := fun h => hL h.2
          by_cases hr : level + 1 ≤ L ∧ L < level + 1 + k
          · rw [if_pos ⟨rfl, hr⟩, if_pos ⟨rfl, by omega, by omega⟩]
          · have e2 : ¬ (x = x ∧ level + 1 ≤ L ∧ L < level + 1 + k) := fun h => hr h.2
            have e3 : ¬ (x = x ∧ level ≤ L ∧ L < level + (k + 1)) := by omega
            rw [if_neg e2, if_neg e1, if_neg e3]
      · have e1 : ¬ (x = hd ∧ level + 1 ≤ L ∧ L < level + 1 + k) := fun h => hx h.1
        have e2 : ¬ (x = hd ∧ level ≤ L ∧ L < level + (k + 1)) := fun h => hx h.1
        have e3 : ¬ (x = hd ∧ L = level) := fun h => hx h.1
        rw [if_neg e1, if_neg e2, if_neg e3]

/-- The call `NewLockFreeSkipList` returns a list with two sentinels, empty chains and
size 0. -/
theorem newList_spec (α : Type) :
    ∃ sl : LockFreeSkipList α, NewLockFreeSkipList α = .ok sl ∧ InvC sl (fun _ => []) ∧
      sl.size = 0 ∧ sl.mem.length = 2 ∧ sl.draws = 0 := by
  have h2 : addrOf 0 = 2 := rfl
  have h4 : addrOf 1 = 4 := rfl
  have hd0 : deref [node.mk maxLevel (List.replicate maxLevel 0) (none : Option α),
      node.mk maxLevel (List.replicate maxLevel 0) none] 2 =
      .ok (node.mk maxLevel (List.replicate maxLevel 0) none) := rfl
  have ht0 : deref [node.mk maxLevel (List.replicate maxLevel 0) (none : Option α),
      node.mk maxLevel (List.replicate maxLevel 0) none] 4 =
      .ok (node.mk maxLevel (List.replicate maxLevel 0) none) := rfl
  have hl2 : ∀ L, L < maxLevel →
      loadNext [node.mk maxLevel (List.replicate maxLevel 0) (none : Option α),
        node.mk maxLevel (List.replicate maxLevel 0) none] 2 L = .ok 0 :=
    fun L hL => loadNext_ok_iff.2 ⟨_, hd0, by simp [List.getElem?_replicate, hL]⟩
  have hl4 : ∀ L, L < maxLevel →
      loadNext [node.mk maxLevel (List.replicate maxLevel 0) (none : Option α),
        node.mk maxLevel (List.replicate maxLevel 0) none] 4 L = .ok 0 :=
    fun L hL => loadNext_ok_iff.2 ⟨_, ht0, by simp [List.getElem?_replicate, hL]⟩
  obtain ⟨h3, hrun, hsh, hl⟩ := linkHead_spec (α := α) 2 4 (by decide) maxLevel 0
    [node.mk maxLevel (List.replicate maxLevel 0) none,
      node.mk maxLevel (List.replicate maxLevel 0) none]
    (fun L _ hL => ⟨0, hl2 L (by omega), isMarked_zero⟩)
  refine ⟨{ mem := h3, head := 2, tail := 4, size := 0, draws := 0 }, ?_, ?_, rfl, ?_, rfl⟩
  · simp only [NewLockFreeSkipList, newNode_eq, bind, Except.bind, List.length_nil,
      List.nil_append, List.length_singleton, h2, h4, List.singleton_append, Nat.sub_zero, hrun,
      pure, Except.pure]
  · have hh : ∀ L, L < maxLevel → loadNext h3 2 L = .ok 4 := by
      intro L hL
      rw [hl, if_pos ⟨rfl, Nat.zero_le _, by omega⟩]
    have ht : ∀ L, L < maxLevel → loadNext h3 4 L = .ok 0 := by
      intro L hL
      have e : ¬ ((4 : Nat) = 2 ∧ 0 ≤ L ∧ L < 0 + maxLevel) := by omega
      rw [hl, if_neg e]
      exact hl4 L hL
    constructor
    · show (2 : Nat) ≠ 4
      decide
    · intro L hL
      exact ⟨4, hh L hL, by decide⟩
    · intro L hL
      exact ht L hL
    · intro L hL
      exact ⟨4, hh L hL, show getUnmarked 4 = 4 by decide⟩
    · intro L
      exact List.Sublist.refl _
    · intro L _
      rfl
    · exact List.nodup_nil
    · intro x hx
      cases hx
    · show (0 : Int) = wrapInt32 ((List.countP _ ([] : List Nat) : Nat) : Int)
      rw [List.countP_nil]
      decide
    · show 0 + 2 ≤ h3.length
      rw [hsh.1]
      exact le_refl _
  · show h3.length = 2
    rw [hsh.1]
    rfl

/-! ## What `find` reports on a sorted chain -/

theorem sortedBy_congr {α : Type} (comp : α → α → Bool) {h h' : List (node α)} {xs : List Nat}
    (hv : ∀ x, x ∈ xs → valOf h' x = valOf h x) (hs : SortedBy comp h xs) :
    SortedBy comp h' xs := by
  unfold SortedBy at *
  have hs' := List.Pairwise.and_mem.1 hs
  refine List.Pairwise.imp ?_ hs'
  rintro x y ⟨hx, hy, a, b, ha, hb, hab⟩
  exact ⟨a, b, by rw [hv x hx]; exact ha, by rw [hv y hy]; exact hb, hab⟩

theorem findPost_sorted {α : Type} {comp : α → α → Bool} {v : α} {sl : LockFreeSkipList α}
    {ch : Nat → List Nat} {found : Bool} {h1 : List (node α)} {ch1 : Nat → List Nat}
    {A C : List Nat} (hp : FindPost comp v sl ch found h1 ch1 A C)
    (hs : SortedBy comp sl.mem (ch 0)) : SortedBy comp h1 (A ++ C) := by
  rw [← hp.split]
  exact sortedBy_congr comp (fun x _ => valOf_sameShape hp.shape x)
    (List.Pairwise.sublist hp.sub0 hs)

theorem findPost_left {α : Type} {comp : α → α → Bool} (sw : StrictWeak comp) {v : α}
    {sl : LockFreeSkipList α} {ch : Nat → List Nat} {found : Bool} {h1 : List (node α)}
    {ch1 : Nat → List Nat} {A C : List Nat} (hp : FindPost comp v sl ch found h1 ch1 A C)
    (hs : SortedBy comp h1 (A ++ C)) :
    ∀ x, x ∈ A → ∃ a, valOf h1 x = some a ∧ comp a v = true := by
  rcases List.eq_nil_or_concat A with hA | ⟨A', p, hA⟩
  · subst hA
    intro x hx
    cases hx
  · rw [List.concat_eq_append] at hA
    subst hA
    have hpm : p ∈ ch1 0 := by rw [hp.split]; simp
    obtain ⟨a, ha, hlt⟩ : ∃ a, valOf h1 p = some a ∧
        less comp h1 sl.head sl.tail p v = .ok (comp a v) :=
      less_good comp (hp.inv.good p hpm) v
    have hpl := hp.prev_less
    rw [lastD_append_singleton, hlt] at hpl
    have hav : comp a v = true := by
      have := Except.ok.inj hpl
      exact this
    intro x hx
    rcases List.mem_append.1 hx with hx | hx
    · have hpw : (A' ++ [p]).Pairwise _ := (List.pairwise_append.1 hs).1
      obtain ⟨ax, ap, hax, hap, hlt'⟩ := (List.pairwise_append.1 hpw).2.2 x hx p (by simp)
      rw [ha] at hap
      cases hap
      exact ⟨ax, hax, sw.trans _ _ _ hlt' hav⟩
    · simp at hx
      subst hx
      exact ⟨a, ha, hav⟩

theorem findPost_right {α : Type} {comp : α → α → Bool} {v : α}
    {sl : LockFreeSkipList α} {ch : Nat → List Nat} {found : Bool} {h1 : List (node α)}
    {ch1 : Nat → List Nat} {A C : List Nat} (hp : FindPost comp v sl ch found h1 ch1 A C)
    (hs : SortedBy comp h1 (A ++ C)) :
    (C = [] ∧ found = false) ∨
      ∃ c rest cv, C = c :: rest ∧ live h1 c = true ∧ valOf h1 c = some cv ∧
        comp cv v = false ∧ found = !comp v cv ∧
        ∀ y, y ∈ rest → ∃ b, valOf h1 y = some b ∧ comp cv b = true := by
  cases C with
  | nil =>
    left
    have := hp.found_eq
    simp only [List.headD_nil] at this
    rw [equals_tail] at this
    exact ⟨rfl, (Except.ok.inj this).symm⟩
  | cons c rest =>
    right
    have hcm : c ∈ ch1 0 := by rw [hp.split]; simp
    obtain ⟨cv, hcv, hlt⟩ : ∃ a, valOf h1 c = some a ∧
        less comp h1 sl.head sl.tail c v = .ok (comp a v) :=
      less_good comp (hp.inv.good c hcm) v
    obtain ⟨cv', hcv', heq⟩ : ∃ a, valOf h1 c = some a ∧
        equals comp h1 sl.head sl.tail c v = .ok (!comp a v && !comp v a) :=
      equals_good comp (hp.inv.good c hcm) v
    rw [hcv] at hcv'
    cases hcv'
    have hcl := hp.cur_less
    simp only [List.headD_cons] at hcl
    rw [hlt] at hcl
    have hcf : comp cv v = false := Except.ok.inj hcl
    have hfe := hp.found_eq
    simp only [List.headD_cons] at hfe
    rw [heq, hcf] at hfe
    have hfound : found = !comp v cv := by
      have := Except.ok.inj hfe
      simpa using this.symm
    refine ⟨c, rest, cv, rfl, hp.cur_live, hcv, hcf, hfound, fun y hy => ?_⟩
    have hpw : (c :: rest).Pairwise _ := (List.pairwise_append.1 hs).2.1
    obtain ⟨a, b, ha, hb, hab⟩ := (List.pairwise_cons.1 hpw).1 y hy
    rw [hcv] at ha
    cases ha
    exact ⟨b, hb, hab⟩

/-! ## The represented set -/

theorem absList_append {α : Type} (h : List (node α)) (xs ys : List Nat) :
    absList h (xs ++ ys) = absList h xs ++ absList h ys := by
  simp [absList, List.filter_append, List.filterMap_append]

theorem absList_cons_live {α : Type} {h : List (node α)} {x : Nat} {a : α} (xs : List Nat)
    (hl : live h x = true) (hv : valOf h x = some a) :
    absList h (x :: xs) = a :: absList h xs := by
  simp [absList, List.filter_cons, hl, List.filterMap_cons, hv]

theorem absList_cons_dead {α : Type} {h : List (node α)} {x : Nat} (xs : List Nat)
    (hl : live h x = false) : absList h (x :: xs) = absList h xs := by
  simp [absList, List.filter_cons, hl]

theorem absList_congr {α : Type} {h h' : List (node α)} {xs : List Nat}
    (hc : ∀ x, x ∈ xs → live h' x = live h x ∧ valOf h' x = valOf h x) :
    absList h' xs = absList h xs := by
  induction xs with
  | nil => rfl
  | cons x xs ih =>
    obtain ⟨hl, hv⟩ := hc x (by simp)
    have ih' := ih (fun y hy => hc y (List.mem_cons_of_mem _ hy))
    unfold absList at ih' ⊢
    simp only [List.filter_cons, hl]
    cases live h x
    · simpa using ih'
    · simp only [if_true, List.filterMap_cons, hv]
      rw [ih']

theorem absList_mem {α : Type} {h : List (node α)} {xs : List Nat} {a : α}
    (ha : a ∈ absList h xs) : ∃ x, x ∈ xs ∧ live h x = true ∧ valOf h x = some a := by
  unfold absList at ha
  obtain ⟨x, hx, hv⟩ := List.mem_filterMap.1 ha
  obtain ⟨hx1, hx2⟩ := List.mem_filter.1 hx
  exact ⟨x, hx1, hx2, hv⟩

theorem StrictWeak.lt_of_equiv_lt {α : Type} {comp : α → α → Bool} (sw : StrictWeak comp)
    {c v b : α} (h1 : comp c v = false) (h2 : comp v c = false) (h3 : comp c b = true) :
    comp v b = true := by
  by_contra hvb
  have hvb' : comp v b = false := by simpa using hvb
  cases hbv : comp b v with
  | true =>
    have := sw.trans c b v h3 hbv
    rw [h1] at this
    cases this
  | false =>
    have := (sw.incomp_trans c v b h1 h2 hvb' hbv).1
    rw [h3] at this
    cases this

theorem refContains_perm {α : Type} (comp : α → α → Bool) {S T : List α} (hp : S.Perm T)
    (v : α) : refContains comp S v = refContains comp T v := by
  unfold refContains
  rw [Bool.eq_iff_iff]
  simp only [List.any_eq_true]
  constructor
  · rintro ⟨x, hx, h⟩
    exact ⟨x, hp.mem_iff.1 hx, h⟩
  · rintro ⟨x, hx, h⟩
    exact ⟨x, hp.mem_iff.2 hx, h⟩

theorem findPost_abs {α : Type} {comp : α → α → Bool} {v : α} {sl : LockFreeSkipList α}
    {ch : Nat → List Nat} {found : Bool} {h1 : List (node α)} {ch1 : Nat → List Nat}
    {A C : List Nat} (hp : FindPost comp v sl ch found h1 ch1 A C) :
    absList h1 (A ++ C) = absList sl.mem (ch 0) := by
  have hv : valOf h1 = valOf sl.mem := funext (fun x => valOf_sameShape hp.shape x)
  unfold absList
  rw [← hp.split, hp.members, hv]

/-- On a sorted chain `find` reports exactly membership in the represented set. -/
theorem found_eq_ref {α : Type} {comp : α → α → Bool} (sw : StrictWeak comp) {v : α}
    {sl : LockFreeSkipList α} {ch : Nat → List Nat} {found : Bool} {h1 : List (node α)}
    {ch1 : Nat → List Nat} {A C : List Nat} (hp : FindPost comp v sl ch found h1 ch1 A C)
    (hs : SortedBy comp h1 (A ++ C)) : found = refContains comp (absList h1 (A ++ C)) v := by
  have hleft := findPost_left sw hp hs
  have hright := findPost_right hp hs
  rw [Bool.eq_iff_iff]
  unfold refContains
  simp only [List.any_eq_true]
  constructor
  · intro hf
    rcases hright with ⟨-, hn⟩ | ⟨c, rest, cv, hC, hcl, hcv, hcf, hfound, -⟩
    · rw [hf] at hn
      cases hn
    · refine ⟨cv, ?_, ?_⟩
      · rw [absList_append, hC, absList_cons_live rest hcl hcv]
        simp
      · rw [hf] at hfound
        have : comp v cv = false := by simpa using hfound.symm
        simp [equivalent, hcf, this]
  · rintro ⟨a, ha, heq⟩
    obtain ⟨x, hx, -, hxv⟩ := absList_mem ha
    have he1 : comp a v = false := by
      simp only [equivalent, Bool.and_eq_true, Bool.not_eq_true'] at heq
      exact heq.1
    have he2 : comp v a = false := by
      simp only [equivalent, Bool.and_eq_true, Bool.not_eq_true'] at heq
      exact heq.2
    rcases List.mem_append.1 hx with hxA | hxC
    · obtain ⟨a', ha', hlt⟩ := hleft x hxA
      rw [hxv] at ha'
      cases ha'
      rw [he1] at hlt
      cases hlt
    · rcases hright with ⟨hC, -⟩ | ⟨c, rest, cv, hC, hcl, hcv, hcf, hfound, hrest⟩
      · rw [hC] at hxC
        cases hxC
      · rw [hfound]
        rw [hC] at hxC
        rcases List.mem_cons.1 hxC with hxc | hxr
        · subst hxc
          rw [hxv] at hcv
          cases hcv
          simp [he2]
        · obtain ⟨b, hb, hcb⟩ := hrest x hxr
          rw [hxv] at hb
          cases hb
          cases hvc : comp v cv with
          | false => rfl
          | true =>
            have := sw.trans _ _ _ hvc hcb
            rw [he2] at this
            cases this

/-! ## Each call simulates the reference set -/

theorem InvC.size_wrap {α : Type} {sl : LockFreeSkipList α} {ch : Nat → List Nat}
    (hinv : InvC sl ch) : wrapInt32 (sl.size + 0) = sl.size := by
  have h := hinv.size_eq
  rw [h, wrapInt32_add]
  simp

theorem contains_sim {α : Type} {comp : α → α → Bool} (sw : StrictWeak comp) {v : α}
    {fuel : Nat} {sl : LockFreeSkipList α} {S : List α} (hsim : Sim comp sl S)
    (hfuel : sl.mem.length ≤ fuel) :
    ∃ sl', Contains comp fuel sl v = .ok (refContains comp S v, sl') ∧ Sim comp sl' S ∧
      sl'.size = sl.size ∧ sl'.mem.length = sl.mem.length := by
  obtain ⟨ch, hinv, hsorted, hperm⟩ := hsim
  obtain ⟨found, h1, ch1, A, C, hp, hrun⟩ := contains_spec comp v hinv hfuel
  have hs1 := findPost_sorted hp hsorted
  have hfe := found_eq_ref sw hp hs1
  have habs := findPost_abs hp
  refine ⟨{ sl with mem := h1 }, ?_, ⟨ch1, hp.inv, ?_, ?_⟩, rfl, hp.shape.1⟩
  · rw [hrun, hfe, habs, refContains_perm comp hperm]
  · show SortedBy comp h1 (ch1 0)
    rw [hp.split]; exact hs1
  · show S.Perm (absList h1 (ch1 0))
    rw [hp.split, habs]; exact hperm

theorem add_sim {α : Type} {comp : α → α → Bool} (sw : StrictWeak comp) (rand : Nat → Nat)
    {v : α} {fuel : Nat} {sl : LockFreeSkipList α} {S : List α} (hsim : Sim comp sl S)
    (hfuel : sl.mem.length ≤ fuel) :
    ∃ sl', Add comp rand fuel sl v = .ok ((refStep comp S (.add v)).1, sl') ∧
      Sim comp sl' (refStep comp S (.add v)).2 ∧
      sl'.size = wrapInt32 (sl.size + opDelta (.add v) (refStep comp S (.add v)).1) ∧
      sl'.mem.length = sl.mem.length + opAlloc (.add v) (refStep comp S (.add v)).1 := by
  obtain ⟨ch, hinv, hsorted, hperm⟩ := hsim
  obtain ⟨found, h1, ch1, A, C, hp, hyes, hno⟩ := add_spec comp rand v hinv hfuel
  have hs1 := findPost_sorted hp hsorted
  have hfe := found_eq_ref sw hp hs1
  have habs := findPost_abs hp
  have hfe' : found = refContains comp S v := by
    rw [hfe, habs, refContains_perm comp hperm]
  cases found with
  | true =>
    refine ⟨{ sl with mem := h1 }, ?_, ?_, ?_, ?_⟩
    · rw [hyes rfl]; simp [refStep, ← hfe']
    · simp only [refStep, ← hfe', if_true]
      refine ⟨ch1, hp.inv, ?_, ?_⟩
      · show SortedBy comp h1 (ch1 0)
        rw [hp.split]; exact hs1
      · show S.Perm (absList h1 (ch1 0))
        rw [hp.split, habs]; exact hperm
    · simp only [refStep, ← hfe', if_true, opDelta]
      exact hinv.size_wrap.symm
    · simp only [refStep, ← hfe', if_true, opAlloc]
      exact hp.shape.1
  | false =>
    obtain ⟨hF, ch', hrun, hI, hlen, hch0, hnl, hnv, hold⟩ := hno rfl
    have hnd : (A ++ addrOf h1.length :: C).Nodup := hch0 ▸ hI.nodup
    have hnotin : addrOf h1.length ∉ A ++ C := (List.nodup_cons.1 (List.nodup_middle.1 hnd)).1
    have hne : ∀ x, x ∈ A ++ C → x ≠ addrOf h1.length := fun x hx e => hnotin (e ▸ hx)
    have hleft := findPost_left sw hp hs1
    have hright := findPost_right hp hs1
    have hsF : SortedBy comp hF (A ++ C) :=
      sortedBy_congr comp (fun x hx => (hold x (hne x hx)).2) hs1
    refine ⟨{ sl with mem := hF
                      draws := (randomLevel rand sl.draws).2
                      size := wrapInt32 (sl.size + 1) }, ?_, ?_, ?_, ?_⟩
    · rw [hrun]; simp [refStep, ← hfe']
    · simp only [refStep, ← hfe', Bool.false_eq_true, if_false]
      refine ⟨ch', hI, ?_, ?_⟩
      · show SortedBy comp hF (ch' 0)
        rw [hch0]
        unfold SortedBy at hsF ⊢
        obtain ⟨hpA, hpC, hAC⟩ := List.pairwise_append.1 hsF
        refine List.pairwise_append.2 ⟨hpA, List.pairwise_cons.2 ⟨?_, hpC⟩, ?_⟩
        · intro y hy
          rcases hright with ⟨hC, -⟩ | ⟨c, rest, cv, hC, hcl, hcv, hcf, hfound, hrest⟩
          · rw [hC] at hy; cases hy
          · have hvc : comp v cv = true := by simpa using hfound
            rw [hC] at hy
            rcases List.mem_cons.1 hy with e | e
            · subst e
              refine ⟨v, cv, hnv, ?_, hvc⟩
              rw [(hold y (hne y (by rw [hC]; simp))).2]; exact hcv
            · obtain ⟨b, hb, hcb⟩ := hrest y e
              refine ⟨v, b, hnv, ?_, sw.trans _ _ _ hvc hcb⟩
              rw [(hold y (hne y (by rw [hC]; simp [e]))).2]; exact hb
        · intro x hx y hy
          rcases List.mem_cons.1 hy with e | e
          · subst e
            obtain ⟨a, ha, hav⟩ := hleft x hx
            refine ⟨a, v, ?_, hnv, hav⟩
            rw [(hold x (hne x (List.mem_append_left _ hx))).2]; exact ha
          · exact hAC x hx y e
      · show (v :: S).Perm (absList hF (ch' 0))
        rw [hch0, absList_append, absList_cons_live C hnl hnv]
        have e1 : absList hF A = absList h1 A :=
          absList_congr (fun x hx => hold x (hne x (List.mem_append_left _ hx)))
        have e2 : absList hF C = absList h1 C :=
          absList_congr (fun x hx => hold x (hne x (List.mem_append_right _ hx)))
        rw [e1, e2]
        refine List.Perm.trans (List.Perm.cons v ?_) List.perm_middle.symm
        rw [← absList_append, habs]
        exact hperm
    · simp only [refStep, ← hfe', Bool.false_eq_true, if_false, opDelta]
    · simp only [refStep, ← hfe', Bool.false_eq_true, if_false, opAlloc]
      show hF.length = sl.mem.length + 1
      rw [hlen, hp.shape.1]

theorem remove_sim {α : Type} {comp : α → α → Bool} (sw : StrictWeak comp)
    {v : α} {fuel : Nat} {sl : LockFreeSkipList α} {S : List α} (hsim : Sim comp sl S)
    (hfuel : sl.mem.length ≤ fuel) :
    ∃ sl', Remove comp fuel sl v = .ok ((refStep comp S (.remove v)).1, sl') ∧
      Sim comp sl' (refStep comp S (.remove v)).2 ∧
      sl'.size = wrapInt32 (sl.size + opDelta (.remove v) (refStep comp S (.remove v)).1) ∧
      sl'.mem.length = sl.mem.length + opAlloc (.remove v) (refStep comp S (.remove v)).1 := by
  obtain ⟨ch, hinv, hsorted, hperm⟩ := hsim
  obtain ⟨found, h1, ch1, A, C, hp, hno, hyes⟩ := remove_spec comp v hinv hfuel
  have hs1 := findPost_sorted hp hsorted
  have hfe := found_eq_ref sw hp hs1
  have habs := findPost_abs hp
  have hfe' : found = refContains comp S v := by
    rw [hfe, habs, refContains_perm comp hperm]
  cases found with
  | false =>
    refine ⟨{ sl with mem := h1 }, ?_, ?_, ?_, ?_⟩
    · rw [hno rfl]; simp [refStep, ← hfe']
    · simp only [refStep, ← hfe', Bool.false_eq_true, if_false]
      refine ⟨ch1, hp.inv, ?_, ?_⟩
      · show SortedBy comp h1 (ch1 0)
        rw [hp.split]; exact hs1
      · show S.Perm (absList h1 (ch1 0))
        rw [hp.split, habs]; exact hperm
    · simp only [refStep, ← hfe', Bool.false_eq_true, if_false, opDelta]
      exact hinv.size_wrap.symm
    · simp only [refStep, ← hfe', Bool.false_eq_true, if_false, opAlloc]
      exact hp.shape.1
  | true =>
    obtain ⟨c, rest, hR, hC, hrun, hI, hlen, hdead, hothers, hval⟩ := hyes rfl
    have hleft := findPost_left sw hp hs1
    have hright := findPost_right hp hs1
    rcases hright with ⟨hC', -⟩ | ⟨c', rest', cv, hC', hcl, hcv, hcf, hfound, hrest⟩
    · rw [hC'] at hC; cases hC
    rw [hC] at hC'
    cases hC'
    have hvc : comp v cv = false := by simpa using hfound.symm
    have hnd : (A ++ c :: rest).Nodup := by
      have := hp.inv.nodup
      rw [hp.split, hC] at this
      exact this
    have hnotin : c ∉ A ++ rest := (List.nodup_cons.1 (List.nodup_middle.1 hnd)).1
    refine ⟨{ sl with mem := hR, size := wrapInt32 (sl.size + -1) }, ?_, ?_, ?_, ?_⟩
    · rw [hrun]; simp [refStep, ← hfe']
    · simp only [refStep, ← hfe', if_true]
      refine ⟨ch1, hI, ?_, ?_⟩
      · show SortedBy comp hR (ch1 0)
        rw [hp.split]
        exact sortedBy_congr comp (fun x _ => hval x) hs1
      · show (S.filter fun x => !equivalent comp x v).Perm (absList hR (ch1 0))
        rw [hp.split, hC, absList_append, absList_cons_dead rest hdead]
        have e1 : absList hR A = absList h1 A :=
          absList_congr (fun x hx =>
            ⟨hothers x (fun e => hnotin (e ▸ List.mem_append_left _ hx)), hval x⟩)
        have e2 : absList hR rest = absList h1 rest :=
          absList_congr (fun x hx =>
            ⟨hothers x (fun e => hnotin (e ▸ List.mem_append_right _ hx)), hval x⟩)
        rw [e1, e2]
        have hS := List.Perm.filter (fun x => !equivalent comp x v) hperm
        rw [← habs, hC, absList_append, absList_cons_live rest hcl hcv, List.filter_append,
          List.filter_cons] at hS
        have f1 : (absList h1 A).filter (fun x => !equivalent comp x v) = absList h1 A := by
          apply List.filter_eq_self.2
          intro a ha
          obtain ⟨x, hx, -, hxv⟩ := absList_mem ha
          obtain ⟨a', ha', hlt⟩ := hleft x hx
          rw [hxv] at ha'
          cases ha'
          simp [equivalent, hlt]
        have f2 : (absList h1 rest).filter (fun x => !equivalent comp x v) = absList h1 rest := by
          apply List.filter_eq_self.2
          intro b hb
          obtain ⟨y, hy, -, hyv⟩ := absList_mem hb
          obtain ⟨b', hb', hcb⟩ := hrest y hy
          rw [hyv] at hb'
          cases hb'
          have := sw.lt_of_equiv_lt hcf hvc hcb
          simp [equivalent, this]
        have f3 : (!equivalent comp cv v) = false := by
          simp [equivalent, hcf, hvc]
        rw [f1, f2, f3] at hS
        simpa using hS
    · simp only [refStep, ← hfe', if_true, opDelta]
    · simp only [refStep, ← hfe', if_true, opAlloc]
      show hR.length = sl.mem.length + 0
      rw [hlen, hp.shape.1]
      rfl

/-- Every call returns what the reference set returns and leaves a list that
represents the reference set after the call. -/
theorem step_sim {α : Type} {comp : α → α → Bool} (sw : StrictWeak comp) (rand : Nat → Nat)
    {fuel : Nat} {sl : LockFreeSkipList α} {S : List α} (hsim : Sim comp sl S)
    (hfuel : sl.mem.length ≤ fuel) (op : Op α) :
    ∃ sl', runOp comp rand fuel sl op = .ok ((refStep comp S op).1, sl') ∧
      Sim comp sl' (refStep comp S op).2 ∧
      sl'.size = wrapInt32 (sl.size + opDelta op (refStep comp S op).1) ∧
      sl'.mem.length = sl.mem.length + opAlloc op (refStep comp S op).1 := by
  cases op with
  | add v => exact add_sim sw rand hsim hfuel
  | remove v => exact remove_sim sw hsim hfuel
  | contains v =>
    obtain ⟨sl', h1, h2, h3, h4⟩ := contains_sim sw (v := v) hsim hfuel
    obtain ⟨ch, hinv, -, -⟩ := hsim
    refine ⟨sl', h1, h2, ?_, ?_⟩
    · simp only [refStep, opDelta]
      rw [h3]
      exact hinv.size_wrap.symm
    · simp only [refStep, opAlloc]
      rw [h4]
      rfl

theorem opAlloc_le_one {α : Type} (op : Op α) (b : Bool) : opAlloc op b ≤ 1 := by
  cases op <;> cases b <;> simp [opAlloc]

/-- A sequence of calls returns what the reference set returns. -/
theorem runOps_sim {α : Type} {comp : α → α → Bool} (sw : StrictWeak comp) (rand : Nat → Nat)
    {fuel : Nat} (ops : List (Op α)) :
    ∀ {sl : LockFreeSkipList α} {S : List α}, Sim comp sl S →
      sl.mem.length + ops.length ≤ fuel →
      ∃ sl', runOps comp rand fuel ops sl = .ok ((refRun comp ops S).1, sl') ∧
        Sim comp sl' (refRun comp ops S).2 ∧
        sl'.size = wrapInt32 (sl.size + netCount ops (refRun comp ops S).1) ∧
        sl'.mem.length ≤ sl.mem.length + ops.length := by
  induction ops with
  | nil =>
    intro sl S hsim _
    obtain ⟨ch, hinv, hso, hpe⟩ := hsim
    exact ⟨sl, rfl, ⟨ch, hinv, hso, hpe⟩, by
      simp only [refRun, netCount]; exact hinv.size_wrap.symm, le_refl _⟩
  | cons op ops ih =>
    intro sl S hsim hfuel
    simp only [List.length_cons] at hfuel
    obtain ⟨sl1, hrun1, hsim1, hsize1, hlen1⟩ :=
      step_sim sw rand hsim (show sl.mem.length ≤ fuel by omega) op
    have hle := opAlloc_le_one op (refStep comp S op).1
    obtain ⟨sl2, hrun2, hsim2, hsize2, hlen2⟩ := ih hsim1 (by omega)
    refine ⟨sl2, ?_, hsim2, ?_, ?_⟩
    · simp only [runOps, hrun1, bind, Except.bind, hrun2, refRun, pure, Except.pure]
    · simp only [refRun, netCount]
      rw [hsize2, hsize1, wrapInt32_add, add_assoc]
    · simp only [List.length_cons]
      omega

/-! ## Walking a chain -/

theorem chainFrom_of_path {α : Type} {h : List (node α)} {tl L : Nat} :
    ∀ (xs : List Nat) (a fuel : Nat), Path h L a xs tl → tl ∉ xs → xs.length < fuel →
      chainFrom h tl L fuel a = some xs := by
  intro xs
  induction xs with
  | nil =>
    intro a fuel hp _ hf
    obtain ⟨k, rfl⟩ : ∃ k, fuel = k + 1 := ⟨fuel - 1, by omega⟩
    obtain ⟨p, hp1, hp2⟩ := hp
    simp [chainFrom, hp1, hp2]
  | cons x xs ih =>
    intro a fuel hp ht hf
    obtain ⟨k, rfl⟩ : ∃ k, fuel = k + 1 := ⟨fuel - 1, by omega⟩
    obtain ⟨⟨p, hp1, hp2⟩, hr⟩ := hp
    have hx : x ≠ tl := fun e => ht (by simp [e])
    have := ih x k hr (fun hm => ht (List.mem_cons_of_mem _ hm)) (by simpa using hf)
    simp [chainFrom, hp1, hp2, hx, this]

theorem InvC.levelChain_eq {α : Type} {sl : LockFreeSkipList α} {ch : Nat → List Nat}
    (hinv : InvC sl ch) {L : Nat} (hL : L < maxLevel) {fuel : Nat} (hf : (ch L).length < fuel) :
    levelChain sl L fuel = some (ch L) :=
  chainFrom_of_path (ch L) sl.head fuel (hinv.path L hL) (hinv.tail_not_mem L) hf

theorem InvC.absList_length {α : Type} {sl : LockFreeSkipList α} {ch : Nat → List Nat}
    (hinv : InvC sl ch) : (absList sl.mem (ch 0)).length = (ch 0).countP (live sl.mem) := by
  unfold absList
  rw [List.countP_eq_length_filter]
  have : ∀ xs : List Nat, (∀ x, x ∈ xs → ∃ a, valOf sl.mem x = some a) →
      (xs.filterMap (valOf sl.mem)).length = xs.length := by
    intro xs
    induction xs with
    | nil => intro _; rfl
    | cons x xs ih =>
      intro hx
      obtain ⟨a, ha⟩ := hx x (by simp)
      simp only [List.filterMap_cons, ha, List.length_cons]
      rw [ih (fun y hy => hx y (List.mem_cons_of_mem _ hy))]
  apply this
  intro x hx
  obtain ⟨-, -, nd, v, hnd, hv, -⟩ := hinv.good x (List.mem_filter.1 hx).1
  exact ⟨v, by simp [valOf, hnd, hv]⟩

theorem sim_new {α : Type} (comp : α → α → Bool) :
    ∃ sl0 : LockFreeSkipList α, NewLockFreeSkipList α = .ok sl0 ∧ Sim comp sl0 [] ∧
      sl0.size = 0 ∧ sl0.mem.length = 2 := by
  obtain ⟨sl0, hnew, hinv, hsize, hlen, -⟩ := newList_spec α
  exact ⟨sl0, hnew, ⟨fun _ => [], hinv, List.Pairwise.nil, List.Perm.refl _⟩, hsize, hlen⟩

theorem Sim.size_card {α : Type} {comp : α → α → Bool} {sl : LockFreeSkipList α} {S : List α}
    (hsim : Sim comp sl S) : sl.size = wrapInt32 (S.length : Int) := by
  obtain ⟨ch, hinv, -, hperm⟩ := hsim
  rw [hinv.size_eq, hperm.length_eq, hinv.absList_length]

theorem natLt_strictWeak : StrictWeak natLt := by
  constructor
  · intro a; simp [natLt]
  · intro a b c h1 h2
    simp only [natLt, decide_eq_true_eq] at *
    omega
  · intro a b c h1 h2 h3 h4
    simp only [natLt, decide_eq_false_iff_not] at *
    omega

/-! ## Each call keeps the structural invariant -/

/-- Every call returns and keeps the structural invariant, for any comparator. -/
theorem step_inv {α : Type} (comp : α → α → Bool) (rand : Nat → Nat) {fuel : Nat}
    {sl : LockFreeSkipList α} (hinv : Inv sl) (hfuel : sl.mem.length ≤ fuel) (op : Op α) :
    ∃ b sl', runOp comp rand fuel sl op = .ok (b, sl') ∧ Inv sl' ∧
      sl'.size = wrapInt32 (sl.size + opDelta op b) ∧
      sl'.mem.length = sl.mem.length + opAlloc op b := by
  obtain ⟨ch, hinv⟩ := hinv
  cases op with
  | add v =>
    obtain ⟨found, h1, ch1, A, C, hp, hyes, hno⟩ := add_spec comp rand v hinv hfuel
    cases found with
    | true =>
      exact ⟨false, { sl with mem := h1 }, hyes rfl, ⟨ch1, hp.inv⟩, hinv.size_wrap.symm,
        hp.shape.1⟩
    | false =>
      obtain ⟨hF, ch', hrun, hI, hlen, -⟩ := hno rfl
      refine ⟨true, { sl with mem := hF
                              draws := (randomLevel rand sl.draws).2
                              size := wrapInt32 (sl.size + 1) }, hrun, ⟨ch', hI⟩, rfl, ?_⟩
      show hF.length = sl.mem.length + 1
      rw [hlen, hp.shape.1]
  | remove v =>
    obtain ⟨found, h1, ch1, A, C, hp, hno, hyes⟩ := remove_spec comp v hinv hfuel
    cases found with
    | false =>
      exact ⟨false, { sl with mem := h1 }, hno rfl, ⟨ch1, hp.inv⟩, hinv.size_wrap.symm,
        hp.shape.1⟩
    | true =>
      obtain ⟨c, rest, hR, -, hrun, hI, hlen, -⟩ := hyes rfl
      refine ⟨true, { sl with mem := hR, size := wrapInt32 (sl.size + -1) }, hrun, ⟨ch1, hI⟩,
        rfl, ?_⟩
      show hR.length = sl.mem.length + 0
      rw [hlen, hp.shape.1]
      rfl
  | contains v =>
    obtain ⟨found, h1, ch1, A, C, hp, hrun⟩ := contains_spec comp v hinv hfuel
    refine ⟨found, { sl with mem := h1 }, hrun, ⟨ch1, hp.inv⟩, ?_, ?_⟩
    · cases found <;> exact hinv.size_wrap.symm
    · cases found <;> exact hp.shape.1

/-- Every sequence of calls returns, keeps the structural invariant, and moves
the counter by the net number of successful insertions. -/
theorem runOps_inv {α : Type} (comp : α → α → Bool) (rand : Nat → Nat) {fuel : Nat}
    (ops : List (Op α)) :
    ∀ {sl : LockFreeSkipList α}, Inv sl → sl.mem.length + ops.length ≤ fuel →
      ∃ bs sl', runOps comp rand fuel ops sl = .ok (bs, sl') ∧ Inv sl' ∧
        bs.length = ops.length ∧ sl'.size = wrapInt32 (sl.size + netCount ops bs) ∧
        sl'.mem.length ≤ sl.mem.length + ops.length := by
  induction ops with
  | nil =>
    intro sl hinv _
    obtain ⟨ch, hc⟩ := hinv
    exact ⟨[], sl, rfl, ⟨ch, hc⟩, rfl, hc.size_wrap.symm, le_refl _⟩
  | cons op ops ih =>
    intro sl hinv hfuel
    simp only [List.length_cons] at hfuel
    obtain ⟨b, sl1, hrun1, hinv1, hsize1, hlen1⟩ :=
      step_inv comp rand hinv (show sl.mem.length ≤ fuel by omega) op
    have hle := opAlloc_le_one op b
    obtain ⟨bs, sl2, hrun2, hinv2, hbl, hsize2, hlen2⟩ := ih hinv1 (by omega)
    refine ⟨b :: bs, sl2, ?_, hinv2, by simp [hbl], ?_, ?_⟩
    · simp only [runOps, hrun1, bind, Except.bind, hrun2, pure, Except.pure]
    · simp only [netCount]
      rw [hsize2, hsize1, wrapInt32_add, add_assoc]
    · simp only [List.length_cons]
      omega

theorem reachable_inv {α : Type} {comp : α → α → Bool} {rand : Nat → Nat}
    {sl : LockFreeSkipList α} (hr : Reachable comp rand sl) : Inv sl := by
  obtain ⟨ops, fuel, sl0, bs, hfuel, hnew, hrun⟩ := hr
  obtain ⟨sl0', hnew', hinv0, -, hlen0, -⟩ := newList_spec α
  rw [hnew] at hnew'
  cases hnew'
  obtain ⟨bs', sl', hrun', hinv', -⟩ :=
    runOps_inv comp rand ops ⟨_, hinv0⟩ (show sl0.mem.length + ops.length ≤ fuel by omega)
  rw [hrun] at hrun'
  cases hrun'
  exact hinv'

theorem reachable_sim {α : Type} {comp : α → α → Bool} (sw : StrictWeak comp)
    {rand : Nat → Nat} {sl : LockFreeSkipList α} (hr : Reachable comp rand sl) :
    ∃ S, Sim comp sl S := by
  obtain ⟨ops, fuel, sl0, bs, hfuel, hnew, hrun⟩ := hr
  obtain ⟨sl0', hnew', hsim0, -, hlen0⟩ := sim_new (α := α) comp
  rw [hnew] at hnew'
  cases hnew'
  obtain ⟨sl', hrun', hsim', -⟩ :=
    runOps_sim sw rand ops hsim0 (show sl0.mem.length + ops.length ≤ fuel by omega)
  rw [hrun] at hrun'
  cases hrun'
  exact ⟨_, hsim'⟩

theorem netCount_bounds {α : Type} (ops : List (Op α)) :
    ∀ bs : List Bool, -(ops.length : Int) ≤ netCount ops bs ∧ netCount ops bs ≤ ops.length := by
  induction ops with
  | nil => intro bs; simp [netCount]
  | cons op ops ih =>
    intro bs
    cases bs with
    | nil => simp only [netCount, List.length_cons]; omega
    | cons b bs =>
      have := ih bs
      have hd : -1 ≤ opDelta op b ∧ opDelta op b ≤ 1 := by
        cases op <;> cases b <;> simp [opDelta]
      simp only [netCount, List.length_cons]
      push_cast
      omega

/-! ## A run that overflows the counter -/

theorem manyAdds_length (k n : Nat) : (manyAdds k n).length = n := by
  simp [manyAdds]

theorem manyAdds_succ (k n : Nat) : manyAdds k (n + 1) = Op.add k :: manyAdds (k + 1) n := by
  simp [manyAdds, List.range'_succ]

theorem refRun_manyAdds :
    ∀ (n k : Nat) (S : List Nat), (∀ x, x ∈ S → x < k) →
      (refRun natLt (manyAdds k n) S).1 = List.replicate n true ∧
      (refRun natLt (manyAdds k n) S).2.length = S.length + n := by
  intro n
  induction n with
  | zero => intro k S _; simp [manyAdds, refRun]
  | succ n ih =>
    intro k S hS
    have hc : refContains natLt S k = false := by
      unfold refContains
      rw [List.any_eq_false]
      intro x hx
      have := hS x hx
      simp [equivalent, natLt, this]
    have hstep : refStep natLt S (Op.add k) = (true, k :: S) := by
      simp [refStep, hc]
    obtain ⟨h1, h2⟩ := ih (k + 1) (k :: S) (fun x hx => by
      rcases List.mem_cons.1 hx with e | e
      · omega
      · have := hS x e
        omega)
    rw [manyAdds_succ]
    simp only [refRun, hstep, h1, h2, List.replicate_succ, List.length_cons]
    exact ⟨trivial, by omega⟩

theorem netCount_manyAdds : ∀ (n k : Nat), netCount (manyAdds k n) (List.replicate n true) = n := by
  intro n
  induction n with
  | zero => intro k; simp [manyAdds, netCount]
  | succ n ih =>
    intro k
    rw [manyAdds_succ, List.replicate_succ]
    simp only [netCount, opDelta, ih (k + 1)]
    push_cast
    ring

theorem wrapInt32_overflow : wrapInt32 (((2 ^ 31 : Nat) : Int)) ≠ ((2 ^ 31 : Nat) : Int) := by
  unfold wrapInt32
  norm_num

/-- After `2 ^ 31` successful insertions the counter has wrapped around. -/
theorem overflow_run :
    ∃ sl0 sl', NewLockFreeSkipList Nat = .ok sl0 ∧
      runOps natLt (fun _ => 1) (2 ^ 31 + 2) (manyAdds 0 (2 ^ 31)) sl0 =
        .ok (List.replicate (2 ^ 31) true, sl') ∧
      sl'.size = wrapInt32 (((2 ^ 31 : Nat) : Int)) ∧ sl'.mem.length ≤ 2 ^ 31 + 2 ∧
      ∃ ch, InvC sl' ch ∧ (ch 0).countP (live sl'.mem) = 2 ^ 31 := by
  obtain ⟨sl0, hnew, hsim, hsz, hlen⟩ := sim_new (α := Nat) natLt
  obtain ⟨h1, h2⟩ := refRun_manyAdds (2 ^ 31) 0 [] (fun x hx => by cases hx)
  obtain ⟨sl', hrun, hsim', hsize, hmem⟩ :=
    runOps_sim natLt_strictWeak (fun _ => 1) (manyAdds 0 (2 ^ 31)) hsim
      (show sl0.mem.length + (manyAdds 0 (2 ^ 31)).length ≤ 2 ^ 31 + 2 by
        rw [manyAdds_length, hlen]; omega)
  rw [h1] at hrun hsize
  refine ⟨sl0, sl', hnew, hrun, ?_, ?_, ?_⟩
  · rw [hsize, hsz, netCount_manyAdds]
    simp
  · rw [manyAdds_length, hlen] at hmem
    omega
  · obtain ⟨ch, hinv, -, hperm⟩ := hsim'
    refine ⟨ch, hinv, ?_⟩
    rw [← hinv.absList_length, ← hperm.length_eq, h2]
    simp

/-! ## Reasoning on the reference set -/

theorem equivalent_symm {α : Type} (comp : α → α → Bool) (a b : α) :
    equivalent comp a b = equivalent comp b a := by
  simp [equivalent, Bool.and_comm]

theorem equivalent_trans {α : Type} {comp : α → α → Bool} (sw : StrictWeak comp) {a b c : α}
    (h1 : equivalent comp a b = true) (h2 : equivalent comp b c = true) :
    equivalent comp a c = true := by
  simp only [equivalent, Bool.and_eq_true, Bool.not_eq_true'] at h1 h2 ⊢
  exact sw.incomp_trans a b c h1.1 h1.2 h2.1 h2.2

theorem refContains_false_iff {α : Type} (comp : α → α → Bool) (S : List α) (v : α) :
    refContains comp S v = false ↔ ∀ x, x ∈ S → equivalent comp x v = false := by
  unfold refContains
  rw [List.any_eq_false]
  constructor
  · intro h x hx
    simpa using h x hx
  · intro h x hx
    simp [h x hx]

theorem refContains_true_iff {α : Type} (comp : α → α → Bool) (S : List α) (v : α) :
    refContains comp S v = true ↔ ∃ x, x ∈ S ∧ equivalent comp x v = true := by
  unfold refContains
  rw [List.any_eq_true]

/-- The reference set gains no element equivalent to `v` as long as no `add`
of such a value returns true. -/
theorem ref_stays_absent {α : Type} (comp : α → α → Bool) (v : α) (ops : List (Op α)) :
    ∀ S : List α, (∀ x, x ∈ S → equivalent comp x v = false) →
      (∀ u, (Op.add u, true) ∈ List.zip ops (refRun comp ops S).1 →
        equivalent comp u v = false) →
      ∀ x, x ∈ (refRun comp ops S).2 → equivalent comp x v = false := by
  induction ops with
  | nil => intro S hS _; exact hS
  | cons op ops ih =>
    intro S hS hadd
    simp only [refRun, List.zip_cons_cons, List.mem_cons] at hadd ⊢
    apply ih
    · cases op with
      | add u =>
        by_cases hc : refContains comp S u = true
        · simp only [refStep, hc, if_true]
          exact hS
        · simp only [refStep, hc, Bool.false_eq_true, if_false]
          intro x hx
          rcases List.mem_cons.1 hx with e | e
          · subst e
            apply hadd
            left
            simp [refStep, hc]
          · exact hS x e
      | remove u =>
        by_cases hc : refContains comp S u = true
        · simp only [refStep, hc, if_true]
          intro x hx
          exact hS x (List.mem_filter.1 hx).1
        · simp only [refStep, hc, Bool.false_eq_true, if_false]
          exact hS
      | contains u => exact hS
    · intro u hu
      exact hadd u (Or.inr hu)

/-- The reference set keeps an element equivalent to `v` as long as no
`remove` of such a value is made. -/
theorem ref_stays_present {α : Type} {comp : α → α → Bool} (sw : StrictWeak comp) (v : α)
    (ops : List (Op α)) :
    ∀ S : List α, (∃ x, x ∈ S ∧ equivalent comp x v = true) →
      (∀ u, Op.remove u ∈ ops → equivalent comp u v = false) →
      ∃ x, x ∈ (refRun comp ops S).2 ∧ equivalent comp x v = true := by
  induction ops with
  | nil => intro S hS _; exact hS
  | cons op ops ih =>
    intro S hS hrem
    simp only [refRun]
    apply ih
    · obtain ⟨x, hx, hxv⟩ := hS
      cases op with
      | add u =>
        by_cases hc : refContains comp S u = true
        · simp only [refStep, hc, if_true]
          exact ⟨x, hx, hxv⟩
        · simp only [refStep, hc, Bool.false_eq_true, if_false]
          exact ⟨x, List.mem_cons_of_mem _ hx, hxv⟩
      | remove u =>
        have huv := hrem u (by simp)
        by_cases hc : refContains comp S u = true
        · simp only [refStep, hc, if_true]
          refine ⟨x, List.mem_filter.2 ⟨hx, ?_⟩, hxv⟩
          cases hxu : equivalent comp x u with
          | false => rfl
          | true =>
            have h1 : equivalent comp u x = true := by rw [equivalent_symm]; exact hxu
            have := equivalent_trans sw h1 hxv
            rw [huv] at this
            cases this
        · simp only [refStep, hc, Bool.false_eq_true, if_false]
          exact ⟨x, hx, hxv⟩
      | contains u => exact ⟨x, hx, hxv⟩
    · intro u hu
      exact hrem u (List.mem_cons_of_mem _ hu)

theorem mem_zip_of_add_true {α : Type} {ops : List (Op α)} {bs : List Bool} {u : α}
    (h : (Op.add u, true) ∈ List.zip ops bs) : Op.add u ∈ ops :=
  (List.of_mem_zip h).1

theorem reachable_listAfter (fuel : Nat) (ops : List (Op Nat)) (hfuel : ops.length + 2 ≤ fuel) :
    Reachable natLt (fun _ => 1) (listAfter fuel ops) := by
  obtain ⟨sl0, hnew, hinv0, -, hlen, -⟩ := newList_spec Nat
  obtain ⟨bs, sl', hrun, -⟩ :=
    runOps_inv natLt (fun _ => 1) ops ⟨_, hinv0⟩
      (show sl0.mem.length + ops.length ≤ fuel by omega)
  refine ⟨ops, fuel, sl0, bs, hfuel, hnew, ?_⟩
  simp only [listAfter, hnew, hrun, after]

/-- On words of `w` bits the mask `^uintptr(0x1)`, every bit set except bit 0,
clears bit 0 and keeps the other bits. -/
theorem and_mask_eq (w p : Nat) (hp : p < 2 ^ w) : p &&& (2 ^ w - 2) = 2 * (p / 2) := by
  apply Nat.eq_of_testBit_eq
  intro i
  rw [Nat.testBit_and]
  cases w with
  | zero =>
    have : p = 0 := by simpa using hp
    subst this
    simp
  | succ k =>
    have hm : (2 ^ (k + 1) - 2) = 2 * (2 ^ k - 1) := by
      have := Nat.one_le_two_pow (n := k)
      rw [pow_succ]; omega
    rw [hm]
    cases i with
    | zero =>
      rw [Nat.testBit_zero, Nat.testBit_zero]
      simp
    | succ j =>
      have h1 : p.testBit (j + 1) = (p / 2).testBit j := Nat.testBit_succ p j
      have h2 : (2 * (2 ^ k - 1)).testBit (j + 1) = decide (j < k) := by
        rw [Nat.testBit_succ, Nat.mul_div_cancel_left _ (by decide : 0 < 2),
          Nat.testBit_two_pow_sub_one]
      have h3 : (2 * (p / 2)).testBit (j + 1) = (p / 2).testBit j := by
        rw [Nat.testBit_succ, Nat.mul_div_cancel_left _ (by decide : 0 < 2)]
      rw [h1, h2, h3]
      by_cases hj : j < k
      · simp [hj]
      · have h4 : p.testBit (j + 1) = false :=
          Nat.testBit_lt_two_pow
            (lt_of_lt_of_le hp (Nat.pow_le_pow_right (by decide) (by omega)))
        rw [h1] at h4
        simp [hj, h4]

/-! ## The loop of `randomLevel` -/

/-- The loop of `randomLevel` on a stream whose first 1 bit is at position `k`:
it counts `min n k` zero bits and makes `min n (k + 1)` draws. -/
theorem randomLevelLoop_first_one (rand : Nat → Nat) :
    ∀ (n level draws k : Nat), (∀ i, i < k → rand (draws + i) &&& 1 = 0) →
      rand (draws + k) &&& 1 ≠ 0 →
      randomLevelLoop rand n level draws = (level + min n k, draws + min n (k + 1)) := by
  intro n
  induction n with
  | zero => intro level draws k _ _; simp [randomLevelLoop]
  | succ n ih =>
    intro level draws k hz ho
    cases k with
    | zero =>
      have h1 : ¬ ((rand draws &&& 1 == 0) = true) := by simpa using ho
      unfold randomLevelLoop
      rw [if_neg h1]
      simp
    | succ k =>
      have h0 : (rand draws &&& 1 == 0) = true := by simpa using hz 0 (by omega)
      have hrec := ih (level + 1) (draws + 1) k
        (fun i hi => by have := hz (i + 1) (by omega); rwa [show draws + 1 + i = draws + (i + 1) by omega])
        (by rwa [show draws + 1 + k = draws + (k + 1) by omega])
      simp only [randomLevelLoop, h0, if_true, hrec]
      rw [Prod.mk.injEq]
      constructor <;> omega

/-- The loop of `randomLevel` on a stream whose first `n` bits are 0. -/
theorem randomLevelLoop_all_zero (rand : Nat → Nat) :
    ∀ (n level draws : Nat), (∀ i, i < n → rand (draws + i) &&& 1 = 0) →
      randomLevelLoop rand n level draws = (level + n, draws + n) := by
  intro n
  induction n with
  | zero => intro level draws _; simp [randomLevelLoop]
  | succ n ih =>
    intro level draws hz
    have h0 : (rand draws &&& 1 == 0) = true := by simpa using hz 0 (by omega)
    have hrec := ih (level + 1) (draws + 1)
      (fun i hi => by have := hz (i + 1) (by omega); rwa [show draws + 1 + i = draws + (i + 1) by omega])
    simp only [randomLevelLoop, h0, if_true, hrec]
    rw [Prod.mk.injEq]
    constructor <;> omega

/-- The loop of `randomLevel` makes at most `n` draws. -/
theorem randomLevelLoop_draws (rand : Nat → Nat) :
    ∀ (n level draws : Nat), draws ≤ (randomLevelLoop rand n level draws).2 ∧
      (randomLevelLoop rand n level draws).2 ≤ draws + n := by
  intro n
  induction n with
  | zero => intro level draws; simp [randomLevelLoop]
  | succ n ih =>
    intro level draws
    unfold randomLevelLoop
    split
    · have := ih (level + 1) (draws + 1)
      omega
    · simp

/-! ## The logged operations return what the operations return -/

theorem casNextLog_cases {α : Type} (site : Site) (h : List (node α))
    (nd level expected desire : Nat) :
    (∃ f, casNextLog site h nd level expected desire = .error f ∧
      casNext h nd level expected desire = .error f) ∨
    (∃ b h' old, casNextLog site h nd level expected desire =
        .ok (b, h', [Event.cas site nd level expected desire old]) ∧
      casNext h nd level expected desire = .ok (b, h') ∧ loadNext h nd level = .ok old) := by
  unfold casNextLog casNext loadNext
  cases hd : deref h nd with
  | error f => exact Or.inl ⟨f, rfl, rfl⟩
  | ok n =>
    cases hi : index n.nexts level with
    | error f => exact Or.inl ⟨f, by simp [bind, Except.bind, hi], by simp [bind, Except.bind, hi]⟩
    | ok old =>
      right
      by_cases e : old = expected
      · exact ⟨true, h.set (nd / 2 - 1) { n with nexts := n.nexts.set level desire }, old,
          by simp [bind, Except.bind, hi, e, pure, Except.pure],
          by simp [bind, Except.bind, hi, e, pure, Except.pure], by simp [bind, Except.bind, hi]⟩
      · exact ⟨false, h, old, by simp [bind, Except.bind, hi, e, pure, Except.pure],
          by simp [bind, Except.bind, hi, e, pure, Except.pure], by simp [bind, Except.bind, hi]⟩

theorem storeNextLog_cases {α : Type} (h : List (node α)) (nd level next : Nat) :
    (∃ f, storeNextLog h nd level next = .error f ∧ storeNext h nd level next = .error f) ∨
    (∃ h' old, storeNextLog h nd level next = .ok (h', [Event.store nd level old next]) ∧
      storeNext h nd level next = .ok h' ∧ loadNext h nd level = .ok old) := by
  unfold storeNextLog storeNext loadNext
  cases hd : deref h nd with
  | error f => exact Or.inl ⟨f, rfl, rfl⟩
  | ok n =>
    cases hi : index n.nexts level with
    | error f => exact Or.inl ⟨f, by simp [bind, Except.bind, hi], by simp [bind, Except.bind, hi]⟩
    | ok old =>
      exact Or.inr ⟨h.set (nd / 2 - 1) { n with nexts := n.nexts.set level next }, old,
          by simp [bind, Except.bind, hi, hd, pure, Except.pure],
          by simp [bind, Except.bind, hi, pure, Except.pure], by simp [bind, Except.bind, hi]⟩

theorem findWalkLog_erase {α : Type} (comp : α → α → Bool) (hd tl : Nat) (value : α)
    (level : Nat) :
    ∀ (fuel : Nat) (h : List (node α)) (prev cur : Nat),
      (findWalkLog comp hd tl value level fuel h prev cur).map Prod.fst =
        findWalk comp hd tl value level fuel h prev cur := by
  intro fuel
  induction fuel with
  | zero => intro h prev cur; rfl
  | succ k ih =>
    intro h prev cur
    unfold findWalkLog findWalk
    cases hl : loadNext h cur level with
    | error f => rfl
    | ok next =>
      simp only [bind, Except.bind]
      by_cases hm : isMarked next = true
      · simp only [hm, if_true]
        rcases casNextLog_cases Site.unlink h prev level cur (getUnmarked next) with
          ⟨f, h1, h2⟩ | ⟨b, h', old, h1, h2, -⟩
        · rw [h1, h2]; rfl
        · rw [h1, h2]
          cases b with
          | false => rfl
          | true =>
            simp only [Bool.not_true, Bool.false_eq_true, if_false]
            cases hl2 : loadNext h' prev level with
            | error f => rfl
            | ok c =>
              simp only []
              rw [← ih h' prev (getUnmarked c)]
              cases findWalkLog comp hd tl value level k h' prev (getUnmarked c) with
              | error f => rfl
              | ok r => rfl
      · simp only [hm, Bool.false_eq_true, if_false]
        cases hlt : less comp h hd tl cur value with
        | error f => rfl
        | ok lt =>
          simp only []
          cases lt with
          | false => rfl
          | true =>
            simp only [Bool.not_true, Bool.false_eq_true, if_false]
            exact ih h cur next

theorem findLevelsLog_erase {α : Type} (comp : α → α → Bool) (hd tl : Nat) (value : α)
    (fuel : Nat) :
    ∀ (k : Nat) (h : List (node α)) (prev cur : Nat) (prevs nexts : List Nat),
      (findLevelsLog comp hd tl value (fun _ => fuel) k h prev cur prevs nexts).map Prod.fst =
        findLevels comp hd tl value fuel k h prev cur prevs nexts := by
  intro k
  induction k with
  | zero => intro h prev cur prevs nexts; rfl
  | succ level ih =>
    intro h prev cur prevs nexts
    unfold findLevelsLog findLevels
    cases hl : loadNext h prev level with
    | error f => rfl
    | ok c =>
      simp only [bind, Except.bind]
      rw [← findWalkLog_erase comp hd tl value level fuel h prev (getUnmarked c)]
      cases findWalkLog comp hd tl value level fuel h prev (getUnmarked c) with
      | error f => rfl
      | ok r =>
        obtain ⟨r, es⟩ := r
        cases r with
        | retry h' => rfl
        | stop h' prev' cur' =>
          simp only [Except.map]
          rw [← ih h' prev' cur' (prevs.set level prev') (nexts.set level cur')]
          cases findLevelsLog comp hd tl value (fun _ => fuel) level h' prev' cur'
            (prevs.set level prev') (nexts.set level cur') with
          | error f => rfl
          | ok r => rfl

theorem findRetryLog_erase {α : Type} (comp : α → α → Bool) (hd tl : Nat) (value : α)
    (fuel : Nat) :
    ∀ (n : Nat) (h : List (node α)) (prevs nexts : List Nat),
      (findRetryLog comp hd tl value (fun _ => fuel) n h prevs nexts).map Prod.fst =
        findRetry comp hd tl value fuel n h prevs nexts := by
  intro n
  induction n with
  | zero => intro h prevs nexts; rfl
  | succ n ih =>
    intro h prevs nexts
    unfold findRetryLog findRetry
    simp only [bind, Except.bind]
    rw [← findLevelsLog_erase comp hd tl value fuel maxLevel h hd 0 prevs nexts]
    cases findLevelsLog comp hd tl value (fun _ => fuel) maxLevel h hd 0 prevs nexts with
    | error f => rfl
    | ok r =>
      obtain ⟨r, es⟩ := r
      cases r with
      | retry h' prevs' nexts' =>
        simp only [Except.map]
        rw [← ih h' prevs' nexts']
        cases findRetryLog comp hd tl value (fun _ => fuel) n h' prevs' nexts' with
        | error f => rfl
        | ok r => rfl
      | done h' cur prevs' nexts' =>
        simp only [Except.map]
        cases equals comp h' hd tl cur value with
        | error f => rfl
        | ok found => rfl

theorem findLog_erase {α : Type} (comp : α → α → Bool) (fuel : Nat) (h : List (node α))
    (hd tl : Nat) (value : α) (prevs nexts : List Nat) :
    (findLog comp (Budget.uniform fuel) h hd tl value prevs nexts).map Prod.fst =
      find comp fuel h hd tl value prevs nexts :=
  findRetryLog_erase comp hd tl value fuel fuel h prevs nexts

theorem clearNextsLog_erase {α : Type} (nd : Nat) :
    ∀ (n level : Nat) (h : List (node α)),
      (clearNextsLog nd n level h).map Prod.fst = clearNexts nd n level h := by
  intro n
  induction n with
  | zero => intro level h; rfl
  | succ n ih =>
    intro level h
    unfold clearNextsLog clearNexts
    simp only [bind, Except.bind]
    rcases storeNextLog_cases h nd level 0 with ⟨f, h1, h2⟩ | ⟨h', old, h1, h2, -⟩
    · rw [h1, h2]; rfl
    · rw [h1, h2]
      simp only []
      rw [← ih (level + 1) h']
      cases clearNextsLog nd n (level + 1) h' with
      | error f => rfl
      | ok r => rfl

theorem newNodeLog_erase {α : Type} (h : List (node α)) (level : Nat) (value : Option α) :
    (newNodeLog h level value).map Prod.fst = newNode h level value := by
  unfold newNodeLog newNode
  simp only [bind, Except.bind]
  cases deref (h ++ [node.mk level (List.replicate level 0) value]) (addrOf h.length) with
  | error f => rfl
  | ok n =>
    simp only []
    rw [← clearNextsLog_erase]
    cases clearNextsLog (addrOf h.length) (n.level - 0) 0
      (h ++ [node.mk level (List.replicate level 0) value]) with
    | error f => rfl
    | ok r => rfl

theorem copyNextsLog_erase {α : Type} (nd : Nat) (nexts : List Nat) :
    ∀ (n level : Nat) (h : List (node α)),
      (copyNextsLog nd nexts n level h).map Prod.fst = copyNexts nd nexts n level h := by
  intro n
  induction n with
  | zero => intro level h; rfl
  | succ n ih =>
    intro level h
    unfold copyNextsLog copyNexts
    simp only [bind, Except.bind]
    cases index nexts level with
    | error f => rfl
    | ok next =>
      simp only []
      rcases storeNextLog_cases h nd level next with ⟨f, h1, h2⟩ | ⟨h', old, h1, h2, -⟩
      · rw [h1, h2]; rfl
      · rw [h1, h2]
        simp only []
        rw [← ih (level + 1) h']
        cases copyNextsLog nd nexts n (level + 1) h' with
        | error f => rfl
        | ok r => rfl

theorem linkLevelLog_erase {α : Type} (comp : α → α → Bool) (fuel : Nat) (hd tl : Nat)
    (value : α) (nd level : Nat) :
    ∀ (n : Nat) (h : List (node α)) (prevs nexts : List Nat),
      (linkLevelLog comp (Budget.uniform fuel) hd tl value nd level n h prevs nexts).map
          Prod.fst =
        linkLevel comp fuel hd tl value nd level n h prevs nexts := by
  intro n
  induction n with
  | zero => intro h prevs nexts; rfl
  | succ n ih =>
    intro h prevs nexts
    unfold linkLevelLog linkLevel
    simp only [bind, Except.bind]
    cases index prevs level with
    | error f => rfl
    | ok prev =>
      simp only []
      cases index nexts level with
      | error f => rfl
      | ok next =>
        simp only []
        rcases casNextLog_cases Site.link h prev level next nd with
          ⟨f, h1, h2⟩ | ⟨b, h', old, h1, h2, -⟩
        · rw [h1, h2]; rfl
        · rw [h1, h2]
          cases b with
          | true => rfl
          | false =>
            simp only [Bool.false_eq_true, if_false]
            rw [← findLog_erase comp fuel h' hd tl value prevs nexts]
            cases findLog comp (Budget.uniform fuel) h' hd tl value prevs nexts with
            | error f => rfl
            | ok r =>
              obtain ⟨⟨found, h'', prevs', nexts'⟩, es⟩ := r
              simp only [Except.map]
              rw [← ih h'' prevs' nexts']
              cases linkLevelLog comp (Budget.uniform fuel) hd tl value nd level n h'' prevs'
                nexts' with
              | error f => rfl
              | ok r => rfl

theorem linkUpperLog_erase {α : Type} (comp : α → α → Bool) (fuel : Nat) (hd tl : Nat)
    (value : α) (nd : Nat) :
    ∀ (n level : Nat) (h : List (node α)) (prevs nexts : List Nat),
      (linkUpperLog comp (Budget.uniform fuel) hd tl value nd n level h prevs nexts).map
          Prod.fst =
        linkUpper comp fuel hd tl value nd n level h prevs nexts := by
  intro n
  induction n with
  | zero => intro level h prevs nexts; rfl
  | succ n ih =>
    intro level h prevs nexts
    unfold linkUpperLog linkUpper
    simp only [bind, Except.bind]
    rw [← linkLevelLog_erase comp fuel hd tl value nd level fuel h prevs nexts]
    have hb : (Budget.uniform fuel).link = fuel := rfl
    rw [hb]
    cases linkLevelLog comp (Budget.uniform fuel) hd tl value nd level fuel h prevs nexts with
    | error f => rfl
    | ok r =>
      obtain ⟨⟨h', prevs', nexts'⟩, es⟩ := r
      simp only [Except.map]
      rw [← ih (level + 1) h' prevs' nexts']
      cases linkUpperLog comp (Budget.uniform fuel) hd tl value nd n (level + 1) h' prevs'
        nexts' with
      | error f => rfl
      | ok r => rfl

theorem addLoopLog_erase {α : Type} (comp : α → α → Bool) (rand : Nat → Nat) (fuel : Nat)
    (value : α) :
    ∀ (n : Nat) (sl : LockFreeSkipList α) (prevs nexts : List Nat),
      (addLoopLog comp rand (Budget.uniform fuel) value n sl prevs nexts).map Prod.fst =
        addLoop comp rand fuel value n sl prevs nexts := by
  intro n
  induction n with
  | zero => intro sl prevs nexts; rfl
  | succ n ih =>
    intro sl prevs nexts
    unfold addLoopLog addLoop
    simp only [bind, Except.bind]
    rw [← findLog_erase comp fuel sl.mem sl.head sl.tail value prevs nexts]
    cases findLog comp (Budget.uniform fuel) sl.mem sl.head sl.tail value prevs nexts with
    | error f => rfl
    | ok r =>
      obtain ⟨⟨found, h1, prevs1, nexts1⟩, es1⟩ := r
      simp only [Except.map]
      cases found with
      | true => rfl
      | false =>
        simp only [Bool.false_eq_true, if_false]
        rw [← newNodeLog_erase h1 (randomLevel rand sl.draws).1 (some value)]
        cases newNodeLog h1 (randomLevel rand sl.draws).1 (some value) with
        | error f => rfl
        | ok r =>
          obtain ⟨⟨nd, h2⟩, es2⟩ := r
          simp only [Except.map]
          rw [← copyNextsLog_erase nd nexts1 ((randomLevel rand sl.draws).1 - 0) 0 h2]
          cases copyNextsLog nd nexts1 ((randomLevel rand sl.draws).1 - 0) 0 h2 with
          | error f => rfl
          | ok r =>
            obtain ⟨h3, es3⟩ := r
            simp only [Except.map]
            cases index prevs1 0 with
            | error f => rfl
            | ok prev =>
              simp only []
              cases index nexts1 0 with
              | error f => rfl
              | ok next =>
                simp only []
                rcases casNextLog_cases Site.link h3 prev 0 next nd with
                  ⟨f, h1', h2'⟩ | ⟨b, h4, old, h1', h2', -⟩
                · rw [h1', h2']
                · rw [h1', h2']
                  cases b with
                  | false =>
                    simp only [Bool.not_false, if_true]
                    rw [← ih _ prevs1 nexts1]
                    cases addLoopLog comp rand (Budget.uniform fuel) value n
                      { sl with mem := h4, draws := (randomLevel rand sl.draws).2 }
                      prevs1 nexts1 with
                    | error f => rfl
                    | ok r => rfl
                  | true =>
                    simp only [Bool.not_true, Bool.false_eq_true, if_false]
                    rw [← linkUpperLog_erase comp fuel sl.head sl.tail value nd
                      ((randomLevel rand sl.draws).1 - 1) 1 h4 prevs1 nexts1]
                    cases linkUpperLog comp (Budget.uniform fuel) sl.head sl.tail value nd
                      ((randomLevel rand sl.draws).1 - 1) 1 h4 prevs1 nexts1 with
                    | error f => rfl
                    | ok r => rfl

/-- With one budget for every loop, `AddLog` returns what `Add` returns. -/
theorem AddLog_erase {α : Type} (comp : α → α → Bool) (rand : Nat → Nat) (fuel : Nat)
    (sl : LockFreeSkipList α) (value : α) :
    (AddLog comp rand (Budget.uniform fuel) sl value).map Prod.fst =
      Add comp rand fuel sl value :=
  addLoopLog_erase comp rand fuel value fuel sl _ _

theorem markLevelLog_erase {α : Type} (nd level : Nat) :
    ∀ (n : Nat) (h : List (node α)) (next : Nat),
      (markLevelLog nd level n h next).map Prod.fst = markLevel nd level n h next := by
  intro n
  induction n with
  | zero => intro h next; rfl
  | succ n ih =>
    intro h next
    unfold markLevelLog markLevel
    cases hm : isMarked next with
    | true => rfl
    | false =>
      simp only [Bool.not_false, if_true, bind, Except.bind]
      rcases casNextLog_cases Site.mark h nd level next (getMarked next) with
        ⟨f, h1, h2⟩ | ⟨b, h', old, h1, h2, -⟩
      · rw [h1, h2]; rfl
      · rw [h1, h2]
        simp only []
        cases loadNext h' nd level with
        | error f => rfl
        | ok next' =>
          simp only []
          rw [← ih h' next']
          cases markLevelLog nd level n h' next' with
          | error f => rfl
          | ok r => rfl

theorem markUpperLog_erase {α : Type} (fuel nd : Nat) :
    ∀ (k : Nat) (h : List (node α)),
      (markUpperLog fuel nd k h).map Prod.fst = markUpper fuel nd k h := by
  intro k
  induction k with
  | zero => intro h; rfl
  | succ level ih =>
    intro h
    unfold markUpperLog markUpper
    simp only [bind, Except.bind]
    cases loadNext h nd (level + 1) with
    | error f => rfl
    | ok next =>
      simp only []
      rw [← markLevelLog_erase nd (level + 1) fuel h next]
      cases markLevelLog nd (level + 1) fuel h next with
      | error f => rfl
      | ok r =>
        obtain ⟨h', es⟩ := r
        simp only [Except.map]
        rw [← ih h']
        cases markUpperLog fuel nd level h' with
        | error f => rfl
        | ok r => rfl

theorem markBottomLog_erase {α : Type} (nd : Nat) :
    ∀ (n : Nat) (h : List (node α)) (next : Nat),
      (markBottomLog nd n h next).map Prod.fst = markBottom nd n h next := by
  intro n
  induction n with
  | zero => intro h next; rfl
  | succ n ih =>
    intro h next
    unfold markBottomLog markBottom
    cases hm : isMarked next with
    | true => rfl
    | false =>
      simp only [Bool.false_eq_true, if_false, bind, Except.bind]
      rcases casNextLog_cases Site.mark h nd 0 next (getMarked next) with
        ⟨f, h1, h2⟩ | ⟨b, h', old, h1, h2, -⟩
      · rw [h1, h2]; rfl
      · rw [h1, h2]
        cases b with
        | true => rfl
        | false =>
          simp only [Bool.false_eq_true, if_false]
          cases loadNext h' nd 0 with
          | error f => rfl
          | ok next' =>
            simp only []
            rw [← ih h' next']
            cases markBottomLog nd n h' next' with
            | error f => rfl
            | ok r => rfl

/-- With one budget for every loop, `RemoveLog` returns what `Remove` returns. -/
theorem RemoveLog_erase {α : Type} (comp : α → α → Bool) (fuel : Nat)
    (sl : LockFreeSkipList α) (value : α) :
    (RemoveLog comp (Budget.uniform fuel) sl value).map Prod.fst =
      Remove comp fuel sl value := by
  unfold RemoveLog Remove
  simp only [bind, Except.bind]
  rw [← findLog_erase comp fuel sl.mem sl.head sl.tail value]
  cases findLog comp (Budget.uniform fuel) sl.mem sl.head sl.tail value
    (List.replicate maxLevel 0) (List.replicate maxLevel 0) with
  | error f => rfl
  | ok r =>
    obtain ⟨⟨found, h1, prevs1, nexts1⟩, es1⟩ := r
    simp only [Except.map]
    cases found with
    | false => rfl
    | true =>
      simp only [Bool.not_true, Bool.false_eq_true, if_false]
      cases index nexts1 0 with
      | error f => rfl
      | ok removeNode =>
        simp only []
        cases deref h1 removeNode with
        | error f => rfl
        | ok n =>
          simp only []
          have hb : (Budget.uniform fuel).mark = fuel := rfl
          have hb2 : (Budget.uniform fuel).bottom = fuel := rfl
          rw [hb, hb2, ← markUpperLog_erase fuel removeNode (n.level - 1) h1]
          cases markUpperLog fuel removeNode (n.level - 1) h1 with
          | error f => rfl
          | ok r =>
            obtain ⟨h2, es2⟩ := r
            simp only [Except.map]
            cases loadNext h2 removeNode 0 with
            | error f => rfl
            | ok next =>
              simp only []
              rw [← markBottomLog_erase removeNode fuel h2 next]
              cases markBottomLog removeNode fuel h2 next with
              | error f => rfl
              | ok r =>
                obtain ⟨⟨marked, h3⟩, es3⟩ := r
                cases marked <;> rfl

/-- With one budget for every loop, `ContainsLog` returns what `Contains` returns. -/
theorem ContainsLog_erase {α : Type} (comp : α → α → Bool) (fuel : Nat)
    (sl : LockFreeSkipList α) (value : α) :
    (ContainsLog comp (Budget.uniform fuel) sl value).map Prod.fst =
      Contains comp fuel sl value := by
  unfold ContainsLog Contains
  simp only [bind, Except.bind]
  rw [← findLog_erase comp fuel sl.mem sl.head sl.tail value]
  cases findLog comp (Budget.uniform fuel) sl.mem sl.head sl.tail value
    (List.replicate maxLevel 0) (List.replicate maxLevel 0) with
  | error f => rfl
  | ok r =>
    obtain ⟨⟨found, h1, prevs1, nexts1⟩, es1⟩ := r
    rfl

/-- With one budget for every loop, a logged call returns what the call returns. -/
theorem runOpLog_erase {α : Type} (comp : α → α → Bool) (rand : Nat → Nat) (fuel : Nat)
    (sl : LockFreeSkipList α) (op : Op α) :
    (runOpLog comp rand (Budget.uniform fuel) sl op).map Prod.fst =
      runOp comp rand fuel sl op := by
  cases op with
  | add v => exact AddLog_erase comp rand fuel sl v
  | remove v => exact RemoveLog_erase comp fuel sl v
  | contains v => exact ContainsLog_erase comp fuel sl v

/-! ## The loop invariants of `find`, with the log and the budgets -/

theorem casNextLog_eq {α : Type} (site : Site) {h h' : List (node α)}
    {nd level expected desire old : Nat} {b : Bool}
    (hcas : casNext h nd level expected desire = .ok (b, h'))
    (hold : loadNext h nd level = .ok old) :
    casNextLog site h nd level expected desire =
      .ok (b, h', [Event.cas site nd level expected desire old]) := by
  simp [casNextLog, hcas, hold, bind, Except.bind, pure, Except.pure]

theorem storeNextLog_eq {α : Type} {h h' : List (node α)} {nd level next old : Nat}
    (hst : storeNext h nd level next = .ok h') (hold : loadNext h nd level = .ok old) :
    storeNextLog h nd level next = .ok (h', [Event.store nd level old next]) := by
  simp [storeNextLog, hst, hold, bind, Except.bind, pure, Except.pure]

theorem UnlinkEvent.mono {α : Type} {sl : LockFreeSkipList α} {h' : List (node α)}
    {xs xs' : List Nat} {e : Event} (hshape : SameShape sl.mem h') (hsub : ∀ x, x ∈ xs' → x ∈ xs)
    (he : UnlinkEvent { sl with mem := h' } xs' e) : UnlinkEvent sl xs e := by
  obtain ⟨p, L, c, d, rfl, hL, hpc, hch, hct, hc, hp, hlp, hlc, hmc, hmd⟩ := he
  refine ⟨p, L, c, d, rfl, hL, hpc, hch, hct, hsub c hc, ?_, ?_, ?_, hmc, hmd⟩
  · rcases hp with e | e
    · exact Or.inl e
    · exact Or.inr (hsub p e)
  · rw [← live_sameShape hshape]; exact hlp
  · rw [← live_sameShape hshape]; exact hlc

/-- The walk of `find` at one level (`findWalk_spec`), with its log: every
event is an unlink CAS that swapped. -/
theorem findWalkLog_spec {α : Type} (comp : α → α → Bool) (v : α) (L : Nat)
    (hL : L < maxLevel) :
    ∀ (n : Nat) (sl : LockFreeSkipList α) (ch : Nat → List Nat) (A cs P Q : List Nat)
      (fuel : Nat), cs.length = n → n < fuel → InvC sl ch → ch L = A ++ cs →
      ch (L + 1) = P ++ Q → P.Sublist A → Q.Sublist cs →
      live sl.mem (lastD A sl.head) = true →
      less comp sl.mem sl.head sl.tail (lastD A sl.head) v = .ok true →
      (∀ q, Q.head? = some q →
        live sl.mem q = true ∧ less comp sl.mem sl.head sl.tail q v = .ok false) →
      ∃ h' ch' A' cs' es,
        findWalkLog comp sl.head sl.tail v L fuel sl.mem (lastD A sl.head) (cs.headD sl.tail) =
          .ok (.stop h' (lastD A' sl.head) (cs'.headD sl.tail), es) ∧
        WalkPost comp v L sl ch P Q h' ch' A' cs' ∧
        (∀ e, e ∈ es → UnlinkEvent sl (ch 0) e ∧ e.slot = L) := by
  intro n
  induction n with
  | zero =>
    intro sl ch A cs P Q fuel hn hfuel hinv hs hup hP hQ hlive hless hstop
    have hcs : cs = [] := List.length_eq_zero.1 hn
    subst hcs
    obtain ⟨k, rfl⟩ : ∃ k, fuel = k + 1 := ⟨fuel - 1, by omega⟩
    refine ⟨sl.mem, ch, A, [], [], ?_, ?_, ?_⟩
    · simp [findWalkLog, hinv.tail_slots L hL, bind, Except.bind, isMarked_zero,
        less_tail comp sl.mem hinv.head_ne_tail, pure, Except.pure]
    · exact
        { inv := hinv
          split := hs
          other := fun _ _ => rfl
          subP := hP
          subQ := hQ
          prev_live := hlive
          prev_less := hless
          cur_live := hinv.live_tail
          cur_less := less_tail comp sl.mem hinv.head_ne_tail v
          slot := hinv.slot_exact hL hs hlive
          shape := sameShape_refl _
          frame := fun _ _ _ => rfl
          sub0 := List.Sublist.refl _
          members := rfl }
    · intro e he; cases he
  | succ n ih =>
    intro sl ch A cs P Q fuel hn hfuel hinv hs hup hP hQ hlive hless hstop
    obtain ⟨c, cs', rfl⟩ : ∃ c cs', cs = c :: cs' := by
      cases cs with
      | nil => simp at hn
      | cons c cs' => exact ⟨c, cs', rfl⟩
    have hn' : cs'.length = n := by simpa using hn
    obtain ⟨k, rfl⟩ : ∃ k, fuel = k + 1 := ⟨fuel - 1, by omega⟩
    have hk : n < k := by omega
    obtain ⟨nx, hnx, hnx2⟩ := hinv.succ_link hL hs
    have hc0 : c ∈ ch 0 := hinv.mem0 (L := L) (by rw [hs]; simp)
    have hcl := hinv.marks_agree hc0 hnx
    by_cases hmk : isMarked nx = true
    · -- the node is dead: unlink it
      have hcdead : live sl.mem c = false := by rw [hcl, hmk]; rfl
      have hQ' : Q.Sublist cs' := sublist_of_cons_of_head_ne hQ (fun q hq e => by
        have := (hstop q hq).1
        rw [e, hcdead] at this
        exact Bool.noConfusion this)
      have hup' : (ch (L + 1)).Sublist (A ++ cs') := by
        rw [hup]; exact List.Sublist.append hP hQ'
      obtain ⟨hcas, hnx3, hld, hinv1, hshape, hframe, hsub0, hmem⟩ :=
        inv_unlink hinv hL hs hlive hnx hmk hup'
      have hs1 : Function.update ch L (A ++ cs') L = A ++ cs' := by simp
      have hup1 : Function.update ch L (A ++ cs') (L + 1) = P ++ Q := by
        rw [Function.update_noteq (by omega)]; exact hup
      obtain ⟨h', ch', A', cs'', es, hrun, hpost, hev⟩ :=
        ih { sl with mem := write sl.mem (lastD A sl.head) L (getUnmarked nx) }
          (Function.update ch L (A ++ cs')) A cs' P Q k hn' hk hinv1 hs1 hup1 hP hQ'
          (by rw [live_sameShape hshape]; exact hlive)
          (by rw [less_sameShape comp hshape]; exact hless)
          (fun q hq => by
            rw [live_sameShape hshape, less_sameShape comp hshape]
            exact hstop q hq)
      have hold : loadNext sl.mem (lastD A sl.head) L = .ok c := by
        have := hinv.slot_exact hL hs hlive
        simpa using this
      have hlog := casNextLog_eq Site.unlink hcas hold
      refine ⟨h', ch', A', cs'',
        Event.cas Site.unlink (lastD A sl.head) L c (getUnmarked nx) c :: es, ?_, ?_, ?_⟩
      · have hrun' : findWalkLog comp sl.head sl.tail v L k
            (write sl.mem (lastD A sl.head) L (getUnmarked nx)) (lastD A sl.head)
            (cs'.headD sl.tail) = .ok (.stop h' (lastD A' sl.head) (cs''.headD sl.tail), es) :=
          hrun
        simp only [findWalkLog, List.headD_cons, hnx, bind, Except.bind, hmk, if_true, hlog,
          Bool.not_true, Bool.false_eq_true, if_false, hld]
        rw [← hnx3] at hrun'
        rw [← hnx3, getUnmarked_of_not_marked (isMarked_getUnmarked nx), hrun']
        rfl
      · exact
          { inv := hpost.inv
            split := hpost.split
            other := fun L' hL' => by
              rw [hpost.other L' hL', Function.update_noteq hL']
            subP := hpost.subP
            subQ := hpost.subQ
            prev_live := hpost.prev_live
            prev_less := hpost.prev_less
            cur_live := hpost.cur_live
            cur_less := hpost.cur_less
            slot := hpost.slot
            shape := sameShape_trans hshape hpost.shape
            frame := fun x L' hL' => by
              rw [hpost.frame x L' hL']; exact hframe x L' hL'
            sub0 := hpost.sub0.trans hsub0
            members := hpost.members.trans hmem }
      · intro e he
        rcases List.mem_cons.1 he with rfl | he
        · refine ⟨⟨lastD A sl.head, L, c, getUnmarked nx, rfl, hL, ?_, ?_, ?_, hc0,
            ?_, hlive, hcdead, ?_, isMarked_getUnmarked nx⟩, rfl⟩
          · intro e
            rw [e, hcdead] at hlive
            exact Bool.noConfusion hlive
          · intro e; exact hinv.head_not_mem 0 (e ▸ hc0)
          · intro e; exact hinv.tail_not_mem 0 (e ▸ hc0)
          · exact hinv.prev_mem hs
          · exact hinv.addr_unmarked (Or.inr (Or.inr hc0))
        · exact ⟨UnlinkEvent.mono hshape (fun x hx => hsub0.subset hx) (hev e he).1,
            (hev e he).2⟩
    · -- the node is live: compare it with the value
      have hmk' : isMarked nx = false := by simpa using hmk
      have hclive : live sl.mem c = true := by rw [hcl, hmk']; rfl
      obtain ⟨a, ha, hlt⟩ := less_good comp (hinv.good c hc0) v
      by_cases hcv : comp a v = true
      · -- advance
        have hs1 : ch L = (A ++ [c]) ++ cs' := by rw [hs]; simp
        have hQ' : Q.Sublist cs' := sublist_of_cons_of_head_ne hQ (fun q hq e => by
          have := (hstop q hq).2
          rw [e, hlt, hcv] at this
          cases this)
        obtain ⟨h', ch', A', cs'', es, hrun, hpost, hev⟩ :=
          ih sl ch (A ++ [c]) cs' P Q k hn' hk hinv hs1 hup
            (hP.trans (List.sublist_append_left A [c])) hQ'
            (by rw [lastD_append_singleton]; exact hclive)
            (by rw [lastD_append_singleton, hlt, hcv])
            hstop
        refine ⟨h', ch', A', cs'', es, ?_, hpost, hev⟩
        rw [← hrun, lastD_append_singleton]
        simp only [findWalkLog, List.headD_cons, hnx, bind, Except.bind, hmk', hlt, hcv,
          Bool.false_eq_true, if_false, Bool.not_true]
        rw [← hnx2, getUnmarked_of_not_marked hmk']
      · -- stop
        have hcv' : comp a v = false := by simpa using hcv
        refine ⟨sl.mem, ch, A, c :: cs', [], ?_, ?_, ?_⟩
        · simp [findWalkLog, hnx, bind, Except.bind, hmk', hlt, hcv', pure, Except.pure]
        · exact
            { inv := hinv
              split := hs
              other := fun _ _ => rfl
              subP := hP
              subQ := hQ
              prev_live := hlive
              prev_less := hless
              cur_live := hclive
              cur_less := by rw [List.headD_cons, hlt, hcv']
              slot := hinv.slot_exact hL hs hlive
              shape := sameShape_refl _
              frame := fun _ _ _ => rfl
              sub0 := List.Sublist.refl _
              members := rfl }
        · intro e he; cases he

/-- The state of a pass of `find` after the walk at one more level. -/
theorem levelsDone_step {α : Type} {comp : α → α → Bool} {v : α} {level : Nat}
    {sl0 : LockFreeSkipList α} {ch0 : Nat → List Nat} {h : List (node α)}
    {ch A cs : Nat → List Nat} {prevs nexts : List Nat}
    (hdone : LevelsDone comp v (level + 1) sl0 ch0 h ch A cs prevs nexts)
    (hL : level < maxLevel) {h' : List (node α)} {ch' : Nat → List Nat} {A' cs' : List Nat}
    (hpost : WalkPost comp v level { sl0 with mem := h } ch (A (level + 1)) (cs (level + 1))
      h' ch' A' cs') :
    LevelsDone comp v level sl0 ch0 h' ch' (Function.update A level A')
      (Function.update cs level cs') (prevs.set level (lastD A' sl0.head))
      (nexts.set level (cs'.headD sl0.tail)) :=
  have hshape := hpost.shape
  { inv := hpost.inv
    shape := sameShape_trans hdone.shape hshape
    sub0 := hpost.sub0.trans hdone.sub0
    members := hpost.members.trans hdone.members
    plen := by rw [List.length_set]; exact hdone.plen
    nlen := by rw [List.length_set]; exact hdone.nlen
    top := fun L hL' => by
      rw [Function.update_noteq (by omega), Function.update_noteq (by omega)]
      exact hdone.top L hL'
    split := fun L hL' => by
      by_cases e : L = level
      · subst e; simpa using hpost.split
      · rw [Function.update_noteq e, Function.update_noteq e, hpost.other L e]
        exact hdone.split L (by omega)
    subA := fun L hL' => by
      by_cases e : L = level
      · subst e
        rw [Function.update_noteq (by omega), Function.update_same]
        exact hpost.subP
      · rw [Function.update_noteq e, Function.update_noteq (by omega)]
        exact hdone.subA L (by omega)
    subC := fun L hL' => by
      by_cases e : L = level
      · subst e
        rw [Function.update_noteq (by omega), Function.update_same]
        exact hpost.subQ
      · rw [Function.update_noteq e, Function.update_noteq (by omega)]
        exact hdone.subC L (by omega)
    prev_live := fun L hL' => by
      by_cases e : L = level
      · subst e; rw [Function.update_same]; exact hpost.prev_live
      · rw [Function.update_noteq e, live_sameShape hshape]
        exact hdone.prev_live L (by omega)
    prev_less := fun L hL' => by
      by_cases e : L = level
      · subst e; rw [Function.update_same]; exact hpost.prev_less
      · rw [Function.update_noteq e, less_sameShape comp hshape]
        exact hdone.prev_less L (by omega)
    cur_live := fun L hL' hlt => by
      by_cases e : L = level
      · subst e; rw [Function.update_same]; exact hpost.cur_live
      · rw [Function.update_noteq e, live_sameShape hshape]
        exact hdone.cur_live L (by omega) hlt
    cur_less := fun L hL' hlt => by
      by_cases e : L = level
      · subst e; rw [Function.update_same]; exact hpost.cur_less
      · rw [Function.update_noteq e, less_sameShape comp hshape]
        exact hdone.cur_less L (by omega) hlt
    slot := fun L hL' hlt => by
      by_cases e : L = level
      · subst e; rw [Function.update_same, Function.update_same]; exact hpost.slot
      · rw [Function.update_noteq e, Function.update_noteq e, hpost.frame _ L e]
        exact hdone.slot L (by omega) hlt
    prevs_eq := fun L hL' hlt => by
      by_cases e : L = level
      · subst e
        rw [Function.update_same]
        simp [List.getElem?_set, hdone.plen, hlt]
      · rw [Function.update_noteq e, List.getElem?_set_ne (Ne.symm e)]
        exact hdone.prevs_eq L (by omega) hlt
    nexts_eq := fun L hL' hlt => by
      by_cases e : L = level
      · subst e
        rw [Function.update_same]
        simp [List.getElem?_set, hdone.nlen, hlt]
      · rw [Function.update_noteq e, List.getElem?_set_ne (Ne.symm e)]
        exact hdone.nexts_eq L (by omega) hlt }

/-- One pass of `find` over the levels below `k` completes without a retry
when the walk at each level has a budget above the length of that level's
chain; every event is an unlink CAS that swapped. -/
theorem findLevelsLog_spec {α : Type} (comp : α → α → Bool) (v : α) (walk : Nat → Nat)
    (sl0 : LockFreeSkipList α) (ch0 : Nat → List Nat)
    (hwalk : ∀ L, L < maxLevel → (ch0 L).length < walk L) :
    ∀ (k : Nat) (h : List (node α)) (ch A cs : Nat → List Nat) (prevs nexts : List Nat)
      (cur : Nat), k ≤ maxLevel → LevelsDone comp v k sl0 ch0 h ch A cs prevs nexts →
      (∀ L, L < k → ch L = ch0 L) →
      (k = 0 → cur = (cs 0).headD sl0.tail) →
      ∃ h' ch' A' cs' prevs' nexts' es,
        findLevelsLog comp sl0.head sl0.tail v walk k h (lastD (A k) sl0.head) cur prevs
            nexts =
          .ok (.done h' ((cs' 0).headD sl0.tail) prevs' nexts', es) ∧
        LevelsDone comp v 0 sl0 ch0 h' ch' A' cs' prevs' nexts' ∧
        (∀ e, e ∈ es → UnlinkEvent sl0 (ch0 0) e ∧ e.slot < k) := by
  intro k
  induction k with
  | zero =>
    intro h ch A cs prevs nexts cur _ hdone _ hcur
    exact ⟨h, ch, A, cs, prevs, nexts, [], by simp [findLevelsLog, hcur rfl], hdone,
      fun e he => by cases he⟩
  | succ level ih =>
    intro h ch A cs prevs nexts cur hk hdone hlow _
    have hL : level < maxLevel := by omega
    have hinv := hdone.inv
    have hsub : (A (level + 1) ++ cs (level + 1)).Sublist (ch level) := by
      rw [← hdone.split (level + 1) (le_refl _)]; exact hinv.sub level
    obtain ⟨A0, C0, hs0, hP, hQ, hlast⟩ := split_sublist hsub
    have hlast' : lastD A0 sl0.head = lastD (A (level + 1)) sl0.head := hlast _
    have hlive : live h (lastD A0 sl0.head) = true := by
      rw [hlast']; exact hdone.prev_live (level + 1) (le_refl _)
    have hless : less comp h sl0.head sl0.tail (lastD A0 sl0.head) v = .ok true := by
      rw [hlast']; exact hdone.prev_less (level + 1) (le_refl _)
    have hstop : ∀ q, (cs (level + 1)).head? = some q →
        live h q = true ∧ less comp h sl0.head sl0.tail q v = .ok false := by
      intro q hq
      by_cases hlt : level + 1 < maxLevel
      · have e : (cs (level + 1)).headD sl0.tail = q := by
          cases hc : cs (level + 1) with
          | nil => rw [hc] at hq; cases hq
          | cons c r => rw [hc] at hq; simpa using hq
        rw [← e]
        exact ⟨hdone.cur_live _ (le_refl _) hlt, hdone.cur_less _ (le_refl _) hlt⟩
      · have := (hdone.top (level + 1) (by omega)).2
        rw [this] at hq
        cases hq
    have hlen : C0.length < walk level := by
      have h1 : C0.length ≤ (ch level).length := by rw [hs0]; simp
      have h2 := hwalk level hL
      rw [hlow level (by omega)] at h1
      omega
    obtain ⟨h', ch', A', cs', es1, hrun, hpost, hev1⟩ :=
      findWalkLog_spec comp v level hL C0.length { sl0 with mem := h } ch A0 C0
        (A (level + 1)) (cs (level + 1)) (walk level) rfl hlen hinv hs0
        (hdone.split _ (le_refl _)) hP hQ hlive hless hstop
    have hslot0 : loadNext h (lastD A0 sl0.head) level = .ok (C0.headD sl0.tail) :=
      hinv.slot_exact hL hs0 hlive
    have hunm : getUnmarked (C0.headD sl0.tail) = C0.headD sl0.tail := by
      apply getUnmarked_of_not_marked
      apply hinv.addr_unmarked
      rcases hinv.headD_mem hs0 with e | e
      · exact Or.inr (Or.inl e)
      · exact Or.inr (Or.inr e)
    have hnew := levelsDone_step hdone hL hpost
    obtain ⟨h'', ch'', A'', cs'', prevs'', nexts'', es2, hrun2, hdone2, hev2⟩ :=
      ih h' ch' (Function.update A level A') (Function.update cs level cs')
        (prevs.set level (lastD A' sl0.head)) (nexts.set level (cs'.headD sl0.tail))
        (cs'.headD sl0.tail) (by omega) hnew
        (fun L hL' => by rw [hpost.other L (by omega)]; exact hlow L (by omega))
        (fun e => by subst e; rw [Function.update_same])
    refine ⟨h'', ch'', A'', cs'', prevs'', nexts'', es1 ++ es2, ?_, hdone2, ?_⟩
    · rw [Function.update_same] at hrun2
      rw [← hlast']
      have hrun' : findWalkLog comp sl0.head sl0.tail v level (walk level) h
          (lastD A0 sl0.head) (C0.headD sl0.tail) =
          .ok (.stop h' (lastD A' sl0.head) (cs'.headD sl0.tail), es1) := hrun
      simp only [findLevelsLog, hslot0, bind, Except.bind, hunm, hrun', hrun2]
      rfl
    · intro e he
      rcases List.mem_append.1 he with he | he
      · exact ⟨UnlinkEvent.mono hdone.shape (fun x hx => hdone.sub0.subset hx) (hev1 e he).1,
          by rw [(hev1 e he).2]; omega⟩
      · exact ⟨(hev2 e he).1, by have := (hev2 e he).2; omega⟩

/-- The call `find` returns after a single pass when the walk at each level has
a budget above the length of that level's chain; every event is an unlink CAS
that swapped. -/
theorem findLog_spec {α : Type} (comp : α → α → Bool) (v : α) {b : Budget}
    {sl : LockFreeSkipList α} {ch : Nat → List Nat} (hinv : InvC sl ch)
    (hwalk : ∀ L, L < maxLevel → (ch L).length < b.walk L) (hpass : 1 ≤ b.pass)
    (prevs nexts : List Nat) (hp : prevs.length = maxLevel) (hn : nexts.length = maxLevel) :
    ∃ found h' ch' A cs prevs' nexts' es,
      findLog comp b sl.mem sl.head sl.tail v prevs nexts =
        .ok ((found, h', prevs', nexts'), es) ∧
      LevelsDone comp v 0 sl ch h' ch' A cs prevs' nexts' ∧
      equals comp h' sl.head sl.tail ((cs 0).headD sl.tail) v = .ok found ∧
      (∀ e, e ∈ es → UnlinkEvent sl (ch 0) e) := by
  obtain ⟨h', ch', A, cs, prevs', nexts', es, hrun, hdone, hev⟩ :=
    findLevelsLog_spec comp v b.walk sl ch hwalk maxLevel sl.mem ch (fun _ => [])
      (fun _ => []) prevs nexts 0 (le_refl _) (levelsDone_init comp v hinv hp hn)
      (fun _ _ => rfl) (fun e => absurd e (by decide))
  have hinv' := hdone.inv
  have heq : ∃ found, equals comp h' sl.head sl.tail ((cs 0).headD sl.tail) v = .ok found := by
    rcases hinv'.headD_mem (hdone.split 0 (le_refl _)) with e | e
    · exact ⟨false, by rw [show (cs 0).headD sl.tail = sl.tail from e]; exact equals_tail _ _ _ _ _⟩
    · obtain ⟨a, -, ha⟩ := equals_good comp (hinv'.good _ e) v
      exact ⟨_, ha⟩
  obtain ⟨found, hfound⟩ := heq
  obtain ⟨k, hk⟩ : ∃ k, b.pass = k + 1 := ⟨b.pass - 1, by omega⟩
  refine ⟨found, h', ch', A, cs, prevs', nexts', es, ?_, hdone, hfound,
    fun e he => (hev e he).1⟩
  have hrun' : findLevelsLog comp sl.head sl.tail v b.walk maxLevel sl.mem sl.head 0 prevs
      nexts = .ok (.done h' ((cs 0).headD sl.tail) prevs' nexts', es) := hrun
  unfold findLog
  rw [hk]
  simp only [findRetryLog, hrun', bind, Except.bind, hfound, pure, Except.pure]

/-- A budget of one iteration per allocated node is above the length of every
chain. -/
theorem InvC.walk_uniform {α : Type} {sl : LockFreeSkipList α} {ch : Nat → List Nat}
    (hinv : InvC sl ch) {fuel : Nat} (hfuel : sl.mem.length ≤ fuel) (L : Nat) :
    (ch L).length < fuel := by
  have h2 := (hinv.sub0 L).length_le
  have h3 := hinv.room
  omega

/-! ## The loops of `Add`, with the log and the budgets -/

theorem clearNextsLog_eq {α : Type} (nd : Nat) :
    ∀ (k level : Nat) (h : List (node α)),
      (∀ L, level ≤ L → L < level + k → loadNext h nd L = .ok 0) →
      clearNextsLog nd k level h =
        .ok (h, (List.range' level k).map (fun L => Event.store nd L 0 0)) := by
  intro k
  induction k with
  | zero => intro level h _; rfl
  | succ k ih =>
    intro level h hz
    have h0 := hz level (le_refl _) (by omega)
    have hst : storeNext h nd level 0 = .ok h := by rw [storeNext_eq 0 h0, write_self h0]
    simp only [clearNextsLog, storeNextLog_eq hst h0, bind, Except.bind,
      ih (level + 1) h (fun L h1 h2 => hz L (by omega) (by omega))]
    rfl

theorem newNodeLog_eq {α : Type} (h : List (node α)) (level : Nat) (value : Option α) :
    newNodeLog h level value =
      .ok ((addrOf h.length, h ++ [node.mk level (List.replicate level 0) value]),
        (List.range' 0 level).map (fun L => Event.store (addrOf h.length) L 0 0)) := by
  have hd := deref_append h (node.mk level (List.replicate level 0) value) (addrOf h.length)
  simp only [if_true] at hd
  have hc := clearNextsLog_eq (addrOf h.length) level 0
    (h ++ [node.mk level (List.replicate level 0) value])
    (fun L _ hL => loadNext_ok_iff.2 ⟨_, hd, by
      simp only [Nat.zero_add] at hL
      simp [List.getElem?_replicate, hL]⟩)
  simp only [newNodeLog, hd, bind, Except.bind, Nat.sub_zero, hc, pure, Except.pure]

/-- The loop of `Add` that fills the new node (`copyNexts_spec`), with its log:
one store per level, in increasing order of the levels, each on a slot that
held nil. -/
theorem copyNextsLog_spec {α : Type} (nd : Nat) (nexts : List Nat) :
    ∀ (k level : Nat) (h : List (node α)),
      (∀ L, level ≤ L → L < level + k → loadNext h nd L = .ok 0) →
      (∀ L, level ≤ L → L < level + k → ∃ t, nexts[L]? = some t ∧ isMarked t = false) →
      ∃ h', copyNextsLog nd nexts k level h =
          .ok (h', (List.range' level k).map
            (fun L => Event.store nd L 0 (nexts.getD L 0))) ∧
        SameShape h h' ∧
        ∀ x L, loadNext h' x L =
          if x = nd ∧ level ≤ L ∧ L < level + k then .ok (nexts.getD L 0) else loadNext h x L := by
  intro k
  induction k with
  | zero =>
    intro level h _ _
    refine ⟨h, rfl, sameShape_refl _, fun x L => ?_⟩
    have : ¬ (x = nd ∧ level ≤ L ∧ L < level + 0) := by omega
    simp only [this, if_false]
  | succ k ih =>
    intro level h hs ht
    have he := hs level (le_refl _) (by omega)
    obtain ⟨t, ht0, htm⟩ := ht level (le_refl _) (by omega)
    have hshape := sameShape_write t he (by rw [htm, isMarked_zero])
    have hload := fun x L => loadNext_write t x L he
    obtain ⟨h', hrun, hsh', hl'⟩ := ih (level + 1) (write h nd level t)
      (fun L h1 h2 => by
        rw [hload, if_neg (by omega)]
        exact hs L (by omega) (by omega))
      (fun L h1 h2 => ht L (by omega) (by omega))
    refine ⟨h', ?_, sameShape_trans hshape hsh', fun x L => ?_⟩
    · have hgd : nexts.getD level 0 = t := by simp [List.getD, ht0]
      simp only [copyNextsLog, index, ht0, bind, Except.bind,
        storeNextLog_eq (storeNext_eq t he) he, hrun, List.range'_succ, List.map_cons, hgd]
      rfl
    · rw [hl', hload]
      by_cases hx : x = nd
      · by_cases hL : L = level
        · subst hx hL
          have : ¬ (x = x ∧ L + 1 ≤ L ∧ L < L + 1 + k) := by omega
          simp only [this, if_false, true_and, le_refl, and_self, if_true]
          have : L < L + (k + 1) := by omega
          simp [this, List.getD, ht0]
        · subst hx
          have h1 : ¬ (x = x ∧ L = level) := by omega
          simp only [h1, if_false]
          by_cases hr : level + 1 ≤ L ∧ L < level + 1 + k
          · have hr' : level ≤ L ∧ L < level + (k + 1) := by omega
            simp [hr, hr']
          · have hr' : ¬ (level ≤ L ∧ L < level + (k + 1)) := by omega
            simp [hr, hr', hL]
      · simp [hx]

/-- The loop of `Add` over the upper levels (`linkUpper_spec`), with its log:
one CAS per level, in increasing order of the levels, each swapping at the
first attempt, so that a budget of one iteration per level suffices. -/
theorem linkUpperLog_spec {α : Type} (comp : α → α → Bool) (b : Budget) (hd tl : Nat) (v : α)
    (nd : Nat) (prevs nexts : List Nat) (hlink : 1 ≤ b.link) (hnd : isMarked nd = false) :
    ∀ (k level : Nat) (h : List (node α)),
      (∀ L, level ≤ L → L < level + k → ∃ p t, prevs[L]? = some p ∧ nexts[L]? = some t ∧
        loadNext h p L = .ok t ∧ isMarked t = false) →
      ∃ h', linkUpperLog comp b hd tl v nd k level h prevs nexts =
          .ok ((h', prevs, nexts), (List.range' level k).map
            (fun L => Event.cas Site.link (prevs.getD L 0) L (nexts.getD L 0) nd
              (nexts.getD L 0))) ∧
        SameShape h h' ∧
        ∀ x L, loadNext h' x L =
          if level ≤ L ∧ L < level + k ∧ prevs[L]? = some x then .ok nd else loadNext h x L := by
  intro k
  induction k with
  | zero =>
    intro level h _
    refine ⟨h, rfl, sameShape_refl _, fun x L => ?_⟩
    rw [if_neg (by omega)]
  | succ k ih =>
    intro level h hs
    obtain ⟨p, t, hp, ht, hl, htm⟩ := hs level (le_refl _) (by omega)
    have hshape := sameShape_write nd hl (by rw [hnd, htm])
    have hload := fun x L => loadNext_write nd x L hl
    obtain ⟨h', hrun, hsh', hl'⟩ := ih (level + 1) (write h p level nd)
      (fun L h1 h2 => by
        obtain ⟨p', t', hp', ht', hl2, htm'⟩ := hs L (by omega) (by omega)
        refine ⟨p', t', hp', ht', ?_, htm'⟩
        rw [hload, if_neg (by omega)]
        exact hl2)
    obtain ⟨f, hf⟩ : ∃ f, b.link = f + 1 := ⟨b.link - 1, by omega⟩
    refine ⟨h', ?_, sameShape_trans hshape hsh', fun x L => ?_⟩
    · have hgp : prevs.getD level 0 = p := by simp [List.getD, hp]
      have hgt : nexts.getD level 0 = t := by simp [List.getD, ht]
      simp only [linkUpperLog, hf, linkLevelLog, index, hp, ht, bind, Except.bind,
        casNextLog_eq Site.link (casNext_eq nd hl) hl, if_true, pure, Except.pure, hrun,
        List.range'_succ, List.map_cons, hgp, hgt]
      rfl
    · rw [hl', hload]
      by_cases hL : L = level
      · subst hL
        have e0 : ¬ (L + 1 ≤ L ∧ L < L + 1 + k ∧ prevs[L]? = some x) := by omega
        rw [if_neg e0]
        by_cases hx : x = p
        · subst hx
          rw [if_pos ⟨rfl, rfl⟩, if_pos ⟨le_refl _, by omega, hp⟩]
        · have e1 : ¬ (x = p ∧ L = L) := fun h => hx h.1
          rw [if_neg e1, if_neg]
          rintro ⟨-, -, h3⟩
          rw [hp] at h3
          exact hx (Option.some.inj h3).symm
      · have e : ¬ (x = p ∧ L = level) := fun h => hL h.2
        rw [if_neg e]
        by_cases hr : level + 1 ≤ L ∧ L < level + 1 + k ∧ prevs[L]? = some x
        · rw [if_pos hr, if_pos ⟨by omega, by omega, hr.2.2⟩]
        · rw [if_neg hr, if_neg]
          rintro ⟨h1, h2, h3⟩
          exact hr ⟨by omega, by omega, h3⟩

/-- The call `Add` (`add_spec`), with its log and its budgets: `find` makes one
pass, the outer loop runs once and every linking CAS swaps at the first
attempt. -/
theorem addLog_spec {α : Type} (comp : α → α → Bool) (rand : Nat → Nat) (v : α) {b : Budget}
    {sl : LockFreeSkipList α} {ch : Nat → List Nat} (hinv : InvC sl ch)
    (hwalk : ∀ L, L < maxLevel → (ch L).length < b.walk L) (hpass : 1 ≤ b.pass)
    (houter : 1 ≤ b.outer) (hlink : 1 ≤ b.link) :
    ∃ found h1 ch1 A cs prevs nexts es1,
      findLog comp b sl.mem sl.head sl.tail v (List.replicate maxLevel 0)
          (List.replicate maxLevel 0) = .ok ((found, h1, prevs, nexts), es1) ∧
      LevelsDone comp v 0 sl ch h1 ch1 A cs prevs nexts ∧
      equals comp h1 sl.head sl.tail ((cs 0).headD sl.tail) v = .ok found ∧
      (∀ e, e ∈ es1 → UnlinkEvent sl (ch 0) e) ∧
      (found = true → AddLog comp rand b sl v = .ok ((false, { sl with mem := h1 }), es1)) ∧
      (found = false → ∃ hF ch',
        AddLog comp rand b sl v = .ok ((true,
          { sl with mem := hF
                    draws := (randomLevel rand sl.draws).2
                    size := wrapInt32 (sl.size + 1) }),
          es1 ++ addEvents (addrOf h1.length) (randomLevel rand sl.draws).1 prevs nexts) ∧
        InvC
          { sl with mem := hF
                    draws := (randomLevel rand sl.draws).2
                    size := wrapInt32 (sl.size + 1) } ch' ∧
        hF.length = h1.length + 1 ∧
        (∀ L, ch' L = if L < (randomLevel rand sl.draws).1
          then A L ++ addrOf h1.length :: cs L else ch1 L) ∧
        SameShape (h1 ++ [node.mk (randomLevel rand sl.draws).1
          (List.replicate (randomLevel rand sl.draws).1 0) (some v)]) hF ∧
        live hF (addrOf h1.length) = true ∧ valOf hF (addrOf h1.length) = some v ∧
        ∀ x, x ≠ addrOf h1.length → live hF x = live h1 x ∧ valOf hF x = valOf h1 x) := by
  obtain ⟨found, h1, ch1, A, cs, prevs, nexts, es1, hrun, hdone, hfound, hev⟩ :=
    findLog_spec comp v hinv hwalk hpass (List.replicate maxLevel 0)
      (List.replicate maxLevel 0) (by simp) (by simp)
  obtain ⟨k, hk⟩ : ∃ k, b.outer = k + 1 := ⟨b.outer - 1, by omega⟩
  refine ⟨found, h1, ch1, A, cs, prevs, nexts, es1, hrun, hdone, hfound, hev, ?_, ?_⟩
  · intro hf
    subst hf
    unfold AddLog
    rw [hk]
    simp only [addLoopLog, hrun, bind, Except.bind, if_true, pure, Except.pure]
  · intro hf
    subst hf
    have hinv1 := hdone.inv
    obtain ⟨h1top, htop⟩ := randomLevel_bounds rand sl.draws
    rcases hrl : randomLevel rand sl.draws with ⟨top, d'⟩
    rw [hrl] at h1top htop
    simp only at h1top htop
    have hsplit : ∀ L, ch1 L = A L ++ cs L := fun L => hdone.split L (Nat.zero_le _)
    have hfresh : ∀ x, (x = sl.head ∨ x = sl.tail ∨ x ∈ ch1 0) → x ≠ addrOf h1.length :=
      fun x hx => hinv1.ne_fresh hx
    have hprevmem : ∀ L, lastD (A L) sl.head = sl.head ∨ lastD (A L) sl.head ∈ ch1 0 :=
      fun L => hinv1.prev_mem (hsplit L)
    have hnextmem : ∀ L, (cs L).headD sl.tail = sl.tail ∨ (cs L).headD sl.tail ∈ ch1 0 :=
      fun L => hinv1.headD_mem (hsplit L)
    have hprevfresh : ∀ L, lastD (A L) sl.head ≠ addrOf h1.length := by
      intro L
      rcases hprevmem L with e | e
      · exact hfresh _ (Or.inl e)
      · exact hfresh _ (Or.inr (Or.inr e))
    have hnextunm : ∀ L, isMarked ((cs L).headD sl.tail) = false := by
      intro L
      apply hinv1.addr_unmarked
      rcases hnextmem L with e | e
      · exact Or.inr (Or.inl e)
      · exact Or.inr (Or.inr e)
    -- allocation and the copy of `nexts` into the fresh node
    obtain ⟨h3, hcopy, hsh3, hl3⟩ := copyNextsLog_spec (addrOf h1.length) nexts top 0
      (h1 ++ [node.mk top (List.replicate top 0) (some v)])
      (fun L _ hL => by
        rw [loadNext_append, if_pos rfl]
        simp only [Nat.zero_add] at hL
        simp [index, List.getElem?_replicate, hL])
      (fun L _ hL => ⟨_, hdone.nexts_eq L (Nat.zero_le _) (by omega), hnextunm L⟩)
    have hold3 : ∀ x L, x ≠ addrOf h1.length → loadNext h3 x L = loadNext h1 x L := by
      intro x L hx
      rw [hl3, if_neg (fun h => hx h.1), loadNext_append, if_neg hx]
    -- the bottom link
    have hp0 : loadNext h3 (lastD (A 0) sl.head) 0 = .ok ((cs 0).headD sl.tail) := by
      rw [hold3 _ _ (hprevfresh 0)]
      exact hdone.slot 0 (le_refl _) maxLevel_pos
    have hsh4 := sameShape_write (addrOf h1.length) hp0
      (by rw [isMarked_addrOf, hnextunm 0])
    have hl4 := fun x L => loadNext_write (addrOf h1.length) x L hp0
    -- the upper links
    obtain ⟨h5, hlk, hsh5, hl5⟩ := linkUpperLog_spec comp b sl.head sl.tail v
      (addrOf h1.length) prevs nexts hlink (isMarked_addrOf _) (top - 1) 1
      (write h3 (lastD (A 0) sl.head) 0 (addrOf h1.length))
      (fun L hL1 hL2 => ⟨_, _, hdone.prevs_eq L (Nat.zero_le _) (by omega),
        hdone.nexts_eq L (Nat.zero_le _) (by omega), by
          rw [hl4, if_neg (by omega), hold3 _ _ (hprevfresh L)]
          exact hdone.slot L (Nat.zero_le _) (by omega), hnextunm L⟩)
    have hprevs : ∀ L x, L < top → (prevs[L]? = some x ↔ x = lastD (A L) sl.head) := by
      intro L x hL
      rw [hdone.prevs_eq L (Nat.zero_le _) (by omega)]
      constructor
      · intro e; exact (Option.some.inj e).symm
      · intro e; rw [e]
    have hshF := sameShape_trans hsh3 (sameShape_trans hsh4 hsh5)
    obtain ⟨hI, hlv, hvl, hold⟩ := insert_inv hdone h1top htop hshF
      (fun L hL => by
        rw [hl5, if_neg, hl4, if_neg, hl3, if_pos ⟨rfl, Nat.zero_le _, by omega⟩]
        · rw [List.getD_eq_getElem?_getD, hdone.nexts_eq L (Nat.zero_le _) (by omega)]
          rfl
        · exact fun h => hprevfresh 0 h.1.symm
        · rintro ⟨h1, h2, h3⟩
          exact hprevfresh L ((hprevs L _ hL).1 h3).symm)
      (fun L hL => by
        rw [hl5]
        by_cases h0 : L = 0
        · subst h0
          rw [if_neg (by omega), hl4, if_pos ⟨rfl, rfl⟩]
        · rw [if_pos ⟨by omega, by omega, (hprevs L _ hL).2 rfl⟩])
      (fun x L hx hnp => by
        rw [hl5, if_neg, hl4, if_neg]
        · exact hold3 x L hx
        · rintro ⟨h1, h2⟩
          subst h2
          exact hnp (by omega) h1
        · rintro ⟨h1, h2, h3⟩
          have hlt : L < top := by omega
          exact hnp hlt ((hprevs L _ hlt).1 h3))
      (wrapInt32 (sl.size + 1)) d' rfl
    refine ⟨h5, _, ?_, hI, ?_, fun L => rfl, hshF, hlv, hvl, hold⟩
    · have hp0' := hdone.prevs_eq 0 (le_refl _) maxLevel_pos
      have hn0' := hdone.nexts_eq 0 (le_refl _) maxLevel_pos
      have hgp : prevs.getD 0 0 = lastD (A 0) sl.head := by simp [List.getD, hp0']
      have hgt : nexts.getD 0 0 = (cs 0).headD sl.tail := by simp [List.getD, hn0']
      have hr : List.range' 0 top = 0 :: List.range' 1 (top - 1) := by
        obtain ⟨t, rfl⟩ : ∃ t, top = t + 1 := ⟨top - 1, by omega⟩
        rw [List.range'_succ]
        rfl
      unfold AddLog
      rw [hk]
      simp only [addLoopLog, hrun, bind, Except.bind, Bool.false_eq_true, if_false, hrl,
        newNodeLog_eq, Nat.sub_zero, hcopy, index, hp0', hn0',
        casNextLog_eq Site.link (casNext_eq (addrOf h1.length) hp0) hp0,
        Bool.not_true, hlk, pure, Except.pure, addEvents]
      have hcas : (List.range' 0 top).map (fun L => Event.cas Site.link (prevs.getD L 0) L
            (nexts.getD L 0) (addrOf h1.length) (nexts.getD L 0)) =
          Event.cas Site.link (lastD (A 0) sl.head) 0 ((cs 0).headD sl.tail)
              (addrOf h1.length) ((cs 0).headD sl.tail) ::
            (List.range' 1 (top - 1)).map (fun L => Event.cas Site.link (prevs.getD L 0) L
              (nexts.getD L 0) (addrOf h1.length) (nexts.getD L 0)) := by
        rw [hr, List.map_cons, hgp, hgt]
      rw [hcas]
      simp only [List.append_assoc, List.singleton_append]
    · rw [hsh5.1, hsh4.1, hsh3.1]
      simp

/-! ## The loops of `Remove`, with the log and the budgets -/

theorem markLevelLog_spec {α : Type} {h : List (node α)} {nd L e : Nat}
    (he : loadNext h nd L = .ok e) (hm : isMarked e = false) {fuel : Nat} (hfuel : 2 ≤ fuel) :
    markLevelLog nd L fuel h e =
      .ok (write h nd L (getMarked e), [Event.cas Site.mark nd L e (getMarked e) e]) := by
  obtain ⟨f, rfl⟩ : ∃ f, fuel = f + 2 := ⟨fuel - 2, by omega⟩
  have hl : loadNext (write h nd L (getMarked e)) nd L = .ok (getMarked e) := by
    rw [loadNext_write _ _ _ he, if_pos ⟨rfl, rfl⟩]
  simp only [markLevelLog, hm, Bool.not_false, if_true,
    casNextLog_eq Site.mark (casNext_eq (getMarked e) he) he, bind,
    Except.bind, hl, isMarked_getMarked, Bool.not_true, Bool.false_eq_true, if_false]
  rfl

/-- The loop of `Remove` over the upper levels (`markUpper_spec`), with its
log: one CAS per level, from the top level down to level 1, each swapping at the
first attempt, so that a budget of two tests of the loop condition per level
suffices. -/
theorem markUpperLog_spec {α : Type} (nd : Nat) (w : Nat → Nat) {fuel : Nat}
    (hfuel : 2 ≤ fuel) :
    ∀ (k : Nat) (h : List (node α)),
      (∀ L, 1 ≤ L → L ≤ k → loadNext h nd L = .ok (w L) ∧ isMarked (w L) = false) →
      ∃ h', markUpperLog fuel nd k h = .ok (h', markEvents nd w k) ∧ SameNodes h h' ∧
        ∀ x L, loadNext h' x L =
          if x = nd ∧ 1 ≤ L ∧ L ≤ k then (loadNext h x L).map getMarked else loadNext h x L := by
  intro k
  induction k with
  | zero =>
    intro h _
    refine ⟨h, rfl, sameNodes_refl _, fun x L => ?_⟩
    rw [if_neg (by omega)]
  | succ k ih =>
    intro h hs
    obtain ⟨he, hem⟩ := hs (k + 1) (by omega) (le_refl _)
    have hload := fun x L => loadNext_write (getMarked (w (k + 1))) x L he
    obtain ⟨h', hrun, hsn, hl'⟩ := ih (write h nd (k + 1) (getMarked (w (k + 1))))
      (fun L h1 h2 => by
        obtain ⟨he', hem'⟩ := hs L h1 (by omega)
        refine ⟨?_, hem'⟩
        rw [hload, if_neg (by omega)]
        exact he')
    refine ⟨h', ?_, sameNodes_trans (sameNodes_write _ he) hsn, fun x L => ?_⟩
    · simp only [markUpperLog, he, bind, Except.bind, markLevelLog_spec he hem hfuel, hrun,
        markEvents]
      rfl
    · rw [hl']
      by_cases hx : x = nd
      · subst hx
        by_cases hL : L = k + 1
        · subst hL
          have e0 : ¬ (x = x ∧ 1 ≤ k + 1 ∧ k + 1 ≤ k) := by omega
          rw [if_neg e0, hload, if_pos ⟨rfl, rfl⟩, if_pos ⟨rfl, by omega, le_refl _⟩, he]
          rfl
        · have e1 : ¬ (x = x ∧ L = k + 1) := fun h => hL h.2
          rw [hload, if_neg e1]
          by_cases hr : 1 ≤ L ∧ L ≤ k
          · rw [if_pos ⟨rfl, hr⟩, if_pos ⟨rfl, by omega, by omega⟩]
          · rw [if_neg (fun h => hr h.2), if_neg (fun h => hr ⟨h.2.1, by omega⟩)]
      · have e1 : ¬ (x = nd ∧ 1 ≤ L ∧ L ≤ k) := fun h => hx h.1
        have e2 : ¬ (x = nd ∧ 1 ≤ L ∧ L ≤ k + 1) := fun h => hx h.1
        have e3 : ¬ (x = nd ∧ L = k + 1) := fun h => hx h.1
        rw [if_neg e1, if_neg e2, hload, if_neg e3]

theorem markBottomLog_spec {α : Type} {h : List (node α)} {nd e : Nat}
    (he : loadNext h nd 0 = .ok e) (hm : isMarked e = false) {fuel : Nat} (hfuel : 1 ≤ fuel) :
    markBottomLog nd fuel h e =
      .ok ((true, write h nd 0 (getMarked e)), [Event.cas Site.mark nd 0 e (getMarked e) e]) := by
  obtain ⟨f, rfl⟩ : ∃ f, fuel = f + 1 := ⟨fuel - 1, by omega⟩
  simp only [markBottomLog, hm, Bool.false_eq_true, if_false,
    casNextLog_eq Site.mark (casNext_eq (getMarked e) he) he, bind,
    Except.bind, if_true, pure, Except.pure]

/-- The levels of the marking CASes on the upper slots: from the top down to 1. -/
theorem markEvents_slots (nd : Nat) (w : Nat → Nat) :
    ∀ k, (markEvents nd w k).map Event.slot = (List.range' 1 k).reverse := by
  intro k
  induction k with
  | zero => rfl
  | succ k ih =>
    rw [markEvents, List.map_cons, ih, List.range'_concat, List.reverse_append]
    simp [Event.slot, Nat.add_comm]

/-- The call `Contains` (`contains_spec`), with its log and its budgets. -/
theorem containsLog_spec {α : Type} (comp : α → α → Bool) (v : α) {b : Budget}
    {sl : LockFreeSkipList α} {ch : Nat → List Nat} (hinv : InvC sl ch)
    (hwalk : ∀ L, L < maxLevel → (ch L).length < b.walk L) (hpass : 1 ≤ b.pass) :
    ∃ found h1 ch1 A cs prevs nexts es1,
      findLog comp b sl.mem sl.head sl.tail v (List.replicate maxLevel 0)
          (List.replicate maxLevel 0) = .ok ((found, h1, prevs, nexts), es1) ∧
      LevelsDone comp v 0 sl ch h1 ch1 A cs prevs nexts ∧
      equals comp h1 sl.head sl.tail ((cs 0).headD sl.tail) v = .ok found ∧
      (∀ e, e ∈ es1 → UnlinkEvent sl (ch 0) e) ∧
      ContainsLog comp b sl v = .ok ((found, { sl with mem := h1 }), es1) := by
  obtain ⟨found, h1, ch1, A, cs, prevs, nexts, es1, hrun, hdone, hfound, hev⟩ :=
    findLog_spec comp v hinv hwalk hpass (List.replicate maxLevel 0)
      (List.replicate maxLevel 0) (by simp) (by simp)
  refine ⟨found, h1, ch1, A, cs, prevs, nexts, es1, hrun, hdone, hfound, hev, ?_⟩
  simp only [ContainsLog, hrun, bind, Except.bind, pure, Except.pure]

/-- The call `Remove` (`remove_spec`), with its log and its budgets: `find`
makes one pass and every marking CAS swaps at the first attempt. -/
theorem removeLog_spec {α : Type} (comp : α → α → Bool) (v : α) {b : Budget}
    {sl : LockFreeSkipList α} {ch : Nat → List Nat} (hinv : InvC sl ch)
    (hwalk : ∀ L, L < maxLevel → (ch L).length < b.walk L) (hpass : 1 ≤ b.pass)
    (hmark : 2 ≤ b.mark) (hbottom : 1 ≤ b.bottom) :
    ∃ found h1 ch1 A cs prevs nexts es1,
      findLog comp b sl.mem sl.head sl.tail v (List.replicate maxLevel 0)
          (List.replicate maxLevel 0) = .ok ((found, h1, prevs, nexts), es1) ∧
      LevelsDone comp v 0 sl ch h1 ch1 A cs prevs nexts ∧
      equals comp h1 sl.head sl.tail ((cs 0).headD sl.tail) v = .ok found ∧
      (∀ e, e ∈ es1 → UnlinkEvent sl (ch 0) e) ∧
      (found = false → RemoveLog comp b sl v = .ok ((false, { sl with mem := h1 }), es1)) ∧
      (found = true → ∃ c rest nd hR, cs 0 = c :: rest ∧ deref h1 c = .ok nd ∧
        nd.nexts.length = nd.level ∧ 1 ≤ nd.level ∧ nd.level ≤ maxLevel ∧
        (∀ L, L < nd.level → isMarked (nd.nexts.getD L 0) = false) ∧
        RemoveLog comp b sl v =
          .ok ((true, { sl with mem := hR, size := wrapInt32 (sl.size + -1) }),
            es1 ++ removeEvents c nd.level (fun L => nd.nexts.getD L 0)) ∧
        InvC { sl with mem := hR, size := wrapInt32 (sl.size + -1) } ch1 ∧
        SameNodes h1 hR ∧
        (∀ x L, loadNext hR x L =
          if x = c then (loadNext h1 x L).map getMarked else loadNext h1 x L) ∧
        live hR c = false ∧
        (∀ x, x ≠ c → live hR x = live h1 x) ∧ ∀ x, valOf hR x = valOf h1 x) := by
  obtain ⟨found, h1, ch1, A, cs, prevs, nexts, es1, hrun, hdone, hfound, hev⟩ :=
    findLog_spec comp v hinv hwalk hpass (List.replicate maxLevel 0)
      (List.replicate maxLevel 0) (by simp) (by simp)
  refine ⟨found, h1, ch1, A, cs, prevs, nexts, es1, hrun, hdone, hfound, hev, ?_, ?_⟩
  · intro hf
    subst hf
    simp only [RemoveLog, hrun, bind, Except.bind, Bool.not_false, if_true, pure, Except.pure]
  · intro hf
    subst hf
    have hinv1 := hdone.inv
    obtain ⟨c, rest, hC⟩ : ∃ c rest, cs 0 = c :: rest := by
      cases hcs : cs 0 with
      | nil =>
        rw [hcs] at hfound
        simp only [List.headD_nil] at hfound
        rw [equals_tail] at hfound
        cases hfound
      | cons c rest => exact ⟨c, rest, rfl⟩
    have hc0 : c ∈ ch1 0 := by
      rw [hdone.split 0 (le_refl _), hC]; simp
    have hlive : live h1 c = true := by
      have := hdone.cur_live 0 (le_refl _) maxLevel_pos
      rw [hC] at this
      exact this
    have hnx : nexts[0]? = some c := by
      rw [hdone.nexts_eq 0 (le_refl _) maxLevel_pos, hC]; rfl
    obtain ⟨hne1, hne2, nd, a, hnd, hv, hlen, hl1, hl2, hm⟩ := hinv1.good c hc0
    have hslot : ∀ L, L < nd.level →
        loadNext h1 c L = .ok (nd.nexts.getD L 0) ∧ isMarked (nd.nexts.getD L 0) = false := by
      intro L hL
      have hlt : L < nd.nexts.length := by omega
      have hg : nd.nexts.getD L 0 = nd.nexts[L] := by
        simp [List.getD, List.getElem?_eq_getElem hlt]
      have hld : loadNext h1 c L = .ok nd.nexts[L] :=
        loadNext_ok_iff.2 ⟨nd, hnd, List.getElem?_eq_getElem hlt⟩
      rw [hg]
      refine ⟨hld, ?_⟩
      have := hinv1.marks_agree hc0 hld
      rw [show live h1 c = true from hlive] at this
      simpa using this.symm
    obtain ⟨h2, hup, hsn2, hl2'⟩ := markUpperLog_spec c (fun L => nd.nexts.getD L 0) hmark
      (nd.level - 1) h1 (fun L h1' h2' => hslot L (by omega))
    obtain ⟨he0, hem0⟩ := hslot 0 (by omega)
    have he0' : loadNext h2 c 0 = .ok (nd.nexts.getD 0 0) := by
      rw [hl2', if_neg (by omega)]
      exact he0
    have hbot := markBottomLog_spec he0' hem0 hbottom
    have hl3 := fun x L => loadNext_write (getMarked (nd.nexts.getD 0 0)) x L he0'
    have hsn3 : SameNodes h1 (write h2 c 0 (getMarked (nd.nexts.getD 0 0))) :=
      sameNodes_trans hsn2 (sameNodes_write _ he0')
    have hform : ∀ x L, loadNext (write h2 c 0 (getMarked (nd.nexts.getD 0 0))) x L =
        if x = c then (loadNext h1 x L).map getMarked else loadNext h1 x L := by
      intro x L
      rw [hl3]
      by_cases hx : x = c
      · subst hx
        rw [if_pos rfl]
        by_cases h0 : L = 0
        · subst h0
          rw [if_pos ⟨rfl, rfl⟩, he0]
          rfl
        · have e1 : ¬ (x = x ∧ L = 0) := fun h => h0 h.2
          rw [if_neg e1, hl2']
          by_cases hr : L ≤ nd.level - 1
          · rw [if_pos ⟨rfl, by omega, hr⟩]
          · have e2 : ¬ (x = x ∧ 1 ≤ L ∧ L ≤ nd.level - 1) := fun h => hr h.2.2
            rw [if_neg e2, loadNext_error_of_ge hnd (by omega)]
            rfl
      · have e1 : ¬ (x = c ∧ L = 0) := fun h => hx h.1
        have e2 : ¬ (x = c ∧ 1 ≤ L ∧ L ≤ nd.level - 1) := fun h => hx h.1
        rw [if_neg e1, if_neg hx, hl2', if_neg e2]
    obtain ⟨hI, hdead, hothers⟩ := mark_inv hinv1 hc0 hlive hsn3 hform
      (wrapInt32 (sl.size + -1)) rfl
    refine ⟨c, rest, nd, write h2 c 0 (getMarked (nd.nexts.getD 0 0)), hC, hnd, hlen, hl1, hl2,
      fun L hL => (hslot L hL).2, ?_, hI, hsn3, hform, hdead, hothers,
      fun x => valOf_sameNodes hsn3 x⟩
    simp only [RemoveLog, hrun, bind, Except.bind, Bool.not_true, Bool.false_eq_true, if_false,
      index, hnx, hnd, hup, he0', hbot, pure, Except.pure, removeEvents, List.append_assoc]

/-! ## A larger budget does not change a result

A run that ended otherwise than by exhausting a budget ends in the same way,
with the same result and the same log, under every larger budget. -/

theorem findWalkLog_mono {α : Type} (comp : α → α → Bool) (hd tl : Nat) (value : α)
    (level : Nat) :
    ∀ (n : Nat) (h : List (node α)) (prev cur : Nat),
      findWalkLog comp hd tl value level n h prev cur ≠ .error .outOfFuel →
      ∀ n', n ≤ n' → findWalkLog comp hd tl value level n' h prev cur =
        findWalkLog comp hd tl value level n h prev cur := by
  intro n
  induction n with
  | zero => intro h prev cur hne; exact absurd rfl hne
  | succ k ih =>
    intro h prev cur hne n' hn'
    obtain ⟨k', rfl⟩ : ∃ k', n' = k' + 1 := ⟨n' - 1, by omega⟩
    revert hne
    unfold findWalkLog
    cases loadNext h cur level with
    | error f => intro _; rfl
    | ok next =>
      simp only [bind, Except.bind]
      by_cases hm : isMarked next = true
      · simp only [hm, if_true]
        cases casNextLog Site.unlink h prev level cur (getUnmarked next) with
        | error f => intro _; rfl
        | ok r =>
          obtain ⟨b, h', es⟩ := r
          cases b with
          | false => intro _; rfl
          | true =>
            simp only [Bool.not_true, Bool.false_eq_true, if_false]
            cases loadNext h' prev level with
            | error f => intro _; rfl
            | ok c =>
              simp only []
              intro hne
              rw [ih h' prev (getUnmarked c) (fun hc => hne (by rw [hc])) k' (by omega)]
      · simp only [hm, Bool.false_eq_true, if_false]
        cases less comp h hd tl cur value with
        | error f => intro _; rfl
        | ok lt =>
          simp only []
          cases lt with
          | false => intro _; rfl
          | true =>
            simp only [Bool.not_true, Bool.false_eq_true, if_false]
            intro hne
            exact ih h cur next hne k' (by omega)

theorem findLevelsLog_mono {α : Type} (comp : α → α → Bool) (hd tl : Nat) (value : α)
    (walk walk' : Nat → Nat) (hw : ∀ L, walk L ≤ walk' L) :
    ∀ (k : Nat) (h : List (node α)) (prev cur : Nat) (prevs nexts : List Nat),
      findLevelsLog comp hd tl value walk k h prev cur prevs nexts ≠ .error .outOfFuel →
      findLevelsLog comp hd tl value walk' k h prev cur prevs nexts =
        findLevelsLog comp hd tl value walk k h prev cur prevs nexts := by
  intro k
  induction k with
  | zero => intro h prev cur prevs nexts _; rfl
  | succ level ih =>
    intro h prev cur prevs nexts
    unfold findLevelsLog
    cases loadNext h prev level with
    | error f => intro _; rfl
    | ok c =>
      simp only [bind, Except.bind]
      intro hne
      have hne1 : findWalkLog comp hd tl value level (walk level) h prev (getUnmarked c) ≠
          .error .outOfFuel := fun hc => hne (by rw [hc])
      rw [findWalkLog_mono comp hd tl value level _ h prev (getUnmarked c) hne1 _ (hw level)]
      revert hne
      cases findWalkLog comp hd tl value level (walk level) h prev (getUnmarked c) with
      | error f => intro _; rfl
      | ok r =>
        obtain ⟨r, es⟩ := r
        cases r with
        | retry h' => intro _; rfl
        | stop h' prev' cur' =>
          simp only []
          intro hne
          rw [ih h' prev' cur' (prevs.set level prev') (nexts.set level cur')
            (fun hc => hne (by rw [hc]))]

theorem findRetryLog_mono {α : Type} (comp : α → α → Bool) (hd tl : Nat) (value : α)
    (walk walk' : Nat → Nat) (hw : ∀ L, walk L ≤ walk' L) :
    ∀ (n : Nat) (h : List (node α)) (prevs nexts : List Nat),
      findRetryLog comp hd tl value walk n h prevs nexts ≠ .error .outOfFuel →
      ∀ n', n ≤ n' → findRetryLog comp hd tl value walk' n' h prevs nexts =
        findRetryLog comp hd tl value walk n h prevs nexts := by
  intro n
  induction n with
  | zero => intro h prevs nexts hne; exact absurd rfl hne
  | succ k ih =>
    intro h prevs nexts hne n' hn'
    obtain ⟨k', rfl⟩ : ∃ k', n' = k' + 1 := ⟨n' - 1, by omega⟩
    revert hne
    unfold findRetryLog
    simp only [bind, Except.bind]
    intro hne
    have hne1 : findLevelsLog comp hd tl value walk maxLevel h hd 0 prevs nexts ≠
        .error .outOfFuel := fun hc => hne (by rw [hc])
    rw [findLevelsLog_mono comp hd tl value walk walk' hw maxLevel h hd 0 prevs nexts hne1]
    revert hne
    cases findLevelsLog comp hd tl value walk maxLevel h hd 0 prevs nexts with
    | error f => intro _; rfl
    | ok r =>
      obtain ⟨r, es⟩ := r
      cases r with
      | retry h' prevs' nexts' =>
        simp only []
        intro hne
        rw [ih h' prevs' nexts' (fun hc => hne (by rw [hc])) k' (by omega)]
      | done h' cur prevs' nexts' => intro _; rfl

theorem findLog_mono {α : Type} (comp : α → α → Bool) {b b' : Budget} (hb : b.le b')
    (h : List (node α)) (hd tl : Nat) (value : α) (prevs nexts : List Nat)
    (hne : findLog comp b h hd tl value prevs nexts ≠ .error .outOfFuel) :
    findLog comp b' h hd tl value prevs nexts = findLog comp b h hd tl value prevs nexts :=
  findRetryLog_mono comp hd tl value b.walk b'.walk hb.1 b.pass h prevs nexts hne b'.pass
    hb.2.1

theorem linkLevelLog_mono {α : Type} (comp : α → α → Bool) {b b' : Budget} (hb : b.le b')
    (hd tl : Nat) (value : α) (nd level : Nat) :
    ∀ (n : Nat) (h : List (node α)) (prevs nexts : List Nat),
      linkLevelLog comp b hd tl value nd level n h prevs nexts ≠ .error .outOfFuel →
      ∀ n', n ≤ n' → linkLevelLog comp b' hd tl value nd level n' h prevs nexts =
        linkLevelLog comp b hd tl value nd level n h prevs nexts := by
  intro n
  induction n with
  | zero => intro h prevs nexts hne; exact absurd (by unfold linkLevelLog; rfl) hne
  | succ k ih =>
    intro h prevs nexts hne n' hn'
    obtain ⟨k', rfl⟩ : ∃ k', n' = k' + 1 := ⟨n' - 1, by omega⟩
    revert hne
    unfold linkLevelLog
    simp only [bind, Except.bind]
    cases index prevs level with
    | error f => intro _; simp only [Bool.not_true, Bool.not_false, Bool.false_eq_true, if_true, if_false]
    | ok prev =>
      simp only []
      cases index nexts level with
      | error f => intro _; simp only [Bool.not_true, Bool.not_false, Bool.false_eq_true, if_true, if_false]
      | ok next =>
        simp only []
        cases casNextLog Site.link h prev level next nd with
        | error f => intro _; simp only [Bool.not_true, Bool.not_false, Bool.false_eq_true, if_true, if_false]
        | ok r =>
          obtain ⟨sw, h', es⟩ := r
          cases sw with
          | true => intro _; simp only [Bool.not_true, Bool.not_false, Bool.false_eq_true, if_true, if_false]
          | false =>
            simp only [Bool.false_eq_true, if_false]
            intro hne
            have hne1 : findLog comp b h' hd tl value prevs nexts ≠ .error .outOfFuel :=
              fun hc => hne (by rw [hc])
            rw [findLog_mono comp hb h' hd tl value prevs nexts hne1]
            revert hne
            cases findLog comp b h' hd tl value prevs nexts with
            | error f => intro _; simp only [Bool.not_true, Bool.not_false, Bool.false_eq_true, if_true, if_false]
            | ok r =>
              obtain ⟨⟨found, h'', prevs', nexts'⟩, es'⟩ := r
              simp only []
              intro hne
              rw [ih h'' prevs' nexts' (fun hc => hne (by rw [hc])) k' (by omega)]

theorem linkUpperLog_mono {α : Type} (comp : α → α → Bool) {b b' : Budget} (hb : b.le b')
    (hd tl : Nat) (value : α) (nd : Nat) :
    ∀ (n level : Nat) (h : List (node α)) (prevs nexts : List Nat),
      linkUpperLog comp b hd tl value nd n level h prevs nexts ≠ .error .outOfFuel →
      linkUpperLog comp b' hd tl value nd n level h prevs nexts =
        linkUpperLog comp b hd tl value nd n level h prevs nexts := by
  intro n
  induction n with
  | zero => intro level h prevs nexts _; rfl
  | succ n ih =>
    intro level h prevs nexts
    unfold linkUpperLog
    simp only [bind, Except.bind]
    intro hne
    have hne1 : linkLevelLog comp b hd tl value nd level b.link h prevs nexts ≠
        .error .outOfFuel := fun hc => hne (by rw [hc])
    rw [linkLevelLog_mono comp hb hd tl value nd level b.link h prevs nexts hne1 b'.link
      hb.2.2.2.1]
    revert hne
    cases linkLevelLog comp b hd tl value nd level b.link h prevs nexts with
    | error f => intro _; simp only [Bool.not_true, Bool.not_false, Bool.false_eq_true, if_true, if_false]
    | ok r =>
      obtain ⟨⟨h', prevs', nexts'⟩, es⟩ := r
      simp only []
      intro hne
      rw [ih (level + 1) h' prevs' nexts' (fun hc => hne (by rw [hc]))]

theorem addLoopLog_mono {α : Type} (comp : α → α → Bool) (rand : Nat → Nat) {b b' : Budget}
    (hb : b.le b') (value : α) :
    ∀ (n : Nat) (sl : LockFreeSkipList α) (prevs nexts : List Nat),
      addLoopLog comp rand b value n sl prevs nexts ≠ .error .outOfFuel →
      ∀ n', n ≤ n' → addLoopLog comp rand b' value n' sl prevs nexts =
        addLoopLog comp rand b value n sl prevs nexts := by
  intro n
  induction n with
  | zero => intro sl prevs nexts hne; exact absurd rfl hne
  | succ k ih =>
    intro sl prevs nexts hne n' hn'
    obtain ⟨k', rfl⟩ : ∃ k', n' = k' + 1 := ⟨n' - 1, by omega⟩
    revert hne
    unfold addLoopLog
    simp only [bind, Except.bind]
    intro hne
    have hne1 : findLog comp b sl.mem sl.head sl.tail value prevs nexts ≠
        .error .outOfFuel := fun hc => hne (by rw [hc])
    rw [findLog_mono comp hb sl.mem sl.head sl.tail value prevs nexts hne1]
    revert hne
    cases findLog comp b sl.mem sl.head sl.tail value prevs nexts with
    | error f => intro _; simp only [Bool.not_true, Bool.not_false, Bool.false_eq_true, if_true, if_false]
    | ok r =>
      obtain ⟨⟨found, h1, prevs1, nexts1⟩, es1⟩ := r
      simp only []
      cases found with
      | true => intro _; simp only [Bool.not_true, Bool.not_false, Bool.false_eq_true, if_true, if_false]
      | false =>
        simp only [Bool.false_eq_true, if_false]
        cases newNodeLog h1 (randomLevel rand sl.draws).1 (some value) with
        | error f => intro _; simp only [Bool.not_true, Bool.not_false, Bool.false_eq_true, if_true, if_false]
        | ok r =>
          obtain ⟨⟨nd, h2⟩, es2⟩ := r
          simp only []
          cases copyNextsLog nd nexts1 ((randomLevel rand sl.draws).1 - 0) 0 h2 with
          | error f => intro _; simp only [Bool.not_true, Bool.not_false, Bool.false_eq_true, if_true, if_false]
          | ok r =>
            obtain ⟨h3, es3⟩ := r
            simp only []
            cases index prevs1 0 with
            | error f => intro _; simp only [Bool.not_true, Bool.not_false, Bool.false_eq_true, if_true, if_false]
            | ok prev =>
              simp only []
              cases index nexts1 0 with
              | error f => intro _; simp only [Bool.not_true, Bool.not_false, Bool.false_eq_true, if_true, if_false]
              | ok next =>
                simp only []
                cases casNextLog Site.link h3 prev 0 next nd with
                | error f => intro _; simp only [Bool.not_true, Bool.not_false, Bool.false_eq_true, if_true, if_false]
                | ok r =>
                  obtain ⟨sw, h4, es4⟩ := r
                  cases sw with
                  | false =>
                    simp only [Bool.not_false, if_true]
                    intro hne
                    rw [ih _ prevs1 nexts1 (fun hc => hne (by rw [hc])) k' (by omega)]
                  | true =>
                    simp only [Bool.not_true, Bool.false_eq_true, if_false]
                    intro hne
                    rw [linkUpperLog_mono comp hb sl.head sl.tail value nd
                      ((randomLevel rand sl.draws).1 - 1) 1 h4 prevs1 nexts1
                      (fun hc => hne (by rw [hc]))]

theorem AddLog_mono {α : Type} (comp : α → α → Bool) (rand : Nat → Nat) {b b' : Budget}
    (hb : b.le b') (sl : LockFreeSkipList α) (value : α)
    (hne : AddLog comp rand b sl value ≠ .error .outOfFuel) :
    AddLog comp rand b' sl value = AddLog comp rand b sl value :=
  addLoopLog_mono comp rand hb value b.outer sl _ _ hne b'.outer hb.2.2.1

theorem markLevelLog_mono {α : Type} (nd level : Nat) :
    ∀ (n : Nat) (h : List (node α)) (next : Nat),
      markLevelLog nd level n h next ≠ .error .outOfFuel →
      ∀ n', n ≤ n' → markLevelLog nd level n' h next = markLevelLog nd level n h next := by
  intro n
  induction n with
  | zero => intro h next hne; exact absurd rfl hne
  | succ k ih =>
    intro h next hne n' hn'
    obtain ⟨k', rfl⟩ : ∃ k', n' = k' + 1 := ⟨n' - 1, by omega⟩
    revert hne
    unfold markLevelLog
    cases hm : isMarked next with
    | true => intro _; simp only [Bool.not_true, Bool.not_false, Bool.false_eq_true, if_true, if_false]
    | false =>
      simp only [Bool.not_false, if_true, bind, Except.bind]
      cases casNextLog Site.mark h nd level next (getMarked next) with
      | error f => intro _; simp only [Bool.not_true, Bool.not_false, Bool.false_eq_true, if_true, if_false]
      | ok r =>
        obtain ⟨sw, h', es⟩ := r
        simp only []
        cases loadNext h' nd level with
        | error f => intro _; simp only [Bool.not_true, Bool.not_false, Bool.false_eq_true, if_true, if_false]
        | ok next' =>
          simp only []
          intro hne
          rw [ih h' next' (fun hc => hne (by rw [hc])) k' (by omega)]

theorem markUpperLog_mono {α : Type} (mark mark' : Nat) (hmk : mark ≤ mark') (nd : Nat) :
    ∀ (k : Nat) (h : List (node α)),
      markUpperLog mark nd k h ≠ .error .outOfFuel →
      markUpperLog mark' nd k h = markUpperLog mark nd k h := by
  intro k
  induction k with
  | zero => intro h _; rfl
  | succ level ih =>
    intro h
    unfold markUpperLog
    simp only [bind, Except.bind]
    cases loadNext h nd (level + 1) with
    | error f => intro _; simp only [Bool.not_true, Bool.not_false, Bool.false_eq_true, if_true, if_false]
    | ok next =>
      simp only []
      intro hne
      have hne1 : markLevelLog nd (level + 1) mark h next ≠ .error .outOfFuel :=
        fun hc => hne (by rw [hc])
      rw [markLevelLog_mono nd (level + 1) mark h next hne1 mark' hmk]
      revert hne
      cases markLevelLog nd (level + 1) mark h next with
      | error f => intro _; simp only [Bool.not_true, Bool.not_false, Bool.false_eq_true, if_true, if_false]
      | ok r =>
        obtain ⟨h', es⟩ := r
        simp only []
        intro hne
        rw [ih h' (fun hc => hne (by rw [hc]))]

theorem markBottomLog_mono {α : Type} (nd : Nat) :
    ∀ (n : Nat) (h : List (node α)) (next : Nat),
      markBottomLog nd n h next ≠ .error .outOfFuel →
      ∀ n', n ≤ n' → markBottomLog nd n' h next = markBottomLog nd n h next := by
  intro n
  induction n with
  | zero => intro h next hne; exact absurd rfl hne
  | succ k ih =>
    intro h next hne n' hn'
    obtain ⟨k', rfl⟩ : ∃ k', n' = k' + 1 := ⟨n' - 1, by omega⟩
    revert hne
    unfold markBottomLog
    cases hm : isMarked next with
    | true => intro _; simp only [Bool.not_true, Bool.not_false, Bool.false_eq_true, if_true, if_false]
    | false =>
      simp only [Bool.false_eq_true, if_false, bind, Except.bind]
      cases casNextLog Site.mark h nd 0 next (getMarked next) with
      | error f => intro _; simp only [Bool.not_true, Bool.not_false, Bool.false_eq_true, if_true, if_false]
      | ok r =>
        obtain ⟨sw, h', es⟩ := r
        cases sw with
        | true => intro _; simp only [Bool.not_true, Bool.not_false, Bool.false_eq_true, if_true, if_false]
        | false =>
          simp only [Bool.false_eq_true, if_false]
          cases loadNext h' nd 0 with
          | error f => intro _; simp only [Bool.not_true, Bool.not_false, Bool.false_eq_true, if_true, if_false]
          | ok next' =>
            simp only []
            intro hne
            rw [ih h' next' (fun hc => hne (by rw [hc])) k' (by omega)]

theorem RemoveLog_mono {α : Type} (comp : α → α → Bool) {b b' : Budget} (hb : b.le b')
    (sl : LockFreeSkipList α) (value : α)
    (hne : RemoveLog comp b sl value ≠ .error .outOfFuel) :
    RemoveLog comp b' sl value = RemoveLog comp b sl value := by
  revert hne
  unfold RemoveLog
  simp only [bind, Except.bind]
  intro hne
  have hne1 : findLog comp b sl.mem sl.head sl.tail value (List.replicate maxLevel 0)
      (List.replicate maxLevel 0) ≠ .error .outOfFuel := fun hc => hne (by rw [hc])
  rw [findLog_mono comp hb sl.mem sl.head sl.tail value _ _ hne1]
  revert hne
  cases findLog comp b sl.mem sl.head sl.tail value (List.replicate maxLevel 0)
    (List.replicate maxLevel 0) with
  | error f => intro _; simp only [Bool.not_true, Bool.not_false, Bool.false_eq_true, if_true, if_false]
  | ok r =>
    obtain ⟨⟨found, h1, prevs1, nexts1⟩, es1⟩ := r
    simp only []
    cases found with
    | false => intro _; simp only [Bool.not_true, Bool.not_false, Bool.false_eq_true, if_true, if_false]
    | true =>
      simp only [Bool.not_true, Bool.false_eq_true, if_false]
      cases index nexts1 0 with
      | error f => intro _; simp only [Bool.not_true, Bool.not_false, Bool.false_eq_true, if_true, if_false]
      | ok removeNode =>
        simp only []
        cases deref h1 removeNode with
        | error f => intro _; simp only [Bool.not_true, Bool.not_false, Bool.false_eq_true, if_true, if_false]
        | ok n =>
          simp only []
          intro hne
          have hne2 : markUpperLog b.mark removeNode (n.level - 1) h1 ≠ .error .outOfFuel :=
            fun hc => hne (by rw [hc])
          rw [markUpperLog_mono b.mark b'.mark hb.2.2.2.2.1 removeNode (n.level - 1) h1 hne2]
          revert hne
          cases markUpperLog b.mark removeNode (n.level - 1) h1 with
          | error f => intro _; simp only [Bool.not_true, Bool.not_false, Bool.false_eq_true, if_true, if_false]
          | ok r =>
            obtain ⟨h2, es2⟩ := r
            simp only []
            cases loadNext h2 removeNode 0 with
            | error f => intro _; simp only [Bool.not_true, Bool.not_false, Bool.false_eq_true, if_true, if_false]
            | ok next =>
              simp only []
              intro hne
              rw [markBottomLog_mono removeNode b.bottom h2 next
                (fun hc => hne (by rw [hc])) b'.bottom hb.2.2.2.2.2]

theorem ContainsLog_mono {α : Type} (comp : α → α → Bool) {b b' : Budget} (hb : b.le b')
    (sl : LockFreeSkipList α) (value : α)
    (hne : ContainsLog comp b sl value ≠ .error .outOfFuel) :
    ContainsLog comp b' sl value = ContainsLog comp b sl value := by
  revert hne
  unfold ContainsLog
  simp only [bind, Except.bind]
  intro hne
  rw [findLog_mono comp hb sl.mem sl.head sl.tail value _ _ (fun hc => hne (by rw [hc]))]

/-- A logged call that ended otherwise than by exhausting a budget ends in the
same way under every larger budget. -/
theorem runOpLog_mono {α : Type} (comp : α → α → Bool) (rand : Nat → Nat) {b b' : Budget}
    (hb : b.le b') (sl : LockFreeSkipList α) (op : Op α)
    (hne : runOpLog comp rand b sl op ≠ .error .outOfFuel) :
    runOpLog comp rand b' sl op = runOpLog comp rand b sl op := by
  cases op with
  | add v => exact AddLog_mono comp rand hb sl v hne
  | remove v => exact RemoveLog_mono comp hb sl v hne
  | contains v => exact ContainsLog_mono comp hb sl v hne

theorem Budget.uniform_le {fuel fuel' : Nat} (h : fuel ≤ fuel') :
    (Budget.uniform fuel).le (Budget.uniform fuel') :=
  ⟨fun _ => h, h, h, h, h, h⟩

theorem map_fst_ne {β γ : Type} {x : Except Fault (β × γ)} {f : Fault}
    (h : x.map Prod.fst ≠ .error f) : x ≠ .error f := fun hc => h (by rw [hc]; rfl)

/-- A call that ended otherwise than by exhausting its budget ends in the same
way under every larger budget. -/
theorem runOp_mono {α : Type} (comp : α → α → Bool) (rand : Nat → Nat) {fuel fuel' : Nat}
    (hf : fuel ≤ fuel') (sl : LockFreeSkipList α) (op : Op α)
    (hne : runOp comp rand fuel sl op ≠ .error .outOfFuel) :
    runOp comp rand fuel' sl op = runOp comp rand fuel sl op := by
  rw [← runOpLog_erase] at hne
  rw [← runOpLog_erase, ← runOpLog_erase,
    runOpLog_mono comp rand (Budget.uniform_le hf) sl op (map_fst_ne hne)]

/-- A sequence of calls that ended otherwise than by exhausting its budget ends
in the same way under every larger budget. -/
theorem runOps_mono {α : Type} (comp : α → α → Bool) (rand : Nat → Nat) {fuel fuel' : Nat}
    (hf : fuel ≤ fuel') :
    ∀ (ops : List (Op α)) (sl : LockFreeSkipList α),
      runOps comp rand fuel ops sl ≠ .error .outOfFuel →
      runOps comp rand fuel' ops sl = runOps comp rand fuel ops sl := by
  intro ops
  induction ops with
  | nil => intro sl _; rfl
  | cons op ops ih =>
    intro sl
    unfold runOps
    simp only [bind, Except.bind]
    intro hne
    have hne1 : runOp comp rand fuel sl op ≠ .error .outOfFuel := fun hc => hne (by rw [hc])
    rw [runOp_mono comp rand hf sl op hne1]
    revert hne
    cases runOp comp rand fuel sl op with
    | error f => intro _; rfl
    | ok r =>
      obtain ⟨b, sl1⟩ := r
      simp only []
      intro hne
      rw [ih sl1 (fun hc => hne (by rw [hc]))]

/-- Whatever its budget, a sequence of calls on a list that satisfies the
invariant can only fail by exhausting the budget. -/
theorem runOps_fault {α : Type} (comp : α → α → Bool) (rand : Nat → Nat) (fuel : Nat)
    (ops : List (Op α)) {sl : LockFreeSkipList α} (hinv : Inv sl) {f : Fault}
    (hf : runOps comp rand fuel ops sl = .error f) : f = .outOfFuel := by
  by_contra hne
  have hne' : runOps comp rand fuel ops sl ≠ .error .outOfFuel := by
    rw [hf]
    intro hc
    exact hne (Except.error.inj hc)
  have hm := runOps_mono comp rand (Nat.le_max_left fuel (sl.mem.length + ops.length)) ops sl
    hne'
  obtain ⟨bs, sl', hrun, -⟩ := runOps_inv comp rand ops hinv
    (show sl.mem.length + ops.length ≤ max fuel (sl.mem.length + ops.length) from
      Nat.le_max_right _ _)
  rw [hrun, hf] at hm
  cases hm

theorem chainFrom_length {α : Type} (h : List (node α)) (tl L : Nat) :
    ∀ (fuel x : Nat) (xs : List Nat), chainFrom h tl L fuel x = some xs → xs.length < fuel := by
  intro fuel
  induction fuel with
  | zero => intro x xs hx; cases hx
  | succ k ih =>
    intro x xs
    unfold chainFrom
    cases loadNext h x L with
    | error f => intro hx; cases hx
    | ok p =>
      simp only []
      by_cases hp : getUnmarked p = tl
      · rw [if_pos hp]
        intro hx
        cases hx
        simp
      · rw [if_neg hp]
        cases hrec : chainFrom h tl L k (getUnmarked p) with
        | none => intro hx; cases hx
        | some ys =>
          intro hx
          have := ih _ _ hrec
          simp only [Option.map_some'] at hx
          cases hx
          simp
          omega

theorem chainLen_lt {α : Type} (sl : LockFreeSkipList α) (L : Nat) (hm : 1 ≤ sl.mem.length) :
    chainLen sl L < sl.mem.length := by
  unfold chainLen levelChain
  cases hc : chainFrom sl.mem sl.tail L sl.mem.length sl.head with
  | none => simpa using hm
  | some xs => simpa using chainFrom_length _ _ _ _ _ _ hc

theorem InvC.chainLen_eq {α : Type} {sl : LockFreeSkipList α} {ch : Nat → List Nat}
    (hinv : InvC sl ch) {L : Nat} (hL : L < maxLevel) : chainLen sl L = (ch L).length := by
  unfold chainLen
  rw [hinv.levelChain_eq hL (by
    have h2 := (hinv.sub0 L).length_le
    have h3 := hinv.room
    omega)]
  rfl

theorem InvC.walk_tight {α : Type} {sl : LockFreeSkipList α} {ch : Nat → List Nat}
    (hinv : InvC sl ch) (L : Nat) (hL : L < maxLevel) :
    (ch L).length < (tightBudget sl).walk L := by
  show (ch L).length < chainLen sl L + 1
  rw [hinv.chainLen_eq hL]
  omega

/-- The tight budget is below one iteration per allocated node for every loop. -/
theorem tightBudget_le {α : Type} (sl : LockFreeSkipList α) {fuel : Nat}
    (hm : 2 ≤ sl.mem.length) (hf : sl.mem.length ≤ fuel) :
    (tightBudget sl).le (Budget.uniform fuel) := by
  refine ⟨fun L => ?_, ?_, ?_, ?_, ?_, ?_⟩
  · show chainLen sl L + 1 ≤ fuel
    have := chainLen_lt sl L (by omega)
    omega
  · show 1 ≤ fuel
    omega
  · show 1 ≤ fuel
    omega
  · show 1 ≤ fuel
    omega
  · show 2 ≤ fuel
    omega
  · show 1 ≤ fuel
    omega

/-! ## The atomic writes of a call -/

theorem marksKept_refl {α : Type} (h : List (node α)) : MarksKept h h :=
  fun _ _ p hp hm => ⟨p, hp, hm⟩

theorem marksKept_trans {α : Type} {h1 h2 h3 : List (node α)} (h12 : MarksKept h1 h2)
    (h23 : MarksKept h2 h3) : MarksKept h1 h3 := by
  intro x L p hp hm
  obtain ⟨p2, hp2, hm2⟩ := h12 x L p hp hm
  exact h23 x L p2 hp2 hm2

theorem loadNext_sameShape {α : Type} {h h' : List (node α)} (hs : SameShape h h')
    {x L p : Nat} (hp : loadNext h x L = .ok p) :
    ∃ p', loadNext h' x L = .ok p' ∧ isMarked p' = isMarked p := by
  obtain ⟨nd, hnd, hi⟩ := loadNext_ok_iff.1 hp
  obtain ⟨nd', hnd', -, -, -, hsl⟩ := hs.2 x nd hnd
  obtain ⟨p', hp', hm⟩ := hsl L p hi
  exact ⟨p', loadNext_ok_iff.2 ⟨nd', hnd', hp'⟩, hm⟩

theorem marksKept_of_sameShape {α : Type} {h h' : List (node α)} (hs : SameShape h h') :
    MarksKept h h' := by
  intro x L p hp hm
  obtain ⟨p', hp', hm'⟩ := loadNext_sameShape hs hp
  exact ⟨p', hp', by rw [hm', hm]⟩

theorem marksKept_append {α : Type} (h : List (node α)) (nd : node α) :
    MarksKept h (h ++ [nd]) := by
  intro x L p hp hm
  refine ⟨p, ?_, hm⟩
  obtain ⟨n, hn, -⟩ := loadNext_ok_iff.1 hp
  have hx : x ≠ addrOf h.length := fun e => deref_fresh h n (e ▸ hn)
  rw [loadNext_append, if_neg hx]
  exact hp

theorem marksKept_of_mark {α : Type} {h h' : List (node α)} {c : Nat}
    (hl : ∀ x L, loadNext h' x L =
      if x = c then (loadNext h x L).map getMarked else loadNext h x L) : MarksKept h h' := by
  intro x L p hp hm
  by_cases hx : x = c
  · refine ⟨getMarked p, ?_, isMarked_getMarked p⟩
    rw [hl, if_pos hx, hp]
    rfl
  · exact ⟨p, by rw [hl, if_neg hx]; exact hp, hm⟩

theorem mem_markEvents {nd : Nat} {w : Nat → Nat} {e : Event} :
    ∀ {k : Nat}, e ∈ markEvents nd w k →
      ∃ L, 1 ≤ L ∧ L ≤ k ∧ e = Event.cas Site.mark nd L (w L) (getMarked (w L)) (w L) := by
  intro k
  induction k with
  | zero => intro he; cases he
  | succ k ih =>
    intro he
    rcases List.mem_cons.1 he with rfl | he
    · exact ⟨k + 1, by omega, le_refl _, rfl⟩
    · obtain ⟨L, h1, h2, h3⟩ := ih he
      exact ⟨L, h1, by omega, h3⟩

theorem mem_removeEvents {nd top : Nat} {w : Nat → Nat} {e : Event} (htop : 1 ≤ top)
    (he : e ∈ removeEvents nd top w) :
    ∃ L, L < top ∧ e = Event.cas Site.mark nd L (w L) (getMarked (w L)) (w L) := by
  rcases List.mem_append.1 he with he | he
  · obtain ⟨L, h1, h2, h3⟩ := mem_markEvents he
    exact ⟨L, by omega, h3⟩
  · rw [List.mem_singleton] at he
    exact ⟨0, by omega, he⟩

theorem mem_addEvents {nd top : Nat} {prevs nexts : List Nat} {e : Event}
    (he : e ∈ addEvents nd top prevs nexts) :
    ∃ L, L < top ∧ (e = Event.store nd L 0 0 ∨ e = Event.store nd L 0 (nexts.getD L 0) ∨
      e = Event.cas Site.link (prevs.getD L 0) L (nexts.getD L 0) nd (nexts.getD L 0)) := by
  unfold addEvents at he
  rcases List.mem_append.1 he with he | he
  · obtain ⟨L, hL, rfl⟩ := List.mem_map.1 he
    exact ⟨L, by have := (List.mem_range'_1.1 hL).2; omega, Or.inl rfl⟩
  · rcases List.mem_append.1 he with he | he
    · obtain ⟨L, hL, rfl⟩ := List.mem_map.1 he
      exact ⟨L, by have := (List.mem_range'_1.1 hL).2; omega, Or.inr (Or.inl rfl)⟩
    · obtain ⟨L, hL, rfl⟩ := List.mem_map.1 he
      exact ⟨L, by have := (List.mem_range'_1.1 hL).2; omega, Or.inr (Or.inr rfl)⟩

/-- Every event of a call is a write whose CAS swapped, on a slot that held an
unmarked word. -/
theorem OpEvent.facts {α : Type} {sl : LockFreeSkipList α} {xs : List Nat} {e : Event}
    (he : OpEvent sl xs e) : e.swapped = true ∧ isMarked e.before = false := by
  rcases he with ⟨p, L, c, d, rfl, -, -, -, -, -, -, -, -, hc, -⟩ | ⟨L, n, rfl, -⟩ |
    ⟨p, L, n, rfl, -, -, hn⟩ | ⟨c, L, w, rfl, -, -, hw⟩
  · exact ⟨by simp [Event.swapped], hc⟩
  · exact ⟨rfl, isMarked_zero⟩
  · exact ⟨by simp [Event.swapped], hn⟩
  · exact ⟨by simp [Event.swapped], hw⟩

theorem Budget.le.walk_lt {α : Type} {sl : LockFreeSkipList α} {ch : Nat → List Nat}
    (hinv : InvC sl ch) {b : Budget} (hb : (tightBudget sl).le b) (L : Nat)
    (hL : L < maxLevel) : (ch L).length < b.walk L :=
  lt_of_lt_of_le (hinv.walk_tight L hL) (hb.1 L)

/-- Every call on a list that satisfies the invariant returns under the tight
budget of the list, and under every larger one; its log holds only writes of
the four kinds of `OpEvent`, and no slot loses its mark. -/
theorem runOpLog_spec {α : Type} (comp : α → α → Bool) (rand : Nat → Nat)
    {sl : LockFreeSkipList α} {ch : Nat → List Nat} (hinv : InvC sl ch) (op : Op α)
    {b : Budget} (hb : (tightBudget sl).le b) :
    ∃ r sl' es, runOpLog comp rand b sl op = .ok ((r, sl'), es) ∧
      (∀ e, e ∈ es → OpEvent sl (ch 0) e) ∧ MarksKept sl.mem sl'.mem := by
  have hwalk := Budget.le.walk_lt hinv hb
  have hpass : 1 ≤ b.pass := hb.2.1
  have houter : 1 ≤ b.outer := hb.2.2.1
  have hlink : 1 ≤ b.link := hb.2.2.2.1
  have hmark : 2 ≤ b.mark := hb.2.2.2.2.1
  have hbottom : 1 ≤ b.bottom := hb.2.2.2.2.2
  cases op with
  | add v =>
    obtain ⟨found, h1, ch1, A, cs, prevs, nexts, es1, -, hdone, hfound, hev, hyes, hno⟩ :=
      addLog_spec comp rand v hinv hwalk hpass houter hlink
    cases found with
    | true =>
      exact ⟨_, _, _, hyes rfl, fun e he => Or.inl (hev e he),
        marksKept_of_sameShape hdone.shape⟩
    | false =>
      obtain ⟨hF, ch', hrun, hI, hlen, hch, hshF, -⟩ := hno rfl
      have hinv1 := hdone.inv
      have hl1 : h1.length = sl.mem.length := hdone.shape.1
      obtain ⟨-, htop⟩ := randomLevel_bounds rand sl.draws
      refine ⟨_, _, _, hrun, ?_, ?_⟩
      · intro e he
        rcases List.mem_append.1 he with he | he
        · exact Or.inl (hev e he)
        · obtain ⟨L, hL, he⟩ := mem_addEvents he
          have hLm : L < maxLevel := by omega
          have hn := hdone.nexts_eq L (Nat.zero_le _) hLm
          have hp := hdone.prevs_eq L (Nat.zero_le _) hLm
          have hgn : nexts.getD L 0 = (cs L).headD sl.tail := by simp [List.getD, hn]
          have hgp : prevs.getD L 0 = lastD (A L) sl.head := by simp [List.getD, hp]
          have hsplit : ch1 L = A L ++ cs L := hdone.split L (Nat.zero_le _)
          have hunm : isMarked ((cs L).headD sl.tail) = false := by
            apply hinv1.addr_unmarked
            rcases hinv1.headD_mem hsplit with e | e
            · exact Or.inr (Or.inl e)
            · exact Or.inr (Or.inr e)
          rw [hl1] at he
          rcases he with rfl | rfl | rfl
          · exact Or.inr (Or.inl ⟨L, 0, rfl, isMarked_zero⟩)
          · exact Or.inr (Or.inl ⟨L, _, rfl, by rw [hgn]; exact hunm⟩)
          · refine Or.inr (Or.inr (Or.inl ⟨_, L, _, rfl, hLm, ?_, by rw [hgn]; exact hunm⟩))
            rw [hgp]
            rcases hinv1.prev_mem hsplit with e | e
            · exact Or.inl e
            · exact Or.inr (hdone.sub0.subset e)
      · exact marksKept_trans (marksKept_of_sameShape hdone.shape)
          (marksKept_trans (marksKept_append h1 _) (marksKept_of_sameShape hshF))
  | remove v =>
    obtain ⟨found, h1, ch1, A, cs, prevs, nexts, es1, -, hdone, hfound, hev, hno, hyes⟩ :=
      removeLog_spec comp v hinv hwalk hpass hmark hbottom
    cases found with
    | false =>
      exact ⟨_, _, _, hno rfl, fun e he => Or.inl (hev e he),
        marksKept_of_sameShape hdone.shape⟩
    | true =>
      obtain ⟨c, rest, nd, hR, hC, hnd, hlen, hl1, hl2, hunm, hrun, hI, hsn, hform, -⟩ :=
        hyes rfl
      have hc0 : c ∈ ch1 0 := by
        rw [hdone.split 0 (le_refl _), hC]; simp
      refine ⟨_, _, _, hrun, ?_, ?_⟩
      · intro e he
        rcases List.mem_append.1 he with he | he
        · exact Or.inl (hev e he)
        · obtain ⟨L, hL, rfl⟩ := mem_removeEvents hl1 he
          exact Or.inr (Or.inr (Or.inr ⟨c, L, _, rfl, by omega, hdone.sub0.subset hc0,
            hunm L hL⟩))
      · exact marksKept_trans (marksKept_of_sameShape hdone.shape) (marksKept_of_mark hform)
  | contains v =>
    obtain ⟨found, h1, ch1, A, cs, prevs, nexts, es1, -, hdone, hfound, hev, hrun⟩ :=
      containsLog_spec comp v hinv hwalk hpass
    exact ⟨_, _, _, hrun, fun e he => Or.inl (hev e he), marksKept_of_sameShape hdone.shape⟩

/-- The result of a logged call is the result of the call. -/
theorem runOp_of_log {α : Type} {comp : α → α → Bool} {rand : Nat → Nat} {fuel : Nat}
    {sl : LockFreeSkipList α} {op : Op α} {r : Bool × LockFreeSkipList α} {es : List Event}
    (h : runOpLog comp rand (Budget.uniform fuel) sl op = .ok (r, es)) :
    runOp comp rand fuel sl op = .ok r := by
  rw [← runOpLog_erase, h]
  rfl

/-- Over a sequence of calls no slot loses its mark. -/
theorem runOps_marksKept {α : Type} (comp : α → α → Bool) (rand : Nat → Nat) {fuel : Nat}
    (ops : List (Op α)) :
    ∀ {sl : LockFreeSkipList α}, Inv sl → sl.mem.length + ops.length ≤ fuel →
      ∃ bs sl', runOps comp rand fuel ops sl = .ok (bs, sl') ∧ MarksKept sl.mem sl'.mem := by
  induction ops with
  | nil => intro sl _ _; exact ⟨[], sl, rfl, marksKept_refl _⟩
  | cons op ops ih =>
    intro sl hinv hfuel
    simp only [List.length_cons] at hfuel
    obtain ⟨ch, hI⟩ := hinv
    obtain ⟨r, sl1, es, hlog, -, hk⟩ := runOpLog_spec comp rand hI op
      (tightBudget_le sl hI.mem_length_ge (show sl.mem.length ≤ fuel by omega))
    have hrun := runOp_of_log hlog
    obtain ⟨b, sl1', hrun', hinv1, -, hmem⟩ := step_inv comp rand ⟨ch, hI⟩
      (show sl.mem.length ≤ fuel by omega) op
    rw [hrun] at hrun'
    cases hrun'
    have hle : opAlloc op r ≤ 1 := opAlloc_le_one op r
    obtain ⟨bs, sl2, hrun2, hk2⟩ := ih hinv1 (by omega)
    refine ⟨r :: bs, sl2, ?_, marksKept_trans hk hk2⟩
    simp only [runOps, hrun, hrun2, bind, Except.bind, pure, Except.pure]

theorem Budget.le_refl (b : Budget) : b.le b :=
  ⟨fun _ => Nat.le_refl _, Nat.le_refl _, Nat.le_refl _, Nat.le_refl _, Nat.le_refl _,
    Nat.le_refl _⟩

/-- Under every budget above the tight one a logged call returns what it
returns under the tight budget. -/
theorem runOpLog_tight {α : Type} (comp : α → α → Bool) (rand : Nat → Nat)
    {sl : LockFreeSkipList α} {op : Op α} {r : (Bool × LockFreeSkipList α) × List Event}
    (h : runOpLog comp rand (tightBudget sl) sl op = .ok r) {b : Budget}
    (hb : (tightBudget sl).le b) : runOpLog comp rand b sl op = .ok r := by
  rw [runOpLog_mono comp rand hb sl op (by rw [h]; exact fun hc => Except.noConfusion hc), h]

theorem reachable_listAfterWith (rand : Nat → Nat) (fuel : Nat) (ops : List (Op Nat))
    (hfuel : ops.length + 2 ≤ fuel) : Reachable natLt rand (listAfterWith rand fuel ops) := by
  obtain ⟨sl0, hnew, hinv0, -, hlen, -⟩ := newList_spec Nat
  obtain ⟨bs, sl', hrun, -⟩ :=
    runOps_inv natLt rand ops ⟨_, hinv0⟩
      (show sl0.mem.length + ops.length ≤ fuel by omega)
  refine ⟨ops, fuel, sl0, bs, hfuel, hnew, ?_⟩
  simp only [listAfterWith, hnew, hrun, after]

/-- The levels of the marking CASes of `Remove`: from the top down to 0. -/
theorem removeEvents_slots (nd : Nat) (w : Nat → Nat) {top : Nat} (htop : 1 ≤ top) :
    (removeEvents nd top w).map Event.slot = (List.range top).reverse := by
  obtain ⟨k, rfl⟩ : ∃ k, top = k + 1 := ⟨top - 1, by omega⟩
  unfold removeEvents
  rw [List.map_append, markEvents_slots, List.range_eq_range', List.range'_succ,
    List.reverse_cons]
  simp [Event.slot]

/-- The result of a logged `Add` is the result of `Add`. -/
theorem Add_of_log {α : Type} {comp : α → α → Bool} {rand : Nat → Nat} {fuel : Nat}
    {sl : LockFreeSkipList α} {v : α} {r : Bool × LockFreeSkipList α} {es : List Event}
    (h : AddLog comp rand (Budget.uniform fuel) sl v = .ok (r, es)) :
    Add comp rand fuel sl v = .ok r := by
  rw [← AddLog_erase, h]
  rfl

/-- The result of a logged `Remove` is the result of `Remove`. -/
theorem Remove_of_log {α : Type} {comp : α → α → Bool} {fuel : Nat}
    {sl : LockFreeSkipList α} {v : α} {r : Bool × LockFreeSkipList α} {es : List Event}
    (h : RemoveLog comp (Budget.uniform fuel) sl v = .ok (r, es)) :
    Remove comp fuel sl v = .ok r := by
  rw [← RemoveLog_erase, h]
  rfl

/-! ## Adding `0, ..., N - 1` and then removing them in the same order -/

theorem mem_of_live_members {α : Type} {h h1 : List (node α)} {xs ys : List Nat}
    (hm : ys.filter (live h1) = xs.filter (live h)) {x : Nat} (hx : x ∈ xs)
    (hl : live h x = true) : x ∈ ys ∧ live h1 x = true := by
  have : x ∈ ys.filter (live h1) := by
    rw [hm]; exact List.mem_filter.2 ⟨hx, hl⟩
  exact List.mem_filter.1 this

/-- `Add(k)` on a list that holds `0, ..., k - 1`, none removed. -/
theorem churn_add (rand : Nat → Nat) {fuel : Nat} {sl : LockFreeSkipList Nat}
    {ch : Nat → List Nat} {k : Nat} (hc : Churn sl ch 0 k) (hfuel : sl.mem.length ≤ fuel) :
    ∃ sl' ch', Add natLt rand fuel sl k = .ok (true, sl') ∧ Churn sl' ch' 0 (k + 1) ∧
      sl'.mem.length = sl.mem.length + 1 := by
  obtain ⟨hinv, hsorted, hall, hpres⟩ := hc
  obtain ⟨found, h1, ch1, A, C, hp, hyes, hno⟩ := add_spec natLt rand k hinv hfuel
  have hs1 := findPost_sorted hp hsorted
  have hval : ∀ x, valOf h1 x = valOf sl.mem x := fun x => valOf_sameShape hp.shape x
  have hlv : ∀ x, live h1 x = live sl.mem x := fun x => live_sameShape hp.shape x
  have hsub : ∀ x, x ∈ A ++ C → x ∈ ch 0 := fun x hx =>
    hp.sub0.subset (by rw [hp.split]; exact hx)
  have hC : C = [] ∧ found = false := by
    rcases findPost_right hp hs1 with h | ⟨c, rest, cv, hC, -, hcv, hcf, -, -⟩
    · exact h
    · exfalso
      obtain ⟨a, ha, hak, -⟩ := hall c (hsub c (by rw [hC]; simp))
      rw [hval c, ha] at hcv
      cases hcv
      simp [natLt] at hcf
      omega
  obtain ⟨hC, hfound⟩ := hC
  subst hC hfound
  obtain ⟨hF, ch', hrun, hI, hlen, hch0, hnl, hnv, hold⟩ := hno rfl
  simp only [List.append_nil] at hsub hs1
  have hnd : (A ++ [addrOf h1.length]).Nodup := hch0 ▸ hI.nodup
  have hne : ∀ x, x ∈ A → x ≠ addrOf h1.length := by
    intro x hx e
    have := (List.nodup_append.1 hnd).2.2
    exact this hx (by simp [e])
  refine ⟨_, ch', hrun, ⟨hI, ?_, ?_, ?_⟩, ?_⟩
  · show SortedBy natLt hF (ch' 0)
    rw [hch0]
    have hsF : SortedBy natLt hF A :=
      sortedBy_congr natLt (fun x hx => (hold x (hne x hx)).2) hs1
    unfold SortedBy at hsF ⊢
    refine List.pairwise_append.2 ⟨hsF, List.pairwise_singleton _ _, ?_⟩
    intro x hx y hy
    rw [List.mem_singleton] at hy
    subst hy
    obtain ⟨a, ha, hak, -⟩ := hall x (hsub x hx)
    refine ⟨a, k, ?_, hnv, by simp [natLt, hak]⟩
    rw [(hold x (hne x hx)).2, hval x]
    exact ha
  · intro x hx
    have hx' : x ∈ A ++ [addrOf h1.length] := by rw [← hch0]; exact hx
    rcases List.mem_append.1 hx' with hxA | hxn
    · obtain ⟨a, ha, hak, -, hl⟩ := hall x (hsub x hxA)
      refine ⟨a, ?_, by omega, Nat.zero_le _, ?_⟩
      · show valOf hF x = _
        rw [(hold x (hne x hxA)).2, hval x]; exact ha
      · show live hF x = true ↔ _
        rw [(hold x (hne x hxA)).1, hlv x]; exact hl
    · rw [List.mem_singleton] at hxn
      subst hxn
      exact ⟨k, hnv, by omega, Nat.zero_le _, by simp [show live hF _ = true from hnl]⟩
  · intro a _ hak
    by_cases hk : a = k
    · subst hk
      exact ⟨addrOf h1.length, by rw [hch0]; simp, hnv⟩
    · obtain ⟨x, hx, hxv⟩ := hpres a (Nat.zero_le _) (by omega)
      obtain ⟨b, hb, -, -, hl⟩ := hall x hx
      have hxl : live sl.mem x = true := hl.2 (Nat.zero_le _)
      obtain ⟨hx1, -⟩ := mem_of_live_members hp.members hx hxl
      have hxA : x ∈ A := by
        rw [hp.split] at hx1; simpa using hx1
      refine ⟨x, by rw [hch0]; simp [hxA], ?_⟩
      show valOf hF x = _
      rw [(hold x (hne x hxA)).2, hval x]; exact hxv
  · show hF.length = _
    rw [hlen, hp.shape.1]

/-- `Remove(i)` on a list that holds `0, ..., k - 1` after `0, ..., i - 1` were
removed: the node of `i - 1` is unlinked and the node of `i` is marked. -/
theorem churn_remove {fuel : Nat} {sl : LockFreeSkipList Nat}
    {ch : Nat → List Nat} {i k : Nat} (hc : Churn sl ch i k) (hik : i < k)
    (hfuel : sl.mem.length ≤ fuel) :
    ∃ sl' ch', Remove natLt fuel sl i = .ok (true, sl') ∧ Churn sl' ch' (i + 1) k ∧
      sl'.mem.length = sl.mem.length := by
  obtain ⟨hinv, hsorted, hall, hpres⟩ := hc
  have hm := hinv.mem_length_ge
  obtain ⟨found, h1, ch1, A, cs, prevs, nexts, es1, -, hdone, hfound, -, -, hyes⟩ :=
    removeLog_spec natLt i (b := Budget.uniform fuel) hinv
      (fun L _ => hinv.walk_uniform hfuel L) (show 1 ≤ fuel by omega)
      (show 2 ≤ fuel by omega) (show 1 ≤ fuel by omega)
  have hp := findPost_of_done hdone hfound
  have hs1 := findPost_sorted hp hsorted
  have hval : ∀ x, valOf h1 x = valOf sl.mem x := fun x => valOf_sameShape hp.shape x
  have hlv : ∀ x, live h1 x = live sl.mem x := fun x => live_sameShape hp.shape x
  have hsub : ∀ x, x ∈ ch1 0 → x ∈ ch 0 := fun x hx => hp.sub0.subset hx
  -- no node precedes the position found
  have hA : A 0 = [] := by
    rcases List.eq_nil_or_concat (A 0) with hA | ⟨A', p, hA⟩
    · exact hA
    · exfalso
      rw [List.concat_eq_append] at hA
      have hpl := hdone.prev_live 0 (le_refl _)
      rw [hA, lastD_append_singleton] at hpl
      have hpA : p ∈ A 0 := by rw [hA]; simp
      obtain ⟨a, ha, hai⟩ := findPost_left natLt_strictWeak hp hs1 p hpA
      have hp1 : p ∈ ch1 0 := by rw [hp.split]; exact List.mem_append_left _ hpA
      obtain ⟨a', ha', -, -, hl⟩ := hall p (hsub p hp1)
      rw [hval p, ha'] at ha
      cases ha
      rw [hlv p] at hpl
      have := hl.1 hpl
      simp [natLt] at hai
      omega
  have hsplit : ch1 0 = cs 0 := by rw [hp.split, hA]; rfl
  have hs1c : SortedBy natLt h1 (cs 0) := by
    have := hs1
    rw [hA, List.nil_append] at this
    exact this
  -- the node of `i` is live and on the chain
  obtain ⟨x, hx, hxv⟩ := hpres i (by omega) hik
  obtain ⟨xa, hxa, -, -, hxl⟩ := hall x hx
  rw [hxv] at hxa
  cases hxa
  obtain ⟨hx1, hxl1⟩ := mem_of_live_members hp.members hx (hxl.2 (le_refl _))
  rw [hsplit] at hx1
  rcases findPost_right hp hs1 with ⟨hC, -⟩ | ⟨c, rest, cv, hC, hcl, hcv, hcf, hfe, hrest⟩
  · rw [hC] at hx1; cases hx1
  · have hcvi : cv = i := by
      have h1' : i ≤ cv := by simpa [natLt] using hcf
      rw [hC] at hx1
      rcases List.mem_cons.1 hx1 with e | e
      · subst e
        rw [hval x, hxv] at hcv
        cases hcv
        rfl
      · obtain ⟨b, hb, hcb⟩ := hrest x e
        rw [hval x, hxv] at hb
        cases hb
        simp [natLt] at hcb
        omega
    subst hcvi
    have hft : found = true := by rw [hfe]; simp [natLt]
    obtain ⟨c', rest', nd, hR, hC', -, -, -, -, -, hrun, hI, hsn, -, hdead, hothers, hvR⟩ :=
      hyes hft
    rw [hC] at hC'
    obtain ⟨rfl, rfl⟩ := List.cons.inj hC'
    have hch1 : ch1 0 = c :: rest := by rw [hsplit, hC]
    have hnd : (c :: rest).Nodup := hch1 ▸ hp.inv.nodup
    have hrest_ne : ∀ y, y ∈ rest → y ≠ c := fun y hy e =>
      (List.nodup_cons.1 hnd).1 (e ▸ hy)
    have hrest_gt : ∀ y, y ∈ rest → ∃ b, valOf sl.mem y = some b ∧ cv < b := by
      intro y hy
      obtain ⟨b, hb, hcb⟩ := hrest y hy
      exact ⟨b, by rw [← hval y]; exact hb, by simpa [natLt] using hcb⟩
    refine ⟨_, ch1, Remove_of_log hrun, ⟨hI, ?_, ?_, ?_⟩, ?_⟩
    · show SortedBy natLt hR (ch1 0)
      rw [hch1, ← hC]
      exact sortedBy_congr natLt (fun y _ => hvR y) hs1c
    · intro y hy
      obtain ⟨a, ha, hak, hia, hl⟩ := hall y (hsub y hy)
      rw [hch1] at hy
      rcases List.mem_cons.1 hy with e | e
      · subst e
        rw [← hval y, hcv] at ha
        cases ha
        refine ⟨cv, ?_, hak, le_refl _, ?_⟩
        · show valOf hR y = _
          rw [hvR y]; exact hcv
        · show live hR y = true ↔ _
          rw [hdead]
          constructor
          · intro h; cases h
          · intro h; omega
      · obtain ⟨b, hb, hcb⟩ := hrest_gt y e
        rw [ha] at hb
        cases hb
        refine ⟨a, ?_, hak, by omega, ?_⟩
        · show valOf hR y = _
          rw [hvR y, hval y]; exact ha
        · show live hR y = true ↔ _
          rw [hothers y (hrest_ne y e), hlv y]
          constructor
          · intro _; omega
          · intro _; exact hl.2 (by omega)
    · intro a hia hak
      obtain ⟨y, hy, hyv⟩ := hpres a (by omega) hak
      obtain ⟨b, hb, -, -, hl⟩ := hall y hy
      rw [hyv] at hb
      cases hb
      obtain ⟨hy1, -⟩ := mem_of_live_members hp.members hy (hl.2 (by omega))
      refine ⟨y, hy1, ?_⟩
      show valOf hR y = _
      rw [hvR y, hval y]; exact hyv
    · show hR.length = _
      rw [hsn.1, hp.shape.1]

theorem manyRemoves_succ (k n : Nat) :
    manyRemoves k (n + 1) = Op.remove k :: manyRemoves (k + 1) n := by
  simp [manyRemoves, List.range'_succ]

theorem manyRemoves_length (k n : Nat) : (manyRemoves k n).length = n := by
  simp [manyRemoves]

/-- A run of two sequences of calls one after the other. -/
theorem runOps_append {α : Type} (comp : α → α → Bool) (rand : Nat → Nat) (fuel : Nat)
    (ops1 ops2 : List (Op α)) :
    ∀ {sl sl1 sl2 : LockFreeSkipList α} {bs1 bs2 : List Bool},
      runOps comp rand fuel ops1 sl = .ok (bs1, sl1) →
      runOps comp rand fuel ops2 sl1 = .ok (bs2, sl2) →
      runOps comp rand fuel (ops1 ++ ops2) sl = .ok (bs1 ++ bs2, sl2) := by
  induction ops1 with
  | nil =>
    intro sl sl1 sl2 bs1 bs2 h1 h2
    simp only [runOps] at h1
    cases h1
    exact h2
  | cons op ops ih =>
    intro sl sl1 sl2 bs1 bs2 h1 h2
    simp only [runOps, bind, Except.bind] at h1
    cases hop : runOp comp rand fuel sl op with
    | error f => rw [hop] at h1; cases h1
    | ok r =>
      obtain ⟨b, sla⟩ := r
      rw [hop] at h1
      simp only [] at h1
      cases hrest : runOps comp rand fuel ops sla with
      | error f => rw [hrest] at h1; cases h1
      | ok r2 =>
        obtain ⟨bs, slb⟩ := r2
        rw [hrest] at h1
        simp only [pure, Except.pure] at h1
        cases h1
        have := ih hrest h2
        have e : runOps comp rand fuel (op :: (ops ++ ops2)) sl =
            .ok (b :: (bs ++ bs2), sl2) := by
          simp only [runOps, bind, Except.bind, hop, this, pure, Except.pure]
        exact e

/-- The calls `Add(k), ..., Add(k + n - 1)` on a list that holds `0, ..., k - 1`. -/
theorem churn_adds (rand : Nat → Nat) {fuel : Nat} :
    ∀ (n k : Nat) {sl : LockFreeSkipList Nat} {ch : Nat → List Nat}, Churn sl ch 0 k →
      sl.mem.length + n ≤ fuel →
      ∃ sl' ch', runOps natLt rand fuel (manyAdds k n) sl = .ok (List.replicate n true, sl') ∧
        Churn sl' ch' 0 (k + n) ∧ sl'.mem.length = sl.mem.length + n := by
  intro n
  induction n with
  | zero =>
    intro k sl ch hc _
    exact ⟨sl, ch, rfl, hc, rfl⟩
  | succ n ih =>
    intro k sl ch hc hfuel
    obtain ⟨sl1, ch1, hrun1, hc1, hlen1⟩ := churn_add rand hc (show sl.mem.length ≤ fuel by omega)
    obtain ⟨sl2, ch2, hrun2, hc2, hlen2⟩ := ih (k + 1) hc1 (by omega)
    refine ⟨sl2, ch2, ?_, ?_, by omega⟩
    · rw [manyAdds_succ]
      simp only [runOps, runOp, hrun1, hrun2, bind, Except.bind, pure, Except.pure,
        List.replicate_succ]
    · rw [show k + (n + 1) = k + 1 + n by omega]
      exact hc2

/-- The calls `Remove(i), ..., Remove(i + n - 1)` on a list that holds
`0, ..., k - 1` after `0, ..., i - 1` were removed. -/
theorem churn_removes (rand : Nat → Nat) {fuel k : Nat} :
    ∀ (n i : Nat) {sl : LockFreeSkipList Nat} {ch : Nat → List Nat}, Churn sl ch i k →
      i + n ≤ k → sl.mem.length ≤ fuel →
      ∃ sl' ch', runOps natLt rand fuel (manyRemoves i n) sl =
          .ok (List.replicate n true, sl') ∧
        Churn sl' ch' (i + n) k ∧ sl'.mem.length = sl.mem.length := by
  intro n
  induction n with
  | zero =>
    intro i sl ch hc _ _
    exact ⟨sl, ch, rfl, hc, rfl⟩
  | succ n ih =>
    intro i sl ch hc hik hfuel
    obtain ⟨sl1, ch1, hrun1, hc1, hlen1⟩ := churn_remove hc (by omega) hfuel
    obtain ⟨sl2, ch2, hrun2, hc2, hlen2⟩ := ih (i + 1) hc1 (by omega) (by omega)
    refine ⟨sl2, ch2, ?_, ?_, by omega⟩
    · rw [manyRemoves_succ]
      simp only [runOps, runOp, hrun1, hrun2, bind, Except.bind, pure, Except.pure,
        List.replicate_succ]
    · rw [show i + (n + 1) = i + 1 + n by omega]
      exact hc2

/-- Once every value was removed, the bottom chain holds exactly the node of the
value removed last, every slot of which is marked. -/
theorem churn_final {sl : LockFreeSkipList Nat} {ch : Nat → List Nat} {N : Nat}
    (hc : Churn sl ch N N) (hN : 1 ≤ N) :
    ∃ d, ch 0 = [d] ∧ valOf sl.mem d = some (N - 1) ∧ live sl.mem d = false ∧
      hasMarkedSlot sl.mem d = true ∧
      ∀ L p, loadNext sl.mem d L = .ok p → isMarked p = true := by
  obtain ⟨hinv, hsorted, hall, hpres⟩ := hc
  obtain ⟨d, hd, hdv⟩ := hpres (N - 1) (by omega) (by omega)
  have hvals : ∀ x, x ∈ ch 0 → valOf sl.mem x = some (N - 1) := by
    intro x hx
    obtain ⟨a, ha, h1, h2, -⟩ := hall x hx
    rw [ha]
    congr 1
    omega
  have hone : ch 0 = [d] := by
    unfold SortedBy at hsorted
    cases hch : ch 0 with
    | nil => rw [hch] at hd; cases hd
    | cons x xs =>
      rw [hch] at hsorted hd
      cases xs with
      | nil =>
        rw [List.mem_singleton] at hd
        rw [hd]
      | cons y ys =>
        exfalso
        obtain ⟨a, b, ha, hb, hab⟩ := (List.pairwise_cons.1 hsorted).1 y (by simp)
        rw [hvals x (by rw [hch]; simp)] at ha
        rw [hvals y (by rw [hch]; simp)] at hb
        cases ha
        cases hb
        simp [natLt] at hab
  obtain ⟨a, ha, -, -, hl⟩ := hall d hd
  rw [hdv] at ha
  cases ha
  have hdead : live sl.mem d = false := by
    cases hlv : live sl.mem d with
    | false => rfl
    | true =>
      have := hl.1 hlv
      omega
  have hmarks : ∀ L p, loadNext sl.mem d L = .ok p → isMarked p = true := by
    intro L p hp
    have := hinv.marks_agree hd hp
    rw [hdead] at this
    simpa using this.symm
  refine ⟨d, hone, hdv, hdead, ?_, hmarks⟩
  obtain ⟨-, -, nd, v, hnd, -, hlen, hl1, -⟩ := hinv.good d hd
  have hlt : 0 < nd.nexts.length := by omega
  have hld : loadNext sl.mem d 0 = .ok nd.nexts[0] :=
    loadNext_ok_iff.2 ⟨nd, hnd, List.getElem?_eq_getElem hlt⟩
  unfold hasMarkedSlot
  rw [hnd]
  exact List.any_eq_true.2 ⟨nd.nexts[0], List.getElem_mem _, hmarks 0 _ hld⟩

/-- The fresh list is in the state `Churn` with no value added. -/
theorem churn_new :
    ∃ sl0 : LockFreeSkipList Nat, NewLockFreeSkipList Nat = .ok sl0 ∧
      Churn sl0 (fun _ => []) 0 0 ∧ sl0.mem.length = 2 := by
  obtain ⟨sl0, hnew, hinv, -, hlen, -⟩ := newList_spec Nat
  refine ⟨sl0, hnew, ⟨hinv, List.Pairwise.nil, ?_, ?_⟩, hlen⟩
  · intro x hx; cases hx
  · intro a _ ha; omega

/-! ## No atomic write clears a mark, on any memory -/

theorem except_bind_ok {ε β γ : Type} {x : Except ε β} {f : β → Except ε γ} {c : γ}
    (h : (x >>= f) = .ok c) : ∃ a, x = .ok a ∧ f a = .ok c := by
  cases x with
  | error e => exact Except.noConfusion h
  | ok a => exact ⟨a, rfl, h⟩

/-- What a `casNext` that returns did: it read the slot, and swapped exactly
when the slot held the expected word. -/
theorem casNext_inv {α : Type} {h h' : List (node α)} {nd level expected desire : Nat}
    {b : Bool} (hc : casNext h nd level expected desire = .ok (b, h')) :
    ∃ old, loadNext h nd level = .ok old ∧
      ((old = expected ∧ b = true ∧ h' = write h nd level desire) ∨
        (old ≠ expected ∧ b = false ∧ h' = h)) := by
  rcases casNextLog_cases Site.link h nd level expected desire with
    ⟨f, -, hf⟩ | ⟨b0, h0, old, -, hc0, hl⟩
  · rw [hc] at hf
    cases hf
  · refine ⟨old, hl, ?_⟩
    by_cases e : old = expected
    · subst e
      have h1 := casNext_eq desire hl
      rw [hc] at h1
      cases h1
      exact Or.inl ⟨rfl, rfl, rfl⟩
    · obtain ⟨n, hn, hs⟩ := loadNext_ok_iff.1 hl
      simp [casNext, hn, index, hs, e, bind, Except.bind, pure, Except.pure] at hc
      exact Or.inr ⟨e, hc.1, hc.2.symm⟩

theorem casNext_length {α : Type} {h h' : List (node α)} {nd level expected desire : Nat}
    {b : Bool} (hc : casNext h nd level expected desire = .ok (b, h')) :
    h'.length = h.length := by
  obtain ⟨old, -, ⟨-, -, rfl⟩ | ⟨-, -, rfl⟩⟩ := casNext_inv hc
  · exact length_write h nd level desire
  · rfl

/-- On any memory, whatever word the slot holds, a `casNext` that expects an
unmarked word or writes a marked one keeps every mark of the memory. -/
theorem casNext_marksKept {α : Type} {h h' : List (node α)} {nd level expected desire : Nat}
    {b : Bool} (hc : casNext h nd level expected desire = .ok (b, h'))
    (hs : isMarked expected = false ∨ isMarked desire = true) : MarksKept h h' := by
  obtain ⟨old, hl, ⟨rfl, -, rfl⟩ | ⟨-, -, rfl⟩⟩ := casNext_inv hc
  · intro x L p hp hpm
    rw [loadNext_write _ _ _ hl]
    by_cases hx : x = nd ∧ L = level
    · rw [if_pos hx]
      obtain ⟨rfl, rfl⟩ := hx
      rw [hl] at hp
      cases hp
      rcases hs with hs | hs
      · rw [hs] at hpm
        cases hpm
      · exact ⟨_, rfl, hs⟩
    · rw [if_neg hx]
      exact ⟨p, hp, hpm⟩
  · exact marksKept_refl _

theorem casNextLog_safe {α : Type} {site : Site} {h h' : List (node α)}
    {nd level expected desire : Nat} {b : Bool} {es : List Event}
    (hc : casNextLog site h nd level expected desire = .ok (b, h', es)) :
    h'.length = h.length ∧ ∃ old, es = [Event.cas site nd level expected desire old] := by
  rcases casNextLog_cases site h nd level expected desire with
    ⟨f, hf, -⟩ | ⟨b0, h0, old, hl, hc0, -⟩
  · rw [hc] at hf
    cases hf
  · rw [hc] at hl
    cases hl
    exact ⟨casNext_length hc0, old, rfl⟩

theorem storeNextLog_safe {α : Type} {h h' : List (node α)} {nd level next : Nat}
    {es : List Event} (hc : storeNextLog h nd level next = .ok (h', es)) :
    h'.length = h.length ∧ ∃ old, es = [Event.store nd level old next] := by
  rcases storeNextLog_cases h nd level next with ⟨f, hf, -⟩ | ⟨h0, old, hl, hc0, ho⟩
  · rw [hc] at hf
    cases hf
  · rw [hc] at hl
    cases hl
    rw [storeNext_eq next ho] at hc0
    cases hc0
    exact ⟨length_write h nd level next, old, rfl⟩

theorem unlinkCas_safe {e : Event} (he : UnlinkCas e) (n0 : Nat) : SafeWrite n0 e := by
  obtain ⟨prev, level, cur, d, old, rfl, hc⟩ := he
  exact Or.inl hc

theorem findWalkLog_safe {α : Type} (comp : α → α → Bool) (hd tl : Nat) (value : α)
    (level : Nat) :
    ∀ (fuel : Nat) (h : List (node α)) (prev cur : Nat) (r : WalkResult α) (es : List Event),
      isMarked cur = false →
      findWalkLog comp hd tl value level fuel h prev cur = .ok (r, es) →
      (∀ e, e ∈ es → UnlinkCas e) ∧
      (∀ h', r = .retry h' → h'.length = h.length) ∧
      (∀ h' p c, r = .stop h' p c → h'.length = h.length ∧ isMarked c = false) := by
  intro fuel
  induction fuel with
  | zero =>
    intro h prev cur r es _ hrun
    exact Except.noConfusion hrun
  | succ k ih =>
    intro h prev cur r es hcur hrun
    unfold findWalkLog at hrun
    obtain ⟨next, -, hrun⟩ := except_bind_ok hrun
    by_cases hm : isMarked next = true
    · simp only [hm, if_true] at hrun
      obtain ⟨⟨swapped, h', es1⟩, hcas, hrun⟩ := except_bind_ok hrun
      obtain ⟨hlen, old, rfl⟩ := casNextLog_safe hcas
      have hsafe : ∀ e, e ∈ [Event.cas Site.unlink prev level cur (getUnmarked next) old] →
          UnlinkCas e := by
        intro e he
        rw [List.mem_singleton] at he
        exact ⟨_, _, _, _, _, he, hcur⟩
      cases swapped with
      | false =>
        simp only [Bool.not_false, if_true, pure, Except.pure] at hrun
        cases hrun
        refine ⟨hsafe, fun h0 e0 => ?_, fun h0 p c e0 => ?_⟩
        · cases e0
          exact hlen
        · cases e0
      | true =>
        simp only [Bool.not_true, Bool.false_eq_true, if_false] at hrun
        obtain ⟨c, -, hrun⟩ := except_bind_ok hrun
        obtain ⟨⟨r1, es2⟩, hrec, hrun⟩ := except_bind_ok hrun
        simp only [pure, Except.pure] at hrun
        cases hrun
        obtain ⟨h1, h2, h3⟩ := ih h' prev (getUnmarked c) r es2 (isMarked_getUnmarked c) hrec
        refine ⟨fun e he => ?_, fun h0 e0 => ?_, fun h0 p c0 e0 => ?_⟩
        · rcases List.mem_append.1 he with he | he
          · exact hsafe e he
          · exact h1 e he
        · rw [h2 h0 e0, hlen]
        · obtain ⟨h4, h5⟩ := h3 h0 p c0 e0
          exact ⟨by rw [h4, hlen], h5⟩
    · simp only [hm, Bool.false_eq_true, if_false] at hrun
      obtain ⟨lt, -, hrun⟩ := except_bind_ok hrun
      cases lt with
      | false =>
        simp only [Bool.not_false, if_true, pure, Except.pure] at hrun
        cases hrun
        refine ⟨fun e he => ?_, fun h0 e0 => ?_, fun h0 p c e0 => ?_⟩
        · cases he
        · cases e0
        · cases e0
          exact ⟨rfl, hcur⟩
      | true =>
        simp only [Bool.not_true, Bool.false_eq_true, if_false] at hrun
        exact ih h cur next r es (by simpa using hm) hrun

theorem unmarked_set {nexts : List Nat} (hn : ∀ x, x ∈ nexts → isMarked x = false)
    (level : Nat) {c : Nat} (hc : isMarked c = false) :
    ∀ x, x ∈ nexts.set level c → isMarked x = false := by
  intro x hx
  rcases List.mem_or_eq_of_mem_set hx with h | h
  · exact hn x h
  · rw [h]
    exact hc

theorem unmarked_index {nexts : List Nat} (hn : ∀ x, x ∈ nexts → isMarked x = false)
    {level next : Nat} (hi : index nexts level = .ok next) : isMarked next = false := by
  unfold index at hi
  cases hg : nexts[level]? with
  | none =>
    rw [hg] at hi
    cases hi
  | some p =>
    rw [hg] at hi
    cases hi
    obtain ⟨hl, rfl⟩ := List.getElem?_eq_some_iff.1 hg
    exact hn _ (List.getElem_mem hl)

theorem unmarked_replicate (n : Nat) : ∀ x, x ∈ List.replicate n 0 → isMarked x = false := by
  intro x hx
  rw [(List.mem_replicate.1 hx).2]
  rfl

theorem findLevelsLog_safe {α : Type} (comp : α → α → Bool) (hd tl : Nat) (value : α)
    (walk : Nat → Nat) :
    ∀ (k : Nat) (h : List (node α)) (prev cur : Nat) (prevs nexts : List Nat)
      (r : PassResult α) (es : List Event),
      (∀ x, x ∈ nexts → isMarked x = false) →
      findLevelsLog comp hd tl value walk k h prev cur prevs nexts = .ok (r, es) →
      (∀ e, e ∈ es → UnlinkCas e) ∧
      (∀ h' ps ns, r = .retry h' ps ns →
        h'.length = h.length ∧ ∀ x, x ∈ ns → isMarked x = false) ∧
      (∀ h' c ps ns, r = .done h' c ps ns →
        h'.length = h.length ∧ ∀ x, x ∈ ns → isMarked x = false) := by
  intro k
  induction k with
  | zero =>
    intro h prev cur prevs nexts r es hn hrun
    unfold findLevelsLog at hrun
    cases hrun
    refine ⟨fun e he => ?_, fun h0 ps ns e0 => ?_, fun h0 c ps ns e0 => ?_⟩
    · cases he
    · cases e0
    · cases e0
      exact ⟨rfl, hn⟩
  | succ level ih =>
    intro h prev cur prevs nexts r es hn hrun
    unfold findLevelsLog at hrun
    obtain ⟨c, -, hrun⟩ := except_bind_ok hrun
    obtain ⟨⟨wr, es1⟩, hw, hrun⟩ := except_bind_ok hrun
    obtain ⟨h1, h2, h3⟩ := findWalkLog_safe comp hd tl value level (walk level) h prev
      (getUnmarked c) wr es1 (isMarked_getUnmarked c) hw
    cases wr with
    | retry h' =>
      simp only [pure, Except.pure] at hrun
      cases hrun
      refine ⟨h1, fun h0 ps ns e0 => ?_, fun h0 c ps ns e0 => ?_⟩
      · cases e0
        exact ⟨h2 _ rfl, hn⟩
      · cases e0
    | stop h' prev' cur' =>
      simp only [] at hrun
      obtain ⟨⟨r1, es2⟩, hrec, hrun⟩ := except_bind_ok hrun
      simp only [pure, Except.pure] at hrun
      cases hrun
      obtain ⟨hl, hc⟩ := h3 _ _ _ rfl
      obtain ⟨g1, g2, g3⟩ := ih h' prev' cur' (prevs.set level prev') (nexts.set level cur')
        r es2 (unmarked_set hn level hc) hrec
      refine ⟨fun e he => ?_, fun h0 ps ns e0 => ?_, fun h0 c ps ns e0 => ?_⟩
      · rcases List.mem_append.1 he with he | he
        · exact h1 e he
        · exact g1 e he
      · obtain ⟨g4, g5⟩ := g2 h0 ps ns e0
        exact ⟨by rw [g4, hl], g5⟩
      · obtain ⟨g4, g5⟩ := g3 h0 c ps ns e0
        exact ⟨by rw [g4, hl], g5⟩

theorem findRetryLog_safe {α : Type} (comp : α → α → Bool) (hd tl : Nat) (value : α)
    (walk : Nat → Nat) :
    ∀ (n : Nat) (h : List (node α)) (prevs nexts : List Nat) (found : Bool)
      (h' : List (node α)) (ps ns : List Nat) (es : List Event),
      (∀ x, x ∈ nexts → isMarked x = false) →
      findRetryLog comp hd tl value walk n h prevs nexts = .ok ((found, h', ps, ns), es) →
      (∀ e, e ∈ es → UnlinkCas e) ∧ h'.length = h.length ∧
        ∀ x, x ∈ ns → isMarked x = false := by
  intro n
  induction n with
  | zero =>
    intro h prevs nexts found h' ps ns es _ hrun
    exact Except.noConfusion hrun
  | succ k ih =>
    intro h prevs nexts found h' ps ns es hn hrun
    unfold findRetryLog at hrun
    obtain ⟨⟨pr, es1⟩, hp, hrun⟩ := except_bind_ok hrun
    obtain ⟨h1, h2, h3⟩ := findLevelsLog_safe comp hd tl value walk maxLevel h hd 0
      prevs nexts pr es1 hn hp
    cases pr with
    | retry h1' ps1 ns1 =>
      simp only [] at hrun
      obtain ⟨⟨r1, es2⟩, hrec, hrun⟩ := except_bind_ok hrun
      simp only [pure, Except.pure] at hrun
      cases hrun
      obtain ⟨hl, hu⟩ := h2 _ _ _ rfl
      obtain ⟨g1, g2, g3⟩ := ih h1' ps1 ns1 found h' ps ns es2 hu hrec
      refine ⟨fun e he => ?_, by rw [g2, hl], g3⟩
      rcases List.mem_append.1 he with he | he
      · exact h1 e he
      · exact g1 e he
    | done h1' cur ps1 ns1 =>
      simp only [] at hrun
      obtain ⟨fnd, -, hrun⟩ := except_bind_ok hrun
      simp only [pure, Except.pure] at hrun
      cases hrun
      obtain ⟨hl, hu⟩ := h3 _ _ _ _ rfl
      exact ⟨h1, hl, hu⟩

theorem findLog_safe {α : Type} (comp : α → α → Bool) (b : Budget)
    {h h' : List (node α)} {hd tl : Nat} {value : α} {prevs nexts ps ns : List Nat}
    {found : Bool} {es : List Event} (hn : ∀ x, x ∈ nexts → isMarked x = false)
    (hrun : findLog comp b h hd tl value prevs nexts = .ok ((found, h', ps, ns), es)) :
    (∀ e, e ∈ es → UnlinkCas e) ∧ h'.length = h.length ∧
      ∀ x, x ∈ ns → isMarked x = false :=
  findRetryLog_safe comp hd tl value b.walk b.pass h prevs nexts found h' ps ns es hn hrun

theorem clearNextsLog_safe {α : Type} (nd : Nat) :
    ∀ (n level : Nat) (h h' : List (node α)) (es : List Event),
      clearNextsLog nd n level h = .ok (h', es) →
      h'.length = h.length ∧ ∀ e, e ∈ es → ∃ L old next, e = Event.store nd L old next := by
  intro n
  induction n with
  | zero =>
    intro level h h' es hrun
    unfold clearNextsLog at hrun
    cases hrun
    exact ⟨rfl, fun e he => by cases he⟩
  | succ k ih =>
    intro level h h' es hrun
    unfold clearNextsLog at hrun
    obtain ⟨⟨h1, es1⟩, hs, hrun⟩ := except_bind_ok hrun
    simp only [] at hrun
    obtain ⟨⟨h2, es2⟩, hrec, hrun⟩ := except_bind_ok hrun
    simp only [pure, Except.pure] at hrun
    cases hrun
    obtain ⟨hl, old, rfl⟩ := storeNextLog_safe hs
    obtain ⟨g1, g2⟩ := ih (level + 1) h1 h' es2 hrec
    refine ⟨by rw [g1, hl], fun e he => ?_⟩
    rcases List.mem_append.1 he with he | he
    · rw [List.mem_singleton] at he
      exact ⟨_, _, _, he⟩
    · exact g2 e he

theorem copyNextsLog_safe {α : Type} (nd : Nat) (nexts : List Nat) :
    ∀ (n level : Nat) (h h' : List (node α)) (es : List Event),
      copyNextsLog nd nexts n level h = .ok (h', es) →
      h'.length = h.length ∧ ∀ e, e ∈ es → ∃ L old next, e = Event.store nd L old next := by
  intro n
  induction n with
  | zero =>
    intro level h h' es hrun
    unfold copyNextsLog at hrun
    cases hrun
    exact ⟨rfl, fun e he => by cases he⟩
  | succ k ih =>
    intro level h h' es hrun
    unfold copyNextsLog at hrun
    obtain ⟨next, -, hrun⟩ := except_bind_ok hrun
    obtain ⟨⟨h1, es1⟩, hs, hrun⟩ := except_bind_ok hrun
    simp only [] at hrun
    obtain ⟨⟨h2, es2⟩, hrec, hrun⟩ := except_bind_ok hrun
    simp only [pure, Except.pure] at hrun
    cases hrun
    obtain ⟨hl, old, rfl⟩ := storeNextLog_safe hs
    obtain ⟨g1, g2⟩ := ih (level + 1) h1 h' es2 hrec
    refine ⟨by rw [g1, hl], fun e he => ?_⟩
    rcases List.mem_append.1 he with he | he
    · rw [List.mem_singleton] at he
      exact ⟨_, _, _, he⟩
    · exact g2 e he

theorem newNodeLog_safe {α : Type} {h h2 : List (node α)} {level nd : Nat} {value : Option α}
    {es : List Event} (hrun : newNodeLog h level value = .ok ((nd, h2), es)) :
    nd = addrOf h.length ∧ h2.length = h.length + 1 ∧
      ∀ e, e ∈ es → ∃ L old next, e = Event.store nd L old next := by
  unfold newNodeLog at hrun
  simp only [] at hrun
  obtain ⟨n, -, hrun⟩ := except_bind_ok hrun
  obtain ⟨⟨h3, es1⟩, hc, hrun⟩ := except_bind_ok hrun
  simp only [pure, Except.pure] at hrun
  cases hrun
  obtain ⟨g1, g2⟩ := clearNextsLog_safe _ _ _ _ _ _ hc
  exact ⟨rfl, by rw [g1, List.length_append]; rfl, g2⟩

theorem safeWrite_cas (n0 : Nat) (site : Site) (nd level expected desire old : Nat)
    (hs : isMarked expected = false ∨ desire = getMarked expected) :
    ∀ e, e ∈ [Event.cas site nd level expected desire old] → SafeWrite n0 e := by
  intro e he
  rw [List.mem_singleton] at he
  subst he
  exact hs

theorem safeWrite_store {n0 nd : Nat} {es : List Event} (hnd : ∃ m, n0 ≤ m ∧ nd = addrOf m)
    (hes : ∀ e, e ∈ es → ∃ L old next, e = Event.store nd L old next) :
    ∀ e, e ∈ es → SafeWrite n0 e := by
  intro e he
  obtain ⟨L, old, next, rfl⟩ := hes e he
  exact hnd

theorem linkLevelLog_safe {α : Type} (comp : α → α → Bool) (b : Budget) (hd tl : Nat)
    (value : α) (nd level n0 : Nat) :
    ∀ (n : Nat) (h : List (node α)) (prevs nexts : List Nat) (h' : List (node α))
      (ps ns : List Nat) (es : List Event),
      (∀ x, x ∈ nexts → isMarked x = false) →
      linkLevelLog comp b hd tl value nd level n h prevs nexts = .ok ((h', ps, ns), es) →
      (∀ e, e ∈ es → SafeWrite n0 e) ∧ h'.length = h.length ∧
        ∀ x, x ∈ ns → isMarked x = false := by
  intro n
  induction n with
  | zero =>
    intro h prevs nexts h' ps ns es _ hrun
    exact Except.noConfusion hrun
  | succ k ih =>
    intro h prevs nexts h' ps ns es hn hrun
    unfold linkLevelLog at hrun
    obtain ⟨prev, -, hrun⟩ := except_bind_ok hrun
    obtain ⟨next, hnext, hrun⟩ := except_bind_ok hrun
    obtain ⟨⟨swapped, h1, es1⟩, hcas, hrun⟩ := except_bind_ok hrun
    obtain ⟨hlen, old, rfl⟩ := casNextLog_safe hcas
    have hsafe := safeWrite_cas n0 Site.link prev level next nd old
      (Or.inl (unmarked_index hn hnext))
    cases swapped with
    | true =>
      simp only [if_true, pure, Except.pure] at hrun
      cases hrun
      exact ⟨hsafe, hlen, hn⟩
    | false =>
      simp only [Bool.false_eq_true, if_false] at hrun
      obtain ⟨⟨⟨fnd, h2, ps2, ns2⟩, es2⟩, hf, hrun⟩ := except_bind_ok hrun
      simp only [] at hrun
      obtain ⟨⟨r1, es3⟩, hrec, hrun⟩ := except_bind_ok hrun
      simp only [pure, Except.pure] at hrun
      cases hrun
      obtain ⟨f1, f2, f3⟩ := findLog_safe comp b hn hf
      obtain ⟨g1, g2, g3⟩ := ih h2 ps2 ns2 h' ps ns es3 f3 hrec
      refine ⟨fun e he => ?_, by rw [g2, f2, hlen], g3⟩
      rcases List.mem_append.1 he with he | he
      · rcases List.mem_append.1 he with he | he
        · exact hsafe e he
        · exact unlinkCas_safe (f1 e he) n0
      · exact g1 e he

theorem linkUpperLog_safe {α : Type} (comp : α → α → Bool) (b : Budget) (hd tl : Nat)
    (value : α) (nd n0 : Nat) :
    ∀ (n level : Nat) (h : List (node α)) (prevs nexts : List Nat) (h' : List (node α))
      (ps ns : List Nat) (es : List Event),
      (∀ x, x ∈ nexts → isMarked x = false) →
      linkUpperLog comp b hd tl value nd n level h prevs nexts = .ok ((h', ps, ns), es) →
      ∀ e, e ∈ es → SafeWrite n0 e := by
  intro n
  induction n with
  | zero =>
    intro level h prevs nexts h' ps ns es _ hrun
    unfold linkUpperLog at hrun
    cases hrun
    exact fun e he => by cases he
  | succ k ih =>
    intro level h prevs nexts h' ps ns es hn hrun
    unfold linkUpperLog at hrun
    obtain ⟨⟨⟨h1, ps1, ns1⟩, es1⟩, hl, hrun⟩ := except_bind_ok hrun
    simp only [] at hrun
    obtain ⟨⟨r1, es2⟩, hrec, hrun⟩ := except_bind_ok hrun
    simp only [pure, Except.pure] at hrun
    cases hrun
    obtain ⟨f1, -, f3⟩ := linkLevelLog_safe comp b hd tl value nd level n0 b.link h prevs nexts
      h1 ps1 ns1 es1 hn hl
    have g1 := ih (level + 1) h1 ps1 ns1 h' ps ns es2 f3 hrec
    intro e he
    rcases List.mem_append.1 he with he | he
    · exact f1 e he
    · exact g1 e he

theorem addLoopLog_safe {α : Type} (comp : α → α → Bool) (rand : Nat → Nat) (b : Budget)
    (value : α) (n0 : Nat) :
    ∀ (n : Nat) (sl : LockFreeSkipList α) (prevs nexts : List Nat) (r : Bool)
      (sl' : LockFreeSkipList α) (es : List Event),
      n0 ≤ sl.mem.length → (∀ x, x ∈ nexts → isMarked x = false) →
      addLoopLog comp rand b value n sl prevs nexts = .ok ((r, sl'), es) →
      ∀ e, e ∈ es → SafeWrite n0 e := by
  intro n
  induction n with
  | zero =>
    intro sl prevs nexts r sl' es _ _ hrun
    exact Except.noConfusion hrun
  | succ k ih =>
    intro sl prevs nexts r sl' es hn0 hn hrun
    unfold addLoopLog at hrun
    obtain ⟨⟨⟨fnd, h1, ps1, ns1⟩, es1⟩, hf, hrun⟩ := except_bind_ok hrun
    obtain ⟨f1, f2, f3⟩ := findLog_safe comp b hn hf
    cases fnd with
    | true =>
      simp only [if_true, pure, Except.pure] at hrun
      cases hrun
      exact fun e he => unlinkCas_safe (f1 e he) n0
    | false =>
      simp only [Bool.false_eq_true, if_false] at hrun
      obtain ⟨⟨⟨nd, h2⟩, es2⟩, hnew, hrun⟩ := except_bind_ok hrun
      simp only [] at hrun
      obtain ⟨⟨h3, es3⟩, hcopy, hrun⟩ := except_bind_ok hrun
      simp only [] at hrun
      obtain ⟨prev, -, hrun⟩ := except_bind_ok hrun
      obtain ⟨next, hnext, hrun⟩ := except_bind_ok hrun
      obtain ⟨⟨swapped, h4, es4⟩, hcas, hrun⟩ := except_bind_ok hrun
      obtain ⟨rfl, n2, n3⟩ := newNodeLog_safe hnew
      obtain ⟨c2, c3⟩ := copyNextsLog_safe _ _ _ _ _ _ _ hcopy
      obtain ⟨hlen, old, rfl⟩ := casNextLog_safe hcas
      have hfresh : ∃ m, n0 ≤ m ∧ addrOf h1.length = addrOf m :=
        ⟨h1.length, by rw [f2]; exact hn0, rfl⟩
      have s2 := safeWrite_store hfresh n3
      have s3 := safeWrite_store hfresh c3
      have s4 := safeWrite_cas n0 Site.link prev 0 next (addrOf h1.length) old
        (Or.inl (unmarked_index f3 hnext))
      have s14 : ∀ e, e ∈ es1 ++ es2 ++ es3 ++
          [Event.cas Site.link prev 0 next (addrOf h1.length) old] → SafeWrite n0 e := by
        intro e he
        rcases List.mem_append.1 he with he | he
        · rcases List.mem_append.1 he with he | he
          · rcases List.mem_append.1 he with he | he
            · exact unlinkCas_safe (f1 e he) n0
            · exact s2 e he
          · exact s3 e he
        · exact s4 e he
      cases swapped with
      | false =>
        simp only [Bool.not_false, if_true] at hrun
        obtain ⟨⟨r1, es5⟩, hrec, hrun⟩ := except_bind_ok hrun
        simp only [pure, Except.pure] at hrun
        cases hrun
        have g := ih { sl with mem := h4, draws := (randomLevel rand sl.draws).2 } ps1 ns1
          r sl' es5 (by show n0 ≤ h4.length; rw [hlen, c2, n2, f2]; omega) f3 hrec
        intro e he
        rcases List.mem_append.1 he with he | he
        · exact s14 e he
        · exact g e he
      | true =>
        simp only [Bool.not_true, Bool.false_eq_true, if_false] at hrun
        obtain ⟨⟨⟨h5, ps5, ns5⟩, es5⟩, hup, hrun⟩ := except_bind_ok hrun
        simp only [pure, Except.pure] at hrun
        cases hrun
        have g := linkUpperLog_safe comp b sl.head sl.tail value (addrOf h1.length) n0 _ _ _ _ _
          _ _ _ _ f3 hup
        intro e he
        rcases List.mem_append.1 he with he | he
        · exact s14 e he
        · exact g e he

theorem markLevelLog_safe {α : Type} (nd level n0 : Nat) :
    ∀ (n : Nat) (h : List (node α)) (next : Nat) (h' : List (node α)) (es : List Event),
      markLevelLog nd level n h next = .ok (h', es) → ∀ e, e ∈ es → SafeWrite n0 e := by
  intro n
  induction n with
  | zero =>
    intro h next h' es hrun
    exact Except.noConfusion hrun
  | succ k ih =>
    intro h next h' es hrun
    unfold markLevelLog at hrun
    by_cases hm : isMarked next = true
    · simp only [hm, Bool.not_true, Bool.false_eq_true, if_false] at hrun
      cases hrun
      exact fun e he => by cases he
    · have hm0 : isMarked next = false := by simpa using hm
      simp only [hm0, Bool.not_false, if_true] at hrun
      obtain ⟨⟨swapped, h1, es1⟩, hcas, hrun⟩ := except_bind_ok hrun
      simp only [] at hrun
      obtain ⟨next1, -, hrun⟩ := except_bind_ok hrun
      obtain ⟨⟨h2, es2⟩, hrec, hrun⟩ := except_bind_ok hrun
      simp only [pure, Except.pure] at hrun
      cases hrun
      obtain ⟨-, old, rfl⟩ := casNextLog_safe hcas
      have g := ih h1 next1 h' es2 hrec
      intro e he
      rcases List.mem_append.1 he with he | he
      · exact safeWrite_cas n0 _ _ _ _ _ _ (Or.inr rfl) e he
      · exact g e he

theorem markUpperLog_safe {α : Type} (mark nd n0 : Nat) :
    ∀ (level : Nat) (h h' : List (node α)) (es : List Event),
      markUpperLog mark nd level h = .ok (h', es) → ∀ e, e ∈ es → SafeWrite n0 e := by
  intro level
  induction level with
  | zero =>
    intro h h' es hrun
    unfold markUpperLog at hrun
    cases hrun
    exact fun e he => by cases he
  | succ k ih =>
    intro h h' es hrun
    unfold markUpperLog at hrun
    obtain ⟨next, -, hrun⟩ := except_bind_ok hrun
    obtain ⟨⟨h1, es1⟩, hl, hrun⟩ := except_bind_ok hrun
    simp only [] at hrun
    obtain ⟨⟨h2, es2⟩, hrec, hrun⟩ := except_bind_ok hrun
    simp only [pure, Except.pure] at hrun
    cases hrun
    have f := markLevelLog_safe nd (k + 1) n0 mark h next h1 es1 hl
    have g := ih h1 h' es2 hrec
    intro e he
    rcases List.mem_append.1 he with he | he
    · exact f e he
    · exact g e he

theorem markBottomLog_safe {α : Type} (nd n0 : Nat) :
    ∀ (n : Nat) (h : List (node α)) (next : Nat) (r : Bool) (h' : List (node α))
      (es : List Event),
      markBottomLog nd n h next = .ok ((r, h'), es) → ∀ e, e ∈ es → SafeWrite n0 e := by
  intro n
  induction n with
  | zero =>
    intro h next r h' es hrun
    exact Except.noConfusion hrun
  | succ k ih =>
    intro h next r h' es hrun
    unfold markBottomLog at hrun
    by_cases hm : isMarked next = true
    · simp only [hm, if_true] at hrun
      cases hrun
      exact fun e he => by cases he
    · simp only [hm, Bool.false_eq_true, if_false] at hrun
      obtain ⟨⟨swapped, h1, es1⟩, hcas, hrun⟩ := except_bind_ok hrun
      obtain ⟨-, old, rfl⟩ := casNextLog_safe hcas
      cases swapped with
      | true =>
        simp only [if_true, pure, Except.pure] at hrun
        cases hrun
        exact safeWrite_cas n0 _ _ _ _ _ _ (Or.inr rfl)
      | false =>
        simp only [Bool.false_eq_true, if_false] at hrun
        obtain ⟨next1, -, hrun⟩ := except_bind_ok hrun
        obtain ⟨⟨r1, es2⟩, hrec, hrun⟩ := except_bind_ok hrun
        simp only [pure, Except.pure] at hrun
        cases hrun
        have g := ih h1 next1 r h' es2 hrec
        intro e he
        rcases List.mem_append.1 he with he | he
        · exact safeWrite_cas n0 _ _ _ _ _ _ (Or.inr rfl) e he
        · exact g e he

theorem removeLog_safe {α : Type} (comp : α → α → Bool) (b : Budget)
    {sl sl' : LockFreeSkipList α} {value : α} {r : Bool} {es : List Event} (n0 : Nat)
    (hrun : RemoveLog comp b sl value = .ok ((r, sl'), es)) :
    ∀ e, e ∈ es → SafeWrite n0 e := by
  unfold RemoveLog at hrun
  obtain ⟨⟨⟨fnd, h1, ps1, ns1⟩, es1⟩, hf, hrun⟩ := except_bind_ok hrun
  obtain ⟨f1, -, -⟩ := findLog_safe comp b (unmarked_replicate maxLevel) hf
  cases fnd with
  | false =>
    simp only [Bool.not_false, if_true, pure, Except.pure] at hrun
    cases hrun
    exact fun e he => unlinkCas_safe (f1 e he) n0
  | true =>
    simp only [Bool.not_true, Bool.false_eq_true, if_false] at hrun
    obtain ⟨rn, -, hrun⟩ := except_bind_ok hrun
    obtain ⟨n, -, hrun⟩ := except_bind_ok hrun
    obtain ⟨⟨h2, es2⟩, hu, hrun⟩ := except_bind_ok hrun
    simp only [] at hrun
    obtain ⟨next, -, hrun⟩ := except_bind_ok hrun
    obtain ⟨⟨⟨marked, h3⟩, es3⟩, hb, hrun⟩ := except_bind_ok hrun
    have g2 := markUpperLog_safe b.mark rn n0 _ _ _ _ hu
    have g3 := markBottomLog_safe rn n0 _ _ _ _ _ _ hb
    have g : ∀ e, e ∈ es1 ++ es2 ++ es3 → SafeWrite n0 e := by
      intro e he
      rcases List.mem_append.1 he with he | he
      · rcases List.mem_append.1 he with he | he
        · exact unlinkCas_safe (f1 e he) n0
        · exact g2 e he
      · exact g3 e he
    cases marked with
    | false =>
      simp only [Bool.not_false, if_true, pure, Except.pure] at hrun
      cases hrun
      exact g
    | true =>
      simp only [Bool.not_true, Bool.false_eq_true, if_false, pure, Except.pure] at hrun
      cases hrun
      exact g

theorem containsLog_safe {α : Type} (comp : α → α → Bool) (b : Budget)
    {sl sl' : LockFreeSkipList α} {value : α} {r : Bool} {es : List Event} (n0 : Nat)
    (hrun : ContainsLog comp b sl value = .ok ((r, sl'), es)) :
    ∀ e, e ∈ es → SafeWrite n0 e := by
  unfold ContainsLog at hrun
  obtain ⟨⟨⟨fnd, h1, ps1, ns1⟩, es1⟩, hf, hrun⟩ := except_bind_ok hrun
  obtain ⟨f1, -, -⟩ := findLog_safe comp b (unmarked_replicate maxLevel) hf
  simp only [pure, Except.pure] at hrun
  cases hrun
  exact fun e he => unlinkCas_safe (f1 e he) n0

/-- On any list, whatever its memory holds, every atomic write logged by a call
that returns is safe for the nodes allocated before the call. -/
theorem runOpLog_safe {α : Type} (comp : α → α → Bool) (rand : Nat → Nat) (b : Budget)
    {sl sl' : LockFreeSkipList α} {op : Op α} {r : Bool} {es : List Event}
    (hrun : runOpLog comp rand b sl op = .ok ((r, sl'), es)) :
    ∀ e, e ∈ es → SafeWrite sl.mem.length e := by
  cases op with
  | add v =>
    exact addLoopLog_safe comp rand b v sl.mem.length b.outer sl _ _ r sl' es (le_refl _)
      (unmarked_replicate maxLevel) hrun
  | remove v => exact removeLog_safe comp b sl.mem.length hrun
  | contains v => exact containsLog_safe comp b sl.mem.length hrun

theorem not_store_of_safe {e : Event} (hs : ∀ n0, SafeWrite n0 e) :
    ∀ nd level old next, e ≠ Event.store nd level old next := by
  intro nd level old next he
  subst he
  obtain ⟨m, hm, h⟩ := hs (nd + 1)
  unfold addrOf at h
  omega

theorem storeUnlinked_left {A B : List Event}
    (hA : ∀ a, a ∈ A → ∀ prev L expected nd seen, a ≠ Event.cas Site.link prev L expected nd seen)
    (hB : B.Pairwise StoreUnlinked) : (A ++ B).Pairwise StoreUnlinked := by
  induction A with
  | nil => exact hB
  | cons a A ih =>
    rw [List.cons_append, List.pairwise_cons]
    exact ⟨fun c _ nd _ _ _ _ prev L expected seen => hA a (List.mem_cons_self _ _) _ _ _ _ _,
      ih (fun x hx => hA x (List.mem_cons_of_mem _ hx))⟩

theorem storeUnlinked_of_cas {B : List Event}
    (hB : ∀ c, c ∈ B → ∀ nd level old next, c ≠ Event.store nd level old next) :
    B.Pairwise StoreUnlinked := by
  induction B with
  | nil => exact List.Pairwise.nil
  | cons b B ih =>
    rw [List.pairwise_cons]
    exact ⟨fun c hc nd level old next e => absurd e (hB c (List.mem_cons_of_mem _ hc) _ _ _ _),
      ih (fun x hx => hB x (List.mem_cons_of_mem _ hx))⟩

theorem unlinkCas_not_link {e : Event} (he : UnlinkCas e) :
    ∀ prev L expected nd seen, e ≠ Event.cas Site.link prev L expected nd seen := by
  obtain ⟨prev, level, cur, d, old, rfl, -⟩ := he
  intro p L x nd o h
  cases h

theorem store_not_link {A : List Event} {nd : Nat}
    (hA : ∀ e, e ∈ A → ∃ L old next, e = Event.store nd L old next) :
    ∀ a, a ∈ A → ∀ prev L expected nd seen, a ≠ Event.cas Site.link prev L expected nd seen := by
  intro a ha
  obtain ⟨L, old, next, rfl⟩ := hA a ha
  intro p L x nd o h
  cases h

theorem addLoopLog_order {α : Type} (comp : α → α → Bool) (rand : Nat → Nat) (b : Budget)
    (value : α) :
    ∀ (n : Nat) (sl : LockFreeSkipList α) (prevs nexts : List Nat) (r : Bool)
      (sl' : LockFreeSkipList α) (es : List Event),
      (∀ x, x ∈ nexts → isMarked x = false) →
      addLoopLog comp rand b value n sl prevs nexts = .ok ((r, sl'), es) →
      es.Pairwise StoreUnlinked := by
  intro n
  induction n with
  | zero =>
    intro sl prevs nexts r sl' es _ hrun
    exact Except.noConfusion hrun
  | succ k ih =>
    intro sl prevs nexts r sl' es hn hrun
    unfold addLoopLog at hrun
    obtain ⟨⟨⟨fnd, h1, ps1, ns1⟩, es1⟩, hf, hrun⟩ := except_bind_ok hrun
    obtain ⟨f1, f2, f3⟩ := findLog_safe comp b hn hf
    cases fnd with
    | true =>
      simp only [if_true, pure, Except.pure] at hrun
      cases hrun
      exact storeUnlinked_of_cas
        (fun c hc => not_store_of_safe (fun n0 => unlinkCas_safe (f1 c hc) n0))
    | false =>
      simp only [Bool.false_eq_true, if_false] at hrun
      obtain ⟨⟨⟨nd, h2⟩, es2⟩, hnew, hrun⟩ := except_bind_ok hrun
      simp only [] at hrun
      obtain ⟨⟨h3, es3⟩, hcopy, hrun⟩ := except_bind_ok hrun
      simp only [] at hrun
      obtain ⟨prev, -, hrun⟩ := except_bind_ok hrun
      obtain ⟨next, hnext, hrun⟩ := except_bind_ok hrun
      obtain ⟨⟨swapped, h4, es4⟩, hcas, hrun⟩ := except_bind_ok hrun
      obtain ⟨rfl, n2, n3⟩ := newNodeLog_safe hnew
      obtain ⟨c2, c3⟩ := copyNextsLog_safe _ _ _ _ _ _ _ hcopy
      obtain ⟨hlen, old, rfl⟩ := casNextLog_safe hcas
      have key : ∀ es5 : List Event, es5.Pairwise StoreUnlinked →
          (∀ c, c ∈ es5 → ∀ nd level old next, c = Event.store nd level old next →
            nd ≠ addrOf h1.length) →
          (es1 ++ es2 ++ es3 ++ [Event.cas Site.link prev 0 next (addrOf h1.length) old] ++
            es5).Pairwise StoreUnlinked := by
        intro es5 h5 hne
        rw [List.append_assoc, List.append_assoc, List.append_assoc]
        refine storeUnlinked_left (fun a ha => unlinkCas_not_link (f1 a ha))
          (storeUnlinked_left (store_not_link n3) (storeUnlinked_left (store_not_link c3) ?_))
        rw [List.singleton_append, List.pairwise_cons]
        refine ⟨fun c hc nd level old1 next1 e p L x o h => ?_, h5⟩
        cases h
        exact hne c hc _ _ _ _ e rfl
      cases swapped with
      | false =>
        simp only [Bool.not_false, if_true] at hrun
        obtain ⟨⟨r1, es5⟩, hrec, hrun⟩ := except_bind_ok hrun
        simp only [pure, Except.pure] at hrun
        cases hrun
        have hl4 : h1.length + 1 ≤ h4.length := by rw [hlen, c2, n2]
        have g := ih { sl with mem := h4, draws := (randomLevel rand sl.draws).2 } ps1 ns1
          r sl' es5 f3 hrec
        have s := addLoopLog_safe comp rand b value (h1.length + 1) k
          { sl with mem := h4, draws := (randomLevel rand sl.draws).2 } ps1 ns1 r sl' es5
          hl4 f3 hrec
        refine key es5 g (fun c hc nd level old1 next1 e => ?_)
        subst e
        obtain ⟨m, hm, rfl⟩ := s _ hc
        unfold addrOf
        omega
      | true =>
        simp only [Bool.not_true, Bool.false_eq_true, if_false] at hrun
        obtain ⟨⟨⟨h5, ps5, ns5⟩, es5⟩, hup, hrun⟩ := except_bind_ok hrun
        simp only [pure, Except.pure] at hrun
        cases hrun
        have s : ∀ c, c ∈ es5 → ∀ nd level old next, c ≠ Event.store nd level old next :=
          fun c hc => not_store_of_safe (fun n0 =>
            linkUpperLog_safe comp b sl.head sl.tail value (addrOf h1.length) n0 _ _ _ _ _
              _ _ _ _ f3 hup c hc)
        exact key es5 (storeUnlinked_of_cas s)
          (fun c hc nd level old1 next1 e => absurd e (s c hc _ _ _ _))

/-- On any list, in the log of a call that returns, no store is on a node
whose address an earlier linking CAS of the log wrote into a slot. -/
theorem runOpLog_order {α : Type} (comp : α → α → Bool) (rand : Nat → Nat) (b : Budget)
    {sl sl' : LockFreeSkipList α} {op : Op α} {r : Bool} {es : List Event}
    (hrun : runOpLog comp rand b sl op = .ok ((r, sl'), es)) :
    es.Pairwise StoreUnlinked := by
  cases op with
  | add v =>
    exact addLoopLog_order comp rand b v b.outer sl _ _ r sl' es
      (unmarked_replicate maxLevel) hrun
  | remove v =>
    exact storeUnlinked_of_cas (fun c hc => not_store_of_safe (fun n0 =>
      removeLog_safe comp b n0 hrun c hc))
  | contains v =>
    exact storeUnlinked_of_cas (fun c hc => not_store_of_safe (fun n0 =>
      containsLog_safe comp b n0 hrun c hc))

theorem safeWrite_fresh {α : Type} {h : List (node α)} {nd level old next : Nat}
    (hs : SafeWrite h.length (Event.store nd level old next)) :
    ∀ n, deref h nd ≠ .ok n := by
  intro n hn
  obtain ⟨m, hm, rfl⟩ := hs
  obtain ⟨-, -, hlt⟩ := deref_bounds.1 ⟨n, hn⟩
  have : addrOf m / 2 - 1 = m := by unfold addrOf; omega
  rw [this] at hlt
  omega

/-- Whatever word the slot holds, a CAS that expects an unmarked word or writes
the expected word with its mark bit set leaves a marked word marked. -/
theorem outcome_marked {site : Site} {nd level expected desire old : Nat}
    (hs : isMarked expected = false ∨ desire = getMarked expected) (w : Nat)
    (hw : isMarked w = true) :
    isMarked ((Event.cas site nd level expected desire old).outcome w) = true := by
  show isMarked (if w = expected then desire else w) = true
  by_cases hwe : w = expected
  · rw [if_pos hwe]
    rcases hs with hs | hs
    · rw [hwe, hs] at hw
      cases hw
    · rw [hs]
      exact isMarked_getMarked expected
  · rw [if_neg hwe]
    exact hw

/-! ## Every call keeps every mark, on any memory -/

theorem casNextLog_kept {α : Type} {site : Site} {h h' : List (node α)}
    {nd level expected desire : Nat} {b : Bool} {es : List Event}
    (hc : casNextLog site h nd level expected desire = .ok (b, h', es))
    (hs : isMarked expected = false ∨ isMarked desire = true) : MarksKept h h' := by
  rcases casNextLog_cases site h nd level expected desire with
    ⟨f, hf, -⟩ | ⟨b0, h0, old, hl, hc0, -⟩
  · rw [hc] at hf
    cases hf
  · rw [hc] at hl
    cases hl
    exact casNext_marksKept hc0 hs

/-- A store on a node that the memory `base` does not hold changes no slot of
`base`. -/
theorem storeNextLog_kept {α : Type} {base h h' : List (node α)} {nd level next : Nat}
    {es : List Event} (hb : MarksKept base h) (hnd : ∀ n, deref base nd ≠ .ok n)
    (hc : storeNextLog h nd level next = .ok (h', es)) : MarksKept base h' := by
  rcases storeNextLog_cases h nd level next with ⟨f, hf, -⟩ | ⟨h0, old, hl, hc0, ho⟩
  · rw [hc] at hf
    cases hf
  · rw [hc] at hl
    cases hl
    rw [storeNext_eq next ho] at hc0
    cases hc0
    intro x L p hp hpm
    obtain ⟨p', hp', hpm'⟩ := hb x L p hp hpm
    obtain ⟨n, hn, -⟩ := loadNext_ok_iff.1 hp
    have hx : ¬ (x = nd ∧ L = level) := fun e => hnd n (e.1 ▸ hn)
    rw [loadNext_write _ _ _ ho, if_neg hx]
    exact ⟨p', hp', hpm'⟩

theorem findWalkLog_kept {α : Type} (comp : α → α → Bool) (hd tl : Nat) (value : α)
    (level : Nat) :
    ∀ (fuel : Nat) (h : List (node α)) (prev cur : Nat) (r : WalkResult α) (es : List Event),
      isMarked cur = false →
      findWalkLog comp hd tl value level fuel h prev cur = .ok (r, es) →
      (∀ h', r = .retry h' → MarksKept h h') ∧
      (∀ h' p c, r = .stop h' p c → MarksKept h h') := by
  intro fuel
  induction fuel with
  | zero =>
    intro h prev cur r es _ hrun
    exact Except.noConfusion hrun
  | succ k ih =>
    intro h prev cur r es hcur hrun
    unfold findWalkLog at hrun
    obtain ⟨next, -, hrun⟩ := except_bind_ok hrun
    by_cases hm : isMarked next = true
    · simp only [hm, if_true] at hrun
      obtain ⟨⟨swapped, h', es1⟩, hcas, hrun⟩ := except_bind_ok hrun
      have hk := casNextLog_kept hcas (Or.inl hcur)
      cases swapped with
      | false =>
        simp only [Bool.not_false, if_true, pure, Except.pure] at hrun
        cases hrun
        refine ⟨fun h0 e0 => ?_, fun h0 p c e0 => ?_⟩
        · cases e0
          exact hk
        · cases e0
      | true =>
        simp only [Bool.not_true, Bool.false_eq_true, if_false] at hrun
        obtain ⟨c, -, hrun⟩ := except_bind_ok hrun
        obtain ⟨⟨r1, es2⟩, hrec, hrun⟩ := except_bind_ok hrun
        simp only [pure, Except.pure] at hrun
        cases hrun
        obtain ⟨h2, h3⟩ := ih h' prev (getUnmarked c) r es2 (isMarked_getUnmarked c) hrec
        exact ⟨fun h0 e0 => marksKept_trans hk (h2 h0 e0),
          fun h0 p c0 e0 => marksKept_trans hk (h3 h0 p c0 e0)⟩
    · simp only [hm, Bool.false_eq_true, if_false] at hrun
      obtain ⟨lt, -, hrun⟩ := except_bind_ok hrun
      cases lt with
      | false =>
        simp only [Bool.not_false, if_true, pure, Except.pure] at hrun
        cases hrun
        refine ⟨fun h0 e0 => ?_, fun h0 p c e0 => ?_⟩
        · cases e0
        · cases e0
          exact marksKept_refl _
      | true =>
        simp only [Bool.not_true, Bool.false_eq_true, if_false] at hrun
        exact ih h cur next r es (by simpa using hm) hrun

theorem findLevelsLog_kept {α : Type} (comp : α → α → Bool) (hd tl : Nat) (value : α)
    (walk : Nat → Nat) :
    ∀ (k : Nat) (h : List (node α)) (prev cur : Nat) (prevs nexts : List Nat)
      (r : PassResult α) (es : List Event),
      findLevelsLog comp hd tl value walk k h prev cur prevs nexts = .ok (r, es) →
      (∀ h' ps ns, r = .retry h' ps ns → MarksKept h h') ∧
      (∀ h' c ps ns, r = .done h' c ps ns → MarksKept h h') := by
  intro k
  induction k with
  | zero =>
    intro h prev cur prevs nexts r es hrun
    unfold findLevelsLog at hrun
    cases hrun
    refine ⟨fun h0 ps ns e0 => ?_, fun h0 c ps ns e0 => ?_⟩
    · cases e0
    · cases e0
      exact marksKept_refl _
  | succ level ih =>
    intro h prev cur prevs nexts r es hrun
    unfold findLevelsLog at hrun
    obtain ⟨c, -, hrun⟩ := except_bind_ok hrun
    obtain ⟨⟨wr, es1⟩, hw, hrun⟩ := except_bind_ok hrun
    obtain ⟨h2, h3⟩ := findWalkLog_kept comp hd tl value level (walk level) h prev
      (getUnmarked c) wr es1 (isMarked_getUnmarked c) hw
    cases wr with
    | retry h' =>
      simp only [pure, Except.pure] at hrun
      cases hrun
      refine ⟨fun h0 ps ns e0 => ?_, fun h0 c ps ns e0 => ?_⟩
      · cases e0
        exact h2 _ rfl
      · cases e0
    | stop h' prev' cur' =>
      simp only [] at hrun
      obtain ⟨⟨r1, es2⟩, hrec, hrun⟩ := except_bind_ok hrun
      simp only [pure, Except.pure] at hrun
      cases hrun
      have hk := h3 _ _ _ rfl
      obtain ⟨g2, g3⟩ := ih h' prev' cur' (prevs.set level prev') (nexts.set level cur')
        r es2 hrec
      exact ⟨fun h0 ps ns e0 => marksKept_trans hk (g2 h0 ps ns e0),
        fun h0 c ps ns e0 => marksKept_trans hk (g3 h0 c ps ns e0)⟩

theorem findRetryLog_kept {α : Type} (comp : α → α → Bool) (hd tl : Nat) (value : α)
    (walk : Nat → Nat) :
    ∀ (n : Nat) (h : List (node α)) (prevs nexts : List Nat) (found : Bool)
      (h' : List (node α)) (ps ns : List Nat) (es : List Event),
      findRetryLog comp hd tl value walk n h prevs nexts = .ok ((found, h', ps, ns), es) →
      MarksKept h h' := by
  intro n
  induction n with
  | zero =>
    intro h prevs nexts found h' ps ns es hrun
    exact Except.noConfusion hrun
  | succ k ih =>
    intro h prevs nexts found h' ps ns es hrun
    unfold findRetryLog at hrun
    obtain ⟨⟨pr, es1⟩, hp, hrun⟩ := except_bind_ok hrun
    obtain ⟨h2, h3⟩ := findLevelsLog_kept comp hd tl value walk maxLevel h hd 0
      prevs nexts pr es1 hp
    cases pr with
    | retry h1' ps1 ns1 =>
      simp only [] at hrun
      obtain ⟨⟨r1, es2⟩, hrec, hrun⟩ := except_bind_ok hrun
      simp only [pure, Except.pure] at hrun
      cases hrun
      exact marksKept_trans (h2 _ _ _ rfl) (ih h1' ps1 ns1 found h' ps ns es2 hrec)
    | done h1' cur ps1 ns1 =>
      simp only [] at hrun
      obtain ⟨fnd, -, hrun⟩ := except_bind_ok hrun
      simp only [pure, Except.pure] at hrun
      cases hrun
      exact h3 _ _ _ _ rfl

theorem findLog_kept {α : Type} (comp : α → α → Bool) (b : Budget)
    {h h' : List (node α)} {hd tl : Nat} {value : α} {prevs nexts ps ns : List Nat}
    {found : Bool} {es : List Event}
    (hrun : findLog comp b h hd tl value prevs nexts = .ok ((found, h', ps, ns), es)) :
    MarksKept h h' :=
  findRetryLog_kept comp hd tl value b.walk b.pass h prevs nexts found h' ps ns es hrun

theorem clearNextsLog_kept {α : Type} (base : List (node α)) (nd : Nat)
    (hnd : ∀ n, deref base nd ≠ .ok n) :
    ∀ (n level : Nat) (h h' : List (node α)) (es : List Event), MarksKept base h →
      clearNextsLog nd n level h = .ok (h', es) → MarksKept base h' := by
  intro n
  induction n with
  | zero =>
    intro level h h' es hb hrun
    unfold clearNextsLog at hrun
    cases hrun
    exact hb
  | succ k ih =>
    intro level h h' es hb hrun
    unfold clearNextsLog at hrun
    obtain ⟨⟨h1, es1⟩, hs, hrun⟩ := except_bind_ok hrun
    simp only [] at hrun
    obtain ⟨⟨h2, es2⟩, hrec, hrun⟩ := except_bind_ok hrun
    simp only [pure, Except.pure] at hrun
    cases hrun
    exact ih (level + 1) h1 h' es2 (storeNextLog_kept hb hnd hs) hrec

theorem copyNextsLog_kept {α : Type} (base : List (node α)) (nd : Nat) (nexts : List Nat)
    (hnd : ∀ n, deref base nd ≠ .ok n) :
    ∀ (n level : Nat) (h h' : List (node α)) (es : List Event), MarksKept base h →
      copyNextsLog nd nexts n level h = .ok (h', es) → MarksKept base h' := by
  intro n
  induction n with
  | zero =>
    intro level h h' es hb hrun
    unfold copyNextsLog at hrun
    cases hrun
    exact hb
  | succ k ih =>
    intro level h h' es hb hrun
    unfold copyNextsLog at hrun
    obtain ⟨next, -, hrun⟩ := except_bind_ok hrun
    obtain ⟨⟨h1, es1⟩, hs, hrun⟩ := except_bind_ok hrun
    simp only [] at hrun
    obtain ⟨⟨h2, es2⟩, hrec, hrun⟩ := except_bind_ok hrun
    simp only [pure, Except.pure] at hrun
    cases hrun
    exact ih (level + 1) h1 h' es2 (storeNextLog_kept hb hnd hs) hrec

theorem deref_beyond {α : Type} {base : List (node α)} {m : Nat} (hm : base.length ≤ m) :
    ∀ n, deref base (addrOf m) ≠ .ok n := by
  intro n hn
  obtain ⟨-, -, hlt⟩ := deref_bounds.1 ⟨n, hn⟩
  have : addrOf m / 2 - 1 = m := by unfold addrOf; omega
  rw [this] at hlt
  omega

theorem newNodeLog_kept {α : Type} {base h h2 : List (node α)} {level nd : Nat}
    {value : Option α} {es : List Event} (hb : MarksKept base h)
    (hl : base.length ≤ h.length)
    (hrun : newNodeLog h level value = .ok ((nd, h2), es)) : MarksKept base h2 := by
  unfold newNodeLog at hrun
  simp only [] at hrun
  obtain ⟨n, -, hrun⟩ := except_bind_ok hrun
  obtain ⟨⟨h3, es1⟩, hc, hrun⟩ := except_bind_ok hrun
  simp only [pure, Except.pure] at hrun
  cases hrun
  exact clearNextsLog_kept base _ (deref_beyond hl) _ _ _ _ _
    (marksKept_trans hb (marksKept_append h _)) hc

theorem linkLevelLog_kept {α : Type} (comp : α → α → Bool) (b : Budget) (hd tl : Nat)
    (value : α) (nd level : Nat) :
    ∀ (n : Nat) (h : List (node α)) (prevs nexts : List Nat) (h' : List (node α))
      (ps ns : List Nat) (es : List Event),
      (∀ x, x ∈ nexts → isMarked x = false) →
      linkLevelLog comp b hd tl value nd level n h prevs nexts = .ok ((h', ps, ns), es) →
      MarksKept h h' := by
  intro n
  induction n with
  | zero =>
    intro h prevs nexts h' ps ns es _ hrun
    exact Except.noConfusion hrun
  | succ k ih =>
    intro h prevs nexts h' ps ns es hn hrun
    unfold linkLevelLog at hrun
    obtain ⟨prev, -, hrun⟩ := except_bind_ok hrun
    obtain ⟨next, hnext, hrun⟩ := except_bind_ok hrun
    obtain ⟨⟨swapped, h1, es1⟩, hcas, hrun⟩ := except_bind_ok hrun
    have hk := casNextLog_kept hcas (Or.inl (unmarked_index hn hnext))
    cases swapped with
    | true =>
      simp only [if_true, pure, Except.pure] at hrun
      cases hrun
      exact hk
    | false =>
      simp only [Bool.false_eq_true, if_false] at hrun
      obtain ⟨⟨⟨fnd, h2, ps2, ns2⟩, es2⟩, hf, hrun⟩ := except_bind_ok hrun
      simp only [] at hrun
      obtain ⟨⟨r1, es3⟩, hrec, hrun⟩ := except_bind_ok hrun
      simp only [pure, Except.pure] at hrun
      cases hrun
      obtain ⟨-, -, f3⟩ := findLog_safe comp b hn hf
      exact marksKept_trans hk (marksKept_trans (findLog_kept comp b hf)
        (ih h2 ps2 ns2 h' ps ns es3 f3 hrec))

theorem linkUpperLog_kept {α : Type} (comp : α → α → Bool) (b : Budget) (hd tl : Nat)
    (value : α) (nd : Nat) :
    ∀ (n level : Nat) (h : List (node α)) (prevs nexts : List Nat) (h' : List (node α))
      (ps ns : List Nat) (es : List Event),
      (∀ x, x ∈ nexts → isMarked x = false) →
      linkUpperLog comp b hd tl value nd n level h prevs nexts = .ok ((h', ps, ns), es) →
      MarksKept h h' := by
  intro n
  induction n with
  | zero =>
    intro level h prevs nexts h' ps ns es _ hrun
    unfold linkUpperLog at hrun
    cases hrun
    exact marksKept_refl _
  | succ k ih =>
    intro level h prevs nexts h' ps ns es hn hrun
    unfold linkUpperLog at hrun
    obtain ⟨⟨⟨h1, ps1, ns1⟩, es1⟩, hl, hrun⟩ := except_bind_ok hrun
    simp only [] at hrun
    obtain ⟨⟨r1, es2⟩, hrec, hrun⟩ := except_bind_ok hrun
    simp only [pure, Except.pure] at hrun
    cases hrun
    obtain ⟨-, -, f3⟩ := linkLevelLog_safe comp b hd tl value nd level 0 b.link h prevs nexts
      h1 ps1 ns1 es1 hn hl
    exact marksKept_trans
      (linkLevelLog_kept comp b hd tl value nd level b.link h prevs nexts h1 ps1 ns1 es1 hn hl)
      (ih (level + 1) h1 ps1 ns1 h' ps ns es2 f3 hrec)

theorem addLoopLog_kept {α : Type} (comp : α → α → Bool) (rand : Nat → Nat) (b : Budget)
    (value : α) (base : List (node α)) :
    ∀ (n : Nat) (sl : LockFreeSkipList α) (prevs nexts : List Nat) (r : Bool)
      (sl' : LockFreeSkipList α) (es : List Event),
      MarksKept base sl.mem → base.length ≤ sl.mem.length →
      (∀ x, x ∈ nexts → isMarked x = false) →
      addLoopLog comp rand b value n sl prevs nexts = .ok ((r, sl'), es) →
      MarksKept base sl'.mem := by
  intro n
  induction n with
  | zero =>
    intro sl prevs nexts r sl' es _ _ _ hrun
    exact Except.noConfusion hrun
  | succ k ih =>
    intro sl prevs nexts r sl' es hb hl hn hrun
    unfold addLoopLog at hrun
    obtain ⟨⟨⟨fnd, h1, ps1, ns1⟩, es1⟩, hf, hrun⟩ := except_bind_ok hrun
    obtain ⟨-, f2, f3⟩ := findLog_safe comp b hn hf
    have k1 := marksKept_trans hb (findLog_kept comp b hf)
    cases fnd with
    | true =>
      simp only [if_true, pure, Except.pure] at hrun
      cases hrun
      exact k1
    | false =>
      simp only [Bool.false_eq_true, if_false] at hrun
      obtain ⟨⟨⟨nd, h2⟩, es2⟩, hnew, hrun⟩ := except_bind_ok hrun
      simp only [] at hrun
      obtain ⟨⟨h3, es3⟩, hcopy, hrun⟩ := except_bind_ok hrun
      simp only [] at hrun
      obtain ⟨prev, -, hrun⟩ := except_bind_ok hrun
      obtain ⟨next, hnext, hrun⟩ := except_bind_ok hrun
      obtain ⟨⟨swapped, h4, es4⟩, hcas, hrun⟩ := except_bind_ok hrun
      have hl1 : base.length ≤ h1.length := by rw [f2]; exact hl
      have k2 := newNodeLog_kept k1 hl1 hnew
      obtain ⟨rfl, n2, -⟩ := newNodeLog_safe hnew
      obtain ⟨c2, -⟩ := copyNextsLog_safe _ _ _ _ _ _ _ hcopy
      have k3 := copyNextsLog_kept base _ _ (deref_beyond hl1) _ _ _ _ _ k2 hcopy
      obtain ⟨hlen, -⟩ := casNextLog_safe hcas
      have k4 := marksKept_trans k3
        (casNextLog_kept hcas (Or.inl (unmarked_index f3 hnext)))
      cases swapped with
      | false =>
        simp only [Bool.not_false, if_true] at hrun
        obtain ⟨⟨r1, es5⟩, hrec, hrun⟩ := except_bind_ok hrun
        simp only [pure, Except.pure] at hrun
        cases hrun
        exact ih { sl with mem := h4, draws := (randomLevel rand sl.draws).2 } ps1 ns1
          r sl' es5 k4 (by show base.length ≤ h4.length; rw [hlen, c2, n2]; omega) f3 hrec
      | true =>
        simp only [Bool.not_true, Bool.false_eq_true, if_false] at hrun
        obtain ⟨⟨⟨h5, ps5, ns5⟩, es5⟩, hup, hrun⟩ := except_bind_ok hrun
        simp only [pure, Except.pure] at hrun
        cases hrun
        exact marksKept_trans k4
          (linkUpperLog_kept comp b sl.head sl.tail value (addrOf h1.length) _ _ _ _ _ _ _ _ _
            f3 hup)

theorem markLevelLog_kept {α : Type} (nd level : Nat) :
    ∀ (n : Nat) (h : List (node α)) (next : Nat) (h' : List (node α)) (es : List Event),
      markLevelLog nd level n h next = .ok (h', es) → MarksKept h h' := by
  intro n
  induction n with
  | zero =>
    intro h next h' es hrun
    exact Except.noConfusion hrun
  | succ k ih =>
    intro h next h' es hrun
    unfold markLevelLog at hrun
    by_cases hm : isMarked next = true
    · simp only [hm, Bool.not_true, Bool.false_eq_true, if_false] at hrun
      cases hrun
      exact marksKept_refl _
    · have hm0 : isMarked next = false := by simpa using hm
      simp only [hm0, Bool.not_false, if_true] at hrun
      obtain ⟨⟨swapped, h1, es1⟩, hcas, hrun⟩ := except_bind_ok hrun
      simp only [] at hrun
      obtain ⟨next1, -, hrun⟩ := except_bind_ok hrun
      obtain ⟨⟨h2, es2⟩, hrec, hrun⟩ := except_bind_ok hrun
      simp only [pure, Except.pure] at hrun
      cases hrun
      exact marksKept_trans (casNextLog_kept hcas (Or.inr (isMarked_getMarked next)))
        (ih h1 next1 h' es2 hrec)

theorem markUpperLog_kept {α : Type} (mark nd : Nat) :
    ∀ (level : Nat) (h h' : List (node α)) (es : List Event),
      markUpperLog mark nd level h = .ok (h', es) → MarksKept h h' := by
  intro level
  induction level with
  | zero =>
    intro h h' es hrun
    unfold markUpperLog at hrun
    cases hrun
    exact marksKept_refl _
  | succ k ih =>
    intro h h' es hrun
    unfold markUpperLog at hrun
    obtain ⟨next, -, hrun⟩ := except_bind_ok hrun
    obtain ⟨⟨h1, es1⟩, hl, hrun⟩ := except_bind_ok hrun
    simp only [] at hrun
    obtain ⟨⟨h2, es2⟩, hrec, hrun⟩ := except_bind_ok hrun
    simp only [pure, Except.pure] at hrun
    cases hrun
    exact marksKept_trans (markLevelLog_kept nd (k + 1) mark h next h1 es1 hl)
      (ih h1 h' es2 hrec)

theorem markBottomLog_kept {α : Type} (nd : Nat) :
    ∀ (n : Nat) (h : List (node α)) (next : Nat) (r : Bool) (h' : List (node α))
      (es : List Event),
      markBottomLog nd n h next = .ok ((r, h'), es) → MarksKept h h' := by
  intro n
  induction n with
  | zero =>
    intro h next r h' es hrun
    exact Except.noConfusion hrun
  | succ k ih =>
    intro h next r h' es hrun
    unfold markBottomLog at hrun
    by_cases hm : isMarked next = true
    · simp only [hm, if_true] at hrun
      cases hrun
      exact marksKept_refl _
    · simp only [hm, Bool.false_eq_true, if_false] at hrun
      obtain ⟨⟨swapped, h1, es1⟩, hcas, hrun⟩ := except_bind_ok hrun
      have hk := casNextLog_kept hcas (Or.inr (isMarked_getMarked next))
      cases swapped with
      | true =>
        simp only [if_true, pure, Except.pure] at hrun
        cases hrun
        exact hk
      | false =>
        simp only [Bool.false_eq_true, if_false] at hrun
        obtain ⟨next1, -, hrun⟩ := except_bind_ok hrun
        obtain ⟨⟨r1, es2⟩, hrec, hrun⟩ := except_bind_ok hrun
        simp only [pure, Except.pure] at hrun
        cases hrun
        exact marksKept_trans hk (ih h1 next1 r h' es2 hrec)

theorem removeLog_kept {α : Type} (comp : α → α → Bool) (b : Budget)
    {sl sl' : LockFreeSkipList α} {value : α} {r : Bool} {es : List Event}
    (hrun : RemoveLog comp b sl value = .ok ((r, sl'), es)) : MarksKept sl.mem sl'.mem := by
  unfold RemoveLog at hrun
  obtain ⟨⟨⟨fnd, h1, ps1, ns1⟩, es1⟩, hf, hrun⟩ := except_bind_ok hrun
  have k1 := findLog_kept comp b hf
  cases fnd with
  | false =>
    simp only [Bool.not_false, if_true, pure, Except.pure] at hrun
    cases hrun
    exact k1
  | true =>
    simp only [Bool.not_true, Bool.false_eq_true, if_false] at hrun
    obtain ⟨rn, -, hrun⟩ := except_bind_ok hrun
    obtain ⟨n, -, hrun⟩ := except_bind_ok hrun
    obtain ⟨⟨h2, es2⟩, hu, hrun⟩ := except_bind_ok hrun
    simp only [] at hrun
    obtain ⟨next, -, hrun⟩ := except_bind_ok hrun
    obtain ⟨⟨⟨marked, h3⟩, es3⟩, hb, hrun⟩ := except_bind_ok hrun
    have k3 := marksKept_trans k1 (marksKept_trans (markUpperLog_kept b.mark rn _ _ _ _ hu)
      (markBottomLog_kept rn _ _ _ _ _ _ hb))
    cases marked with
    | false =>
      simp only [Bool.not_false, if_true, pure, Except.pure] at hrun
      cases hrun
      exact k3
    | true =>
      simp only [Bool.not_true, Bool.false_eq_true, if_false, pure, Except.pure] at hrun
      cases hrun
      exact k3

theorem containsLog_kept {α : Type} (comp : α → α → Bool) (b : Budget)
    {sl sl' : LockFreeSkipList α} {value : α} {r : Bool} {es : List Event}
    (hrun : ContainsLog comp b sl value = .ok ((r, sl'), es)) : MarksKept sl.mem sl'.mem := by
  unfold ContainsLog at hrun
  obtain ⟨⟨⟨fnd, h1, ps1, ns1⟩, es1⟩, hf, hrun⟩ := except_bind_ok hrun
  simp only [pure, Except.pure] at hrun
  cases hrun
  exact findLog_kept comp b hf

/-- On any list, whatever its memory holds, a call that returns leaves a marked
word in every slot that held one. -/
theorem runOpLog_kept {α : Type} (comp : α → α → Bool) (rand : Nat → Nat) (b : Budget)
    {sl sl' : LockFreeSkipList α} {op : Op α} {r : Bool} {es : List Event}
    (hrun : runOpLog comp rand b sl op = .ok ((r, sl'), es)) : MarksKept sl.mem sl'.mem := by
  cases op with
  | add v =>
    exact addLoopLog_kept comp rand b v sl.mem b.outer sl _ _ r sl' es (marksKept_refl _)
      (le_refl _) (unmarked_replicate maxLevel) hrun
  | remove v => exact removeLog_kept comp b hrun
  | contains v => exact containsLog_kept comp b hrun

theorem runOp_kept {α : Type} (comp : α → α → Bool) (rand : Nat → Nat) (fuel : Nat)
    {sl sl' : LockFreeSkipList α} {op : Op α} {r : Bool}
    (hrun : runOp comp rand fuel sl op = .ok (r, sl')) : MarksKept sl.mem sl'.mem := by
  rw [← runOpLog_erase] at hrun
  cases hlog : runOpLog comp rand (Budget.uniform fuel) sl op with
  | error f =>
    rw [hlog] at hrun
    cases hrun
  | ok x =>
    obtain ⟨⟨r1, sl1⟩, es⟩ := x
    rw [hlog] at hrun
    cases hrun
    exact runOpLog_kept comp rand _ hlog

/-- On any list, a sequence of calls that returns leaves a marked word in every
slot that held one. -/
theorem runOps_kept {α : Type} (comp : α → α → Bool) (rand : Nat → Nat) (fuel : Nat) :
    ∀ (ops : List (Op α)) (sl sl' : LockFreeSkipList α) (bs : List Bool),
      runOps comp rand fuel ops sl = .ok (bs, sl') → MarksKept sl.mem sl'.mem := by
  intro ops
  induction ops with
  | nil =>
    intro sl sl' bs hrun
    unfold runOps at hrun
    cases hrun
    exact marksKept_refl _
  | cons op ops ih =>
    intro sl sl' bs hrun
    unfold runOps at hrun
    obtain ⟨⟨r, sl1⟩, h1, hrun⟩ := except_bind_ok hrun
    simp only [] at hrun
    obtain ⟨⟨bs1, sl2⟩, h2, hrun⟩ := except_bind_ok hrun
    simp only [pure, Except.pure] at hrun
    cases hrun
    exact marksKept_trans (runOp_kept comp rand fuel h1) (ih sl1 sl' bs1 h2)

/-- On any memory, a `casNext` that returns leaves in its slot the outcome of
the word the slot held. -/
theorem casNext_outcome {α : Type} {h h' : List (node α)} {nd level expected desire : Nat}
    {b : Bool} (site : Site) (old : Nat)
    (hc : casNext h nd level expected desire = .ok (b, h')) :
    ∃ w, loadNext h nd level = .ok w ∧
      loadNext h' nd level =
        .ok ((Event.cas site nd level expected desire old).outcome w) := by
  obtain ⟨w, hl, ⟨rfl, -, rfl⟩ | ⟨hne, -, rfl⟩⟩ := casNext_inv hc
  · refine ⟨w, hl, ?_⟩
    rw [loadNext_write _ _ _ hl, if_pos ⟨rfl, rfl⟩]
    show Except.ok desire = Except.ok (if w = w then desire else w)
    rw [if_pos rfl]
  · refine ⟨w, hl, ?_⟩
    rw [hl]
    show Except.ok w = Except.ok (if w = expected then desire else w)
    rw [if_neg hne]

/-- No sequence of whole calls on a fresh list reaches `midRemove`: the node of
3 is on its bottom chain with slot 0 unmarked and slot 2 marked. -/
theorem midRemove_unreachable (comp : Nat → Nat → Bool) (rand : Nat → Nat) :
    ¬ Reachable comp rand midRemove := by
  intro hr
  obtain ⟨ch, hinv⟩ := reachable_inv hr
  have hp := hinv.path 0 (by decide)
  have h20 : loadNext midRemove.mem 2 0 = .ok 6 := by decide
  have h60 : loadNext midRemove.mem 6 0 = .ok 8 := by decide
  have h62 : loadNext midRemove.mem 6 2 = .ok 9 := by decide
  have hhead : midRemove.head = 2 := by decide
  have htail : midRemove.tail = 4 := by decide
  have hmem : 6 ∈ ch 0 := by
    cases hch : ch 0 with
    | nil =>
      rw [hch] at hp
      obtain ⟨p, hp1, hp2⟩ := hp
      rw [hhead, h20] at hp1
      cases hp1
      rw [htail] at hp2
      exact absurd hp2 (by decide)
    | cons x xs =>
      rw [hch] at hp
      obtain ⟨⟨p, hp1, hp2⟩, -⟩ := hp
      rw [hhead, h20] at hp1
      cases hp1
      have : x = 6 := by rw [← hp2]; decide
      rw [this]
      exact List.mem_cons_self _ _
  have a0 := hinv.marks_agree hmem h60
  have a2 := hinv.marks_agree hmem h62
  rw [a0] at a2
  exact absurd a2 (by decide)

/-! # The properties of the specification -/


/-- C1: for a strict weak ordering, every finite single-threaded sequence of
`Add`, `Remove` and `Contains` calls on a fresh list returns, call by call and
whatever the random levels, what the same calls return on the reference set of
equivalence classes; `GetSize` is then the cardinality of the reference set,
reduced to `int32`. -/
theorem C1_refines_reference_set {α : Type} (comp : α → α → Bool) (sw : StrictWeak comp)
    (rand : Nat → Nat) (ops : List (Op α)) (fuel : Nat) (hfuel : ops.length + 2 ≤ fuel) :
    ∃ sl0 sl', NewLockFreeSkipList α = .ok sl0 ∧
      runOps comp rand fuel ops sl0 = .ok ((refRun comp ops []).1, sl') ∧
      GetSize sl' = wrapInt32 ((refRun comp ops []).2.length : Int) := by
  obtain ⟨sl0, hnew, hsim, -, hlen⟩ := sim_new (α := α) comp
  obtain ⟨sl', hrun, hsim', -, -⟩ := runOps_sim sw rand ops hsim
    (show sl0.mem.length + ops.length ≤ fuel by omega)
  exact ⟨sl0, sl', hnew, hrun, hsim'.size_card⟩

/-- C1 on the round trip of the specification: `Add(3)`, `Add(1)`, `Add(2)`,
`Add(2)` return true, true, true, false, the four `Contains` calls return true,
true, true, false, and `GetSize()` is 3. -/
theorem C1_witness :
    StrictWeak natLt ∧ ∃ sl0 sl', NewLockFreeSkipList Nat = .ok sl0 ∧
      runOps natLt (fun _ => 1) 10
        [.add 3, .add 1, .add 2, .add 2, .contains 1, .contains 2, .contains 3, .contains 4]
        sl0 = .ok ([true, true, true, false, true, true, true, false], sl') ∧
      GetSize sl' = 3 :=
  ⟨natLt_strictWeak, C1_refines_reference_set natLt natLt_strictWeak (fun _ => 1)
    [.add 3, .add 1, .add 2, .add 2, .contains 1, .contains 2, .contains 3, .contains 4] 10
    (by decide)⟩

/-- C3 (as stated) fails: after `Add(0)`, ..., `Add(2 ^ 31 - 1)` on a fresh
list every call has returned true, and `GetSize()` is not the number of `Add`
calls that returned true: the `int32` counter has wrapped around. -/
theorem C3_counterexample :
    ∃ sl0 bs sl', NewLockFreeSkipList Nat = .ok sl0 ∧
      runOps natLt (fun _ => 1) (2 ^ 31 + 2) (manyAdds 0 (2 ^ 31)) sl0 = .ok (bs, sl') ∧
      GetSize sl' ≠ netCount (manyAdds 0 (2 ^ 31)) bs := by
  obtain ⟨sl0, sl', hnew, hrun, hsize, -, -⟩ := overflow_run
  refine ⟨sl0, _, sl', hnew, hrun, ?_⟩
  rw [netCount_manyAdds]
  show sl'.size ≠ _
  rw [hsize]
  exact wrapInt32_overflow

/-- C3 (amended): after every finite single-threaded sequence of calls on a
fresh list, `GetSize()` is the number of `Add` calls that returned true minus the
number of `Remove` calls that returned true, reduced to `int32`; it is exactly
that number when fewer than `2 ^ 31` calls were made; and a further call that
returns false, or a `Contains` call, leaves the counter unchanged. -/
theorem C3_size_counts_successes {α : Type} (comp : α → α → Bool) (rand : Nat → Nat)
    (ops : List (Op α)) (fuel : Nat) (hfuel : ops.length + 2 ≤ fuel) :
    ∃ sl0 bs sl', NewLockFreeSkipList α = .ok sl0 ∧
      runOps comp rand fuel ops sl0 = .ok (bs, sl') ∧
      GetSize sl' = wrapInt32 (netCount ops bs) ∧
      (ops.length < 2 ^ 31 → GetSize sl' = netCount ops bs) ∧
      ∀ op, ∃ b sl'', runOp comp rand fuel sl' op = .ok (b, sl'') ∧
        (opDelta op b = 0 → GetSize sl'' = GetSize sl') := by
  obtain ⟨sl0, hnew, hinv0, hsz, hlen, -⟩ := newList_spec α
  obtain ⟨bs, sl', hrun, hinv', hbl, hsize, hmem⟩ :=
    runOps_inv comp rand ops ⟨_, hinv0⟩ (show sl0.mem.length + ops.length ≤ fuel by omega)
  have hsize' : sl'.size = wrapInt32 (netCount ops bs) := by
    rw [hsize, hsz, zero_add]
  refine ⟨sl0, bs, sl', hnew, hrun, hsize', ?_, ?_⟩
  · intro hlt
    show sl'.size = _
    rw [hsize']
    obtain ⟨h1, h2⟩ := netCount_bounds ops bs
    apply wrapInt32_of_small <;> omega
  · intro op
    obtain ⟨b, sl'', hrun2, -, hsize2, -⟩ :=
      step_inv comp rand hinv' (show sl'.mem.length ≤ fuel by omega) op
    refine ⟨b, sl'', hrun2, fun h0 => ?_⟩
    show sl''.size = sl'.size
    obtain ⟨ch, hc⟩ := hinv'
    rw [hsize2, h0]
    exact hc.size_wrap

/-- C3 (amended) on `Add(1)`, `Add(1)`, `Remove(1)`, `Contains(1)`. -/
theorem C3_witness :
    ([.add 1, .add 1, .remove 1, .contains 1] : List (Op Nat)).length + 2 ≤ 10 ∧
    ∃ sl0 bs sl', NewLockFreeSkipList Nat = .ok sl0 ∧
      runOps natLt (fun _ => 1) 10 [.add 1, .add 1, .remove 1, .contains 1] sl0 =
        .ok (bs, sl') ∧
      GetSize sl' = wrapInt32 (netCount [.add 1, .add 1, .remove 1, .contains 1] bs) ∧
      (([.add 1, .add 1, .remove 1, .contains 1] : List (Op Nat)).length < 2 ^ 31 →
        GetSize sl' = netCount [.add 1, .add 1, .remove 1, .contains 1] bs) ∧
      ∀ op, ∃ b sl'', runOp natLt (fun _ => 1) 10 sl' op = .ok (b, sl'') ∧
        (opDelta op b = 0 → GetSize sl'' = GetSize sl') :=
  ⟨by decide, C3_size_counts_successes natLt (fun _ => 1)
    [.add 1, .add 1, .remove 1, .contains 1] 10 (by decide)⟩

/-- C4 (as stated) fails: after `Add(0)`, ..., `Add(2 ^ 31 - 1)` on a fresh
list, `GetSize()` is not the number of element nodes with an unmarked bottom
slot on the bottom chain. -/
theorem C4_counterexample :
    ∃ sl0 bs sl' xs, NewLockFreeSkipList Nat = .ok sl0 ∧
      runOps natLt (fun _ => 1) (2 ^ 31 + 2) (manyAdds 0 (2 ^ 31)) sl0 = .ok (bs, sl') ∧
      levelChain sl' 0 (2 ^ 31 + 1) = some xs ∧
      GetSize sl' ≠ ((xs.filter (live sl'.mem)).length : Int) := by
  obtain ⟨sl0, sl', hnew, hrun, hsize, hmem, ch, hinv, hcount⟩ := overflow_run
  have hle : (ch 0).length < 2 ^ 31 + 1 := by
    have := hinv.room
    omega
  refine ⟨sl0, _, sl', ch 0, hnew, hrun, hinv.levelChain_eq maxLevel_pos hle, ?_⟩
  rw [← List.countP_eq_length_filter, hcount]
  show sl'.size ≠ _
  rw [hsize]
  exact wrapInt32_overflow

/-- C4 (amended): after every finite single-threaded sequence of calls on a
fresh list, `GetSize()` is the number of element nodes on the bottom chain from
the head whose bottom slot is unmarked, reduced to `int32`; it is exactly that
number when fewer than `2 ^ 31` calls were made. -/
theorem C4_size_counts_live_nodes {α : Type} (comp : α → α → Bool) (rand : Nat → Nat)
    (ops : List (Op α)) (fuel : Nat) (hfuel : ops.length + 2 ≤ fuel) :
    ∃ sl0 bs sl' xs, NewLockFreeSkipList α = .ok sl0 ∧
      runOps comp rand fuel ops sl0 = .ok (bs, sl') ∧
      (∀ f, xs.length < f → levelChain sl' 0 f = some xs) ∧
      (∀ x, x ∈ xs → x ≠ sl'.head ∧ x ≠ sl'.tail) ∧
      GetSize sl' = wrapInt32 ((xs.filter (live sl'.mem)).length : Int) ∧
      (ops.length < 2 ^ 31 → GetSize sl' = ((xs.filter (live sl'.mem)).length : Int)) := by
  obtain ⟨sl0, hnew, hinv0, hsz, hlen, -⟩ := newList_spec α
  obtain ⟨bs, sl', hrun, ⟨ch, hinv⟩, hbl, hsize, hmem⟩ :=
    runOps_inv comp rand ops ⟨_, hinv0⟩ (show sl0.mem.length + ops.length ≤ fuel by omega)
  have hsz' : sl'.size = wrapInt32 (((ch 0).filter (live sl'.mem)).length : Int) := by
    rw [← List.countP_eq_length_filter]
    exact hinv.size_eq
  refine ⟨sl0, bs, sl', ch 0, hnew, hrun, fun f hf => hinv.levelChain_eq maxLevel_pos hf,
    fun x hx => ⟨(hinv.good x hx).1, (hinv.good x hx).2.1⟩, hsz', ?_⟩
  intro hlt
  show sl'.size = _
  rw [hsz']
  have h1 : ((ch 0).filter (live sl'.mem)).length ≤ (ch 0).length := List.length_filter_le _ _
  have h2 := hinv.room
  apply wrapInt32_of_small <;> omega

/-- C4 (amended) on `Add(3)`, `Add(1)`, `Remove(3)`. -/
theorem C4_witness :
    ([.add 3, .add 1, .remove 3] : List (Op Nat)).length + 2 ≤ 10 ∧
    ∃ sl0 bs sl' xs, NewLockFreeSkipList Nat = .ok sl0 ∧
      runOps natLt (fun _ => 1) 10 [.add 3, .add 1, .remove 3] sl0 = .ok (bs, sl') ∧
      (∀ f, xs.length < f → levelChain sl' 0 f = some xs) ∧
      (∀ x, x ∈ xs → x ≠ sl'.head ∧ x ≠ sl'.tail) ∧
      GetSize sl' = wrapInt32 ((xs.filter (live sl'.mem)).length : Int) ∧
      (([.add 3, .add 1, .remove 3] : List (Op Nat)).length < 2 ^ 31 →
        GetSize sl' = ((xs.filter (live sl'.mem)).length : Int)) :=
  ⟨by decide, C4_size_counts_live_nodes natLt (fun _ => 1) [.add 3, .add 1, .remove 3] 10
    (by decide)⟩

/-- C5: for a strict weak ordering, after every finite single-threaded
sequence of calls on a fresh list, at every level below `maxLevel` the walk from
the head along the forward pointers (mark bit stripped) reaches the tail after
finitely many steps, visits element nodes only, and the values visited are
strictly increasing under the comparator; no two nodes of a chain hold
equivalent values. -/
theorem C5_chains_sorted {α : Type} (comp : α → α → Bool) (sw : StrictWeak comp)
    (rand : Nat → Nat) (ops : List (Op α)) (fuel : Nat) (hfuel : ops.length + 2 ≤ fuel) :
    ∃ sl0 bs sl', NewLockFreeSkipList α = .ok sl0 ∧
      runOps comp rand fuel ops sl0 = .ok (bs, sl') ∧
      ∀ L, L < maxLevel → ∃ xs,
        (∀ f, xs.length < f → levelChain sl' L f = some xs) ∧
        (∀ x, x ∈ xs → x ≠ sl'.head ∧ x ≠ sl'.tail ∧ ∃ a, valOf sl'.mem x = some a) ∧
        SortedBy comp sl'.mem xs ∧
        xs.Pairwise (fun x y => ∃ a b, valOf sl'.mem x = some a ∧ valOf sl'.mem y = some b ∧
          equivalent comp a b = false) := by
  obtain ⟨sl0, hnew, hsim, -, hlen⟩ := sim_new (α := α) comp
  obtain ⟨sl', hrun, ⟨ch, hinv, hsorted, -⟩, -, -⟩ := runOps_sim sw rand ops hsim
    (show sl0.mem.length + ops.length ≤ fuel by omega)
  refine ⟨sl0, _, sl', hnew, hrun, fun L hL => ⟨ch L, fun f hf => hinv.levelChain_eq hL hf,
    fun x hx => ?_, ?_, ?_⟩⟩
  · obtain ⟨h1, h2, nd, v, hnd, hv, -⟩ := hinv.good x (hinv.mem0 hx)
    exact ⟨h1, h2, v, by simp [valOf, hnd, hv]⟩
  · exact List.Pairwise.sublist (hinv.sub0 L) hsorted
  · refine List.Pairwise.imp ?_ (List.Pairwise.sublist (hinv.sub0 L) hsorted)
    rintro x y ⟨a, b, ha, hb, hab⟩
    exact ⟨a, b, ha, hb, by simp [equivalent, hab]⟩

/-- C5 on `Add(3)`, `Add(1)`, `Add(2)`, `Remove(1)`. -/
theorem C5_witness :
    StrictWeak natLt ∧
    ([.add 3, .add 1, .add 2, .remove 1] : List (Op Nat)).length + 2 ≤ 10 ∧
    ∃ sl0 bs sl', NewLockFreeSkipList Nat = .ok sl0 ∧
      runOps natLt (fun _ => 1) 10 [.add 3, .add 1, .add 2, .remove 1] sl0 = .ok (bs, sl') ∧
      ∀ L, L < maxLevel → ∃ xs,
        (∀ f, xs.length < f → levelChain sl' L f = some xs) ∧
        (∀ x, x ∈ xs → x ≠ sl'.head ∧ x ≠ sl'.tail ∧ ∃ a, valOf sl'.mem x = some a) ∧
        SortedBy natLt sl'.mem xs ∧
        xs.Pairwise (fun x y => ∃ a b, valOf sl'.mem x = some a ∧ valOf sl'.mem y = some b ∧
          equivalent natLt a b = false) :=
  ⟨natLt_strictWeak, by decide, C5_chains_sorted natLt natLt_strictWeak (fun _ => 1)
    [.add 3, .add 1, .add 2, .remove 1] 10 (by decide)⟩

/-- C6: after every finite single-threaded sequence of calls on a fresh list,
for every level `L` with `0 < L < maxLevel`, the nodes of the level-`L` chain
from the head form a subsequence of the level-`(L - 1)` chain, so every node
on the former is on the latter. -/
theorem C6_upper_chain_in_lower {α : Type} (comp : α → α → Bool) (rand : Nat → Nat)
    (ops : List (Op α)) (fuel : Nat) (hfuel : ops.length + 2 ≤ fuel) :
    ∃ sl0 bs sl', NewLockFreeSkipList α = .ok sl0 ∧
      runOps comp rand fuel ops sl0 = .ok (bs, sl') ∧
      ∀ L, 0 < L → L < maxLevel → ∃ xs ys,
        (∀ f, xs.length < f → levelChain sl' L f = some xs) ∧
        (∀ f, ys.length < f → levelChain sl' (L - 1) f = some ys) ∧
        xs.Sublist ys ∧ ∀ x, x ∈ xs → x ∈ ys := by
  obtain ⟨sl0, hnew, hinv0, hsz, hlen, -⟩ := newList_spec α
  obtain ⟨bs, sl', hrun, ⟨ch, hinv⟩, -⟩ :=
    runOps_inv comp rand ops ⟨_, hinv0⟩ (show sl0.mem.length + ops.length ≤ fuel by omega)
  refine ⟨sl0, bs, sl', hnew, hrun, fun L h0 hL => ⟨ch L, ch (L - 1),
    fun f hf => hinv.levelChain_eq hL hf,
    fun f hf => hinv.levelChain_eq (show L - 1 < maxLevel by omega) hf, ?_, ?_⟩⟩
  · have := hinv.sub (L - 1)
    rwa [show L - 1 + 1 = L by omega] at this
  · have := hinv.sub (L - 1)
    rw [show L - 1 + 1 = L by omega] at this
    exact fun x hx => this.subset hx

/-- C6 on `Add(3)`, `Add(1)`, `Remove(3)`, `Contains(0)`. -/
theorem C6_witness :
    ([.add 3, .add 1, .remove 3, .contains 0] : List (Op Nat)).length + 2 ≤ 10 ∧
    ∃ sl0 bs sl', NewLockFreeSkipList Nat = .ok sl0 ∧
      runOps natLt (fun n => n % 3) 10 [.add 3, .add 1, .remove 3, .contains 0] sl0 =
        .ok (bs, sl') ∧
      ∀ L, 0 < L → L < maxLevel → ∃ xs ys,
        (∀ f, xs.length < f → levelChain sl' L f = some xs) ∧
        (∀ f, ys.length < f → levelChain sl' (L - 1) f = some ys) ∧
        xs.Sublist ys ∧ ∀ x, x ∈ xs → x ∈ ys :=
  ⟨by decide, C6_upper_chain_in_lower natLt (fun n => n % 3)
    [.add 3, .add 1, .remove 3, .contains 0] 10 (by decide)⟩

/-- C7: in a state reached single-threaded from a fresh list (comparator a
strict weak ordering), once `Remove(v)` has returned true, `Contains(w)` returns
false for every `w` equivalent to `v`, after any further calls among which no
`Add` of a value equivalent to `v` returned true. -/
theorem C7_no_resurrection {α : Type} (comp : α → α → Bool) (sw : StrictWeak comp)
    (rand : Nat → Nat) (fuel : Nat) (sl sl1 sl2 : LockFreeSkipList α) (v w : α)
    (ops : List (Op α)) (bs : List Bool) (hr : Reachable comp rand sl)
    (hfuel : sl.mem.length + ops.length ≤ fuel)
    (hrem : Remove comp fuel sl v = .ok (true, sl1))
    (hrun : runOps comp rand fuel ops sl1 = .ok (bs, sl2))
    (hnoadd : ∀ u, (Op.add u, true) ∈ List.zip ops bs → equivalent comp u v = false)
    (hw : equivalent comp w v = true) :
    ∃ sl3, Contains comp fuel sl2 w = .ok (false, sl3) := by
  obtain ⟨S, hsim⟩ := reachable_sim sw hr
  obtain ⟨sl1', hrem', hsim1, -, hlen1⟩ :=
    remove_sim sw (v := v) hsim (show sl.mem.length ≤ fuel by omega)
  rw [hrem] at hrem'
  have hb : (refStep comp S (.remove v)).1 = true := by
    have := Except.ok.inj hrem'
    exact (congrArg Prod.fst this).symm
  have hs1 : sl1' = sl1 := by
    have := Except.ok.inj hrem'
    exact (congrArg Prod.snd this).symm
  subst hs1
  have hc : refContains comp S v = true := by
    by_contra hc
    simp [refStep, hc] at hb
  have hS1 : (refStep comp S (.remove v)).2 = S.filter (fun x => !equivalent comp x v) := by
    simp [refStep, hc]
  rw [hS1] at hsim1
  have hlen1' : sl1'.mem.length = sl.mem.length := by
    rw [hlen1, hb]; rfl
  obtain ⟨sl2', hrun', hsim2, -, hlen2⟩ := runOps_sim sw rand ops hsim1
    (show sl1'.mem.length + ops.length ≤ fuel by omega)
  rw [hrun] at hrun'
  have hbs : bs = (refRun comp ops (S.filter (fun x => !equivalent comp x v))).1 :=
    congrArg Prod.fst (Except.ok.inj hrun')
  have hs2 : sl2 = sl2' := congrArg Prod.snd (Except.ok.inj hrun')
  subst hs2
  have habsent := ref_stays_absent comp v ops (S.filter (fun x => !equivalent comp x v))
    (fun x hx => by simpa using (List.mem_filter.1 hx).2)
    (fun u hu => hnoadd u (hbs ▸ hu))
  obtain ⟨sl3, hcon, -⟩ := contains_sim sw (v := w) hsim2 (show sl2.mem.length ≤ fuel by omega)
  refine ⟨sl3, ?_⟩
  rw [hcon]
  have : refContains comp (refRun comp ops (S.filter (fun x => !equivalent comp x v))).2 w
      = false := by
    rw [refContains_false_iff]
    intro x hx
    cases hxw : equivalent comp x w with
    | false => rfl
    | true =>
      have := equivalent_trans sw hxw hw
      rw [habsent x hx] at this
      cases this
  rw [this]

/-- C7 on the list holding 1 and 2: `Remove(1)` returns true, then `Add(3)`,
`Remove(5)`, `Contains(2)` run, then `Contains(1)` returns false. -/
theorem C7_witness :
    StrictWeak natLt ∧ Reachable natLt (fun _ => 1) (listAfter 12 [.add 1, .add 2]) ∧
    (listAfter 12 [.add 1, .add 2]).mem.length +
      ([.add 3, .remove 5, .contains 2] : List (Op Nat)).length ≤ 12 ∧
    Remove natLt 12 (listAfter 12 [.add 1, .add 2]) 1 =
      .ok (true, after (Remove natLt 12 (listAfter 12 [.add 1, .add 2]) 1)) ∧
    runOps natLt (fun _ => 1) 12 [.add 3, .remove 5, .contains 2]
        (after (Remove natLt 12 (listAfter 12 [.add 1, .add 2]) 1)) =
      .ok ([true, false, true], after (runOps natLt (fun _ => 1) 12
        [.add 3, .remove 5, .contains 2]
        (after (Remove natLt 12 (listAfter 12 [.add 1, .add 2]) 1)))) ∧
    (∀ u, (Op.add u, true) ∈
        List.zip ([.add 3, .remove 5, .contains 2] : List (Op Nat)) [true, false, true] →
      equivalent natLt u 1 = false) ∧
    equivalent natLt 1 1 = true ∧
    ∃ sl3, Contains natLt 12 (after (runOps natLt (fun _ => 1) 12
        [.add 3, .remove 5, .contains 2]
        (after (Remove natLt 12 (listAfter 12 [.add 1, .add 2]) 1)))) 1 = .ok (false, sl3) :=
  have h1 := reachable_listAfter 12 [.add 1, .add 2] (by decide)
  have h2 : (listAfter 12 [.add 1, .add 2]).mem.length +
      ([.add 3, .remove 5, .contains 2] : List (Op Nat)).length ≤ 12 := by decide
  have h3 : Remove natLt 12 (listAfter 12 [.add 1, .add 2]) 1 =
      .ok (true, after (Remove natLt 12 (listAfter 12 [.add 1, .add 2]) 1)) := by decide
  have h4 : runOps natLt (fun _ => 1) 12 [.add 3, .remove 5, .contains 2]
        (after (Remove natLt 12 (listAfter 12 [.add 1, .add 2]) 1)) =
      .ok ([true, false, true], after (runOps natLt (fun _ => 1) 12
        [.add 3, .remove 5, .contains 2]
        (after (Remove natLt 12 (listAfter 12 [.add 1, .add 2]) 1)))) := by decide
  have h5 : ∀ u, (Op.add u, true) ∈
        List.zip ([.add 3, .remove 5, .contains 2] : List (Op Nat)) [true, false, true] →
      equivalent natLt u 1 = false := by
    intro u hu
    simp at hu
    subst hu
    decide
  have h6 : equivalent natLt 1 1 = true := by decide
  ⟨natLt_strictWeak, h1, h2, h3, h4, h5, h6,
    C7_no_resurrection natLt natLt_strictWeak (fun _ => 1) 12 _ _ _ 1 1 _ _ h1 h2 h3 h4 h5 h6⟩

/-- C8: in a state reached single-threaded from a fresh list (comparator a
strict weak ordering), once `Add(v)` has returned true, `Add(w)` returns false
for every `w` equivalent to `v`, allocates no node and leaves `GetSize()`
unchanged, after any further calls among which there is no `Remove` of a value
equivalent to `v`. -/
theorem C8_repeated_add_rejected {α : Type} (comp : α → α → Bool) (sw : StrictWeak comp)
    (rand : Nat → Nat) (fuel : Nat) (sl sl1 sl2 : LockFreeSkipList α) (v w : α)
    (ops : List (Op α)) (bs : List Bool) (hr : Reachable comp rand sl)
    (hfuel : sl.mem.length + ops.length + 1 ≤ fuel)
    (hadd : Add comp rand fuel sl v = .ok (true, sl1))
    (hrun : runOps comp rand fuel ops sl1 = .ok (bs, sl2))
    (hnorem : ∀ u, Op.remove u ∈ ops → equivalent comp u v = false)
    (hw : equivalent comp w v = true) :
    ∃ sl3, Add comp rand fuel sl2 w = .ok (false, sl3) ∧ sl3.mem.length = sl2.mem.length ∧
      GetSize sl3 = GetSize sl2 := by
  obtain ⟨S, hsim⟩ := reachable_sim sw hr
  obtain ⟨sl1', hadd', hsim1, -, hlen1⟩ :=
    add_sim sw rand (v := v) hsim (show sl.mem.length ≤ fuel by omega)
  rw [hadd] at hadd'
  have hb : (refStep comp S (.add v)).1 = true :=
    (congrArg Prod.fst (Except.ok.inj hadd')).symm
  have hs1 : sl1' = sl1 := (congrArg Prod.snd (Except.ok.inj hadd')).symm
  subst hs1
  have hc : refContains comp S v = false := by
    cases hc : refContains comp S v with
    | false => rfl
    | true => simp [refStep, hc] at hb
  have hS1 : (refStep comp S (.add v)).2 = v :: S := by
    simp [refStep, hc]
  rw [hS1] at hsim1
  have hlen1' : sl1'.mem.length = sl.mem.length + 1 := by
    rw [hlen1, hb]; rfl
  obtain ⟨sl2', hrun', hsim2, -, hlen2⟩ := runOps_sim sw rand ops hsim1
    (show sl1'.mem.length + ops.length ≤ fuel by omega)
  rw [hrun] at hrun'
  have hs2 : sl2 = sl2' := congrArg Prod.snd (Except.ok.inj hrun')
  subst hs2
  have hvv : equivalent comp v v = true := by
    simp [equivalent, sw.irrefl]
  obtain ⟨x, hx, hxv⟩ := ref_stays_present sw v ops (v :: S) ⟨v, by simp, hvv⟩ hnorem
  have hvw : equivalent comp v w = true := by rw [equivalent_symm]; exact hw
  have hcw : refContains comp (refRun comp ops (v :: S)).2 w = true :=
    (refContains_true_iff comp _ w).2 ⟨x, hx, equivalent_trans sw hxv hvw⟩
  obtain ⟨sl3, hadd3, hsim3, hsize3, hlen3⟩ :=
    add_sim sw rand (v := w) hsim2 (show sl2.mem.length ≤ fuel by omega)
  have hres : (refStep comp (refRun comp ops (v :: S)).2 (.add w)).1 = false := by
    simp [refStep, hcw]
  rw [hres] at hadd3 hsize3 hlen3
  obtain ⟨ch, hinv2, -, -⟩ := hsim2
  refine ⟨sl3, hadd3, ?_, ?_⟩
  · rw [hlen3]; rfl
  · show sl3.size = sl2.size
    rw [hsize3]
    exact hinv2.size_wrap

/-- C8 on the list holding 2: `Add(1)` returns true, then `Add(3)`, `Remove(2)`,
`Contains(1)` run, then `Add(1)` returns false without allocating. -/
theorem C8_witness :
    StrictWeak natLt ∧ Reachable natLt (fun _ => 1) (listAfter 12 [.add 2]) ∧
    (listAfter 12 [.add 2]).mem.length +
      ([.add 3, .remove 2, .contains 1] : List (Op Nat)).length + 1 ≤ 12 ∧
    Add natLt (fun _ => 1) 12 (listAfter 12 [.add 2]) 1 =
      .ok (true, after (Add natLt (fun _ => 1) 12 (listAfter 12 [.add 2]) 1)) ∧
    runOps natLt (fun _ => 1) 12 [.add 3, .remove 2, .contains 1]
        (after (Add natLt (fun _ => 1) 12 (listAfter 12 [.add 2]) 1)) =
      .ok ([true, true, true], after (runOps natLt (fun _ => 1) 12
        [.add 3, .remove 2, .contains 1]
        (after (Add natLt (fun _ => 1) 12 (listAfter 12 [.add 2]) 1)))) ∧
    (∀ u, Op.remove u ∈ ([.add 3, .remove 2, .contains 1] : List (Op Nat)) →
      equivalent natLt u 1 = false) ∧
    equivalent natLt 1 1 = true ∧
    ∃ sl3, Add natLt (fun _ => 1) 12 (after (runOps natLt (fun _ => 1) 12
        [.add 3, .remove 2, .contains 1]
        (after (Add natLt (fun _ => 1) 12 (listAfter 12 [.add 2]) 1)))) 1 = .ok (false, sl3) ∧
      sl3.mem.length = (after (runOps natLt (fun _ => 1) 12
        [.add 3, .remove 2, .contains 1]
        (after (Add natLt (fun _ => 1) 12 (listAfter 12 [.add 2]) 1)))).mem.length ∧
      GetSize sl3 = GetSize (after (runOps natLt (fun _ => 1) 12
        [.add 3, .remove 2, .contains 1]
        (after (Add natLt (fun _ => 1) 12 (listAfter 12 [.add 2]) 1)))) :=
  have h1 := reachable_listAfter 12 [.add 2] (by decide)
  have h2 : (listAfter 12 [.add 2]).mem.length +
      ([.add 3, .remove 2, .contains 1] : List (Op Nat)).length + 1 ≤ 12 := by decide
  have h3 : Add natLt (fun _ => 1) 12 (listAfter 12 [.add 2]) 1 =
      .ok (true, after (Add natLt (fun _ => 1) 12 (listAfter 12 [.add 2]) 1)) := by decide
  have h4 : runOps natLt (fun _ => 1) 12 [.add 3, .remove 2, .contains 1]
        (after (Add natLt (fun _ => 1) 12 (listAfter 12 [.add 2]) 1)) =
      .ok ([true, true, true], after (runOps natLt (fun _ => 1) 12
        [.add 3, .remove 2, .contains 1]
        (after (Add natLt (fun _ => 1) 12 (listAfter 12 [.add 2]) 1)))) := by decide
  have h5 : ∀ u, Op.remove u ∈ ([.add 3, .remove 2, .contains 1] : List (Op Nat)) →
      equivalent natLt u 1 = false := by
    intro u hu
    simp at hu
    subst hu
    decide
  have h6 : equivalent natLt 1 1 = true := by decide
  ⟨natLt_strictWeak, h1, h2, h3, h4, h5, h6,
    C8_repeated_add_rejected natLt natLt_strictWeak (fun _ => 1) 12 _ _ _ 1 1 _ _ h1 h2 h3 h4
      h5 h6⟩

/-- C9: in a state reached single-threaded from a fresh list (comparator a
strict weak ordering), once `Remove(v)` has returned true, `Remove(w)` returns
false for every `w` equivalent to `v` and leaves `GetSize()` unchanged, after
any further calls among which there is no `Add` of a value equivalent to `v`. -/
theorem C9_repeated_remove_rejected {α : Type} (comp : α → α → Bool) (sw : StrictWeak comp)
    (rand : Nat → Nat) (fuel : Nat) (sl sl1 sl2 : LockFreeSkipList α) (v w : α)
    (ops : List (Op α)) (bs : List Bool) (hr : Reachable comp rand sl)
    (hfuel : sl.mem.length + ops.length ≤ fuel)
    (hrem : Remove comp fuel sl v = .ok (true, sl1))
    (hrun : runOps comp rand fuel ops sl1 = .ok (bs, sl2))
    (hnoadd : ∀ u, Op.add u ∈ ops → equivalent comp u v = false)
    (hw : equivalent comp w v = true) :
    ∃ sl3, Remove comp fuel sl2 w = .ok (false, sl3) ∧ GetSize sl3 = GetSize sl2 := by
  obtain ⟨S, hsim⟩ := reachable_sim sw hr
  obtain ⟨sl1', hrem', hsim1, -, hlen1⟩ :=
    remove_sim sw (v := v) hsim (show sl.mem.length ≤ fuel by omega)
  rw [hrem] at hrem'
  have hb : (refStep comp S (.remove v)).1 = true :=
    (congrArg Prod.fst (Except.ok.inj hrem')).symm
  have hs1 : sl1' = sl1 := (congrArg Prod.snd (Except.ok.inj hrem')).symm
  subst hs1
  have hc : refContains comp S v = true := by
    by_contra hc
    simp [refStep, hc] at hb
  have hS1 : (refStep comp S (.remove v)).2 = S.filter (fun x => !equivalent comp x v) := by
    simp [refStep, hc]
  rw [hS1] at hsim1
  have hlen1' : sl1'.mem.length = sl.mem.length := by
    rw [hlen1, hb]; rfl
  obtain ⟨sl2', hrun', hsim2, -, hlen2⟩ := runOps_sim sw rand ops hsim1
    (show sl1'.mem.length + ops.length ≤ fuel by omega)
  rw [hrun] at hrun'
  have hs2 : sl2 = sl2' := congrArg Prod.snd (Except.ok.inj hrun')
  subst hs2
  have habsent := ref_stays_absent comp v ops (S.filter (fun x => !equivalent comp x v))
    (fun x hx => by simpa using (List.mem_filter.1 hx).2)
    (fun u hu => hnoadd u (mem_zip_of_add_true hu))
  have hcw : refContains comp (refRun comp ops (S.filter (fun x => !equivalent comp x v))).2 w
      = false := by
    rw [refContains_false_iff]
    intro x hx
    cases hxw : equivalent comp x w with
    | false => rfl
    | true =>
      have := equivalent_trans sw hxw hw
      rw [habsent x hx] at this
      cases this
  obtain ⟨sl3, hrem3, hsim3, hsize3, -⟩ :=
    remove_sim sw (v := w) hsim2 (show sl2.mem.length ≤ fuel by omega)
  have hres : (refStep comp (refRun comp ops (S.filter (fun x => !equivalent comp x v))).2
      (.remove w)).1 = false := by
    simp [refStep, hcw]
  rw [hres] at hrem3 hsize3
  obtain ⟨ch, hinv2, -, -⟩ := hsim2
  refine ⟨sl3, hrem3, ?_⟩
  show sl3.size = sl2.size
  rw [hsize3]
  exact hinv2.size_wrap

/-- C9 on the list holding 1 and 2: `Remove(1)` returns true, then `Add(3)`,
`Contains(1)` run, then `Remove(1)` returns false. -/
theorem C9_witness :
    StrictWeak natLt ∧ Reachable natLt (fun _ => 1) (listAfter 12 [.add 1, .add 2]) ∧
    (listAfter 12 [.add 1, .add 2]).mem.length +
      ([.add 3, .contains 1] : List (Op Nat)).length ≤ 12 ∧
    Remove natLt 12 (listAfter 12 [.add 1, .add 2]) 1 =
      .ok (true, after (Remove natLt 12 (listAfter 12 [.add 1, .add 2]) 1)) ∧
    runOps natLt (fun _ => 1) 12 [.add 3, .contains 1]
        (after (Remove natLt 12 (listAfter 12 [.add 1, .add 2]) 1)) =
      .ok ([true, false], after (runOps natLt (fun _ => 1) 12 [.add 3, .contains 1]
        (after (Remove natLt 12 (listAfter 12 [.add 1, .add 2]) 1)))) ∧
    (∀ u, Op.add u ∈ ([.add 3, .contains 1] : List (Op Nat)) →
      equivalent natLt u 1 = false) ∧
    equivalent natLt 1 1 = true ∧
    ∃ sl3, Remove natLt 12 (after (runOps natLt (fun _ => 1) 12 [.add 3, .contains 1]
        (after (Remove natLt 12 (listAfter 12 [.add 1, .add 2]) 1)))) 1 = .ok (false, sl3) ∧
      GetSize sl3 = GetSize (after (runOps natLt (fun _ => 1) 12 [.add 3, .contains 1]
        (after (Remove natLt 12 (listAfter 12 [.add 1, .add 2]) 1)))) :=
  have h1 := reachable_listAfter 12 [.add 1, .add 2] (by decide)
  have h2 : (listAfter 12 [.add 1, .add 2]).mem.length +
      ([.add 3, .contains 1] : List (Op Nat)).length ≤ 12 := by decide
  have h3 : Remove natLt 12 (listAfter 12 [.add 1, .add 2]) 1 =
      .ok (true, after (Remove natLt 12 (listAfter 12 [.add 1, .add 2]) 1)) := by decide
  have h4 : runOps natLt (fun _ => 1) 12 [.add 3, .contains 1]
        (after (Remove natLt 12 (listAfter 12 [.add 1, .add 2]) 1)) =
      .ok ([true, false], after (runOps natLt (fun _ => 1) 12 [.add 3, .contains 1]
        (after (Remove natLt 12 (listAfter 12 [.add 1, .add 2]) 1)))) := by decide
  have h5 : ∀ u, Op.add u ∈ ([.add 3, .contains 1] : List (Op Nat)) →
      equivalent natLt u 1 = false := by
    intro u hu
    simp at hu
    subst hu
    decide
  have h6 : equivalent natLt 1 1 = true := by decide
  ⟨natLt_strictWeak, h1, h2, h3, h4, h5, h6,
    C9_repeated_remove_rejected natLt natLt_strictWeak (fun _ => 1) 12 _ _ _ 1 1 _ _ h1 h2 h3
      h4 h5 h6⟩

/-- C10: in every state reached single-threaded from a fresh list and for
every value `v`, `find(v)` returns, and on return, at each level `L` below
`maxLevel`: `prevs[L]` is the head or an element node whose value is less than
`v`; the level-`L` slot of `prevs[L]` holds the unmarked pointer to `nexts[L]`;
`nexts[L]` is the tail or an element node whose value is not less than `v`; and
the flag is true exactly when `nexts[0]` is an element node whose value `b`
satisfies neither `comp b v` nor `comp v b`. -/
theorem C10_find_postcondition {α : Type} (comp : α → α → Bool) (rand : Nat → Nat)
    (sl : LockFreeSkipList α) (v : α) (fuel : Nat) (prevs0 nexts0 : List Nat)
    (hr : Reachable comp rand sl) (hfuel : sl.mem.length ≤ fuel)
    (hp0 : prevs0.length = maxLevel) (hn0 : nexts0.length = maxLevel) :
    ∃ found h' prevs nexts,
      find comp fuel sl.mem sl.head sl.tail v prevs0 nexts0 = .ok (found, h', prevs, nexts) ∧
      (∀ L, L < maxLevel → ∃ p n, prevs[L]? = some p ∧ nexts[L]? = some n ∧
        (p = sl.head ∨ (p ≠ sl.head ∧ p ≠ sl.tail ∧
          ∃ a, valOf h' p = some a ∧ comp a v = true)) ∧
        loadNext h' p L = .ok n ∧ isMarked n = false ∧
        (n = sl.tail ∨ (n ≠ sl.head ∧ n ≠ sl.tail ∧
          ∃ b, valOf h' n = some b ∧ comp b v = false))) ∧
      (found = true ↔ ∃ n b, nexts[0]? = some n ∧ n ≠ sl.head ∧ n ≠ sl.tail ∧
        valOf h' n = some b ∧ comp b v = false ∧ comp v b = false) := by
  obtain ⟨ch, hinv⟩ := reachable_inv hr
  obtain ⟨found, h', ch', A, cs, prevs, nexts, hrun, hdone, hfound⟩ :=
    find_spec comp v hinv hfuel prevs0 nexts0 hp0 hn0
  have hinv' := hdone.inv
  have hsplit : ∀ L, ch' L = A L ++ cs L := fun L => hdone.split L (Nat.zero_le _)
  have hgood : ∀ x, x ∈ ch' 0 → x ≠ sl.head ∧ x ≠ sl.tail ∧
      ∃ a, valOf h' x = some a ∧ less comp h' sl.head sl.tail x v = .ok (comp a v) ∧
        equals comp h' sl.head sl.tail x v = .ok (!comp a v && !comp v a) := by
    intro x hx
    have hg := hinv'.good x hx
    obtain ⟨a, ha, hlt⟩ := less_good comp hg v
    obtain ⟨a', ha', heq⟩ := equals_good comp hg v
    rw [ha] at ha'
    cases ha'
    exact ⟨hg.1, hg.2.1, a, ha, hlt, heq⟩
  refine ⟨found, h', prevs, nexts, hrun, fun L hL => ?_, ?_⟩
  · refine ⟨lastD (A L) sl.head, (cs L).headD sl.tail, hdone.prevs_eq L (Nat.zero_le _) hL,
      hdone.nexts_eq L (Nat.zero_le _) hL, ?_, hdone.slot L (Nat.zero_le _) hL, ?_, ?_⟩
    · rcases hinv'.prev_mem (hsplit L) with e | e
      · exact Or.inl e
      · obtain ⟨h1, h2, a, ha, hlt, -⟩ := hgood _ e
        have := hdone.prev_less L (Nat.zero_le _)
        rw [hlt] at this
        exact Or.inr ⟨h1, h2, a, ha, Except.ok.inj this⟩
    · apply hinv'.addr_unmarked
      rcases hinv'.headD_mem (hsplit L) with e | e
      · exact Or.inr (Or.inl e)
      · exact Or.inr (Or.inr e)
    · rcases hinv'.headD_mem (hsplit L) with e | e
      · exact Or.inl e
      · obtain ⟨h1, h2, b, hb, hlt, -⟩ := hgood _ e
        have := hdone.cur_less L (Nat.zero_le _) hL
        rw [hlt] at this
        exact Or.inr ⟨h1, h2, b, hb, Except.ok.inj this⟩
  · have hn := hdone.nexts_eq 0 (le_refl _) maxLevel_pos
    constructor
    · intro hf
      subst hf
      rcases hinv'.headD_mem (hsplit 0) with e | e
      · have e' : (cs 0).headD sl.tail = sl.tail := e
        rw [e', equals_tail] at hfound
        cases hfound
      · obtain ⟨h1, h2, b, hb, -, heq⟩ := hgood _ e
        rw [heq] at hfound
        have hb2 : (!comp b v && !comp v b) = true := Except.ok.inj hfound
        simp only [Bool.and_eq_true, Bool.not_eq_true'] at hb2
        exact ⟨_, b, hn, h1, h2, hb, hb2.1, hb2.2⟩
    · rintro ⟨n, b, hn', h1, h2, hb, hc1, hc2⟩
      rw [hn] at hn'
      have en : (cs 0).headD sl.tail = n := Option.some.inj hn'
      rcases hinv'.headD_mem (hsplit 0) with e | e
      · exact absurd (en ▸ e) h2
      · obtain ⟨-, -, b', hb', -, heq⟩ := hgood _ e
        rw [en] at hb' heq
        rw [hb] at hb'
        cases hb'
        rw [en, heq, hc1, hc2] at hfound
        exact (Except.ok.inj hfound).symm

/-- C10 on the list left by `Add(1)`, `Add(3)`, `Remove(1)`, searching for 2. -/
theorem C10_witness :
    Reachable natLt (fun _ => 1) (listAfter 10 [.add 1, .add 3, .remove 1]) ∧
    (listAfter 10 [.add 1, .add 3, .remove 1]).mem.length ≤ 10 ∧
    (List.replicate maxLevel 0).length = maxLevel ∧
    ∃ found h' prevs nexts,
      find natLt 10 (listAfter 10 [.add 1, .add 3, .remove 1]).mem
        (listAfter 10 [.add 1, .add 3, .remove 1]).head
        (listAfter 10 [.add 1, .add 3, .remove 1]).tail 2
        (List.replicate maxLevel 0) (List.replicate maxLevel 0) =
          .ok (found, h', prevs, nexts) ∧
      (∀ L, L < maxLevel → ∃ p n, prevs[L]? = some p ∧ nexts[L]? = some n ∧
        (p = (listAfter 10 [.add 1, .add 3, .remove 1]).head ∨
          (p ≠ (listAfter 10 [.add 1, .add 3, .remove 1]).head ∧
            p ≠ (listAfter 10 [.add 1, .add 3, .remove 1]).tail ∧
            ∃ a, valOf h' p = some a ∧ natLt a 2 = true)) ∧
        loadNext h' p L = .ok n ∧ isMarked n = false ∧
        (n = (listAfter 10 [.add 1, .add 3, .remove 1]).tail ∨
          (n ≠ (listAfter 10 [.add 1, .add 3, .remove 1]).head ∧
            n ≠ (listAfter 10 [.add 1, .add 3, .remove 1]).tail ∧
            ∃ b, valOf h' n = some b ∧ natLt b 2 = false))) ∧
      (found = true ↔ ∃ n b, nexts[0]? = some n ∧
        n ≠ (listAfter 10 [.add 1, .add 3, .remove 1]).head ∧
        n ≠ (listAfter 10 [.add 1, .add 3, .remove 1]).tail ∧
        valOf h' n = some b ∧ natLt b 2 = false ∧ natLt 2 b = false) :=
  have h1 := reachable_listAfter 10 [.add 1, .add 3, .remove 1] (by decide)
  have h2 : (listAfter 10 [.add 1, .add 3, .remove 1]).mem.length ≤ 10 := by decide
  have h3 : (List.replicate maxLevel 0).length = maxLevel := by decide
  ⟨h1, h2, h3, C10_find_postcondition natLt (fun _ => 1)
    (listAfter 10 [.add 1, .add 3, .remove 1]) 2 10 (List.replicate maxLevel 0)
    (List.replicate maxLevel 0) h1 h2 h3 h3⟩

/-- C11. On the list returned by `NewLockFreeSkipList` every one of the
`maxLevel` head slots holds the tail and `size` is 0; for every comparator and
every value `v`, `Remove(v)` on that list returns false (for every budget of at
least 2) and `GetSize()` is 0 afterwards. -/
theorem C11_remove_on_fresh_list {α : Type} (comp : α → α → Bool) (v : α) (fuel : Nat)
    (hfuel : 2 ≤ fuel) :
    ∃ sl0 sl', NewLockFreeSkipList α = .ok sl0 ∧
      (∀ L, L < maxLevel → loadNext sl0.mem sl0.head L = .ok sl0.tail) ∧ GetSize sl0 = 0 ∧
      Remove comp fuel sl0 v = .ok (false, sl') ∧ GetSize sl' = 0 := by
  obtain ⟨sl0, hnew, hinv, hsize, hlen, -⟩ := newList_spec α
  have hslots : ∀ L, L < maxLevel → loadNext sl0.mem sl0.head L = .ok sl0.tail := by
    intro L hL
    obtain ⟨p, hp, hpt⟩ : Link sl0.mem L sl0.head sl0.tail := hinv.path L hL
    obtain ⟨q, hq, hqm⟩ := hinv.head_slots L hL
    rw [hp] at hq
    cases hq
    rw [getUnmarked_of_not_marked hqm] at hpt
    rw [hp, hpt]
  obtain ⟨found, h1, ch1, A, C, hpost, hfalse, htrue⟩ :=
    remove_spec comp v hinv (show sl0.mem.length ≤ fuel by omega)
  have hnil : A ++ C = [] := by
    have hs := hpost.sub0
    rw [hpost.split] at hs
    exact List.sublist_nil.mp hs
  have hC : C = [] := (List.append_eq_nil.mp hnil).2
  have hfound : found = false := by
    have he := hpost.found_eq
    rw [hC] at he
    simp only [List.headD_nil] at he
    rw [equals_tail] at he
    cases he
    rfl
  exact ⟨sl0, _, hnew, hslots, hsize, hfalse hfound, hsize⟩

/-- C11 on naturals: `Remove(7)` on the fresh list returns false and the size is 0. -/
theorem C11_witness :
    2 ≤ 2 ∧ ∃ sl0 sl', NewLockFreeSkipList Nat = .ok sl0 ∧
      (∀ L, L < maxLevel → loadNext sl0.mem sl0.head L = .ok sl0.tail) ∧ GetSize sl0 = 0 ∧
      Remove natLt 2 sl0 7 = .ok (false, sl') ∧ GetSize sl' = 0 :=
  ⟨by decide, C11_remove_on_fresh_list natLt 7 2 (by decide)⟩

/-- C12. Every single-threaded sequence of `Add`, `Remove` and `Contains` calls
on a fresh list, each call given a budget of one loop iteration per call made
plus two, runs to its end and returns one boolean per call: no call reports a
`Fault`, so no load went through a nil or invalid pointer, no slot index was out
of range and the comparator was never applied to the nil value of a sentinel.
At the end every slot of the tail still holds nil, and no node has been
allocated beyond one per call.  Under any other budget the run can only stop by
exhausting the budget, never by one of those faults. -/
theorem C12_no_runtime_fault {α : Type} (comp : α → α → Bool) (rand : Nat → Nat)
    (ops : List (Op α)) (fuel : Nat) (hfuel : ops.length + 2 ≤ fuel) :
    ∃ sl0 bs sl', NewLockFreeSkipList α = .ok sl0 ∧
      runOps comp rand fuel ops sl0 = .ok (bs, sl') ∧ bs.length = ops.length ∧
      (∀ f : Fault, runOps comp rand fuel ops sl0 ≠ .error f) ∧
      (∀ L, L < maxLevel → loadNext sl'.mem sl'.tail L = .ok 0) ∧
      sl'.mem.length ≤ ops.length + 2 ∧
      ∀ (budget : Nat) (f : Fault), runOps comp rand budget ops sl0 = .error f →
        f = .outOfFuel := by
  obtain ⟨sl0, hnew, hinv, -, hlen, -⟩ := newList_spec α
  obtain ⟨bs, sl', hrun, ⟨ch, hinv'⟩, hbs, -, hmem⟩ :=
    runOps_inv comp rand ops ⟨_, hinv⟩ (show sl0.mem.length + ops.length ≤ fuel by omega)
  refine ⟨sl0, bs, sl', hnew, hrun, hbs, ?_, hinv'.tail_slots, by omega,
    fun budget f hf => runOps_fault comp rand budget ops ⟨_, hinv⟩ hf⟩
  intro f hf
  rw [hrun] at hf
  cases hf

/-- C12 on naturals: a run of six calls with budget 8. -/
theorem C12_witness :
    [Op.add 5, .add 3, .remove 5, .contains 3, .remove 9, .add 5].length + 2 ≤ 8 ∧
    ∃ sl0 bs sl', NewLockFreeSkipList Nat = .ok sl0 ∧
      runOps natLt (fun _ => 0) 8
        [Op.add 5, .add 3, .remove 5, .contains 3, .remove 9, .add 5] sl0 = .ok (bs, sl') ∧
      bs.length = [Op.add 5, .add 3, .remove 5, .contains 3, .remove 9, .add 5].length ∧
      (∀ f : Fault, runOps natLt (fun _ => 0) 8
        [Op.add 5, .add 3, .remove 5, .contains 3, .remove 9, .add 5] sl0 ≠ .error f) ∧
      (∀ L, L < maxLevel → loadNext sl'.mem sl'.tail L = .ok 0) ∧
      sl'.mem.length ≤
        [Op.add 5, .add 3, .remove 5, .contains 3, .remove 9, .add 5].length + 2 ∧
      ∀ (budget : Nat) (f : Fault), runOps natLt (fun _ => 0) budget
        [Op.add 5, .add 3, .remove 5, .contains 3, .remove 9, .add 5] sl0 = .error f →
        f = .outOfFuel :=
  ⟨by decide, C12_no_runtime_fault natLt (fun _ => 0) _ 8 (by decide)⟩

/-- C13. From every state reachable from a fresh list, every call of `Add`,
`Remove` and `Contains` returns under the tight budget of the state: one pass
of `find` (no jump back to `retry`), at each level one step of the walk per
node of that level's chain plus one for the node the walk stops at, one
iteration of the outer loop of `Add` and one of its inner loop at each upper
level, two tests of the condition of the marking loop of `Remove` at each upper
level (its body runs once) and one iteration of its final loop.  Every CAS of
the call swapped.  Under every larger budget, in particular with one budget of
at least one iteration per allocated node for every loop, the call returns the
same result. -/
theorem C13_calls_terminate {α : Type} (comp : α → α → Bool) (rand : Nat → Nat)
    (sl : LockFreeSkipList α) (hr : Reachable comp rand sl) (op : Op α) :
    (tightBudget sl).pass = 1 ∧ (tightBudget sl).outer = 1 ∧ (tightBudget sl).link = 1 ∧
    (tightBudget sl).mark = 2 ∧ (tightBudget sl).bottom = 1 ∧
    (∀ L, L < maxLevel → ∃ xs, levelChain sl L sl.mem.length = some xs ∧
      (tightBudget sl).walk L = xs.length + 1) ∧
    ∃ r sl' es, runOpLog comp rand (tightBudget sl) sl op = .ok ((r, sl'), es) ∧
      (∀ e, e ∈ es → e.swapped = true) ∧
      (∀ b, (tightBudget sl).le b → runOpLog comp rand b sl op = .ok ((r, sl'), es)) ∧
      ∀ fuel, sl.mem.length ≤ fuel → runOp comp rand fuel sl op = .ok (r, sl') := by
  obtain ⟨ch, hinv⟩ := reachable_inv hr
  refine ⟨rfl, rfl, rfl, rfl, rfl, ?_, ?_⟩
  · intro L hL
    have hlen : (ch L).length < sl.mem.length := by
      have h2 := (hinv.sub0 L).length_le
      have h3 := hinv.room
      omega
    refine ⟨ch L, hinv.levelChain_eq hL hlen, ?_⟩
    show chainLen sl L + 1 = _
    rw [hinv.chainLen_eq hL]
  · obtain ⟨r, sl', es, hrun, hev, -⟩ :=
      runOpLog_spec comp rand hinv op (Budget.le_refl (tightBudget sl))
    refine ⟨r, sl', es, hrun, fun e he => (hev e he).facts.1,
      fun b hb => runOpLog_tight comp rand hrun hb, fun fuel hf => ?_⟩
    exact runOp_of_log
      (runOpLog_tight comp rand hrun (tightBudget_le sl hinv.mem_length_ge hf))

/-- C13 on naturals: `Remove(3)` on the list left by `Add(5)`, `Add(3)`,
`Remove(5)`. -/
theorem C13_witness :
    Reachable natLt (fun _ => 1) (listAfter 5 [.add 5, .add 3, .remove 5]) ∧
    ((tightBudget (listAfter 5 [.add 5, .add 3, .remove 5])).pass = 1 ∧
    (tightBudget (listAfter 5 [.add 5, .add 3, .remove 5])).outer = 1 ∧
    (tightBudget (listAfter 5 [.add 5, .add 3, .remove 5])).link = 1 ∧
    (tightBudget (listAfter 5 [.add 5, .add 3, .remove 5])).mark = 2 ∧
    (tightBudget (listAfter 5 [.add 5, .add 3, .remove 5])).bottom = 1 ∧
    (∀ L, L < maxLevel → ∃ xs,
      levelChain (listAfter 5 [.add 5, .add 3, .remove 5]) L
        (listAfter 5 [.add 5, .add 3, .remove 5]).mem.length = some xs ∧
      (tightBudget (listAfter 5 [.add 5, .add 3, .remove 5])).walk L = xs.length + 1) ∧
    ∃ r sl' es, runOpLog natLt (fun _ => 1)
        (tightBudget (listAfter 5 [.add 5, .add 3, .remove 5]))
        (listAfter 5 [.add 5, .add 3, .remove 5]) (.remove 3) = .ok ((r, sl'), es) ∧
      (∀ e, e ∈ es → e.swapped = true) ∧
      (∀ b, (tightBudget (listAfter 5 [.add 5, .add 3, .remove 5])).le b →
        runOpLog natLt (fun _ => 1) b (listAfter 5 [.add 5, .add 3, .remove 5]) (.remove 3) =
          .ok ((r, sl'), es)) ∧
      ∀ fuel, (listAfter 5 [.add 5, .add 3, .remove 5]).mem.length ≤ fuel →
        runOp natLt (fun _ => 1) fuel (listAfter 5 [.add 5, .add 3, .remove 5]) (.remove 3) =
          .ok (r, sl')) :=
  ⟨reachable_listAfter 5 _ (by decide),
    C13_calls_terminate natLt (fun _ => 1) _ (reachable_listAfter 5 _ (by decide)) (.remove 3)⟩

/-- C15. From every state reachable from a fresh list, `Remove(v)` returns
(under every budget above the tight one).  When it returns true, its log is the
log of `find` followed by one marking CAS per slot of the target node
`nexts[0]`, at the levels `height - 1, ..., 1` and then 0, each a
`casNext(level, w, getMarked(w))` on a slot holding the unmarked word `w`; in
the memory returned every slot of the target holds the word it held when `find`
returned with the mark bit set, hence the same successor, and every slot of
every other node holds the word it held when `find` returned, with the mark bit
it had before the call. -/
theorem C15_remove_marks_top_down {α : Type} (comp : α → α → Bool) (rand : Nat → Nat)
    (sl : LockFreeSkipList α) (hr : Reachable comp rand sl) (v : α) (b : Budget)
    (hb : (tightBudget sl).le b) :
    ∃ r sl' es, RemoveLog comp b sl v = .ok ((r, sl'), es) ∧
      (r = true → ∃ h1 prevs nexts es1 target nd,
        findLog comp b sl.mem sl.head sl.tail v (List.replicate maxLevel 0)
          (List.replicate maxLevel 0) = .ok ((true, h1, prevs, nexts), es1) ∧
        nexts[0]? = some target ∧ deref h1 target = .ok nd ∧
        nd.nexts.length = nd.level ∧ 1 ≤ nd.level ∧
        es = es1 ++ removeEvents target nd.level (fun L => nd.nexts.getD L 0) ∧
        (removeEvents target nd.level (fun L => nd.nexts.getD L 0)).map Event.slot =
          (List.range nd.level).reverse ∧
        (∀ e, e ∈ removeEvents target nd.level (fun L => nd.nexts.getD L 0) →
          ∃ L w, L < nd.level ∧ loadNext h1 target L = .ok w ∧ isMarked w = false ∧
            e = Event.cas Site.mark target L w (getMarked w) w) ∧
        (∀ L, L < nd.level → ∃ w, loadNext h1 target L = .ok w ∧ isMarked w = false ∧
          loadNext sl'.mem target L = .ok (getMarked w) ∧ isMarked (getMarked w) = true ∧
          getUnmarked (getMarked w) = getUnmarked w) ∧
        (∀ x L, x ≠ target → loadNext sl'.mem x L = loadNext h1 x L) ∧
        ∀ x L p, x ≠ target → loadNext sl.mem x L = .ok p →
          ∃ p', loadNext sl'.mem x L = .ok p' ∧ isMarked p' = isMarked p) := by
  obtain ⟨ch, hinv⟩ := reachable_inv hr
  obtain ⟨found, h1, ch1, A, cs, prevs, nexts, es1, hfind, hdone, hfound, hev, hno, hyes⟩ :=
    removeLog_spec comp v hinv (Budget.le.walk_lt hinv hb) hb.2.1 hb.2.2.2.2.1 hb.2.2.2.2.2
  cases found with
  | false => exact ⟨_, _, _, hno rfl, fun h => Bool.noConfusion h⟩
  | true =>
    obtain ⟨c, rest, nd, hR, hC, hnd, hlen, hl1, hl2, hunm, hrun, hI, hsn, hform, -⟩ :=
      hyes rfl
    have hnx : nexts[0]? = some c := by
      rw [hdone.nexts_eq 0 (le_refl _) maxLevel_pos, hC]; rfl
    have hslot : ∀ L, L < nd.level → loadNext h1 c L = .ok (nd.nexts.getD L 0) := by
      intro L hL
      have hlt : L < nd.nexts.length := by omega
      have hg : nd.nexts.getD L 0 = nd.nexts[L] := by
        simp [List.getD, List.getElem?_eq_getElem hlt]
      rw [hg]
      exact loadNext_ok_iff.2 ⟨nd, hnd, List.getElem?_eq_getElem hlt⟩
    refine ⟨_, _, _, hrun, fun _ => ⟨h1, prevs, nexts, es1, c, nd, hfind, hnx, hnd, hlen, hl1,
      rfl, removeEvents_slots _ _ hl1, ?_, ?_, ?_, ?_⟩⟩
    · intro e he
      obtain ⟨L, hL, rfl⟩ := mem_removeEvents hl1 he
      exact ⟨L, _, hL, hslot L hL, hunm L hL, rfl⟩
    · intro L hL
      refine ⟨_, hslot L hL, hunm L hL, ?_, isMarked_getMarked _, getUnmarked_getMarked _⟩
      show loadNext hR c L = _
      rw [hform, if_pos rfl, hslot L hL]
      rfl
    · intro x L hx
      show loadNext hR x L = _
      rw [hform, if_neg hx]
    · intro x L p hx hp
      obtain ⟨p', hp', hm⟩ := loadNext_sameShape hdone.shape hp
      refine ⟨p', ?_, hm⟩
      show loadNext hR x L = _
      rw [hform, if_neg hx]
      exact hp'

/-- C15 on naturals: `Remove(3)` on the list left by `Add(3)`, `Add(7)`, where
every node is three slots high, marks the slots 2, 1, 0 of the node of 3 (at
address 6), which all hold the address 8 of the node of 7. -/
theorem C15_witness :
    (Reachable natLt randThree (listAfterWith randThree 4 [.add 3, .add 7]) ∧
      (tightBudget (listAfterWith randThree 4 [.add 3, .add 7])).le (Budget.uniform 4) ∧
      (RemoveLog natLt (Budget.uniform 4) (listAfterWith randThree 4 [.add 3, .add 7]) 3).map
          (fun r => (r.1.1, r.2)) =
        .ok (true, [Event.cas Site.mark 6 2 8 9 8, Event.cas Site.mark 6 1 8 9 8,
          Event.cas Site.mark 6 0 8 9 8])) ∧
    ∃ r sl' es, RemoveLog natLt (Budget.uniform 4)
        (listAfterWith randThree 4 [.add 3, .add 7]) 3 = .ok ((r, sl'), es) ∧
      (r = true → ∃ h1 prevs nexts es1 target nd,
        findLog natLt (Budget.uniform 4) (listAfterWith randThree 4 [.add 3, .add 7]).mem
          (listAfterWith randThree 4 [.add 3, .add 7]).head
          (listAfterWith randThree 4 [.add 3, .add 7]).tail 3 (List.replicate maxLevel 0)
          (List.replicate maxLevel 0) = .ok ((true, h1, prevs, nexts), es1) ∧
        nexts[0]? = some target ∧ deref h1 target = .ok nd ∧
        nd.nexts.length = nd.level ∧ 1 ≤ nd.level ∧
        es = es1 ++ removeEvents target nd.level (fun L => nd.nexts.getD L 0) ∧
        (removeEvents target nd.level (fun L => nd.nexts.getD L 0)).map Event.slot =
          (List.range nd.level).reverse ∧
        (∀ e, e ∈ removeEvents target nd.level (fun L => nd.nexts.getD L 0) →
          ∃ L w, L < nd.level ∧ loadNext h1 target L = .ok w ∧ isMarked w = false ∧
            e = Event.cas Site.mark target L w (getMarked w) w) ∧
        (∀ L, L < nd.level → ∃ w, loadNext h1 target L = .ok w ∧ isMarked w = false ∧
          loadNext sl'.mem target L = .ok (getMarked w) ∧ isMarked (getMarked w) = true ∧
          getUnmarked (getMarked w) = getUnmarked w) ∧
        (∀ x L, x ≠ target → loadNext sl'.mem x L = loadNext h1 x L) ∧
        ∀ x L p, x ≠ target →
          loadNext (listAfterWith randThree 4 [.add 3, .add 7]).mem x L = .ok p →
          ∃ p', loadNext sl'.mem x L = .ok p' ∧ isMarked p' = isMarked p) :=
  ⟨⟨reachable_listAfterWith randThree 4 _ (by decide),
      tightBudget_le _ (by decide) (by decide), by decide⟩,
    C15_remove_marks_top_down natLt randThree _
      (reachable_listAfterWith randThree 4 _ (by decide)) 3 (Budget.uniform 4)
      (tightBudget_le _ (by decide) (by decide))⟩

/-- C16. Marks are never cleared.  On every list, whatever words its memory
holds (a state met between the atomic writes of other calls included), for
every call of `Add`, `Remove` and `Contains` that returns, with the log of its
atomic writes:
every `casNext` of the log, successful or not, expects an unmarked word or
writes the expected word with its mark bit set; hence, whatever word `w` the
written slot holds, if `w` is marked the word in the slot after the CAS
(`outcome`) is marked, and that `casNext` run on any memory keeps every mark of
that memory;
every `storeNext` of the log is on a node that was not allocated when the call
began, and no earlier linking CAS of the log wrote the address of that node
into a slot: the stores are on the node that the call is building, not on a node
linked into the list;
every slot that holds a marked word before the call holds a marked word after
it, and after every sequence of calls that follows and returns.
From every state reachable from a fresh list the call returns, under every
budget above the tight one, and so does every sequence of calls that follows,
with enough fuel. -/
theorem C16_marks_never_cleared {α : Type} (comp : α → α → Bool) (rand : Nat → Nat)
    (sl : LockFreeSkipList α) (op : Op α) (b : Budget) :
    (∀ r sl' es, runOpLog comp rand b sl op = .ok ((r, sl'), es) →
      (∀ e, e ∈ es →
        (∀ site nd level expected desire old,
          e = Event.cas site nd level expected desire old →
          (isMarked expected = false ∨ desire = getMarked expected) ∧
          e.afterward = e.outcome e.before ∧
          (∀ w, isMarked w = true → isMarked (e.outcome w) = true) ∧
          ∀ (h h' : List (node α)) (swapped : Bool),
            casNext h nd level expected desire = .ok (swapped, h') →
            (∃ w, loadNext h nd level = .ok w ∧ loadNext h' nd level = .ok (e.outcome w)) ∧
            MarksKept h h') ∧
        (∀ nd level old next, e = Event.store nd level old next →
          ∀ n, deref sl.mem nd ≠ .ok n)) ∧
      es.Pairwise StoreUnlinked ∧
      MarksKept sl.mem sl'.mem ∧
      ∀ (ops : List (Op α)) (fuel : Nat) (bs : List Bool) (sl'' : LockFreeSkipList α),
        runOps comp rand fuel ops sl' = .ok (bs, sl'') → MarksKept sl.mem sl''.mem) ∧
    (Reachable comp rand sl → (tightBudget sl).le b →
      ∃ r sl' es, runOpLog comp rand b sl op = .ok ((r, sl'), es) ∧
        MarksKept sl.mem sl'.mem ∧
        ∀ (ops : List (Op α)) (fuel : Nat), sl'.mem.length + ops.length ≤ fuel →
          ∃ bs sl'', runOps comp rand fuel ops sl' = .ok (bs, sl'') ∧
            MarksKept sl.mem sl''.mem) := by
  refine ⟨fun r sl' es hrun => ⟨fun e he => ⟨?_, ?_⟩, runOpLog_order comp rand b hrun,
    runOpLog_kept comp rand b hrun, fun ops fuel bs sl'' hops =>
      marksKept_trans (runOpLog_kept comp rand b hrun)
        (runOps_kept comp rand fuel ops _ _ _ hops)⟩,
    fun hr hb => ?_⟩
  · intro site nd level expected desire old heq
    have hs := runOpLog_safe comp rand b hrun e he
    subst heq
    have hs' : isMarked expected = false ∨ desire = getMarked expected := hs
    refine ⟨hs', rfl, fun w hw => outcome_marked hs' w hw, fun h h' swapped hc =>
      ⟨casNext_outcome site old hc, casNext_marksKept hc ?_⟩⟩
    rcases hs' with h1 | h1
    · exact Or.inl h1
    · exact Or.inr (by rw [h1]; exact isMarked_getMarked expected)
  · intro nd level old next heq
    have hs := runOpLog_safe comp rand b hrun e he
    subst heq
    exact safeWrite_fresh hs
  · obtain ⟨ch, hinv⟩ := reachable_inv hr
    obtain ⟨r, sl', es, hrun, -, -⟩ :=
      runOpLog_spec comp rand hinv op (Budget.le_refl (tightBudget sl))
    have hplain := runOp_of_log
      (runOpLog_tight comp rand hrun (tightBudget_le sl hinv.mem_length_ge (le_refl _)))
    obtain ⟨r', sl1, hrun', hinv1, -⟩ := step_inv comp rand ⟨ch, hinv⟩ (le_refl _) op
    rw [hplain] at hrun'
    cases hrun'
    have hrunb := runOpLog_tight comp rand hrun hb
    have hk := runOpLog_kept comp rand b hrunb
    refine ⟨r, sl', es, hrunb, hk, fun ops fuel hf => ?_⟩
    obtain ⟨bs, sl'', hrun2, -⟩ := runOps_marksKept comp rand ops hinv1 hf
    exact ⟨bs, sl'', hrun2, marksKept_trans hk (runOps_kept comp rand fuel ops _ _ _ hrun2)⟩

/-- C16 on naturals.  On the list left by `Add(3)`, `Add(7)`, `Remove(3)` the
bottom slot of the node of 3 (at address 6) holds the marked word 9; `Add(5)`
unlinks that node, stores into the new node at address 10 and links it; a CAS
with the arguments of its linking CAS on a slot that holds the marked word 9
fails and leaves 9.  On the state `midRemove`, which no sequence of whole calls
on a fresh list reaches, `Remove(3)` unlinks the node of 3 at level 2 and marks
its slots 1 and 0; slot 2 still holds a marked word afterwards. -/
theorem C16_witness :
    (runOpLog natLt (fun _ => 1) (Budget.uniform 4) (listAfter 5 [.add 3, .add 7, .remove 3])
          (.add 5) =
        .ok ((true, listAfter 5 [.add 3, .add 7, .remove 3, .add 5]),
          [Event.cas Site.unlink 2 0 6 8 6, Event.store 10 0 0 0, Event.store 10 0 0 8,
            Event.cas Site.link 2 0 8 10 8]) ∧
      Reachable natLt (fun _ => 1) (listAfter 5 [.add 3, .add 7, .remove 3]) ∧
      (tightBudget (listAfter 5 [.add 3, .add 7, .remove 3])).le (Budget.uniform 4) ∧
      loadNext (listAfter 5 [.add 3, .add 7, .remove 3]).mem 6 0 = .ok 9 ∧
      isMarked 9 = true ∧
      (Event.cas Site.link 2 0 8 10 8).outcome 9 = 9 ∧
      casNext (listAfter 5 [.add 3, .add 7, .remove 3]).mem 6 0 8 10 =
        .ok (false, (listAfter 5 [.add 3, .add 7, .remove 3]).mem) ∧
      ¬ Reachable natLt randThree midRemove ∧
      loadNext midRemove.mem 6 2 = .ok 9 ∧ loadNext midRemove.mem 6 1 = .ok 8 ∧
      loadNext midRemove.mem 6 0 = .ok 8 ∧
      (runOpLog natLt randThree (Budget.uniform 4) midRemove (.remove 3)).map
          (fun x => (x.1.1, x.2)) =
        .ok (true, [Event.cas Site.unlink 2 2 6 8 6, Event.cas Site.mark 6 1 8 9 8,
          Event.cas Site.mark 6 0 8 9 8])) ∧
    ((∀ e, e ∈ [Event.cas Site.unlink 2 0 6 8 6, Event.store 10 0 0 0, Event.store 10 0 0 8,
          Event.cas Site.link 2 0 8 10 8] →
        (∀ site nd level expected desire old,
          e = Event.cas site nd level expected desire old →
          (isMarked expected = false ∨ desire = getMarked expected) ∧
          e.afterward = e.outcome e.before ∧
          (∀ w, isMarked w = true → isMarked (e.outcome w) = true) ∧
          ∀ (h h' : List (node Nat)) (swapped : Bool),
            casNext h nd level expected desire = .ok (swapped, h') →
            (∃ w, loadNext h nd level = .ok w ∧ loadNext h' nd level = .ok (e.outcome w)) ∧
            MarksKept h h') ∧
        (∀ nd level old next, e = Event.store nd level old next →
          ∀ n, deref (listAfter 5 [.add 3, .add 7, .remove 3]).mem nd ≠ .ok n)) ∧
      [Event.cas Site.unlink 2 0 6 8 6, Event.store 10 0 0 0, Event.store 10 0 0 8,
        Event.cas Site.link 2 0 8 10 8].Pairwise StoreUnlinked ∧
      MarksKept (listAfter 5 [.add 3, .add 7, .remove 3]).mem
        (listAfter 5 [.add 3, .add 7, .remove 3, .add 5]).mem ∧
      ∀ (ops : List (Op Nat)) (fuel : Nat) (bs : List Bool) (sl'' : LockFreeSkipList Nat),
        runOps natLt (fun _ => 1) fuel ops (listAfter 5 [.add 3, .add 7, .remove 3, .add 5]) =
          .ok (bs, sl'') →
        MarksKept (listAfter 5 [.add 3, .add 7, .remove 3]).mem sl''.mem) ∧
    (∃ r sl' es, runOpLog natLt (fun _ => 1) (Budget.uniform 4)
        (listAfter 5 [.add 3, .add 7, .remove 3]) (.add 5) = .ok ((r, sl'), es) ∧
      MarksKept (listAfter 5 [.add 3, .add 7, .remove 3]).mem sl'.mem ∧
      ∀ (ops : List (Op Nat)) (fuel : Nat), sl'.mem.length + ops.length ≤ fuel →
        ∃ bs sl'', runOps natLt (fun _ => 1) fuel ops sl' = .ok (bs, sl'') ∧
          MarksKept (listAfter 5 [.add 3, .add 7, .remove 3]).mem sl''.mem) ∧
    MarksKept midRemove.mem
      (after ((runOpLog natLt randThree (Budget.uniform 4) midRemove (.remove 3)).map
        Prod.fst)).mem :=
  ⟨⟨by decide, reachable_listAfter 5 _ (by decide), tightBudget_le _ (by decide) (by decide),
      by decide, by decide, by decide, by decide, midRemove_unreachable natLt randThree,
      by decide, by decide, by decide, by decide⟩,
    (C16_marks_never_cleared natLt (fun _ => 1) (listAfter 5 [.add 3, .add 7, .remove 3])
      (.add 5) (Budget.uniform 4)).1 true (listAfter 5 [.add 3, .add 7, .remove 3, .add 5]) _
      (by decide),
    (C16_marks_never_cleared natLt (fun _ => 1) (listAfter 5 [.add 3, .add 7, .remove 3])
      (.add 5) (Budget.uniform 4)).2 (reachable_listAfter 5 _ (by decide))
      (tightBudget_le _ (by decide) (by decide)),
    ((C16_marks_never_cleared natLt randThree midRemove (.remove 3) (Budget.uniform 4)).1 true
      (after ((runOpLog natLt randThree (Budget.uniform 4) midRemove (.remove 3)).map
        Prod.fst))
      [Event.cas Site.unlink 2 2 6 8 6, Event.cas Site.mark 6 1 8 9 8,
        Event.cas Site.mark 6 0 8 9 8] (by decide)).2.2.1⟩

/-- C17 fails for `N = 1`: after `Add(0)` and then `Remove(0)` on a fresh list
of naturals, the level-0 chain from the head still holds the node of 0 (at
address 6), and its slot holds a marked word. -/
theorem C17_counterexample :
    ∃ sl0 bs sl', NewLockFreeSkipList Nat = .ok sl0 ∧
      runOps natLt (fun _ => 1) 4 (manyAdds 0 1 ++ manyRemoves 0 1) sl0 = .ok (bs, sl') ∧
      levelChain sl' 0 3 = some [6] ∧ loadNext sl'.mem 6 0 = .ok 5 ∧ isMarked 5 = true ∧
      markedOnChain sl' 0 3 = [6] :=
  ⟨listAfter 2 [], [true, true], listAfter 4 (manyAdds 0 1 ++ manyRemoves 0 1),
    by decide, by decide, by decide, by decide, by decide, by decide⟩

/-- C17, amended. For every `N ≥ 1` and every random stream, the run
`Add(0), ..., Add(N - 1)` followed by `Remove(0), ..., Remove(N - 1)` on a
fresh list of naturals returns true at every call, and at its end the level-0
chain from the head holds exactly one node, the node `d` of the value `N - 1`
removed last, every slot of which is marked; the chain of every level is a
subsequence of `[d]`, so `d` is the only node with a marked slot on a chain from
the head. -/
theorem C17_churn_leaves_last_node (N : Nat) (hN : 1 ≤ N) (rand : Nat → Nat) (fuel : Nat)
    (hfuel : N + 2 ≤ fuel) :
    ∃ sl0 bs sl' d, NewLockFreeSkipList Nat = .ok sl0 ∧
      runOps natLt rand fuel (manyAdds 0 N ++ manyRemoves 0 N) sl0 = .ok (bs, sl') ∧
      bs = List.replicate N true ++ List.replicate N true ∧
      valOf sl'.mem d = some (N - 1) ∧ hasMarkedSlot sl'.mem d = true ∧
      (∀ L p, loadNext sl'.mem d L = .ok p → isMarked p = true) ∧
      (∀ f, 1 < f → levelChain sl' 0 f = some [d] ∧ markedOnChain sl' 0 f = [d]) ∧
      ∀ L, L < maxLevel → ∃ xs, xs.Sublist [d] ∧
        ∀ f, 1 < f → levelChain sl' L f = some xs ∧ ∀ x, x ∈ markedOnChain sl' L f → x = d := by
  obtain ⟨sl0, hnew, hc0, hlen0⟩ := churn_new
  obtain ⟨sl1, ch1, hrun1, hc1, hlen1⟩ := churn_adds rand N 0 hc0
    (show sl0.mem.length + N ≤ fuel by omega)
  rw [Nat.zero_add] at hc1
  obtain ⟨sl2, ch2, hrun2, hc2, hlen2⟩ := churn_removes rand N 0 hc1 (by omega)
    (show sl1.mem.length ≤ fuel by omega)
  rw [Nat.zero_add] at hc2
  obtain ⟨d, hch, hdv, hdead, hms, hmarks⟩ := churn_final hc2 hN
  have hinv := hc2.1
  refine ⟨sl0, _, sl2, d, hnew, runOps_append natLt rand fuel _ _ hrun1 hrun2, rfl, hdv, hms,
    hmarks, fun f hf => ?_, fun L hL => ⟨ch2 L, ?_, fun f hf => ?_⟩⟩
  · have hlc : levelChain sl2 0 f = some [d] := by
      rw [← hch]
      exact hinv.levelChain_eq maxLevel_pos (by rw [hch]; simpa using hf)
    refine ⟨hlc, ?_⟩
    unfold markedOnChain
    rw [hlc]
    simp [hms]
  · rw [← hch]; exact hinv.sub0 L
  · have hsub : (ch2 L).Sublist [d] := by rw [← hch]; exact hinv.sub0 L
    have hlc : levelChain sl2 L f = some (ch2 L) :=
      hinv.levelChain_eq hL (by
        have := hsub.length_le
        simp at this
        omega)
    refine ⟨hlc, fun x hx => ?_⟩
    unfold markedOnChain at hx
    rw [hlc] at hx
    have hx' : x ∈ ch2 L := (List.mem_filter.1 hx).1
    simpa using hsub.subset hx'

/-- C17, amended, for `N = 3` with every node one slot high. -/
theorem C17_witness :
    1 ≤ 3 ∧ 3 + 2 ≤ 5 ∧
    ∃ sl0 bs sl' d, NewLockFreeSkipList Nat = .ok sl0 ∧
      runOps natLt (fun _ => 1) 5 (manyAdds 0 3 ++ manyRemoves 0 3) sl0 = .ok (bs, sl') ∧
      bs = List.replicate 3 true ++ List.replicate 3 true ∧
      valOf sl'.mem d = some (3 - 1) ∧ hasMarkedSlot sl'.mem d = true ∧
      (∀ L p, loadNext sl'.mem d L = .ok p → isMarked p = true) ∧
      (∀ f, 1 < f → levelChain sl' 0 f = some [d] ∧ markedOnChain sl' 0 f = [d]) ∧
      ∀ L, L < maxLevel → ∃ xs, xs.Sublist [d] ∧
        ∀ f, 1 < f → levelChain sl' L f = some xs ∧ ∀ x, x ∈ markedOnChain sl' L f → x = d :=
  ⟨by decide, by decide, C17_churn_leaves_last_node 3 (by decide) (fun _ => 1) 5 (by decide)⟩

/-- C18. From every state reachable from a fresh list, in every call of `Add`,
`Remove` and `Contains` (under every budget above the tight one, under which
the call returns), whenever `find` executes its unlink CAS
`prev.casNext(level, cur, getUnmarked(next))` the node `cur` is different from
`prev` and is neither the head nor the tail; moreover the slot holds `cur`, so
the CAS swaps, the bottom slot of `prev` is unmarked and that of `cur` is
marked. -/
theorem C18_unlink_cas_nodes_differ {α : Type} (comp : α → α → Bool) (rand : Nat → Nat)
    (sl : LockFreeSkipList α) (hr : Reachable comp rand sl) (op : Op α) (b : Budget)
    (hb : (tightBudget sl).le b) :
    ∃ r sl' es, runOpLog comp rand b sl op = .ok ((r, sl'), es) ∧
      ∀ prev level cur d old, Event.cas Site.unlink prev level cur d old ∈ es →
        cur ≠ prev ∧ cur ≠ sl.head ∧ cur ≠ sl.tail ∧ old = cur ∧
        live sl.mem prev = true ∧ live sl.mem cur = false := by
  obtain ⟨ch, hinv⟩ := reachable_inv hr
  obtain ⟨r, sl', es, hrun, hev, -⟩ := runOpLog_spec comp rand hinv op hb
  refine ⟨r, sl', es, hrun, fun prev level cur d old he => ?_⟩
  rcases hev _ he with ⟨p, L, c, d', heq, -, hpc, hch, hct, -, -, hlp, hlc, -, -⟩ |
    ⟨L, n, heq, -⟩ | ⟨p, L, n, heq, -⟩ | ⟨c, L, w, heq, -⟩
  · cases heq
    exact ⟨fun e => hpc e.symm, hch, hct, rfl, hlp, hlc⟩
  · cases heq
  · cases heq
  · cases heq

/-- C18 on naturals: `Contains(5)` on the list left by `Add(3)`, `Remove(3)`
unlinks the node of 3 (at address 6) from the head (at address 2). -/
theorem C18_witness :
    (Reachable natLt (fun _ => 1) (listAfter 4 [.add 3, .remove 3]) ∧
      (tightBudget (listAfter 4 [.add 3, .remove 3])).le (Budget.uniform 3) ∧
      runOpLog natLt (fun _ => 1) (Budget.uniform 3) (listAfter 4 [.add 3, .remove 3])
          (.contains 5) =
        .ok ((false, listAfter 4 [.add 3, .remove 3, .contains 5]),
          [Event.cas Site.unlink 2 0 6 4 6])) ∧
    ∃ r sl' es, runOpLog natLt (fun _ => 1) (Budget.uniform 3)
        (listAfter 4 [.add 3, .remove 3]) (.contains 5) = .ok ((r, sl'), es) ∧
      ∀ prev level cur d old, Event.cas Site.unlink prev level cur d old ∈ es →
        cur ≠ prev ∧ cur ≠ (listAfter 4 [.add 3, .remove 3]).head ∧
        cur ≠ (listAfter 4 [.add 3, .remove 3]).tail ∧ old = cur ∧
        live (listAfter 4 [.add 3, .remove 3]).mem prev = true ∧
        live (listAfter 4 [.add 3, .remove 3]).mem cur = false :=
  ⟨⟨reachable_listAfter 4 _ (by decide),
      tightBudget_le _ (by decide) (by decide), by decide⟩,
    C18_unlink_cas_nodes_differ natLt (fun _ => 1) _ (reachable_listAfter 4 _ (by decide))
      (.contains 5) (Budget.uniform 3) (tightBudget_le _ (by decide) (by decide))⟩

/-- C19. With the successive values of `rand.Int() & 1` given by an arbitrary
stream, `randomLevel` returns a level between 1 and 20 after at most 19 draws;
when the first 1 bit of the stream is preceded by `k` bits 0 it returns
`min 20 (1 + k)` after `min 19 (k + 1)` draws, and when the first 19 bits are 0
it returns 20 after 19 draws.  From every state reachable from a fresh list,
`Add(v)` returns; when it returns false no node is allocated and no draw is
made, when it returns true exactly one node is allocated, holding `v`, whose
`level` is the value returned by `randomLevel` and whose number of slots is
that level, between 1 and 20. -/
theorem C19_random_level_range {α : Type} (comp : α → α → Bool) (rand : Nat → Nat)
    (draws : Nat) (sl : LockFreeSkipList α) (hr : Reachable comp rand sl) (v : α) (fuel : Nat)
    (hfuel : sl.mem.length ≤ fuel) :
    (1 ≤ (randomLevel rand draws).1 ∧ (randomLevel rand draws).1 ≤ 20 ∧
      draws ≤ (randomLevel rand draws).2 ∧ (randomLevel rand draws).2 ≤ draws + 19) ∧
    (∀ k, (∀ i, i < k → rand (draws + i) &&& 1 = 0) → rand (draws + k) &&& 1 ≠ 0 →
      (randomLevel rand draws).1 = min 20 (1 + k) ∧
      (randomLevel rand draws).2 = draws + min 19 (k + 1)) ∧
    ((∀ i, i < 19 → rand (draws + i) &&& 1 = 0) → randomLevel rand draws = (20, draws + 19)) ∧
    ∃ r sl', Add comp rand fuel sl v = .ok (r, sl') ∧
      (r = false → sl'.mem.length = sl.mem.length ∧ sl'.draws = sl.draws) ∧
      (r = true → ∃ nd, deref sl'.mem (addrOf sl.mem.length) = .ok nd ∧
        sl'.mem.length = sl.mem.length + 1 ∧ nd.value = some v ∧
        nd.level = (randomLevel rand sl.draws).1 ∧ nd.nexts.length = nd.level ∧
        1 ≤ nd.nexts.length ∧ nd.nexts.length ≤ 20 ∧
        sl'.draws = (randomLevel rand sl.draws).2) := by
  have hb := randomLevel_bounds rand draws
  have hd := randomLevelLoop_draws rand (maxLevel - 1) 1 draws
  refine ⟨⟨hb.1, hb.2, hd.1, hd.2⟩, ?_, ?_, ?_⟩
  · intro k hz ho
    have h := randomLevelLoop_first_one rand (maxLevel - 1) 1 draws k hz ho
    unfold randomLevel
    rw [h]
    show 1 + min (20 - 1) k = min 20 (1 + k) ∧
      draws + min (20 - 1) (k + 1) = draws + min 19 (k + 1)
    constructor <;> omega
  · intro hz
    have h := randomLevelLoop_all_zero rand (maxLevel - 1) 1 draws hz
    unfold randomLevel
    rw [h]
    rfl
  · obtain ⟨ch, hinv⟩ := reachable_inv hr
    have hm := hinv.mem_length_ge
    obtain ⟨found, h1, ch1, A, cs, prevs, nexts, es1, -, hdone, -, -, hyes, hno⟩ :=
      addLog_spec comp rand v (b := Budget.uniform fuel) hinv
        (fun L _ => hinv.walk_uniform hfuel L) (show 1 ≤ fuel by omega)
        (show 1 ≤ fuel by omega) (show 1 ≤ fuel by omega)
    have hl1 : h1.length = sl.mem.length := hdone.shape.1
    cases found with
    | true =>
      exact ⟨_, _, Add_of_log (hyes rfl), fun _ => ⟨hl1, rfl⟩, fun h => Bool.noConfusion h⟩
    | false =>
      obtain ⟨hF, ch', hrun, hI, hlen, hch, hshF, -⟩ := hno rfl
      have hbs := randomLevel_bounds rand sl.draws
      have hdn := deref_append h1
        (node.mk (randomLevel rand sl.draws).1 (List.replicate (randomLevel rand sl.draws).1 0)
          (some v)) (addrOf h1.length)
      rw [if_pos rfl] at hdn
      obtain ⟨nd, hnd, hlv, hvl, hnl, -⟩ := hshF.2 _ _ hdn
      refine ⟨_, _, Add_of_log hrun, fun h => Bool.noConfusion h, fun _ => ⟨nd, ?_, ?_, hvl,
        hlv, ?_, ?_, ?_, rfl⟩⟩
      · rw [← hl1]; exact hnd
      · show hF.length = _
        rw [hlen, hl1]
      · rw [hnl, hlv]; simp
      · rw [hnl]; simpa using hbs.1
      · rw [hnl]; simpa [maxLevel] using hbs.2

/-- C19 on naturals, with a stream whose first 1 bit is the third of every
three: `Add(7)` on the list left by `Add(3)` allocates a node of three slots. -/
theorem C19_witness :
    (Reachable natLt randThree (listAfterWith randThree 3 [.add 3]) ∧
      (listAfterWith randThree 3 [.add 3]).mem.length ≤ 3 ∧
      randomLevel randThree 3 = (3, 6) ∧
      (Add natLt randThree 3 (listAfterWith randThree 3 [.add 3]) 7).map Prod.fst =
        .ok true) ∧
    ((1 ≤ (randomLevel randThree 3).1 ∧ (randomLevel randThree 3).1 ≤ 20 ∧
      3 ≤ (randomLevel randThree 3).2 ∧ (randomLevel randThree 3).2 ≤ 3 + 19) ∧
    (∀ k, (∀ i, i < k → randThree (3 + i) &&& 1 = 0) → randThree (3 + k) &&& 1 ≠ 0 →
      (randomLevel randThree 3).1 = min 20 (1 + k) ∧
      (randomLevel randThree 3).2 = 3 + min 19 (k + 1)) ∧
    ((∀ i, i < 19 → randThree (3 + i) &&& 1 = 0) → randomLevel randThree 3 = (20, 3 + 19)) ∧
    ∃ r sl', Add natLt randThree 3 (listAfterWith randThree 3 [.add 3]) 7 = .ok (r, sl') ∧
      (r = false → sl'.mem.length = (listAfterWith randThree 3 [.add 3]).mem.length ∧
        sl'.draws = (listAfterWith randThree 3 [.add 3]).draws) ∧
      (r = true → ∃ nd,
        deref sl'.mem (addrOf (listAfterWith randThree 3 [.add 3]).mem.length) = .ok nd ∧
        sl'.mem.length = (listAfterWith randThree 3 [.add 3]).mem.length + 1 ∧
        nd.value = some 7 ∧
        nd.level = (randomLevel randThree (listAfterWith randThree 3 [.add 3]).draws).1 ∧
        nd.nexts.length = nd.level ∧ 1 ≤ nd.nexts.length ∧ nd.nexts.length ≤ 20 ∧
        sl'.draws = (randomLevel randThree (listAfterWith randThree 3 [.add 3]).draws).2)) :=
  ⟨⟨reachable_listAfterWith randThree 3 _ (by decide), by decide, by decide, by decide⟩,
    C19_random_level_range natLt randThree 3 _
      (reachable_listAfterWith randThree 3 _ (by decide)) 7 3 (by decide)⟩

/-- C20. For every pointer word `p`: `isMarked (getMarked p)` is true,
`isMarked (getUnmarked p)` is false, `getMarked` and `getUnmarked` are
idempotent, `getUnmarked (getMarked p) = getUnmarked p`, and when bit 0 of `p`
is 0 then `getUnmarked (getMarked p) = p`.  Both functions keep every bit above
bit 0 (`p / 2`), `isMarked` is bit 0, and on words of `w` bits (`w = 64` or
`w = 32` for `uintptr`) both stay within `w` bits and `getUnmarked` is the
masking `p & ^uintptr(0x1)` of the source. -/
theorem C20_mark_bit_algebra (p : Nat) :
    isMarked (getMarked p) = true ∧ isMarked (getUnmarked p) = false ∧
    getMarked (getMarked p) = getMarked p ∧ getUnmarked (getUnmarked p) = getUnmarked p ∧
    getUnmarked (getMarked p) = getUnmarked p ∧
    (p % 2 = 0 → getUnmarked (getMarked p) = p) ∧
    getMarked p / 2 = p / 2 ∧ getUnmarked p / 2 = p / 2 ∧
    isMarked p = decide (p % 2 = 1) ∧
    ∀ w, 1 ≤ w → p < 2 ^ w →
      getMarked p < 2 ^ w ∧ getUnmarked p < 2 ^ w ∧ getUnmarked p = p &&& (2 ^ w - 2) := by
  have hu := getUnmarked_eq p
  have hm := getMarked_eq p
  refine ⟨isMarked_getMarked p, isMarked_getUnmarked p, ?_, ?_, ?_, ?_, ?_, ?_,
    isMarked_eq p, ?_⟩
  · rw [getMarked_eq (getMarked p), hm]; omega
  · rw [getUnmarked_eq (getUnmarked p), hu]; omega
  · rw [getUnmarked_eq (getMarked p), hm, hu]; omega
  · intro h0
    rw [getUnmarked_eq (getMarked p), hm]; omega
  · rw [hm]; omega
  · rw [hu]; omega
  · intro w hw hp
    have hpow : 2 ^ w = 2 * 2 ^ (w - 1) := by
      rw [← pow_succ']
      congr 1
      omega
    refine ⟨?_, ?_, ?_⟩
    · rw [hm]; omega
    · rw [hu]; omega
    · rw [and_mask_eq w p hp, hu]

/-- C20 at the aligned word 6 and at the marked word 7 of a 64-bit machine. -/
theorem C20_witness :
    getUnmarked (getMarked 6) = 6 ∧ getUnmarked 7 = 7 &&& (2 ^ 64 - 2) :=
  ⟨(C20_mark_bit_algebra 6).2.2.2.2.2.1 (by decide),
    ((C20_mark_bit_algebra 7).2.2.2.2.2.2.2.2.2 64 (by decide) (by decide)).2.2⟩

end Skiplist
